import Mathlib

/-!
# LitestepTNG theme front end (`src/litestep/themev2`)

A shallow embedding of the theme-definition-language front end: the types of
`ThemeTypes.h`, the lexer of `Lexer.cpp`, the source manager of
`SourceManager.cpp`, the parser of `Parser.cpp` and the method `LoadStructure` of
`ThemeEngineV2.cpp`, followed by theorems about them.

Conventions of the embedding.

* A `std::wstring` is a list of code units (`Nat`); `std::size_t` values are
  `Nat` (offsets and lengths are bounded by the size of a buffer held in memory,
  so no arithmetic in these files can wrap).
* The mutable members of a class become a structure that every method takes and
  returns.
* A `while` loop that consumes input becomes a function by recursion on a fuel
  argument; the caller passes a bound on the number of iterations that is
  computed from the state, and the adequacy of that bound is proved.
* Functions of the C library and of the Windows API (`iswspace`, `wcstod`,
  `GetFullPathNameW`, `fopen`, ...) are not part of the repository; they are
  parameters (`CType`, `Platform`, `World`), with instances for concrete inputs.
* A `double` is a value of the type `Double`: a sign and a rational magnitude, an
  infinity or a NaN; the conversion of a number to a `double` rounds it to the
  nearest value of the binary64 format.
* `Parser::LookAhead` returns a reference into the vector `m_tokens`. In
  `namespace Parser` a reference that a method keeps is the token it referred to
  when it was taken. `namespace RefParser` has the methods again with the
  references themselves: the capacity of the vector, the buffer that a reference
  points into, and a record of every read through a reference that a
  reallocation has invalidated.
-/

namespace themev2

/-! ## Characters and strings -/

/-- A wide string, `std::wstring`, as the list of its code units. -/
abbrev WString := List Nat

/-- The code units of a string literal. -/
def wstr (s : String) : WString := s.toList.map Char.toNat

/-- The values of the type `double`, in the binary64 format of IEEE 754: a finite
value, given by its sign and its magnitude, which is a rational number, an
infinity with its sign, or a NaN. The two zeros differ in the sign. -/
inductive Double where
  | finite (negative : Bool) (magnitude : Rat)
  | infinite (negative : Bool)
  | nan
deriving DecidableEq, Repr

/-- The value `0.0`. -/
def Double.zero : Double := Double.finite false 0

/-- The power `2 ^ exponent` for an exponent of either sign. -/
def pow2 (exponent : Int) : Rat :=
  if 0 ≤ exponent then ((2 ^ exponent.toNat : Nat) : Rat)
  else 1 / ((2 ^ (-exponent).toNat : Nat) : Rat)

/-- The number of binary digits of `n`, which is `0` for `0`; the fuel `n` suffices. -/
def bitLength : Nat → Nat → Nat
  | 0, _ => 0
  | fuel + 1, n => if n = 0 then 0 else bitLength fuel (n / 2) + 1

/-- The exponent of the greatest power of `2` that is at most `value`, for a positive
`value`. -/
def floorLog2 (value : Rat) : Int :=
  let estimate : Int :=
    (bitLength value.num.natAbs value.num.natAbs : Int) - (bitLength value.den value.den : Int)
  if pow2 estimate ≤ value then estimate else estimate - 1

/-- The integer nearest to `value`, the even one of the two when `value` is half way
between two integers, for a `value` that is not negative. -/
def roundHalfEven (value : Rat) : Nat :=
  let whole := value.num.toNat / value.den
  let rest := value.num.toNat % value.den
  if 2 * rest < value.den then whole
  else if value.den < 2 * rest then whole + 1
  else if whole % 2 = 0 then whole
  else whole + 1

/-- The `double` nearest to the number with the sign `negative` and the magnitude
`magnitude`, in the rounding mode to nearest, ties to even, of IEEE 754: the
magnitude is rounded to a multiple of the unit in the last place, which is
`2 ^ (e - 52)` for a magnitude from `2 ^ e` up to `2 ^ (e + 1)` and `2 ^ (-1074)`
for a magnitude below `2 ^ (-1022)`, and the result is an infinity when the
rounded magnitude is `2 ^ 1024`. -/
def Double.round (negative : Bool) (magnitude : Rat) : Double :=
  if magnitude = 0 then Double.finite negative 0
  else
    let exponent := max (floorLog2 magnitude) (-1022)
    let ulp := pow2 (exponent - 52)
    let rounded := (roundHalfEven (magnitude / ulp) : Rat) * ulp
    if pow2 1024 ≤ rounded then Double.infinite negative else Double.finite negative rounded

/-- The functions of the C library used by the front end: the classification
functions of `<cwctype>` and the conversion `wcstod` of `<cwchar>`. The three
facts recorded here hold in every locale. That `L'\0'`
is neither a digit nor a letter is what makes the loops
`while (std::iswdigit(Peek()))` and `while (std::iswalpha(Peek()))` of
`Lexer::LexNumber` stop at the end of the input, where `Peek()` is `0`; that
every letter is alphanumeric is what makes `Lexer::LexIdentifier` consume the
letter it was entered on. -/
structure CType where
  iswspace : Nat → Bool
  iswdigit : Nat → Bool
  iswalpha : Nat → Bool
  iswalnum : Nat → Bool
  towlower : Nat → Nat
  wcstod : WString → Double
  iswdigit_zero : iswdigit 0 = false
  iswalpha_zero : iswalpha 0 = false
  iswalnum_of_iswalpha : ∀ c, iswalpha c = true → iswalnum c = true

/-- The value of a string of decimal digits. -/
def digitsValue (digits : WString) : Nat := digits.foldl (fun a d => 10 * a + (d - 48)) 0

/-- The value of a hexadecimal digit, `none` for another character. -/
def hexDigit (c : Nat) : Option Nat :=
  if 48 ≤ c ∧ c ≤ 57 then some (c - 48)
  else if 97 ≤ c ∧ c ≤ 102 then some (c - 87)
  else if 65 ≤ c ∧ c ≤ 70 then some (c - 55)
  else none

/-- The value of a string of hexadecimal digits. -/
def hexDigitsValue (digits : WString) : Nat :=
  digits.foldl (fun a d => 16 * a + (hexDigit d).getD 0) 0

/-- The exponent part that `wcstod` reads at the head of `text`: the character
`marker` in either case, a sign and decimal digits, of which there is one at
least; `0` when `text` does not begin with an exponent part. -/
def exponentOf (marker : Nat) (text : WString) : Int :=
  let isDigit := fun c => decide (48 ≤ c) && decide (c ≤ 57)
  let signed := text.tail
  let digits :=
    (if signed.head? == some 43 || signed.head? == some 45 then signed.tail else signed).takeWhile
      isDigit
  if (text.head? == some marker || text.head? == some (marker - 32)) && !digits.isEmpty then
    if signed.head? == some 45 then -(digitsValue digits : Int) else (digitsValue digits : Int)
  else 0

/-- A number times `base` to the power `exponent`. -/
def scale (value : Rat) (base : Nat) (exponent : Int) : Rat :=
  if exponent < 0 then value / (base : Rat) ^ exponent.natAbs
  else value * (base : Rat) ^ exponent.natAbs

/-- The number that `wcstod` reads from a text without sign in the hexadecimal
form: `0x` or `0X`, hexadecimal digits with a fraction, of which there is one
digit at least, and a binary exponent `p`; `none` when the text does not begin
with this form. -/
def hexMagnitude (unsigned : WString) : Option Rat :=
  let isHex := fun c => (hexDigit c).isSome
  let whole := (unsigned.drop 2).takeWhile isHex
  let rest := (unsigned.drop 2).dropWhile isHex
  let fraction := if rest.head? == some 46 then rest.tail.takeWhile isHex else []
  let tail := if rest.head? == some 46 then rest.tail.dropWhile isHex else rest
  if unsigned.head? == some 48 && (unsigned.getD 1 0 == 120 || unsigned.getD 1 0 == 88) &&
      !(whole.isEmpty && fraction.isEmpty) then
    some (scale ((hexDigitsValue whole : Rat) + (hexDigitsValue fraction : Rat) / 16 ^ fraction.length)
      2 (exponentOf 112 tail))
  else none

/-- The number that `wcstod` reads from a text without sign in the decimal form:
decimal digits with a fraction, of which there is one digit at least, and a
decimal exponent `e`; `0` when the text does not begin with this form. -/
def decimalMagnitude (unsigned : WString) : Rat :=
  let isDigit := fun c => decide (48 ≤ c) && decide (c ≤ 57)
  let whole := unsigned.takeWhile isDigit
  let rest := unsigned.dropWhile isDigit
  let fraction := if rest.head? == some 46 then rest.tail.takeWhile isDigit else []
  let tail := if rest.head? == some 46 then rest.tail.dropWhile isDigit else rest
  if whole.isEmpty && fraction.isEmpty then 0
  else
    scale ((digitsValue whole : Rat) + (digitsValue fraction : Rat) / 10 ^ fraction.length)
      10 (exponentOf 101 tail)

/-- The sign that `wcstod` reads at the start of a string, after the white space:
whether it is `-`. -/
def wcstodNegative (text : WString) : Bool :=
  (text.dropWhile (fun c => c == 32 || (decide (9 ≤ c) && decide (c ≤ 13)))).head? == some 45

/-- The magnitude, before it is rounded, of the number that `wcstod` of C99 and of the
Universal C Runtime reads at the start of a string: white space, a sign, and a
number in the hexadecimal form or else in the decimal form. The magnitude is `0`
when no number can be read. The forms `INF` and `NAN` are not modelled: they
begin with a letter, and a lexeme of a `Number` token has a digit after its sign
or after its `.`. -/
def wcstodMagnitude (text : WString) : Rat :=
  let signed := text.dropWhile (fun c => c == 32 || (decide (9 ≤ c) && decide (c ≤ 13)))
  let unsigned :=
    if signed.head? == some 43 || signed.head? == some 45 then signed.tail else signed
  (hexMagnitude unsigned).getD (decimalMagnitude unsigned)

/-- The `double` that `wcstod` of C99 and of the Universal C Runtime returns for a
string: the number read, rounded to the nearest `double`, and `HUGE_VAL` with the
sign of the number, an infinity, when the number is too large. -/
def wcstodValue (text : WString) : Double :=
  Double.round (wcstodNegative text) (wcstodMagnitude text)

/-- The "C" locale restricted to ASCII: the instance used for concrete inputs. -/
def CType.ascii : CType where
  iswspace := fun c => c == 32 || (decide (9 ≤ c) && decide (c ≤ 13))
  iswdigit := fun c => decide (48 ≤ c) && decide (c ≤ 57)
  iswalpha := fun c => (decide (65 ≤ c) && decide (c ≤ 90)) || (decide (97 ≤ c) && decide (c ≤ 122))
  iswalnum := fun c => (decide (48 ≤ c) && decide (c ≤ 57)) ||
    (decide (65 ≤ c) && decide (c ≤ 90)) || (decide (97 ≤ c) && decide (c ≤ 122))
  towlower := fun c => if 65 ≤ c ∧ c ≤ 90 then c + 32 else c
  wcstod := wcstodValue
  iswdigit_zero := by decide
  iswalpha_zero := by decide
  iswalnum_of_iswalpha := by
    intro c h
    simp only [Bool.or_eq_true] at h ⊢
    exact Or.elim h (fun h => Or.inl (Or.inr h)) Or.inr

/-! ## `ThemeTypes.h` -/

structure SourceLocation where
  file : WString
  line : Nat
  column : Nat
deriving DecidableEq, Repr

/-- The default constructor `SourceLocation()`. -/
def SourceLocation.default : SourceLocation := ⟨[], 0, 0⟩

inductive DiagnosticSeverity where
  | Info
  | Warning
  | Error
deriving DecidableEq, Repr

structure Diagnostic where
  severity : DiagnosticSeverity
  message : WString
  location : SourceLocation
deriving DecidableEq, Repr

inductive TokenType where
  | EndOfFile | Identifier | Number | String
  | LBrace | RBrace | LBracket | RBracket | LParen | RParen
  | Comma | Colon | Equals | Dot | Hash | At
  | Plus | Minus | Star | Slash | Percent | Pipe | Exclamation | Caret
  | Ampersand | Question | Less | Greater | Unknown
deriving DecidableEq, Repr

structure Token where
  type : TokenType
  lexeme : WString
  location : SourceLocation
  startOffset : Nat
  length : Nat
deriving DecidableEq, Repr

structure SourceDocumentSegment where
  filePath : WString
  startOffset : Nat
  lineStart : Nat
deriving DecidableEq, Repr

/-- Ghost data, absent from the C++ structure: where a character of the flattened
buffer came from, as the file that was being scanned and the index in that
file's decoded text. -/
structure Origin where
  file : WString
  index : Nat
deriving DecidableEq, Repr

/-- The structure `SourceDocument`. The field `origins` is ghost state that the
C++ code does not have: it runs parallel to `content` and records, for every
character appended to `content`, the `Origin` it was taken from. No function of
the embedding reads it. -/
structure SourceDocument where
  primaryFile : WString
  content : WString
  segments : List SourceDocumentSegment
  origins : List Origin
deriving DecidableEq, Repr

/-- A default-constructed `SourceDocument`. -/
def SourceDocument.empty : SourceDocument := ⟨[], [], [], []⟩

/-! ## `Lexer.cpp` -/

/-- The members of `class Lexer`. -/
structure Lexer where
  m_document : SourceDocument
  m_offset : Nat
  m_length : Nat
deriving DecidableEq, Repr

namespace Lexer

/-- The constructor `Lexer::Lexer(const SourceDocument&)`. -/
def new (document : SourceDocument) : Lexer :=
  ⟨document, 0, document.content.length⟩

def IsAtEnd (lx : Lexer) : Bool := decide (lx.m_offset ≥ lx.m_length)

def Peek (lx : Lexer) : Nat :=
  if lx.IsAtEnd then 0 else lx.m_document.content.getD lx.m_offset 0

def PeekAhead (lx : Lexer) (distance : Nat) : Nat :=
  let index := lx.m_offset + distance
  if index ≥ lx.m_length then 0 else lx.m_document.content.getD index 0

def PeekNext (lx : Lexer) : Nat := lx.PeekAhead 1

/-- The method `Lexer::Advance`: the character consumed and the lexer after it. -/
def Advance (lx : Lexer) : Nat × Lexer :=
  if lx.IsAtEnd then (0, lx)
  else (lx.m_document.content.getD lx.m_offset 0, { lx with m_offset := lx.m_offset + 1 })

def CurrentOffset (lx : Lexer) : Nat := lx.m_offset

/-- The number of characters between the cursor and the end of the input. -/
def remaining (lx : Lexer) : Nat := lx.m_length - lx.m_offset

/-- The segment search of `BuildLocation`: starting from `segment`, walk the
candidates, keep the last one whose `startOffset` is at most `startOffset` and
stop at the first one beyond it. -/
def pickSegment (startOffset : Nat) :
    SourceDocumentSegment → List SourceDocumentSegment → SourceDocumentSegment
  | segment, [] => segment
  | segment, candidate :: rest =>
    if candidate.startOffset ≤ startOffset then pickSegment startOffset candidate rest
    else segment

/-- The counting loop of `BuildLocation`, `for (index = segmentStart; index < limit; ++index)`,
with `count = limit - index` iterations left: the pair `(line, lastLineStart)`. -/
def countLines (content : WString) : Nat → Nat → Nat → Nat → Nat × Nat
  | 0, _, line, lastLineStart => (line, lastLineStart)
  | count + 1, index, line, lastLineStart =>
    if content.getD index 0 = 10 then countLines content count (index + 1) (line + 1) (index + 1)
    else countLines content count (index + 1) line lastLineStart

def BuildLocation (lx : Lexer) (startOffset : Nat) : SourceLocation :=
  match lx.m_document.segments with
  | [] => ⟨lx.m_document.primaryFile, 0, 0⟩
  | front :: _ =>
    let segment := pickSegment startOffset front lx.m_document.segments
    let segmentStart := segment.startOffset
    let length := lx.m_document.content.length
    let limit := if startOffset < length then startOffset else length
    let r := countLines lx.m_document.content (limit - segmentStart) segmentStart
      segment.lineStart segmentStart
    let line := r.1
    let lastLineStart := r.2
    let column := if startOffset ≥ lastLineStart then startOffset - lastLineStart + 1 else 1
    let filePath := if segment.filePath.isEmpty then lx.m_document.primaryFile else segment.filePath
    ⟨filePath, line, column⟩

def MakeToken (lx : Lexer) (type : TokenType) (startOffset length : Nat) (lexeme : WString) :
    Token :=
  { type := type, lexeme := lexeme, startOffset := startOffset, length := length,
    location := lx.BuildLocation startOffset }

/-- The call `content.substr(start, length)`. -/
def substr (content : WString) (start length : Nat) : WString :=
  (content.drop start).take length

def LexPunctuation (lx : Lexer) (type : TokenType) (startOffset length : Nat) : Token :=
  let lexeme :=
    if startOffset + length ≤ lx.m_document.content.length then
      substr lx.m_document.content startOffset length
    else []
  lx.MakeToken type startOffset length lexeme

/-- The loop `while (!IsAtEnd() && p(Peek())) Advance();`. -/
def advanceWhile (p : Nat → Bool) : Nat → Lexer → Lexer
  | 0, lx => lx
  | fuel + 1, lx =>
    if !lx.IsAtEnd && p lx.Peek then advanceWhile p fuel lx.Advance.2 else lx

/-- The loop `while (p(Peek())) Advance();` of `LexNumber`, which has no end-of-input
test of its own: at the end `Peek()` is `0`. -/
def advanceWhilePeek (p : Nat → Bool) : Nat → Lexer → Lexer
  | 0, lx => lx
  | fuel + 1, lx =>
    if p lx.Peek then advanceWhilePeek p fuel lx.Advance.2 else lx

/-- The body of a block comment after its opening `/*`: the loop
`while (!IsAtEnd()) { if (Peek() == '*' && PeekNext() == '/') {...; break;} Advance(); }`. -/
def skipBlockComment : Nat → Lexer → Lexer
  | 0, lx => lx
  | fuel + 1, lx =>
    if lx.IsAtEnd then lx
    else if lx.Peek = 42 && lx.PeekNext = 47 then lx.Advance.2.Advance.2
    else skipBlockComment fuel lx.Advance.2

/-- The outer loop of `SkipWhitespaceAndComments`, `while (!IsAtEnd() && advanced)`. -/
def skipLoop (ct : CType) : Nat → Lexer → Bool → Lexer
  | 0, lx, _ => lx
  | fuel + 1, lx, advanced =>
    if !lx.IsAtEnd && advanced then
      let lx1 := advanceWhile ct.iswspace lx.remaining lx
      let advanced1 := decide (lx1.m_offset ≠ lx.m_offset)
      if lx1.IsAtEnd then lx1
      else if lx1.Peek = 47 && lx1.PeekNext = 47 then
        let lx2 := lx1.Advance.2.Advance.2
        let lx3 := advanceWhile (fun c => c != 10) lx2.remaining lx2
        skipLoop ct fuel lx3 true
      else if lx1.Peek = 47 && lx1.PeekNext = 42 then
        let lx2 := lx1.Advance.2.Advance.2
        let lx3 := skipBlockComment lx2.remaining lx2
        skipLoop ct fuel lx3 true
      else skipLoop ct fuel lx1 advanced1
    else lx

def SkipWhitespaceAndComments (ct : CType) (lx : Lexer) : Lexer :=
  skipLoop ct (lx.remaining + 2) lx true

/-- The `switch (escaped)` of `LexString`. -/
def unescape (escaped : Nat) : Nat :=
  if escaped = 34 then 34
  else if escaped = 92 then 92
  else if escaped = 110 then 10
  else if escaped = 114 then 13
  else if escaped = 116 then 9
  else escaped

/-- The loop `while (!IsAtEnd())` of `LexString`, carrying the decoded `value`. -/
def stringLoop : Nat → Lexer → WString → Lexer × WString
  | 0, lx, value => (lx, value)
  | fuel + 1, lx, value =>
    if lx.IsAtEnd then (lx, value)
    else
      let ch := lx.Advance.1
      let lx1 := lx.Advance.2
      if ch = 34 then (lx1, value)
      else if ch = 92 && !lx1.IsAtEnd then
        stringLoop fuel lx1.Advance.2 (value ++ [unescape lx1.Advance.1])
      else stringLoop fuel lx1 (value ++ [ch])

def LexString (lx : Lexer) : Token × Lexer :=
  let start := lx.m_offset
  let lx1 := lx.Advance.2
  let r := stringLoop lx1.remaining lx1 []
  let length := r.1.m_offset - start
  (r.1.MakeToken TokenType.String start length r.2, r.1)

def LexNumber (ct : CType) (lx : Lexer) : Token × Lexer :=
  let start := lx.m_offset
  let lx1 := if lx.Peek = 43 ∨ lx.Peek = 45 then lx.Advance.2 else lx
  let lx2 := advanceWhilePeek ct.iswdigit lx1.remaining lx1
  let digitsBeforeDecimal := decide (lx2.m_offset ≠ lx1.m_offset)
  let lx3 :=
    if lx2.Peek = 46 && ct.iswdigit lx2.PeekNext then lx2.Advance.2 else lx2
  let lx4 :=
    if lx2.Peek = 46 && ct.iswdigit lx2.PeekNext then
      advanceWhilePeek ct.iswdigit lx3.remaining lx3
    else lx2
  let digitsAfterDecimal := decide (lx4.m_offset ≠ lx3.m_offset)
  if !digitsBeforeDecimal && !digitsAfterDecimal then
    let lx5 := ({ lx4 with m_offset := start } : Lexer).Advance.2
    (lx5.LexPunctuation TokenType.Unknown start 1, lx5)
  else
    let lx5 := if lx4.Peek = 37 then lx4.Advance.2 else lx4
    let lx6 := advanceWhilePeek ct.iswalpha lx5.remaining lx5
    let length := lx6.m_offset - start
    (lx6.MakeToken TokenType.Number start length (substr lx6.m_document.content start length), lx6)

/-- The loop of `LexIdentifier`. -/
def LexIdentifier (ct : CType) (lx : Lexer) : Token × Lexer :=
  let start := lx.m_offset
  let lx1 := advanceWhile (fun ch => ct.iswalnum ch || ch == 95 || ch == 45 || ch == 58)
    lx.remaining lx
  let length := lx1.m_offset - start
  (lx1.MakeToken TokenType.Identifier start length (substr lx1.m_document.content start length),
    lx1)

/-- The `switch (current)` at the end of `NextToken`. -/
def punctuationType (current : Nat) : TokenType :=
  if current = 123 then TokenType.LBrace
  else if current = 125 then TokenType.RBrace
  else if current = 91 then TokenType.LBracket
  else if current = 93 then TokenType.RBracket
  else if current = 40 then TokenType.LParen
  else if current = 41 then TokenType.RParen
  else if current = 44 then TokenType.Comma
  else if current = 58 then TokenType.Colon
  else if current = 61 then TokenType.Equals
  else if current = 46 then TokenType.Dot
  else if current = 35 then TokenType.Hash
  else if current = 64 then TokenType.At
  else if current = 43 then TokenType.Plus
  else if current = 45 then TokenType.Minus
  else if current = 42 then TokenType.Star
  else if current = 47 then TokenType.Slash
  else if current = 37 then TokenType.Percent
  else if current = 124 then TokenType.Pipe
  else if current = 33 then TokenType.Exclamation
  else if current = 94 then TokenType.Caret
  else if current = 38 then TokenType.Ampersand
  else if current = 63 then TokenType.Question
  else if current = 60 then TokenType.Less
  else if current = 62 then TokenType.Greater
  else TokenType.Unknown

/-- The lambda `isDigit` of `NextToken`. -/
def isDigit (ct : CType) (ch : Nat) : Bool := ch != 0 && ct.iswdigit ch

/-- The test that sets `numberStart` in `NextToken`. -/
def numberStart (ct : CType) (lx : Lexer) : Bool :=
  let current := lx.Peek
  if isDigit ct current || (current == 46 && isDigit ct (lx.PeekAhead 1)) then true
  else if current == 43 || current == 45 then
    let next := lx.PeekAhead 1
    isDigit ct next || (next == 46 && isDigit ct (lx.PeekAhead 2))
  else false

/-- The method `Lexer::NextToken`: the token returned and the lexer after the call. -/
def NextToken (ct : CType) (lx : Lexer) : Token × Lexer :=
  let lx0 := SkipWhitespaceAndComments ct lx
  if lx0.IsAtEnd then (lx0.MakeToken TokenType.EndOfFile lx0.m_offset 0 [], lx0)
  else
    let current := lx0.Peek
    if current = 34 then LexString lx0
    else if numberStart ct lx0 then LexNumber ct lx0
    else if ct.iswalpha current || current == 95 then LexIdentifier ct lx0
    else
      let start := lx0.m_offset
      let lx1 := lx0.Advance.2
      (lx1.LexPunctuation (punctuationType current) start 1, lx1)

/-- The lexer after `n` calls of `NextToken`. -/
def afterCalls (ct : CType) : Nat → Lexer → Lexer
  | 0, lx => lx
  | n + 1, lx => afterCalls ct n (NextToken ct lx).2

/-- The token returned by call number `n` (counted from `0`) of `NextToken`. -/
def nthToken (ct : CType) (n : Nat) (lx : Lexer) : Token :=
  (NextToken ct (afterCalls ct n lx)).1

/-- Used in statements: the state `lx'` is a later state of `lx`, with the same
document, the same length, a cursor that is not before the one of `lx` and that
is within the input when the one of `lx` is. -/
def Reach (lx lx' : Lexer) : Prop :=
  lx'.m_document = lx.m_document ∧ lx'.m_length = lx.m_length ∧
    lx.m_offset ≤ lx'.m_offset ∧ (lx.m_offset ≤ lx.m_length → lx'.m_offset ≤ lx.m_length)

end Lexer

/-! ## `SourceManager.cpp` -/

/-- The functions of the Windows API that the source manager calls. They are not
part of the repository.

* `PathAppendW dir more`: the buffer after `StringCchCopyW(buffer, MAX_PATH, dir)`
  followed by `PathAppendW(buffer, more)`.
* `StringCchCopyW path`: the buffer after `StringCchCopyW(buffer, MAX_PATH, path)`.
* `PathRemoveFileSpecW path`: the buffer after `PathRemoveFileSpecW(buffer)`.
* `GetFullPathNameW path`: the full path, or `none` when the call returns `0`.
* `ExpandEnvironmentStringsW value`: the expanded text, or `none` when the call
  returns `0`.
* `MultiByteToWideChar bytes`: the UTF-8 decoding of `bytes`; the call reports
  the length of this text as `required`. -/
structure Platform where
  PathIsRelativeW : WString → Bool
  PathAppendW : WString → WString → WString
  StringCchCopyW : WString → WString
  PathRemoveFileSpecW : WString → WString
  GetFullPathNameW : WString → Option WString
  ExpandEnvironmentStringsW : WString → Option WString
  MultiByteToWideChar : List Nat → WString

/-- What `_wfopen_s`, `fseek`, `ftell` and `fread` report for a file that can be
opened: whether `fseek(file, 0, SEEK_END)` succeeds, the value of `ftell`, and the
bytes that `fread` can deliver from the start of the file. -/
structure FileHandle where
  fseekOk : Bool
  ftell : Int
  bytes : List Nat
deriving DecidableEq, Repr

/-- The disk: for every path, `none` when `_wfopen_s` fails, the file otherwise. -/
abbrev World := WString → Option FileHandle

/-- A file with the given bytes on which every call succeeds. -/
def FileHandle.ofBytes (bytes : List Nat) : FileHandle := ⟨true, bytes.length, bytes⟩

/-- The members of `class SourceManager`. The field `opened` is ghost state that the
C++ class does not have: the paths passed to `_wfopen_s`, in order. -/
structure SourceManager where
  m_baseDirectory : WString
  m_cache : List (WString × SourceDocument)
  opened : List WString
deriving DecidableEq, Repr

/-- The constructor `SourceManager::SourceManager(std::wstring)`. -/
def SourceManager.new (baseDirectory : WString) : SourceManager := ⟨baseDirectory, [], []⟩

/-- The structure `SourceManager::LoadContext`. -/
structure LoadContext where
  activeStack : List WString
deriving DecidableEq, Repr

/-- Everything a load reads and writes: the source manager, the `LoadContext` of the
load and the caller's list of diagnostics. -/
structure LoadState where
  sm : SourceManager
  context : LoadContext
  diagnostics : List Diagnostic
deriving DecidableEq, Repr

def ToLookupKey (ct : CType) (path : WString) : WString := path.map ct.towlower

/-- The helper `AppendDiagnostic` of `SourceManager.cpp`. -/
def AppendDiagnostic (diagnostics : List Diagnostic) (severity : DiagnosticSeverity)
    (message file : WString) : List Diagnostic :=
  diagnostics ++ [{ severity := severity, message := message, location := ⟨file, 0, 0⟩ }]

/-- The state after `AppendDiagnostic(diagnostics, DiagnosticSeverity::Error, message, file)`. -/
def LoadState.error (st : LoadState) (message file : WString) : LoadState :=
  { st with diagnostics := AppendDiagnostic st.diagnostics DiagnosticSeverity.Error message file }

/-- The call `m_cache.find(lookupKey)`. -/
def cacheFind (cache : List (WString × SourceDocument)) (lookupKey : WString) :
    Option SourceDocument :=
  match cache with
  | [] => none
  | (key, document) :: rest => if key = lookupKey then some document else cacheFind rest lookupKey

/-- The call `m_cache.insert(std::make_pair(lookupKey, document))`, which leaves a map
that already has the key as it is. -/
def cacheInsert (cache : List (WString × SourceDocument)) (lookupKey : WString)
    (document : SourceDocument) : List (WString × SourceDocument) :=
  match cacheFind cache lookupKey with
  | some _ => cache
  | none => (lookupKey, document) :: cache

/-- The call `activeStack.insert(lookupKey)`. -/
def stackInsert (activeStack : List WString) (lookupKey : WString) : List WString :=
  if lookupKey ∈ activeStack then activeStack else lookupKey :: activeStack

/-- The call `activeStack.erase(lookupKey)`. -/
def stackErase (activeStack : List WString) (lookupKey : WString) : List WString :=
  activeStack.filter (fun key => key ≠ lookupKey)

def TrimLeft (ct : CType) (value : WString) : WString := value.dropWhile ct.iswspace

def TrimRight (ct : CType) (value : WString) : WString := value.rdropWhile ct.iswspace

def Trim (ct : CType) (value : WString) : WString := TrimRight ct (TrimLeft ct value)

def NormalizePath (P : Platform) (path : WString) : WString :=
  if path.isEmpty then []
  else
    match P.GetFullPathNameW path with
    | none => []
    | some buffer => buffer

def DirectoryOf (P : Platform) (path : WString) : WString :=
  P.PathRemoveFileSpecW (P.StringCchCopyW path)

def ExpandEnvironment (P : Platform) (value : WString) : WString :=
  if value.isEmpty then value
  else
    match P.ExpandEnvironmentStringsW value with
    | none => value
    | some buffer => buffer

/-- The step `if (!outContents.empty() && outContents.back() == L'\0') outContents.pop_back();`. -/
def popTrailingNul (contents : WString) : WString :=
  if contents.getLast? = some 0 then contents.dropLast else contents

/-- The `memcpy` of `LoadDocumentFromDisk`: `charCount` little-endian 16-bit code units. -/
def utf16le : Nat → List Nat → WString
  | 0, _ => []
  | charCount + 1, bytes => (bytes.getD 0 0 + 256 * bytes.getD 1 0) :: utf16le charCount (bytes.drop 2)

/-- The method `LoadDocumentFromDisk`: the value returned, `outContents` and the
diagnostics after the call. -/
def LoadDocumentFromDisk (P : Platform) (w : World) (absolutePath : WString)
    (diagnostics : List Diagnostic) : Bool × WString × List Diagnostic :=
  match w absolutePath with
  | none =>
    (false, [], AppendDiagnostic diagnostics DiagnosticSeverity.Error
      (wstr "Failed to open file.") absolutePath)
  | some file =>
    if file.fseekOk && decide (file.ftell < 0) then
      (false, [], AppendDiagnostic diagnostics DiagnosticSeverity.Error
        (wstr "Failed to read file length.") absolutePath)
    else
      let size := if file.fseekOk then file.ftell.toNat else 0
      if decide (file.bytes.length < size) then
        (false, [], AppendDiagnostic diagnostics DiagnosticSeverity.Error
          (wstr "Failed to read file contents.") absolutePath)
      else
        let buffer := file.bytes.take size
        if buffer.isEmpty then (true, [], diagnostics)
        else if decide (buffer.length ≥ 2) && buffer.getD 0 0 == 255 && buffer.getD 1 0 == 254 then
          let charCount := (buffer.length - 2) / 2
          (true, popTrailingNul (utf16le charCount (buffer.drop 2)), diagnostics)
        else
          let offset :=
            if decide (buffer.length ≥ 3) && buffer.getD 0 0 == 239 && buffer.getD 1 0 == 187 &&
                buffer.getD 2 0 == 191 then 3
            else 0
          let decoded := P.MultiByteToWideChar (buffer.drop offset)
          if decoded.isEmpty then
            (false, [], AppendDiagnostic diagnostics DiagnosticSeverity.Error
              (wstr "Failed to convert file contents to Unicode.") absolutePath)
          else (true, popTrailingNul decoded, diagnostics)

/-- The text of a file as `LoadDocumentFromDisk` decodes it, when it succeeds. -/
def readText (P : Platform) (w : World) (path : WString) : Option WString :=
  if (LoadDocumentFromDisk P w path []).1 then some (LoadDocumentFromDisk P w path []).2.1
  else none

/-- One line found by the scan of `ProcessFileContent`: the index `lineStart` of its
first character, its text `line` without the terminator, and the length
`newlineLength` of its terminator (`0` at the end of the file, `2` for `\r\n`,
`1` otherwise). -/
structure ScannedLine where
  lineStart : Nat
  line : WString
  newlineLength : Nat
deriving DecidableEq, Repr

/-- The inner loop of `ProcessFileContent`,
`while (index < length && fileContents[index] != L'\r' && fileContents[index] != L'\n') ++index;`. -/
def lineEnd (fileContents : WString) : Nat → Nat → Nat
  | 0, index => index
  | fuel + 1, index =>
    if decide (index < fileContents.length) && fileContents.getD index 0 != 13 &&
        fileContents.getD index 0 != 10 then
      lineEnd fileContents fuel (index + 1)
    else index

/-- The scan of `ProcessFileContent`: the lines that the loop `while (index < length)`
finds from `index` on. What the body of the loop does with a line has no
influence on `index`, so the loop is the iteration of its body over these lines. -/
def scanLines (fileContents : WString) : Nat → Nat → List ScannedLine
  | 0, _ => []
  | fuel + 1, index =>
    if index < fileContents.length then
      let stop := lineEnd fileContents (fileContents.length - index) index
      let newlineLength :=
        if stop < fileContents.length then
          if fileContents.getD stop 0 = 13 ∧ stop + 1 < fileContents.length ∧
              fileContents.getD (stop + 1) 0 = 10 then 2
          else 1
        else 0
      ⟨index, Lexer.substr fileContents index (stop - index), newlineLength⟩ ::
        scanLines fileContents fuel (stop + newlineLength)
    else []

/-- The locals `chunk` and `chunkLineStart` of `ProcessFileContent`, with the ghost
origins of the characters of `chunk`. -/
structure Pending where
  chunk : WString
  chunkLineStart : Nat
  chunkOrigins : List Origin
deriving DecidableEq, Repr

/-- The lambda `flushChunk` of `ProcessFileContent`. -/
def flushChunk (absolutePath : WString) (pending : Pending) (outDocument : SourceDocument) :
    Pending × SourceDocument :=
  if !pending.chunk.isEmpty then
    (⟨[], 0, []⟩,
      { outDocument with
        segments := outDocument.segments ++
          [⟨absolutePath, outDocument.content.length, pending.chunkLineStart⟩]
        content := outDocument.content ++ pending.chunk
        origins := outDocument.origins ++ pending.chunkOrigins })
  else (pending, outDocument)

/-- The test of `ProcessFileContent` for an include line, on the left-trimmed line. -/
def isIncludeLine (trimmed : WString) : Bool :=
  (!trimmed.isEmpty && trimmed.head? == some 35) && trimmed.take 8 == wstr "#include"

/-- The origins of the characters of a line that starts at index `lineStart` of the
file `absolutePath`. -/
def lineOrigins (absolutePath : WString) (lineStart count : Nat) : List Origin :=
  (List.range count).map (fun k => ⟨absolutePath, lineStart + k⟩)

/-- The first part of `AppendInclude`: from the text after `#include` to the path
handed to `NormalizePath`, or `none` for an empty include path. The call
`includePath.substr(1, includePath.length() - 2)` on a path of length `1` has a
count that wraps around; it returns the empty text, as the truncated subtraction
does here. -/
def includePathOf (ct : CType) (P : Platform) (includeToken : WString) : WString :=
  let includePath0 := Trim ct includeToken
  let includePath1 :=
    if !includePath0.isEmpty && includePath0.head? == some 61 then Trim ct (includePath0.drop 1)
    else includePath0
  let includePath2 :=
    if !includePath1.isEmpty &&
        ((includePath1.head? == some 34 && includePath1.getLast? == some 34) ||
          (includePath1.head? == some 39 && includePath1.getLast? == some 39)) then
      Lexer.substr includePath1 1 (includePath1.length - 2)
    else includePath1
  ExpandEnvironment P includePath2

/-- The middle part of `AppendInclude`: the buffer `resolved`. -/
def resolveInclude (P : Platform) (requestingPath includePath : WString) : WString :=
  if P.PathIsRelativeW includePath then P.PathAppendW (DirectoryOf P requestingPath) includePath
  else P.StringCchCopyW includePath

/-- The type of `LoadDocumentRecursive` once its fuel is fixed: from `absolutePath`,
`outDocument` and the state to the value returned, `outDocument` and the state
after the call; `none` when the fuel does not suffice. -/
abbrev Loader := WString → SourceDocument → LoadState → Option (Bool × SourceDocument × LoadState)

/-- The method `AppendInclude`, with `load` for `LoadDocumentRecursive`. -/
def AppendInclude (load : Loader) (ct : CType) (P : Platform) (requestingPath : WString)
    (includeToken : WString) (outDocument : SourceDocument) (st : LoadState) :
    Option (Bool × SourceDocument × LoadState) :=
  let includePath := includePathOf ct P includeToken
  if includePath.isEmpty then
    some (false, outDocument, st.error (wstr "Invalid #include directive.") requestingPath)
  else
    let normalized := NormalizePath P (resolveInclude P requestingPath includePath)
    if normalized.isEmpty then
      some (false, outDocument, st.error (wstr "Failed to resolve include path.") includePath)
    else
      match load normalized SourceDocument.empty st with
      | none => none
      | some loaded =>
        if !loaded.1 then some (false, outDocument, loaded.2.2)
        else
          let includedDocument := loaded.2.1
          let insertionOffset := outDocument.content.length
          some (true,
            { outDocument with
              content := outDocument.content ++ includedDocument.content
              segments := outDocument.segments ++ includedDocument.segments.map
                (fun segment => { segment with startOffset := segment.startOffset + insertionOffset })
              origins := outDocument.origins ++ includedDocument.origins },
            loaded.2.2)

/-- The body of the loop of `ProcessFileContent`, iterated over the scanned lines,
followed by the code after the loop. -/
def processLines (load : Loader) (ct : CType) (P : Platform) (absolutePath : WString) :
    List ScannedLine → Nat → Pending → SourceDocument → LoadState →
    Option (Bool × SourceDocument × LoadState)
  | [], _, pending, outDocument, st =>
    let flushed := (flushChunk absolutePath pending outDocument).2
    if flushed.segments.isEmpty then
      some (true, { flushed with segments := flushed.segments ++ [⟨absolutePath, 0, 1⟩] }, st)
    else some (true, flushed, st)
  | ln :: rest, currentLine, pending, outDocument, st =>
    let hadNewline := decide (ln.newlineLength > 0)
    let trimmed := TrimLeft ct ln.line
    if isIncludeLine trimmed then
      let pending1 := (flushChunk absolutePath pending outDocument).1
      let document1 := (flushChunk absolutePath pending outDocument).2
      let beforeAppend := document1.content.length
      match AppendInclude load ct P absolutePath (trimmed.drop 8) document1 st with
      | none => none
      | some appended =>
        if !appended.1 then some (false, appended.2.1, appended.2.2)
        else
          let document2 := appended.2.1
          let includeEndsWithNewline :=
            decide (beforeAppend ≠ document2.content.length) &&
              document2.content.getLast? == some 10
          let document3 :=
            if hadNewline && !includeEndsWithNewline then
              { document2 with
                segments := document2.segments ++
                  [⟨absolutePath, document2.content.length, currentLine⟩]
                content := document2.content ++ [10]
                origins := document2.origins ++ [⟨absolutePath, ln.lineStart + ln.line.length⟩] }
            else document2
          processLines load ct P absolutePath rest (currentLine + 1) pending1 document3
            appended.2.2
    else
      let chunkLineStart := if pending.chunk.isEmpty then currentLine else pending.chunkLineStart
      let chunk := pending.chunk ++ ln.line ++ (if hadNewline then [10] else [])
      let chunkOrigins := pending.chunkOrigins ++
        lineOrigins absolutePath ln.lineStart ln.line.length ++
        (if hadNewline then [⟨absolutePath, ln.lineStart + ln.line.length⟩] else [])
      processLines load ct P absolutePath rest (currentLine + 1)
        ⟨chunk, chunkLineStart, chunkOrigins⟩ outDocument st

/-- The method `ProcessFileContent`, with `load` for `LoadDocumentRecursive`. -/
def ProcessFileContent (load : Loader) (ct : CType) (P : Platform) (absolutePath : WString)
    (fileContents : WString) (outDocument : SourceDocument) (st : LoadState) :
    Option (Bool × SourceDocument × LoadState) :=
  processLines load ct P absolutePath (scanLines fileContents fileContents.length 0) 1
    ⟨[], 0, []⟩ outDocument st

/-- The method `LoadDocumentRecursive`. The first argument bounds the depth of the
recursion through `ProcessFileContent` and `AppendInclude`: the result is `none`
when an include is met with no fuel left. -/
def LoadDocumentRecursive (ct : CType) (P : Platform) (w : World) : Nat → Loader
  | 0, _, _, _ => none
  | fuel + 1, absolutePath, outDocument, st =>
    let canonicalPath := NormalizePath P absolutePath
    if canonicalPath.isEmpty then
      some (false, outDocument, st.error (wstr "Unable to normalize file path.") absolutePath)
    else
      let lookupKey := ToLookupKey ct canonicalPath
      match cacheFind st.sm.m_cache lookupKey with
      | some cached => some (true, cached, st)
      | none =>
        if lookupKey ∈ st.context.activeStack then
          some (false, outDocument,
            st.error (wstr "Detected recursive #include directive.") canonicalPath)
        else
          let st1 : LoadState :=
            { st with
              context := ⟨stackInsert st.context.activeStack lookupKey⟩
              sm := { st.sm with opened := st.sm.opened ++ [canonicalPath] } }
          let disk := LoadDocumentFromDisk P w canonicalPath st1.diagnostics
          if !disk.1 then
            some (false, outDocument,
              { st1 with
                diagnostics := disk.2.2
                context := ⟨stackErase st1.context.activeStack lookupKey⟩ })
          else
            let localDocument : SourceDocument := { SourceDocument.empty with primaryFile := canonicalPath }
            match ProcessFileContent (LoadDocumentRecursive ct P w fuel) ct P canonicalPath disk.2.1
                localDocument { st1 with diagnostics := disk.2.2 } with
            | none => none
            | some processed =>
              let st3 : LoadState :=
                { processed.2.2 with
                  context := ⟨stackErase processed.2.2.context.activeStack lookupKey⟩ }
              if !processed.1 then some (false, outDocument, st3)
              else
                some (true, processed.2.1,
                  { st3 with
                    sm := { st3.sm with
                      m_cache := cacheInsert st3.sm.m_cache lookupKey processed.2.1 } })

/-- The last lines of `LoadStructuredDocument` and of `LoadStyleDocument`, which are the
same: the call of `LoadDocumentRecursive` with a new `LoadContext`, and the
assignment of `primaryFile` on success. -/
def loadNormalized (ct : CType) (P : Platform) (w : World) (fuel : Nat) (sm : SourceManager)
    (normalized : WString) (outDocument : SourceDocument) (diagnostics : List Diagnostic) :
    Option (Bool × SourceDocument × List Diagnostic × SourceManager) :=
  match LoadDocumentRecursive ct P w fuel normalized outDocument ⟨sm, ⟨[]⟩, diagnostics⟩ with
  | none => none
  | some loaded =>
    some (loaded.1,
      if loaded.1 then { loaded.2.1 with primaryFile := normalized } else loaded.2.1,
      loaded.2.2.diagnostics, loaded.2.2.sm)

/-- The local `entryPath` of `LoadStructuredDocument` before it is normalized. -/
def structuredEntryPath (P : Platform) (sm : SourceManager) (entryFile : WString) : WString :=
  let entryPath := if entryFile.isEmpty then wstr "theme.lsx" else entryFile
  if P.PathIsRelativeW entryPath then P.PathAppendW sm.m_baseDirectory entryPath else entryPath

/-- The local `entryPath` of `LoadStyleDocument` before it is normalized. -/
def styleEntryPath (P : Platform) (sm : SourceManager) (entryFile : WString) : WString :=
  if P.PathIsRelativeW entryFile then P.PathAppendW sm.m_baseDirectory entryFile else entryFile

/-- The method `LoadStructuredDocument`: the value returned, `outDocument`, the
diagnostics and the source manager after the call; `none` when the fuel does
not suffice. -/
def LoadStructuredDocument (ct : CType) (P : Platform) (w : World) (fuel : Nat)
    (sm : SourceManager) (entryFile : WString) (outDocument : SourceDocument)
    (diagnostics : List Diagnostic) :
    Option (Bool × SourceDocument × List Diagnostic × SourceManager) :=
  let entryPath := structuredEntryPath P sm entryFile
  let normalized := NormalizePath P entryPath
  if normalized.isEmpty then
    some (false, outDocument,
      AppendDiagnostic diagnostics DiagnosticSeverity.Error
        (wstr "Unable to resolve theme entry file path.") entryPath, sm)
  else loadNormalized ct P w fuel sm normalized outDocument diagnostics

/-- The method `LoadStyleDocument`. -/
def LoadStyleDocument (ct : CType) (P : Platform) (w : World) (fuel : Nat)
    (sm : SourceManager) (entryFile : WString) (outDocument : SourceDocument)
    (diagnostics : List Diagnostic) :
    Option (Bool × SourceDocument × List Diagnostic × SourceManager) :=
  let entryPath := styleEntryPath P sm entryFile
  let normalized := NormalizePath P entryPath
  if normalized.isEmpty then
    some (false, outDocument,
      AppendDiagnostic diagnostics DiagnosticSeverity.Error
        (wstr "Unable to resolve style file path.") entryFile, sm)
  else loadNormalized ct P w fuel sm normalized outDocument diagnostics

/-- A platform for concrete inputs: every path is absolute and is its own full
path, no environment variable is expanded, and a byte decodes to the code unit
of the same value. The empty path is absolute here as well, while
`PathIsRelativeW` of shlwapi returns `TRUE` for it: an empty name is joined with
the base directory there, as it is on `Platform.rooted`. -/
def Platform.plain : Platform where
  PathIsRelativeW := fun _ => false
  PathAppendW := fun dir more => dir ++ [92] ++ more
  StringCchCopyW := fun path => path
  PathRemoveFileSpecW := fun path => path
  GetFullPathNameW := fun path => some path
  ExpandEnvironmentStringsW := fun value => some value
  MultiByteToWideChar := fun bytes => bytes

/-- A disk given by the list of its files, each a path and the bytes of the file. -/
def World.ofFiles (files : List (String × String)) : World :=
  fun path => (files.find? (fun f => wstr f.1 == path)).map (fun f => FileHandle.ofBytes (wstr f.2))

/-! ## Predicates used in the statements about the source manager -/

/-- Used in statements: what a call that starts in state `st` and ends with result `r`
leaves of the state. The `LoadContext` and the base directory are as before, the
cache and the log of opened files have only grown, and the diagnostics are
unchanged on success and have gained exactly one diagnostic, an `Error` whose
file is not empty, on failure. -/
def Frame (st : LoadState) (r : Bool × SourceDocument × LoadState) : Prop :=
  r.2.2.context = st.context ∧
    r.2.2.sm.m_baseDirectory = st.sm.m_baseDirectory ∧
    (∃ added, r.2.2.sm.m_cache = added ++ st.sm.m_cache) ∧
    (∃ more, r.2.2.sm.opened = st.sm.opened ++ more) ∧
    (r.1 = true → r.2.2.diagnostics = st.diagnostics) ∧
    (r.1 = false → ∃ d, r.2.2.diagnostics = st.diagnostics ++ [d] ∧
      d.severity = DiagnosticSeverity.Error ∧ d.location.file ≠ [])

/-- Used in statements: every call of `load` on a path that is not empty satisfies
`Frame`. -/
def LoaderFrame (load : Loader) : Prop :=
  ∀ path out st r, path ≠ [] → load path out st = some r → Frame st r

/-- Used in statements: every entry of the cache of `st`, a key and a document,
satisfies `Good`. -/
def CacheAll (Good : WString → SourceDocument → Prop) (st : LoadState) : Prop :=
  ∀ entry ∈ st.sm.m_cache, Good entry.1 entry.2

/-- Used in statements: started with a cache of `Good` entries, `load` leaves a cache
of `Good` entries and, when it succeeds, has been called on a path with a
canonical form and returns a document that is `Good` for the key of that form. -/
def LoaderGood (ct : CType) (P : Platform) (Good : WString → SourceDocument → Prop)
    (load : Loader) : Prop :=
  ∀ path out st r, CacheAll Good st → load path out st = some r →
    CacheAll Good r.2.2 ∧
      (r.1 = true →
        NormalizePath P path ≠ [] ∧ Good (ToLookupKey ct (NormalizePath P path)) r.2.1)

/-- Used in statements: the sequence of the `startOffset`s of a list of segments is
in non-decreasing order. -/
def Ascending (segments : List SourceDocumentSegment) : Prop :=
  segments.Pairwise (fun a b => a.startOffset ≤ b.startOffset)

/-- Used in statements: the segment list of `document` is not empty, begins with a
segment at offset `0`, is in non-decreasing order of `startOffset`, and has no
`startOffset` beyond the length of the content. -/
def SegmentsOK (document : SourceDocument) : Prop :=
  document.segments ≠ [] ∧
    (∀ first, document.segments.head? = some first → first.startOffset = 0) ∧
    Ascending document.segments ∧
    ∀ segment ∈ document.segments, segment.startOffset ≤ document.content.length

/-- Used in statements: the same for a document under construction, which has no
content as long as it has no segment. -/
def SegmentsPartial (document : SourceDocument) : Prop :=
  (document.segments = [] → document.content = []) ∧
    (∀ first, document.segments.head? = some first → first.startOffset = 0) ∧
    Ascending document.segments ∧
    ∀ segment ∈ document.segments, segment.startOffset ≤ document.content.length

/-- Used in statements: `segment` is the last segment of the list whose `startOffset`
is at most `offset`; the list splits at it into the segments before, all at most
`offset`, and the segments after, all beyond `offset`. -/
def LastAtMost (segments : List SourceDocumentSegment) (offset : Nat)
    (before : List SourceDocumentSegment) (segment : SourceDocumentSegment)
    (after : List SourceDocumentSegment) : Prop :=
  segments = before ++ segment :: after ∧
    (∀ x ∈ before, x.startOffset ≤ offset) ∧ segment.startOffset ≤ offset ∧
    ∀ x ∈ after, offset < x.startOffset

/-- The disk of the examples: `main.lsx` includes `part.lsx` twice and `empty.lsx`
once, `first.lsx` and `second.lsx` include each other, `self.lsx` includes
itself, and `crlf.lsx` has one line ended by `\r\n` and one ended by a lone `\r`. -/
def exampleWorld : World :=
  World.ofFiles
    [("main.lsx", "#Panel \x7b\r\n#include part.lsx\n#include 'part.lsx'\n#include = empty.lsx\n\x7d"),
     ("part.lsx", "#Child \x7b\x7d\n // c"),
     ("empty.lsx", ""),
     ("first.lsx", "#include second.lsx"),
     ("second.lsx", "q\n#include \"first.lsx\""),
     ("self.lsx", "#include self.lsx"),
     ("crlf.lsx", "a\r\nb\rc")]

/-- The test of the inner loop of `ProcessFileContent`: the character ends no line. -/
def notTerminator (c : Nat) : Bool := c != 13 && c != 10

/-- The length of the line terminator at the head of `tail`, a text that is empty or
begins with `\r` or `\n`: `2` for `\r\n`, `1` for a lone `\r` or `\n`, `0` at the
end of the text. -/
def terminatorLength (tail : WString) : Nat :=
  match tail with
  | [] => 0
  | c :: rest => if c = 13 ∧ rest.head? = some 10 then 2 else 1

/-- Used in statements: `text` with every line terminator (`\r\n`, a lone `\r`, `\n`)
replaced by one `\n` and every other character kept. -/
def normalizeNewlines : WString → WString
  | [] => []
  | [c] => if c = 13 then [10] else [c]
  | c :: d :: rest =>
    if c = 13 ∧ d = 10 then 10 :: normalizeNewlines rest
    else if c = 13 then 10 :: normalizeNewlines (d :: rest)
    else c :: normalizeNewlines (d :: rest)

/-- Used in statements: the text that a run of scanned lines stands for in the
flattened buffer, each line followed by `\n` when it had a terminator. -/
def linesText : List ScannedLine → WString
  | [] => []
  | ln :: rest => ln.line ++ (if ln.newlineLength > 0 then [10] else []) ++ linesText rest

/-- The canonical path that `AppendInclude` and `LoadDocumentRecursive` derive from the
text after `#include` on a line of the file `requestingPath`; `none` when one of
the three emptiness tests on the way fails the include. -/
def includeTarget (ct : CType) (P : Platform) (requestingPath includeToken : WString) :
    Option WString :=
  let includePath := includePathOf ct P includeToken
  if includePath.isEmpty then none
  else
    let normalized := NormalizePath P (resolveInclude P requestingPath includePath)
    if normalized.isEmpty then none
    else if (NormalizePath P normalized).isEmpty then none
    else some (NormalizePath P normalized)

/-- Used in statements: the line is an include line for `ProcessFileContent`. -/
def ScannedLine.isInclude (ct : CType) (ln : ScannedLine) : Bool :=
  isIncludeLine (TrimLeft ct ln.line)

/-- Used in statements: the text after `#include` on an include line. -/
def ScannedLine.includeToken (ct : CType) (ln : ScannedLine) : WString :=
  (TrimLeft ct ln.line).drop 8

/-- Used in statements: the `\n` that `ProcessFileContent` adds after the spliced text
`included` of an include line: one `\n` when the line had a terminator and
`included` does not end with `\n`, nothing otherwise. -/
def includeNewline (ln : ScannedLine) (included : WString) : WString :=
  if ln.newlineLength > 0 ∧ included.getLast? ≠ some 10 then [10] else []

/-- Used in statements: the flattened text of a run of lines all of whose include lines
are replaced by the same text `included`. -/
def flattenWith (ct : CType) (included : WString) : List ScannedLine → WString
  | [] => []
  | ln :: rest =>
    (if ln.isInclude ct then included ++ includeNewline ln included
      else ln.line ++ (if ln.newlineLength > 0 then [10] else [])) ++
      flattenWith ct included rest

/-- Used in statements: `load` returns, with one result or another, whenever the
`LoadContext` is `c`. -/
def LoaderTotal (c : LoadContext) (load : Loader) : Prop :=
  ∀ path out st, st.context = c → ∃ r, load path out st = some r

/-- Used in statements: the number of keys of `files` that are not being expanded. -/
def idleFiles (files : Finset WString) (activeStack : List WString) : Nat :=
  (files.filter (fun key => key ∉ activeStack)).card

/-- Used in statements: the include graph. The file `p` can be read and one of its
include lines names the file `q`. -/
def Includes (ct : CType) (P : Platform) (w : World) (p q : WString) : Prop :=
  ∃ text, LoadDocumentFromDisk P w p [] = (true, text, []) ∧
    ∃ ln ∈ scanLines text text.length 0,
      ln.isInclude ct = true ∧ includeTarget ct P p (ln.includeToken ct) = some q

/-- Used in statements: the include graph on lookup keys. A file whose path has the
key `k` can be read and one of its include lines names a file whose path has the
key `k2`. -/
def KeyIncludes (ct : CType) (P : Platform) (w : World) (k k2 : WString) : Prop :=
  ∃ p q, ToLookupKey ct p = k ∧ ToLookupKey ct q = k2 ∧ Includes ct P w p q

/-- Used in statements: no key that can be reached from `k` in the include graph on
lookup keys lies on a cycle of that graph. -/
def NoKeyCycleFrom (ct : CType) (P : Platform) (w : World) (k : WString) : Prop :=
  ∀ c, Relation.ReflTransGen (KeyIncludes ct P w) k c →
    ¬ Relation.TransGen (KeyIncludes ct P w) c c

/-- A platform for concrete inputs on which the full path of a path is the path in
lower case: two full paths that are equal up to case are equal. -/
def Platform.folding : Platform where
  PathIsRelativeW := fun _ => false
  PathAppendW := fun dir more => dir ++ [92] ++ more
  StringCchCopyW := fun path => path
  PathRemoveFileSpecW := fun path => path
  GetFullPathNameW := fun path => some (path.map CType.ascii.towlower)
  ExpandEnvironmentStringsW := fun value => some value
  MultiByteToWideChar := fun bytes => bytes

/-- A disk that does not distinguish case, given by the list of its files, each a
path and the bytes of the file: a path names the first file of the list whose
path is equal to it up to the case of `A` to `Z`. -/
def World.ofFilesNoCase (files : List (String × String)) : World :=
  fun path =>
    (files.find? (fun f => ToLookupKey CType.ascii (wstr f.1) == ToLookupKey CType.ascii path)).map
      (fun f => FileHandle.ofBytes (wstr f.2))

/-- The disk of the example of a cycle: two files of the directory `C:\theme` that
include each other, under names that differ in case from the names on the disk. -/
def cycleWorld : World :=
  World.ofFilesNoCase
    [("C:\\theme\\first.lsx", "#include Second.lsx"),
     ("C:\\theme\\second.lsx", "q\n#include \"FIRST.LSX\"")]

/-- The disk of the example of a failure before a cycle: a file that includes a
missing file and then itself. -/
def missingWorld : World :=
  World.ofFilesNoCase [("C:\\theme\\pre.lsx", "#include missing.lsx\n#include pre.lsx")]

/-- The disk of the example of a cycle that the cache hides, a disk that
distinguishes case: `a.lsx` includes `b.lsx` and then `B.lsx`, which is another
file and includes `a.lsx`. -/
def caseWorld : World :=
  World.ofFiles
    [("C:\\theme\\a.lsx", "#include b.lsx\n#include B.lsx"),
     ("C:\\theme\\b.lsx", "x"),
     ("C:\\theme\\B.lsx", "#include a.lsx")]

/-! ## `ThemeTypes.h`: values and nodes -/

inductive ValueKind where
  | Null | String | Number | Boolean | Identifier | Reference | Object | Array
deriving DecidableEq, Repr

/-- The structure `ObjectProperty`, over the type of its member `value`. -/
structure ObjectPropertyOf (α : Type) where
  key : WString
  value : α
  location : SourceLocation
deriving Repr

/-- The structure `Value`. -/
structure Value where
  kind : ValueKind
  text : WString
  numberValue : Double
  boolValue : Bool
  objectProperties : List (ObjectPropertyOf Value)
  arrayValues : List Value
  location : SourceLocation
deriving Repr

abbrev ObjectProperty := ObjectPropertyOf Value

/-- The constructor `Value::Value(ValueKind)`. -/
def Value.ofKind (kindValue : ValueKind) : Value :=
  ⟨kindValue, [], Double.zero, false, [], [], SourceLocation.default⟩

/-- The default constructor `Value::Value()`. -/
def Value.null : Value := Value.ofKind ValueKind.Null

def Value.CreateString (textValue : WString) (locationInfo : SourceLocation) : Value :=
  { Value.ofKind ValueKind.String with text := textValue, location := locationInfo }

def Value.CreateNumber (textValue : WString) (numericValue : Double)
    (locationInfo : SourceLocation) : Value :=
  { Value.ofKind ValueKind.Number with
    text := textValue, numberValue := numericValue, location := locationInfo }

def Value.CreateBoolean (boolValueParam : Bool) (locationInfo : SourceLocation) : Value :=
  { Value.ofKind ValueKind.Boolean with
    boolValue := boolValueParam
    text := if boolValueParam then wstr "true" else wstr "false"
    location := locationInfo }

def Value.CreateIdentifier (identifier : WString) (locationInfo : SourceLocation) : Value :=
  { Value.ofKind ValueKind.Identifier with text := identifier, location := locationInfo }

def Value.CreateReference (reference : WString) (locationInfo : SourceLocation) : Value :=
  { Value.ofKind ValueKind.Reference with text := reference, location := locationInfo }

def Value.CreateObject (locationInfo : SourceLocation) : Value :=
  { Value.ofKind ValueKind.Object with location := locationInfo }

def Value.CreateArray (locationInfo : SourceLocation) : Value :=
  { Value.ofKind ValueKind.Array with location := locationInfo }

structure Attribute where
  name : WString
  value : Value
  location : SourceLocation
deriving Repr

/-- A default-constructed `Attribute`. -/
def Attribute.empty : Attribute := ⟨[], Value.null, SourceLocation.default⟩

structure ComponentNode where
  component : WString
  id : WString
  name : WString
  classes : List WString
  attributes : List Attribute
  children : List ComponentNode
  location : SourceLocation
deriving Repr

/-- A default-constructed `ComponentNode`. -/
def ComponentNode.empty : ComponentNode := ⟨[], [], [], [], [], [], SourceLocation.default⟩

structure Directive where
  name : WString
  argument : WString
  location : SourceLocation
deriving DecidableEq, Repr

/-- A default-constructed `Directive`. -/
def Directive.empty : Directive := ⟨[], [], SourceLocation.default⟩

structure ThemeDocument where
  directives : List Directive
  rootNodes : List ComponentNode
deriving Repr

/-- A default-constructed `ThemeDocument`. -/
def ThemeDocument.empty : ThemeDocument := ⟨[], []⟩

/-! ## `Parser.cpp` -/

/-- The function `AppendClassName` of `Parser.cpp`. -/
def AppendClassName (name : WString) (classes : List WString) : List WString :=
  if name.isEmpty then classes
  else if classes.contains name then classes
  else classes ++ [name]

/-- The loop of `SplitClassString`, with the local `current`. -/
def splitClassLoop (ct : CType) : WString → WString → List WString → List WString
  | [], current, classes => AppendClassName current classes
  | ch :: rest, current, classes =>
    if ct.iswspace ch then splitClassLoop ct rest [] (AppendClassName current classes)
    else splitClassLoop ct rest (current ++ [ch]) classes

/-- The function `SplitClassString` of `Parser.cpp`. -/
def SplitClassString (ct : CType) (text : WString) (classes : List WString) : List WString :=
  splitClassLoop ct text [] classes

/-- The characters that a C function reads from `value.c_str()`: those before the
first `L'\0'`. -/
def c_str (value : WString) : WString := value.takeWhile (fun c => c != 0)

/-- The test `_wcsicmp(left.c_str(), right) == 0`. -/
def wcsicmpEqual (ct : CType) (left right : WString) : Bool :=
  (c_str left).map ct.towlower == (c_str right).map ct.towlower

/-- The call `content.find(L'\n', startOffset)`, with `content.length()` in the
place of `npos`: the value of the local `lineEnd` of `ParseDirective` and of
`ExtractDirectiveArgument`. -/
def findLineEnd (content : WString) (startOffset : Nat) : Nat :=
  let tail := content.drop startOffset
  if tail.indexOf 10 < tail.length then startOffset + tail.indexOf 10 else content.length

/-- The members of `class Parser`. The members `m_document` and `m_diagnostics` are
references in the source; the vector behind `m_diagnostics` is read back from the
parser that `Parse` returns. -/
structure Parser where
  m_document : SourceDocument
  m_lexer : Lexer
  m_diagnostics : List Diagnostic
  m_tokens : List Token
  m_cursor : Nat
deriving Repr

/-- One turn of a `while` loop of the parser: the loop is left (its condition is
false, or the body ran into `break` or `return`), or the body is done and the
condition is tested again. Both carry the locals of the loop and the parser. -/
inductive LoopStep (α : Type) where
  | leave (acc : α) (p : Parser)
  | again (acc : α) (p : Parser)

namespace Parser

/-- The constructor `Parser::Parser`. -/
def new (document : SourceDocument) (diagnostics : List Diagnostic) : Parser :=
  ⟨document, Lexer.new document, diagnostics, [], 0⟩

/-- The loop of `LookAhead`, for the `count` tokens that are missing in `m_tokens`. -/
def fill (ct : CType) : Nat → Parser → Parser
  | 0, p => p
  | count + 1, p =>
    fill ct count
      { p with
        m_tokens := p.m_tokens ++ [(Lexer.NextToken ct p.m_lexer).1]
        m_lexer := (Lexer.NextToken ct p.m_lexer).2 }

/-- The value of a token of `m_tokens` that does not exist; `LookAhead` reads
`m_tokens` within its size (theorem `LookAhead_token`). -/
def noToken : Token := ⟨TokenType.EndOfFile, [], SourceLocation.default, 0, 0⟩

/-- The method `Parser::LookAhead`, on token values: the result is the token that the
returned reference refers to when the call returns. The source returns a
`const Token&` into the vector `m_tokens`, and a caller that keeps the reference
across a later `LookAhead` reads storage that `push_back` may have freed. The
functions of this namespace give such a read the value that the token had when
the reference was taken; `RefParser` follows the references themselves. -/
def LookAhead (ct : CType) (p : Parser) (distance : Nat) : Token × Parser :=
  let p1 := fill ct (p.m_cursor + distance + 1 - p.m_tokens.length) p
  (p1.m_tokens.getD (p.m_cursor + distance) noToken, p1)

def Current (ct : CType) (p : Parser) : Token × Parser := LookAhead ct p 0

def IsAtEnd (ct : CType) (p : Parser) : Bool × Parser :=
  let r := LookAhead ct p 0
  (decide (r.1.type = TokenType.EndOfFile), r.2)

def Advance (ct : CType) (p : Parser) : Parser :=
  let r := IsAtEnd ct p
  if r.1 then r.2 else { r.2 with m_cursor := r.2.m_cursor + 1 }

def Check (ct : CType) (p : Parser) (type : TokenType) : Bool × Parser :=
  let r := IsAtEnd ct p
  if r.1 then (false, r.2)
  else
    let t := LookAhead ct r.2 0
    (decide (t.1.type = type), t.2)

def Match (ct : CType) (p : Parser) (type : TokenType) : Bool × Parser :=
  let r := Check ct p type
  if r.1 then (true, Advance ct r.2) else (false, r.2)

def ReportError (p : Parser) (token : Token) (message : WString) : Parser :=
  { p with
    m_diagnostics := p.m_diagnostics ++ [⟨DiagnosticSeverity.Error, message, token.location⟩] }

def Expect (ct : CType) (p : Parser) (type : TokenType) (message : WString) : Bool × Parser :=
  let r := Match ct p type
  if r.1 then (true, r.2)
  else
    let c := Current ct r.2
    (false, ReportError c.2 c.1 message)

/-- The method `Parser::ExtractDirectiveArgument`. The functions `Trim`, `TrimLeft`
and `TrimRight` of `Parser.cpp` compute what those of `SourceManager.cpp` do. -/
def ExtractDirectiveArgument (ct : CType) (p : Parser) (hashToken nameToken : Token) : WString :=
  let lineEnd := findLineEnd p.m_document.content hashToken.startOffset
  let argumentStart := nameToken.startOffset + nameToken.length
  if argumentStart ≥ lineEnd then []
  else Trim ct (Lexer.substr p.m_document.content argumentStart (lineEnd - argumentStart))

/-- A `while` loop: `body` is one turn of it, on the locals and the parser. The
result is `none` when `fuel` turns did not leave the loop. -/
def runLoop {α : Type} (body : α → Parser → Option (LoopStep α)) :
    Nat → α → Parser → Option (α × Parser)
  | 0, _, _ => none
  | fuel + 1, acc, p =>
    match body acc p with
    | none => none
    | some (LoopStep.leave acc1 p1) => some (acc1, p1)
    | some (LoopStep.again acc1 p1) => runLoop body fuel acc1 p1

/-- One turn of the loop of `Synchronize`. -/
def synchronizeStep (ct : CType) (_ : Unit) (p : Parser) : Option (LoopStep Unit) :=
  let r := IsAtEnd ct p
  if r.1 then some (LoopStep.leave () r.2)
  else
    let token := LookAhead ct r.2 0
    if token.1.type = TokenType.Hash ∨ token.1.type = TokenType.RBrace then
      some (LoopStep.leave () token.2)
    else some (LoopStep.again () (Advance ct token.2))

/-- The method `Parser::Synchronize`. -/
def Synchronize (ct : CType) (fuel : Nat) (p : Parser) : Option Parser :=
  (runLoop (synchronizeStep ct) fuel () p).map Prod.snd

/-- One turn of the loop of `ParseDirective`, which skips the tokens that start
before `lineEnd`. -/
def directiveStep (ct : CType) (lineEnd : Nat) (_ : Unit) (p : Parser) :
    Option (LoopStep Unit) :=
  let r := IsAtEnd ct p
  if r.1 then some (LoopStep.leave () r.2)
  else
    let token := LookAhead ct r.2 0
    if token.1.startOffset < lineEnd then some (LoopStep.again () (Advance ct token.2))
    else some (LoopStep.leave () token.2)

/-- The method `Parser::ParseDirective`, on token values. In the source the failure
path reads `hashToken.location` after `Synchronize`, and the success path reads
`hashToken` and `nameToken` before any further token is pushed; the reads of the
failure path through the references are in `RefParser.ParseDirective`. -/
def ParseDirective (ct : CType) (fuel : Nat) (p : Parser) : Option (Directive × Parser) :=
  let hashToken := LookAhead ct p 0
  let m := Match ct hashToken.2 TokenType.Hash
  let nameToken := LookAhead ct m.2 0
  let e := Expect ct nameToken.2 TokenType.Identifier (wstr "Expected directive identifier.")
  if e.1 = false then
    (Synchronize ct fuel e.2).map fun p1 =>
      ({ Directive.empty with location := hashToken.1.location }, p1)
  else
    let directive : Directive :=
      { name := nameToken.1.lexeme
        location := hashToken.1.location
        argument := ExtractDirectiveArgument ct e.2 hashToken.1 nameToken.1 }
    let lineEnd := findLineEnd e.2.m_document.content hashToken.1.startOffset
    (runLoop (directiveStep ct lineEnd) fuel () e.2).map fun r => (directive, r.2)

/-- The method `Parser::ParseReference`, on token values. The source reads
`atToken.location` after `identifierToken = LookAhead(0)`, which may push a token:
see `RefParser.ParseReference` for the read through the reference. -/
def ParseReference (ct : CType) (p : Parser) : Value × Parser :=
  let atToken := LookAhead ct p 0
  let m := Match ct atToken.2 TokenType.At
  let identifierToken := LookAhead ct m.2 0
  let m1 := Match ct identifierToken.2 TokenType.Identifier
  if m1.1 = false then
    (Value.CreateReference [] atToken.1.location,
      ReportError m1.2 identifierToken.1 (wstr "Expected identifier after '@'."))
  else (Value.CreateReference identifierToken.1.lexeme atToken.1.location, m1.2)

/-- A parser of the grammar as a function of the state: `ParseValue` and
`ParseComponent`, with a bound on the depth of their recursion, are passed in this
form to the methods that call them. -/
abbrev Sub (α : Type) := Parser → Option (α × Parser)

/-- The end of `ParseAttribute`, of one turn of `ParseObjectLiteral` and of one turn
of `ParseArrayLiteral`: `if (Check(TokenType::Comma)) { Advance(); }`. -/
def skipComma (ct : CType) (p : Parser) : Parser :=
  let c := Check ct p TokenType.Comma
  if c.1 then Advance ct c.2 else c.2

/-- One turn of the loop of `ParseObjectLiteral`, on token values; `pv` is
`ParseValue`. The source builds the property from `keyToken.lexeme` and
`keyToken.location` after `Expect` and `ParseValue`, which may push tokens: see
`RefParser.objectStep` for the reads through the reference. -/
def objectStep (ct : CType) (pv : Sub Value) (fuel : Nat) (object : Value) (p : Parser) :
    Option (LoopStep Value) :=
  let r := IsAtEnd ct p
  if r.1 then some (LoopStep.leave object r.2)
  else
    let c := Check ct r.2 TokenType.RBrace
    if c.1 then some (LoopStep.leave object (Advance ct c.2))
    else
      let keyToken := LookAhead ct c.2 0
      let m := Match ct keyToken.2 TokenType.Identifier
      if m.1 = false then
        (Synchronize ct fuel
            (ReportError m.2 keyToken.1 (wstr "Expected identifier in object literal."))).map
          fun p1 => LoopStep.leave object p1
      else
        let e := Expect ct m.2 TokenType.Equals (wstr "Expected '=' in object literal.")
        if e.1 = false then (Synchronize ct fuel e.2).map fun p1 => LoopStep.leave object p1
        else
          (pv e.2).map fun r1 =>
            LoopStep.again
              { object with
                objectProperties :=
                  object.objectProperties ++ [⟨keyToken.1.lexeme, r1.1, keyToken.1.location⟩] }
              (skipComma ct r1.2)

/-- The method `Parser::ParseObjectLiteral`; `pv` is `ParseValue`. -/
def ParseObjectLiteral (ct : CType) (pv : Sub Value) (fuel : Nat) (p : Parser) :
    Option (Value × Parser) :=
  let openToken := LookAhead ct p 0
  let m := Match ct openToken.2 TokenType.LBrace
  runLoop (objectStep ct pv fuel) fuel (Value.CreateObject openToken.1.location) m.2

/-- One turn of the loop of `ParseArrayLiteral`; `pv` is `ParseValue`. -/
def arrayStep (ct : CType) (pv : Sub Value) (array : Value) (p : Parser) :
    Option (LoopStep Value) :=
  let r := IsAtEnd ct p
  if r.1 then some (LoopStep.leave array r.2)
  else
    let c := Check ct r.2 TokenType.RBracket
    if c.1 then some (LoopStep.leave array (Advance ct c.2))
    else
      (pv c.2).map fun r1 =>
        LoopStep.again { array with arrayValues := array.arrayValues ++ [r1.1] }
          (skipComma ct r1.2)

/-- The method `Parser::ParseArrayLiteral`; `pv` is `ParseValue`. -/
def ParseArrayLiteral (ct : CType) (pv : Sub Value) (fuel : Nat) (p : Parser) :
    Option (Value × Parser) :=
  let openToken := LookAhead ct p 0
  let m := Match ct openToken.2 TokenType.LBracket
  runLoop (arrayStep ct pv) fuel (Value.CreateArray openToken.1.location) m.2

/-- The method `Parser::ParseValue`; the `switch` is the chain of its cases. The
result is `none` when the recursion is deeper than `fuel` or a loop runs out of
`fuel` turns. -/
def ParseValue (ct : CType) : Nat → Sub Value
  | 0, _ => none
  | fuel + 1, p =>
    let token := LookAhead ct p 0
    if token.1.type = TokenType.String then
      some (Value.CreateString token.1.lexeme token.1.location, Advance ct token.2)
    else if token.1.type = TokenType.Number then
      some (Value.CreateNumber token.1.lexeme (ct.wcstod (c_str token.1.lexeme))
        token.1.location, Advance ct token.2)
    else if token.1.type = TokenType.Identifier then
      if wcsicmpEqual ct token.1.lexeme (wstr "true") then
        some (Value.CreateBoolean true token.1.location, Advance ct token.2)
      else if wcsicmpEqual ct token.1.lexeme (wstr "false") then
        some (Value.CreateBoolean false token.1.location, Advance ct token.2)
      else some (Value.CreateIdentifier token.1.lexeme token.1.location, Advance ct token.2)
    else if token.1.type = TokenType.LBrace then
      ParseObjectLiteral ct (ParseValue ct fuel) fuel token.2
    else if token.1.type = TokenType.LBracket then
      ParseArrayLiteral ct (ParseValue ct fuel) fuel token.2
    else if token.1.type = TokenType.At then some (ParseReference ct token.2)
    else
      some (Value.null,
        Advance ct (ReportError token.2 token.1 (wstr "Unexpected token in value expression.")))

/-- The method `Parser::ParseAttribute`; `pv` is `ParseValue`. -/
def ParseAttribute (ct : CType) (pv : Sub Value) (p : Parser) : Option (Attribute × Parser) :=
  let nameToken := LookAhead ct p 0
  let m := Match ct nameToken.2 TokenType.Identifier
  let attr : Attribute :=
    { Attribute.empty with name := nameToken.1.lexeme, location := nameToken.1.location }
  let e := Expect ct m.2 TokenType.Equals (wstr "Expected '=' after attribute name.")
  if e.1 = false then some ({ attr with value := Value.null }, e.2)
  else (pv e.2).map fun r => ({ attr with value := r.1 }, skipComma ct r.2)

/-- The test `kind == ValueKind::String || kind == ValueKind::Identifier`. -/
def isText (value : Value) : Bool :=
  value.kind == ValueKind.String || value.kind == ValueKind.Identifier

/-- What the loop of `ParseComponent` does with an attribute it has parsed: the
members `id`, `name` and `classes` of the node, and the list of attributes. -/
def applyAttribute (ct : CType) (node : ComponentNode) (attr : Attribute) : ComponentNode :=
  let node1 : ComponentNode :=
    if wcsicmpEqual ct attr.name (wstr "id") && isText attr.value then
      { node with id := attr.value.text }
    else if wcsicmpEqual ct attr.name (wstr "name") && isText attr.value then
      { node with name := attr.value.text }
    else if wcsicmpEqual ct attr.name (wstr "class") then
      if isText attr.value then
        { node with classes := SplitClassString ct attr.value.text node.classes }
      else if attr.value.kind = ValueKind.Array then
        { node with
          classes := attr.value.arrayValues.foldl
            (fun classes entry =>
              if isText entry then SplitClassString ct entry.text classes else classes)
            node.classes }
      else node
    else node
  { node1 with attributes := node1.attributes ++ [attr] }

/-- The test at `#` in the loops of `Parse` and of `ParseComponent`, which reads
`LookAhead(1)` and `LookAhead(2)`: whether a component starts here, on token
values. The source tests `next.type` after `LookAhead(2)`, which may push a token,
and `third.type` at once: see `RefParser.startsComponent` for the read through the
reference `next`. -/
def startsComponent (ct : CType) (p : Parser) : Bool × Parser :=
  let next := LookAhead ct p 1
  let third := LookAhead ct next.2 2
  (decide (next.1.type = TokenType.Identifier) && decide (third.1.type = TokenType.LBrace),
    third.2)

/-- One turn of the loop of `ParseComponent`, on token values; `pc` is
`ParseComponent` and `pv` is `ParseValue`. The source reads `token.type` and hands
`token` to `ReportError` after `LookAhead(1)` and `LookAhead(2)`, which may push
tokens: see `RefParser.componentStep` for the reads through the reference. -/
def componentStep (ct : CType) (pc : Sub ComponentNode) (pv : Sub Value) (node : ComponentNode)
    (p : Parser) : Option (LoopStep ComponentNode) :=
  let r := IsAtEnd ct p
  if r.1 then some (LoopStep.leave node r.2)
  else
    let token := LookAhead ct r.2 0
    if token.1.type = TokenType.RBrace then some (LoopStep.leave node (Advance ct token.2))
    else
      let child : Bool × Parser :=
        if token.1.type = TokenType.Hash then startsComponent ct token.2 else (false, token.2)
      if child.1 then
        (pc child.2).map fun r1 =>
          LoopStep.again { node with children := node.children ++ [r1.1] } r1.2
      else
        let named : Bool × Parser :=
          if token.1.type = TokenType.Identifier then
            let next := LookAhead ct child.2 1
            (decide (next.1.type = TokenType.Equals), next.2)
          else (false, child.2)
        if named.1 then
          (ParseAttribute ct pv named.2).map fun r1 =>
            LoopStep.again (applyAttribute ct node r1.1) r1.2
        else
          some (LoopStep.again node
            (Advance ct
              (ReportError named.2 token.1 (wstr "Unexpected token inside component body."))))

/-- The method `Parser::ParseComponent`; `pv` is `ParseValue`. The result is `none`
when the recursion is deeper than `fuel` or a loop runs out of `fuel` turns. -/
def ParseComponent (ct : CType) (pv : Sub Value) : Nat → Sub ComponentNode
  | 0, _ => none
  | fuel + 1, p =>
    let m := Match ct p TokenType.Hash
    let nameToken := LookAhead ct m.2 0
    let e := Expect ct nameToken.2 TokenType.Identifier
      (wstr "Expected component name after '#'.")
    if e.1 = false then
      (Synchronize ct fuel e.2).map fun p1 =>
        ({ ComponentNode.empty with location := nameToken.1.location }, p1)
    else
      let node : ComponentNode :=
        { ComponentNode.empty with
          component := nameToken.1.lexeme, location := nameToken.1.location }
      let e1 := Expect ct e.2 TokenType.LBrace (wstr "Expected '\x7b' to start component body.")
      if e1.1 = false then (Synchronize ct fuel e1.2).map fun p1 => (node, p1)
      else runLoop (componentStep ct (ParseComponent ct pv fuel) pv) fuel node e1.2

/-- One turn of the loop of `Parse`. -/
def parseStep (ct : CType) (fuel : Nat) (document : ThemeDocument) (p : Parser) :
    Option (LoopStep ThemeDocument) :=
  let r := IsAtEnd ct p
  if r.1 then some (LoopStep.leave document r.2)
  else
    let token := LookAhead ct r.2 0
    if token.1.type = TokenType.Hash then
      let child := startsComponent ct token.2
      if child.1 then
        (ParseComponent ct (ParseValue ct fuel) fuel child.2).map fun r1 =>
          LoopStep.again { document with rootNodes := document.rootNodes ++ [r1.1] } r1.2
      else
        (ParseDirective ct fuel child.2).map fun r1 =>
          LoopStep.again { document with directives := document.directives ++ [r1.1] } r1.2
    else if token.1.type = TokenType.EndOfFile then some (LoopStep.leave document token.2)
    else
      some (LoopStep.again document
        (Advance ct (ReportError token.2 token.1 (wstr "Unexpected token at top-level."))))

/-- The method `Parser::Parse`, on token values: the document and the parser after
the call, whose member `m_diagnostics` is the vector of diagnostics. The result is
`none` when `fuel` is too small for the input. What the method does with the
references that it keeps into `m_tokens` is `RefParser.Parse`. -/
def Parse (ct : CType) (fuel : Nat) (p : Parser) : Option (ThemeDocument × Parser) :=
  runLoop (parseStep ct fuel) fuel ThemeDocument.empty p

end Parser

/-- A document whose content is `text`, in one segment of the file `theme.lsx`. -/
def documentOf (text : String) : SourceDocument :=
  { primaryFile := wstr "theme.lsx", content := wstr text,
    segments := [⟨wstr "theme.lsx", 0, 1⟩], origins := [] }

/-! ## Predicates used in the statements about the parser -/

namespace Parser

/-- Token number `i`, counted from `0`, of the stream of a document: the token that
call number `i` of `NextToken` on a new lexer returns. -/
def tokenAt (ct : CType) (document : SourceDocument) (i : Nat) : Token :=
  Lexer.nthToken ct i (Lexer.new document)

/-- The states of the parser that the statements are about: `m_tokens` holds the
first tokens of the stream of `m_document`, `m_lexer` is the lexer after that
many calls of `NextToken`, and the cursor is not past the `EndOfFile` token, which
is to say that no token before the cursor is `EndOfFile`. -/
def Valid (ct : CType) (p : Parser) : Prop :=
  p.m_tokens = (List.range p.m_tokens.length).map (tokenAt ct p.m_document) ∧
    p.m_lexer = Lexer.afterCalls ct p.m_tokens.length (Lexer.new p.m_document) ∧
    ∀ i, i < p.m_cursor → (tokenAt ct p.m_document i).type ≠ TokenType.EndOfFile

/-- The state `q` is a valid state of the same document whose cursor is not before
the one of `p`. -/
def Later (ct : CType) (p q : Parser) : Prop :=
  Valid ct q ∧ q.m_document = p.m_document ∧ p.m_cursor ≤ q.m_cursor

/-- The state `q` is a valid state of the same document whose cursor is after the
one of `p`. -/
def Further (ct : CType) (p q : Parser) : Prop :=
  Valid ct q ∧ q.m_document = p.m_document ∧ p.m_cursor < q.m_cursor

/-- The number of characters of the document minus the cursor: a bound on the
number of tokens from the cursor to the `EndOfFile` token. -/
def remaining (p : Parser) : Nat := p.m_document.content.length - p.m_cursor

/-- The token at the cursor has the type `type`. -/
def Sees (ct : CType) (p : Parser) (type : TokenType) : Prop :=
  (tokenAt ct p.m_document p.m_cursor).type = type

/-- What one turn of a loop that starts in the state `p` may end in: a state that
is later when the loop is left, and a state that is further when the loop goes
on. -/
def Turn (ct : CType) {α : Type} (p : Parser) : LoopStep α → Prop
  | LoopStep.leave _ q => Later ct p q
  | LoopStep.again _ q => Further ct p q

/-- A parser of the grammar that ends in a later state, and in a further state
when it is entered at a token of the type `type`. -/
def Consumes (ct : CType) {α : Type} (type : TokenType) (f : Sub α) : Prop :=
  ∀ p r, Valid ct p → f p = some r →
    Later ct p r.2 ∧ (Sees ct p type → p.m_cursor < r.2.m_cursor)

/-- A parser of values that ends in a later state, and in a further state when it
is entered before the `EndOfFile` token. -/
def ConsumesValue (ct : CType) (pv : Sub Value) : Prop :=
  ∀ p r, Valid ct p → pv p = some r →
    Later ct p r.2 ∧ (¬ Sees ct p TokenType.EndOfFile → p.m_cursor < r.2.m_cursor)

/-- A parser of the grammar that returns in every valid state with fewer than `n`
characters from the cursor to the end of the document. -/
def TotalBelow (ct : CType) {α : Type} (n : Nat) (f : Sub α) : Prop :=
  ∀ p, Valid ct p → remaining p < n → ∃ r, f p = some r

end Parser

/-! ## Predicates used in the statements about token locations -/

/-- Manual counting of lines: the character at index `k` of `text` is the last
character of a line terminator, which is `\n`, or `\r` when no `\n` follows it. -/
def endsLine (text : WString) (k : Nat) : Bool :=
  text.getD k 0 == 10 || (text.getD k 0 == 13 && text.getD (k + 1) 0 != 10)

/-- Manual counting of lines: the number, counted from `1`, of the line of `text` that
the character at `index` is on, where lines are ended by `\n`, `\r\n` or a lone
`\r`: one plus the number of line terminators that end before `index`. -/
def lineNumberAt (text : WString) (index : Nat) : Nat :=
  1 + ((List.range index).filter (endsLine text)).length

/-- The ghost origin of the character at `offset` of the flattened buffer. -/
def SourceDocument.originAt (document : SourceDocument) (offset : Nat) : Origin :=
  document.origins.getD offset ⟨[], 0⟩

/-- A character `flat` of the flattened buffer is a copy of the character `original`
of a file: it is the same character, or it is the `\n` that stands for a line
terminator that begins with `\r`. -/
def copiedFrom (flat original : Nat) : Prop :=
  flat = original ∨ (flat = 10 ∧ original = 13)

/-- The file and the line that `BuildLocation` computes from a segment list and a
content for an offset within the content, when the segment list is not empty:
the file of the segment that the search returns, and the line of that segment
plus the number of `\n` between the start of the segment and the offset. -/
def locate (segments : List SourceDocumentSegment) (content : WString) (offset : Nat) :
    WString × Nat :=
  match segments with
  | [] => ([], 0)
  | front :: _ =>
    let segment := Lexer.pickSegment offset front segments
    (segment.filePath,
      segment.lineStart +
        ((content.drop segment.startOffset).take (offset - segment.startOffset)).count 10)

/-- The character at `offset` of the flattened buffer of `document` has an origin
that is a character of a file of the disk `w`, of which it is a copy, and the
location that `BuildLocation` computes for `offset` is that file and the line of
that character in that file by manual counting. -/
def TracedAt (P : Platform) (w : World) (document : SourceDocument) (offset : Nat) : Prop :=
  ∃ text, readText P w (document.originAt offset).file = some text ∧
    (document.originAt offset).index < text.length ∧
    copiedFrom (document.content.getD offset 0) (text.getD (document.originAt offset).index 0) ∧
    ((Lexer.new document).BuildLocation offset).file = (document.originAt offset).file ∧
    ((Lexer.new document).BuildLocation offset).line =
      lineNumberAt text (document.originAt offset).index

/-- Every character of the flattened buffer of `document` is traced to its origin,
and no segment has an empty file path. -/
def Traced (P : Platform) (w : World) (document : SourceDocument) : Prop :=
  document.origins.length = document.content.length ∧
    (∀ segment ∈ document.segments, segment.filePath ≠ []) ∧
    ∀ offset, offset < document.content.length → TracedAt P w document offset

/-- The document `document` after the text, the segments and the origins of
`included` are appended to it, as `AppendInclude` does. -/
def SourceDocument.splice (document included : SourceDocument) : SourceDocument :=
  { document with
    content := document.content ++ included.content
    segments := document.segments ++ included.segments.map
      (fun segment =>
        { segment with startOffset := segment.startOffset + document.content.length })
    origins := document.origins ++ included.origins }

/-- A document of one segment of the file `path` that starts at the line `lineStart`. -/
def blockDocument (path : WString) (lineStart : Nat) (text : WString) (origins : List Origin) :
    SourceDocument :=
  { primaryFile := path, content := text, segments := [⟨path, 0, lineStart⟩], origins := origins }

/-- The characters `text` with the origins `origins` are copies of characters of the
file `path`, whose text is `contents`, and the character at `k` is on the line
`lineStart` plus the number of `\n` before it in `text`. -/
def BlockOK (contents path : WString) (lineStart : Nat) (text : WString)
    (origins : List Origin) : Prop :=
  origins.length = text.length ∧
    ∀ k, k < text.length →
      (origins.getD k ⟨[], 0⟩).file = path ∧
      (origins.getD k ⟨[], 0⟩).index < contents.length ∧
      copiedFrom (text.getD k 0) (contents.getD (origins.getD k ⟨[], 0⟩).index 0) ∧
      lineNumberAt contents (origins.getD k ⟨[], 0⟩).index = lineStart + (text.take k).count 10

/-- What is shown of every document that a load returns or caches: its segment list
is in order and its characters are traced. -/
def Located (P : Platform) (w : World) (_ : WString) (document : SourceDocument) : Prop :=
  SegmentsOK document ∧ Traced P w document

/-- The lines that are left to `processLines` are the lines that the scan finds from
an index on whose line number by manual counting is `currentLine`. -/
def LinesOK (contents : WString) (lines : List ScannedLine) (currentLine : Nat) : Prop :=
  lines = [] ∨
    ∃ fuel index, contents.length - index ≤ fuel ∧ index < contents.length ∧
      lines = scanLines contents fuel index ∧ lineNumberAt contents index = currentLine ∧
      (index = 0 ∨ endsLine contents (index - 1) = true)

/-! ## `ThemeEngineV2.cpp` -/

/-- The values of `HRESULT` that the engine returns. -/
inductive HRESULT where
  | S_OK | S_FALSE | E_FAIL
deriving DecidableEq, Repr

/-- The members of `class ThemeEngineV2`. The member `m_sourceManager`, a
`std::unique_ptr`, is `none` when it is null. -/
structure ThemeEngineV2 where
  m_enabled : Bool
  m_bangsRegistered : Bool
  m_themeRoot : WString
  m_structureFile : WString
  m_sourceManager : Option SourceManager
  m_structureSource : SourceDocument
  m_document : ThemeDocument
  m_diagnostics : List Diagnostic

namespace ThemeEngineV2

/-- The method `ThemeEngineV2::ClearState`. -/
def ClearState (engine : ThemeEngineV2) : ThemeEngineV2 :=
  { engine with
    m_document := ThemeDocument.empty
    m_structureSource := SourceDocument.empty
    m_diagnostics := [] }

/-- The method `ThemeEngineV2::LoadStructure`: the value returned and the engine
after the call. The calls of `LogDiagnostics` write to the log only. The parser
is constructed on the member `m_diagnostics`, to which it appends. The result is
`none` when `loadFuel` does not suffice for the load or `parseFuel` for the
parse. -/
def LoadStructure (ct : CType) (P : Platform) (w : World) (loadFuel parseFuel : Nat)
    (engine : ThemeEngineV2) : Option (HRESULT × ThemeEngineV2) :=
  match engine.m_sourceManager with
  | none => some (HRESULT.E_FAIL, engine)
  | some sourceManager =>
    let cleared := engine.ClearState
    match LoadStructuredDocument ct P w loadFuel sourceManager cleared.m_structureFile
        SourceDocument.empty [] with
    | none => none
    | some loaded =>
      let engine1 : ThemeEngineV2 :=
        { cleared with m_sourceManager := some loaded.2.2.2, m_diagnostics := loaded.2.2.1 }
      if !loaded.1 then some (HRESULT.E_FAIL, engine1)
      else
        let engine2 : ThemeEngineV2 := { engine1 with m_structureSource := loaded.2.1 }
        match Parser.Parse ct parseFuel
            (Parser.new engine2.m_structureSource engine2.m_diagnostics) with
        | none => none
        | some parsed =>
          let engine3 : ThemeEngineV2 :=
            { engine2 with m_document := parsed.1, m_diagnostics := parsed.2.m_diagnostics }
          let hasErrors :=
            engine3.m_diagnostics.any (fun diagnostic => diagnostic.severity == DiagnosticSeverity.Error)
          some (if hasErrors then HRESULT.S_FALSE else HRESULT.S_OK, engine3)

/-- The engine after `Initialize` has set the theme root and made the source manager:
`m_themeRoot` is `themeRoot` and `m_structureFile` is `structureFile`. -/
def ready (themeRoot structureFile : WString) : ThemeEngineV2 :=
  { m_enabled := true
    m_bangsRegistered := false
    m_themeRoot := themeRoot
    m_structureFile := structureFile
    m_sourceManager := some (SourceManager.new themeRoot)
    m_structureSource := SourceDocument.empty
    m_document := ThemeDocument.empty
    m_diagnostics := [] }

end ThemeEngineV2

/-- A platform for concrete inputs with directories: a path is relative when it
begins neither with `\` nor with a drive, `PathAppendW` joins with `\`,
`PathRemoveFileSpecW` removes the last `\` and what follows it, and an absolute
path is its own full path. -/
def Platform.rooted : Platform where
  PathIsRelativeW := fun path => !(path.head? == some 92 || path.getD 1 0 == 58)
  PathAppendW := fun dir more => dir ++ [92] ++ more
  StringCchCopyW := fun path => path
  PathRemoveFileSpecW := fun path => (path.reverse.dropWhile (fun c => c != 92)).tail.reverse
  GetFullPathNameW := fun path => some path
  ExpandEnvironmentStringsW := fun value => some value
  MultiByteToWideChar := fun bytes => bytes

/-- The disk of the example of an include: the entry file `theme.lsx` is the line
`#include "sub.lsx"`, and `sub.lsx` in the same directory is `#Child {}`. -/
def includeWorld : World :=
  World.ofFiles
    [("C:\\theme\\theme.lsx", "#include \"sub.lsx\""), ("C:\\theme\\sub.lsx", "#Child \x7b\x7d")]

/-- The locals of the loop that a turn ends with. -/
def LoopStep.acc {α : Type} : LoopStep α → α
  | LoopStep.leave acc _ => acc
  | LoopStep.again acc _ => acc

/-- The state of the parser that a turn ends with. -/
def LoopStep.parser {α : Type} : LoopStep α → Parser
  | LoopStep.leave _ p => p
  | LoopStep.again _ p => p

/-- The diagnostics of `q` are those of `p`, unchanged and in the same order,
followed by zero or more diagnostics of severity `Error`. -/
def Parser.Grows (p q : Parser) : Prop :=
  ∃ extra, q.m_diagnostics = p.m_diagnostics ++ extra ∧
    ∀ d ∈ extra, d.severity = DiagnosticSeverity.Error

/-- A parser of the grammar that only appends diagnostics of severity `Error`. -/
def Parser.GrowsOnly {α : Type} (f : Parser.Sub α) : Prop :=
  ∀ p r, f p = some r → Parser.Grows p r.2

/-- The node `inner` is the node `node` or a node below it: a child of `node`, a
child of a child, and so on. -/
inductive ComponentNode.Within : ComponentNode → ComponentNode → Prop
  | self (node : ComponentNode) : ComponentNode.Within node node
  | under {inner child node : ComponentNode} :
    child ∈ node.children → ComponentNode.Within inner child → ComponentNode.Within inner node

/-- The calls of `AppendClassName` for the names of a list, in order. -/
def addAll (classes names : List WString) : List WString :=
  names.foldl (fun classes name => AppendClassName name classes) classes

/-- The words of a text: the pieces between its white space characters that are
not empty. -/
def classWords (ct : CType) (text : WString) : List WString :=
  (text.splitOnP ct.iswspace).filter (fun word => !word.isEmpty)

/-- The texts in which a value of a `class` attribute names classes: the text of a
String or Identifier value, and the texts of the String and Identifier elements
of an Array value. -/
def classTexts (value : Value) : List WString :=
  if Parser.isText value then [value.text]
  else if value.kind = ValueKind.Array then
    (value.arrayValues.filter Parser.isText).map (fun entry => entry.text)
  else []

/-- The words of the value of an attribute whose name is `class` up to case; no
word for another attribute. -/
def classNamesOf (ct : CType) (attr : Attribute) : List WString :=
  if wcsicmpEqual ct attr.name (wstr "class") then (classTexts attr.value).flatMap (classWords ct)
  else []

/-- The elements of a list in the order of their first appearance: every element
once, where it is first. -/
def firstAppearances : List WString → List WString
  | [] => []
  | name :: rest => name :: (firstAppearances rest).filter (fun other => other ≠ name)

/-- The classes that the attributes of a component declare: the words of the values
of all its `class` attributes, in the order of their first appearance. -/
def declaredClasses (ct : CType) (attributes : List Attribute) : List WString :=
  firstAppearances (attributes.flatMap (classNamesOf ct))

/-- A parser of components all of whose nodes, the node it returns and the nodes
below it, have the property `I`. -/
def Parser.NodesSatisfy (I : ComponentNode → Prop) (f : Parser.Sub ComponentNode) : Prop :=
  ∀ p r, f p = some r → ∀ inner, ComponentNode.Within inner r.1 → I inner

/-- The token of the stream of the document of `p` that is `k` tokens after the
cursor of `p`. -/
def Parser.token (ct : CType) (p : Parser) (k : Nat) : Token :=
  Parser.tokenAt ct p.m_document (p.m_cursor + k)

/-- The state `q` is a valid state of the same document whose cursor is `k` tokens
after the one of `p`, with the same diagnostics. -/
def Parser.Ahead (ct : CType) (p : Parser) (k : Nat) (q : Parser) : Prop :=
  Parser.Valid ct q ∧ q.m_document = p.m_document ∧ q.m_cursor = p.m_cursor + k ∧
    q.m_diagnostics = p.m_diagnostics

/-- The tokens from `k` tokens after the cursor of `p` on are, for the names of the
list one after the other, the four tokens of a component with an empty body:
`#`, an identifier whose lexeme is the name, `{` and `}`. -/
def Parser.emptyComponentsAt (ct : CType) (p : Parser) : Nat → List WString → Prop
  | _, [] => True
  | k, name :: rest =>
    (Parser.token ct p k).type = TokenType.Hash ∧
    (Parser.token ct p (k + 1)).type = TokenType.Identifier ∧
    (Parser.token ct p (k + 1)).lexeme = name ∧
    (Parser.token ct p (k + 2)).type = TokenType.LBrace ∧
    (Parser.token ct p (k + 3)).type = TokenType.RBrace ∧
    Parser.emptyComponentsAt ct p (k + 4) rest

/-- Every result of the parser `f` is a result of the parser `g`. -/
def Parser.Below {α : Type} (f g : Parser.Sub α) : Prop :=
  ∀ p r, f p = some r → g p = some r

/-- The value of an `HRESULT` as a signed 32-bit integer: `S_OK` is `0`, `S_FALSE` is `1`
and `E_FAIL` is `0x80004005` (the header `winerror.h`). -/
def HRESULT.value : HRESULT → Int
  | HRESULT.S_OK => 0
  | HRESULT.S_FALSE => 1
  | HRESULT.E_FAIL => -2147467259

/-- The test `FAILED(hr)` of `winerror.h`: `((HRESULT)(hr)) < 0`. -/
def FAILED (hr : HRESULT) : Bool := decide (hr.value < 0)

/-- The test `SUCCEEDED(hr)` of `winerror.h`: `((HRESULT)(hr)) >= 0`. -/
def SUCCEEDED (hr : HRESULT) : Bool := decide (hr.value ≥ 0)

/-- The line that `ThemeEngineV2::Reload` writes to the log: that the engine is
disabled, that the reload failed with a result, or that it completed with a
number of root nodes and of directives. -/
inductive ReloadLog where
  | disabled
  | failed (hr : HRESULT)
  | completed (nodes directives : Nat)
deriving DecidableEq, Repr

/-- The method `ThemeEngineV2::Reload`: the value returned, the line written to the
log and the engine after the call; `none` when the fuel does not suffice for
`LoadStructure`. -/
def ThemeEngineV2.Reload (ct : CType) (P : Platform) (w : World) (loadFuel parseFuel : Nat)
    (engine : ThemeEngineV2) : Option (HRESULT × ReloadLog × ThemeEngineV2) :=
  if !engine.m_enabled then some (HRESULT.S_FALSE, ReloadLog.disabled, engine)
  else
    match engine.LoadStructure ct P w loadFuel parseFuel with
    | none => none
    | some r =>
      some (r.1,
        if FAILED r.1 then ReloadLog.failed r.1
        else ReloadLog.completed r.2.m_document.rootNodes.length r.2.m_document.directives.length,
        r.2)

/-- The diagnostic that `ReportError(token, message)` appends. -/
def Parser.errorAt (token : Token) (message : WString) : Diagnostic :=
  ⟨DiagnosticSeverity.Error, message, token.location⟩

/-- The state `q` is a valid state of the same document whose cursor is `n` tokens
after the one of `p`, with `n` more diagnostics, one for each of these tokens in
their order: an `Error` with the message `message` at the location of the token. -/
def Parser.Reported (ct : CType) (message : WString) (p : Parser) (n : Nat) (q : Parser) :
    Prop :=
  Parser.Valid ct q ∧ q.m_document = p.m_document ∧ q.m_cursor = p.m_cursor + n ∧
    q.m_diagnostics = p.m_diagnostics ++
      (List.range n).map (fun k => Parser.errorAt (Parser.token ct p k) message)

/-- The token `k` tokens after the cursor of `p` is unexpected at top level: it is
neither `#` nor the `EndOfFile` token. -/
def Parser.strayAtTopLevel (ct : CType) (p : Parser) (k : Nat) : Prop :=
  (Parser.token ct p k).type ≠ TokenType.Hash ∧
    (Parser.token ct p k).type ≠ TokenType.EndOfFile

/-- Used in statements: a state of a lexer over its document: `m_length` is the length of
the content, as the constructor sets it, and the cursor is not beyond it. -/
def Lexer.WellFormed (lx : Lexer) : Prop :=
  lx.m_length = lx.m_document.content.length ∧ lx.m_offset ≤ lx.m_length

/-- Used in statements: the input from the cursor on. -/
def Lexer.rest (lx : Lexer) : WString := lx.m_document.content.drop lx.m_offset

/-- Used in statements: the lexer went from the state `lx` to the state `lx1` over the
text `text`: the same document, and the input at `lx` is `text` followed by
the input at `lx1`. -/
def Lexer.Consumed (lx lx1 : Lexer) (text : WString) : Prop :=
  lx1.m_document = lx.m_document ∧ lx1.m_length = lx.m_length ∧
    lx1.m_offset = lx.m_offset + text.length ∧ lx.rest = text ++ lx1.rest
/-- Used in statements: facts of the C library, in every locale, about the characters
that the lexer tests for: an alphanumeric character is a letter or a digit, a
letter is not a digit, and the characters `"`, `%`, `+`, `-`, `.` and `_` are neither
letters nor digits. -/
def CType.Standard (ct : CType) : Prop :=
  (∀ c, ct.iswalnum c = (ct.iswalpha c || ct.iswdigit c)) ∧
    (∀ c, ct.iswalpha c = true → ct.iswdigit c = false) ∧
    ∀ c, c = 34 ∨ c = 37 ∨ c = 43 ∨ c = 45 ∨ c = 46 ∨ c = 95 →
      ct.iswalpha c = false ∧ ct.iswdigit c = false

/-- Written from the specification of string literals, to be compared with `LexString`:
the text of a literal after its opening `"`, decoded. The result is the decoded
body, the number of characters of the raw text that the literal takes (the closing
`"` included), and whether a closing `"` was met. A `"` closes the literal; a
backslash and the character after it give one character of the body, the one that
`unescape` gives for this character (so a `"` after a backslash does not close the
literal); a backslash at the end of the text is kept; every other character is
kept. -/
def Lexer.decodeLiteral : WString → WString × Nat × Bool
  | [] => ([], 0, false)
  | c :: rest =>
    if c = 34 then ([], 1, true)
    else if c = 92 then
      match rest with
      | [] => ([92], 1, false)
      | escaped :: rest1 =>
        let r := decodeLiteral rest1
        (unescape escaped :: r.1, r.2.1 + 2, r.2.2)
    else
      let r := decodeLiteral rest
      (c :: r.1, r.2.1 + 1, r.2.2)

/-- Written from the specification of the include path syntax, to be compared with
`includePathOf`: the first and the last character of a text are removed when both are
`"` or both are `'`, and the text is left as it is otherwise. A text that is one quote
character has this character as its first and as its last: the result is empty. -/
def stripQuotePair (value : WString) : WString :=
  if (value.head? = some 34 ∧ value.getLast? = some 34) ∨
      (value.head? = some 39 ∧ value.getLast? = some 39) then value.tail.dropLast
  else value

/-- Written from the specification of the include path syntax, to be compared with
`includePathOf`: the text after `#include` is trimmed, one leading `=` is removed
when there is one and the text is trimmed again, and a pair of quotes around the
text is removed. -/
def strippedInclude (ct : CType) (text : WString) : WString :=
  let trimmed := Trim ct text
  stripQuotePair (if trimmed.head? = some 61 then Trim ct trimmed.tail else trimmed)

/-- Used in statements: a text that `SkipWhitespaceAndComments` skips as a whole and
that a `/` can follow: white space characters, line comments, from `//` to the
character before a `\n` and followed by white space that begins with this `\n`, and
block comments, from `/*` to the first `*/`. -/
inductive Lexer.Skipped (ct : CType) : WString → Prop
  | none : Lexer.Skipped ct []
  | space (c : Nat) (rest : WString) :
    ct.iswspace c = true → Lexer.Skipped ct rest → Lexer.Skipped ct (c :: rest)
  | line (text rest : WString) :
    (10 : Nat) ∉ text → Lexer.Skipped ct (10 :: rest) →
    Lexer.Skipped ct (47 :: 47 :: (text ++ 10 :: rest))
  | block (text rest : WString) :
    ¬ [42, 47] <:+: text → Lexer.Skipped ct rest →
    Lexer.Skipped ct (47 :: 42 :: (text ++ 42 :: 47 :: rest))

/-! ## `Parser.cpp` with the references into `m_tokens`

`Parser::LookAhead` returns a `const Token&` into the vector `m_tokens`, and the
callers keep such references in locals (`token`, `next`, `nameToken`, `keyToken`,
`atToken`, ...) across further calls of `LookAhead`. A `push_back` that finds the
vector full moves the tokens to a new buffer and invalidates every reference
into the old one; a read through such a reference has undefined behaviour. The
definitions of this section follow `Parser.cpp` as the definitions of the
namespace `Parser` do, but a reference is the index of the token together with
the number of the buffer it points into, and every read through a reference is
checked against the buffer in use. -/

/-- What the parser uses of `std::vector<Token>` and of the heap behind it; they are
not code of the repository.

* `grow capacity`: the capacity after a `push_back` that finds the vector full,
  with `size() == capacity() == capacity`.
* `freed token`: what a read through an invalidated reference yields, for a
  token that was stored as `token`. The C++ standard leaves it undefined; the
  field makes the runs depend on it. -/
structure TokenVector where
  grow : Nat → Nat
  freed : Token → Token

/-- A token after the move constructor of `Token` has taken its strings: the
members `lexeme` and `location.file` are empty, the other members are as they
were. -/
def Token.movedFrom (token : Token) : Token :=
  { token with lexeme := [], location := { token.location with file := [] } }

/-- The vector of libstdc++, whose capacity doubles, on a heap that leaves a freed
buffer as the move of the tokens left it. -/
def TokenVector.libstdcxx : TokenVector :=
  ⟨fun capacity => if capacity = 0 then 1 else 2 * capacity, Token.movedFrom⟩

/-- The vector of the Microsoft STL, whose capacity grows by a half, on a heap that
leaves a freed buffer as the move of the tokens left it. -/
def TokenVector.msvc : TokenVector :=
  ⟨fun capacity => max (capacity + capacity / 2) (capacity + 1), Token.movedFrom⟩

/-- The vector of libstdc++ on a heap that clears a buffer when it is freed: a token
read from it has the type `EndOfFile`, the enumerator `0`, and empty strings. -/
def TokenVector.cleared : TokenVector :=
  ⟨fun capacity => if capacity = 0 then 1 else 2 * capacity, fun _ => Parser.noToken⟩

/-- A `const Token&` into `m_tokens`: the index of the token, and the number of the
buffer of `m_tokens` that the reference points into. -/
structure TokenRef where
  index : Nat
  buffer : Nat
deriving DecidableEq, Repr

/-- A read through an invalidated reference: the line of `Parser.cpp` that reads, and
the index of the token that the reference was taken of. -/
structure StaleRead where
  line : Nat
  index : Nat
deriving DecidableEq, Repr

/-- The parser together with the state of the vector `m_tokens`: its capacity, the
number of the buffer in use (the number of reallocations so far), and the reads
through invalidated references so far, in order. The last two are ghost state. -/
structure RefParser where
  parser : Parser
  capacity : Nat
  buffer : Nat
  stale : List StaleRead
deriving Repr

/-- One turn of a `while` loop of the parser, as `LoopStep`. -/
inductive RefStep (α : Type) where
  | leave (acc : α) (t : RefParser)
  | again (acc : α) (t : RefParser)

namespace RefParser

/-- The constructor `Parser::Parser`: `m_tokens` is empty and has no buffer. -/
def new (document : SourceDocument) (diagnostics : List Diagnostic) : RefParser :=
  ⟨Parser.new document diagnostics, 0, 0, []⟩

/-- The call `m_tokens.push_back(m_lexer.NextToken())`: when the vector is full the
tokens move to a new buffer. -/
def push_back (v : TokenVector) (ct : CType) (t : RefParser) : RefParser :=
  let next := Lexer.NextToken ct t.parser.m_lexer
  let p : Parser := { t.parser with m_tokens := t.parser.m_tokens ++ [next.1], m_lexer := next.2 }
  if t.parser.m_tokens.length = t.capacity then
    { t with parser := p, capacity := v.grow t.capacity, buffer := t.buffer + 1 }
  else { t with parser := p }

/-- The loop of `LookAhead`, for the `count` tokens that are missing in `m_tokens`. -/
def fill (v : TokenVector) (ct : CType) : Nat → RefParser → RefParser
  | 0, t => t
  | count + 1, t => fill v ct count (push_back v ct t)

/-- The method `Parser::LookAhead`: the reference points into the buffer in use when
the method returns. -/
def LookAhead (v : TokenVector) (ct : CType) (t : RefParser) (distance : Nat) :
    TokenRef × RefParser :=
  let t1 := fill v ct (t.parser.m_cursor + distance + 1 - t.parser.m_tokens.length) t
  (⟨t.parser.m_cursor + distance, t1.buffer⟩, t1)

/-- A read of members of the token behind `ref` at the line `line` of `Parser.cpp`.
When `ref` points into the buffer in use the token is the token of `m_tokens`;
otherwise the read is recorded and yields what the freed buffer holds. -/
def read (v : TokenVector) (line : Nat) (ref : TokenRef) (t : RefParser) : Token × RefParser :=
  let token := t.parser.m_tokens.getD ref.index Parser.noToken
  if ref.buffer = t.buffer then (token, t)
  else (v.freed token, { t with stale := t.stale ++ [⟨line, ref.index⟩] })

def IsAtEnd (v : TokenVector) (ct : CType) (t : RefParser) : Bool × RefParser :=
  let r := LookAhead v ct t 0
  let token := read v 168 r.1 r.2
  (decide (token.1.type = TokenType.EndOfFile), token.2)

def Advance (v : TokenVector) (ct : CType) (t : RefParser) : RefParser :=
  let r := IsAtEnd v ct t
  if r.1 then r.2 else { r.2 with parser := { r.2.parser with m_cursor := r.2.parser.m_cursor + 1 } }

def Check (v : TokenVector) (ct : CType) (t : RefParser) (type : TokenType) : Bool × RefParser :=
  let r := IsAtEnd v ct t
  if r.1 then (false, r.2)
  else
    let c := LookAhead v ct r.2 0
    let token := read v 144 c.1 c.2
    (decide (token.1.type = type), token.2)

def Match (v : TokenVector) (ct : CType) (t : RefParser) (type : TokenType) : Bool × RefParser :=
  let r := Check v ct t type
  if r.1 then (true, Advance v ct r.2) else (false, r.2)

/-- The method `Parser::ReportError`, called at the line `line` with the reference
`token`; it reads `token.location`. -/
def ReportError (v : TokenVector) (line : Nat) (t : RefParser) (token : TokenRef)
    (message : WString) : RefParser :=
  let r := read v line token t
  { r.2 with parser := Parser.ReportError r.2.parser r.1 message }

def Expect (v : TokenVector) (ct : CType) (t : RefParser) (type : TokenType) (message : WString) :
    Bool × RefParser :=
  let r := Match v ct t type
  if r.1 then (true, r.2)
  else
    let c := LookAhead v ct r.2 0
    (false, ReportError v 151 c.2 c.1 message)

/-- A `while` loop, as `Parser.runLoop`. -/
def runLoop {α : Type} (body : α → RefParser → Option (RefStep α)) :
    Nat → α → RefParser → Option (α × RefParser)
  | 0, _, _ => none
  | fuel + 1, acc, t =>
    match body acc t with
    | none => none
    | some (RefStep.leave acc1 t1) => some (acc1, t1)
    | some (RefStep.again acc1 t1) => runLoop body fuel acc1 t1

/-- One turn of the loop of `Synchronize`. -/
def synchronizeStep (v : TokenVector) (ct : CType) (_ : Unit) (t : RefParser) :
    Option (RefStep Unit) :=
  let r := IsAtEnd v ct t
  if r.1 then some (RefStep.leave () r.2)
  else
    let c := LookAhead v ct r.2 0
    let token := read v 448 c.1 c.2
    if token.1.type = TokenType.Hash ∨ token.1.type = TokenType.RBrace then
      some (RefStep.leave () token.2)
    else some (RefStep.again () (Advance v ct token.2))

/-- The method `Parser::Synchronize`. -/
def Synchronize (v : TokenVector) (ct : CType) (fuel : Nat) (t : RefParser) : Option RefParser :=
  (runLoop (synchronizeStep v ct) fuel () t).map Prod.snd

/-- One turn of the loop of `ParseDirective`. -/
def directiveStep (v : TokenVector) (ct : CType) (lineEnd : Nat) (_ : Unit) (t : RefParser) :
    Option (RefStep Unit) :=
  let r := IsAtEnd v ct t
  if r.1 then some (RefStep.leave () r.2)
  else
    let c := LookAhead v ct r.2 0
    let token := read v 196 c.1 c.2
    if token.1.startOffset < lineEnd then some (RefStep.again () (Advance v ct token.2))
    else some (RefStep.leave () token.2)

/-- The method `Parser::ParseDirective`. The references `hashToken` and `nameToken`
are read after `Synchronize`, at line 181, or after `Expect`, at lines 186 to
190. -/
def ParseDirective (v : TokenVector) (ct : CType) (fuel : Nat) (t : RefParser) :
    Option (Directive × RefParser) :=
  let hashToken := LookAhead v ct t 0
  let m := Match v ct hashToken.2 TokenType.Hash
  let nameToken := LookAhead v ct m.2 0
  let e := Expect v ct nameToken.2 TokenType.Identifier (wstr "Expected directive identifier.")
  if e.1 = false then
    (Synchronize v ct fuel e.2).map fun t1 =>
      let hash := read v 181 hashToken.1 t1
      ({ Directive.empty with location := hash.1.location }, hash.2)
  else
    let name := read v 186 nameToken.1 e.2
    let hash := read v 187 hashToken.1 name.2
    let directive : Directive :=
      { name := name.1.lexeme
        location := hash.1.location
        argument := Parser.ExtractDirectiveArgument ct hash.2.parser hash.1 name.1 }
    let lineEnd := findLineEnd hash.2.parser.m_document.content hash.1.startOffset
    (runLoop (directiveStep v ct lineEnd) fuel () hash.2).map fun r => (directive, r.2)

/-- The method `Parser::ParseReference`. The reference `atToken` is read at lines 437
and 440, after the call of `LookAhead` for `identifierToken`. -/
def ParseReference (v : TokenVector) (ct : CType) (t : RefParser) : Value × RefParser :=
  let atToken := LookAhead v ct t 0
  let m := Match v ct atToken.2 TokenType.At
  let identifierToken := LookAhead v ct m.2 0
  let m1 := Match v ct identifierToken.2 TokenType.Identifier
  if m1.1 = false then
    let reported := ReportError v 436 m1.2 identifierToken.1 (wstr "Expected identifier after '@'.")
    let origin := read v 437 atToken.1 reported
    (Value.CreateReference [] origin.1.location, origin.2)
  else
    let identifier := read v 440 identifierToken.1 m1.2
    let origin := read v 440 atToken.1 identifier.2
    (Value.CreateReference identifier.1.lexeme origin.1.location, origin.2)

/-- A parser of the grammar as a function of the state, as `Parser.Sub`. -/
abbrev Sub (α : Type) := RefParser → Option (α × RefParser)

/-- The statement `if (Check(TokenType::Comma)) { Advance(); }`. -/
def skipComma (v : TokenVector) (ct : CType) (t : RefParser) : RefParser :=
  let c := Check v ct t TokenType.Comma
  if c.1 then Advance v ct c.2 else c.2

/-- One turn of the loop of `ParseObjectLiteral`; `pv` is `ParseValue`. The reference
`keyToken` is read at line 390, after `Expect` and `ParseValue`. -/
def objectStep (v : TokenVector) (ct : CType) (pv : Sub Value) (fuel : Nat) (object : Value)
    (t : RefParser) : Option (RefStep Value) :=
  let r := IsAtEnd v ct t
  if r.1 then some (RefStep.leave object r.2)
  else
    let c := Check v ct r.2 TokenType.RBrace
    if c.1 then some (RefStep.leave object (Advance v ct c.2))
    else
      let keyToken := LookAhead v ct c.2 0
      let m := Match v ct keyToken.2 TokenType.Identifier
      if m.1 = false then
        (Synchronize v ct fuel
            (ReportError v 378 m.2 keyToken.1 (wstr "Expected identifier in object literal."))).map
          fun t1 => RefStep.leave object t1
      else
        let e := Expect v ct m.2 TokenType.Equals (wstr "Expected '=' in object literal.")
        if e.1 = false then (Synchronize v ct fuel e.2).map fun t1 => RefStep.leave object t1
        else
          (pv e.2).map fun r1 =>
            let key := read v 390 keyToken.1 r1.2
            RefStep.again
              { object with
                objectProperties :=
                  object.objectProperties ++ [⟨key.1.lexeme, r1.1, key.1.location⟩] }
              (skipComma v ct key.2)

/-- The method `Parser::ParseObjectLiteral`; `pv` is `ParseValue`. -/
def ParseObjectLiteral (v : TokenVector) (ct : CType) (pv : Sub Value) (fuel : Nat)
    (t : RefParser) : Option (Value × RefParser) :=
  let openToken := LookAhead v ct t 0
  let m := Match v ct openToken.2 TokenType.LBrace
  let origin := read v 365 openToken.1 m.2
  runLoop (objectStep v ct pv fuel) fuel (Value.CreateObject origin.1.location) origin.2

/-- One turn of the loop of `ParseArrayLiteral`; `pv` is `ParseValue`. -/
def arrayStep (v : TokenVector) (ct : CType) (pv : Sub Value) (array : Value) (t : RefParser) :
    Option (RefStep Value) :=
  let r := IsAtEnd v ct t
  if r.1 then some (RefStep.leave array r.2)
  else
    let c := Check v ct r.2 TokenType.RBracket
    if c.1 then some (RefStep.leave array (Advance v ct c.2))
    else
      (pv c.2).map fun r1 =>
        RefStep.again { array with arrayValues := array.arrayValues ++ [r1.1] }
          (skipComma v ct r1.2)

/-- The method `Parser::ParseArrayLiteral`; `pv` is `ParseValue`. -/
def ParseArrayLiteral (v : TokenVector) (ct : CType) (pv : Sub Value) (fuel : Nat)
    (t : RefParser) : Option (Value × RefParser) :=
  let openToken := LookAhead v ct t 0
  let m := Match v ct openToken.2 TokenType.LBracket
  let origin := read v 406 openToken.1 m.2
  runLoop (arrayStep v ct pv) fuel (Value.CreateArray origin.1.location) origin.2

/-- The method `Parser::ParseValue`. The reference `token` is read at line 318 and,
after `Advance()`, which pushes no token, at the `return` of its case. -/
def ParseValue (v : TokenVector) (ct : CType) : Nat → Sub Value
  | 0, _ => none
  | fuel + 1, t =>
    let token := LookAhead v ct t 0
    let head := read v 318 token.1 token.2
    if head.1.type = TokenType.String then
      let r := read v 322 token.1 (Advance v ct head.2)
      some (Value.CreateString r.1.lexeme r.1.location, r.2)
    else if head.1.type = TokenType.Number then
      let n := read v 326 token.1 head.2
      let r := read v 328 token.1 (Advance v ct n.2)
      some (Value.CreateNumber r.1.lexeme (ct.wcstod (c_str n.1.lexeme)) r.1.location, r.2)
    else if head.1.type = TokenType.Identifier then
      let n := read v 332 token.1 head.2
      if wcsicmpEqual ct n.1.lexeme (wstr "true") then
        let r := read v 335 token.1 (Advance v ct n.2)
        some (Value.CreateBoolean true r.1.location, r.2)
      else
        let n1 := read v 338 token.1 n.2
        if wcsicmpEqual ct n1.1.lexeme (wstr "false") then
          let r := read v 341 token.1 (Advance v ct n1.2)
          some (Value.CreateBoolean false r.1.location, r.2)
        else
          let r := read v 345 token.1 (Advance v ct n1.2)
          some (Value.CreateIdentifier r.1.lexeme r.1.location, r.2)
    else if head.1.type = TokenType.LBrace then
      ParseObjectLiteral v ct (ParseValue v ct fuel) fuel head.2
    else if head.1.type = TokenType.LBracket then
      ParseArrayLiteral v ct (ParseValue v ct fuel) fuel head.2
    else if head.1.type = TokenType.At then some (ParseReference v ct head.2)
    else
      some (Value.null,
        Advance v ct
          (ReportError v 354 head.2 token.1 (wstr "Unexpected token in value expression.")))

/-- The method `Parser::ParseAttribute`; `pv` is `ParseValue`. -/
def ParseAttribute (v : TokenVector) (ct : CType) (pv : Sub Value) (t : RefParser) :
    Option (Attribute × RefParser) :=
  let nameToken := LookAhead v ct t 0
  let m := Match v ct nameToken.2 TokenType.Identifier
  let name := read v 296 nameToken.1 m.2
  let attr : Attribute :=
    { Attribute.empty with name := name.1.lexeme, location := name.1.location }
  let e := Expect v ct name.2 TokenType.Equals (wstr "Expected '=' after attribute name.")
  if e.1 = false then some ({ attr with value := Value.null }, e.2)
  else (pv e.2).map fun r => ({ attr with value := r.1 }, skipComma v ct r.2)

/-- The test at `#` in the loops of `Parse` (line 88) and of `ParseComponent` (line
240): `next.type == TokenType::Identifier && third.type == TokenType::LBrace`. The
reference `next` is read after the call of `LookAhead` for `third`; `third` is
read only when the first test holds. -/
def startsComponent (v : TokenVector) (ct : CType) (line : Nat) (t : RefParser) :
    Bool × RefParser :=
  let next := LookAhead v ct t 1
  let third := LookAhead v ct next.2 2
  let n := read v line next.1 third.2
  if n.1.type = TokenType.Identifier then
    let r := read v line third.1 n.2
    (decide (r.1.type = TokenType.LBrace), r.2)
  else (false, n.2)

/-- One turn of the loop of `ParseComponent`; `pc` is `ParseComponent` and `pv` is
`ParseValue`. The reference `token` is read at lines 230 and 236, at line 247
after the calls of `LookAhead` of the test at `#`, and at line 283 after the
call `LookAhead(1)` of line 247. -/
def componentStep (v : TokenVector) (ct : CType) (pc : Sub ComponentNode) (pv : Sub Value)
    (node : ComponentNode) (t : RefParser) : Option (RefStep ComponentNode) :=
  let r := IsAtEnd v ct t
  if r.1 then some (RefStep.leave node r.2)
  else
    let token := LookAhead v ct r.2 0
    let head := read v 230 token.1 token.2
    if head.1.type = TokenType.RBrace then some (RefStep.leave node (Advance v ct head.2))
    else
      let hash := read v 236 token.1 head.2
      let child : Bool × RefParser :=
        if hash.1.type = TokenType.Hash then startsComponent v ct 240 hash.2 else (false, hash.2)
      if child.1 then
        (pc child.2).map fun r1 =>
          RefStep.again { node with children := node.children ++ [r1.1] } r1.2
      else
        let again := read v 247 token.1 child.2
        let named : Bool × RefParser :=
          if again.1.type = TokenType.Identifier then
            let next := LookAhead v ct again.2 1
            let n := read v 247 next.1 next.2
            (decide (n.1.type = TokenType.Equals), n.2)
          else (false, again.2)
        if named.1 then
          (ParseAttribute v ct pv named.2).map fun r1 =>
            RefStep.again (Parser.applyAttribute ct node r1.1) r1.2
        else
          some (RefStep.again node
            (Advance v ct
              (ReportError v 283 named.2 token.1
                (wstr "Unexpected token inside component body."))))

/-- The method `Parser::ParseComponent`; `pv` is `ParseValue`. The reference
`nameToken` is read at line 212 after `Synchronize`, and at lines 217 and 218
after `Expect`. -/
def ParseComponent (v : TokenVector) (ct : CType) (pv : Sub Value) : Nat → Sub ComponentNode
  | 0, _ => none
  | fuel + 1, t =>
    let m := Match v ct t TokenType.Hash
    let nameToken := LookAhead v ct m.2 0
    let e := Expect v ct nameToken.2 TokenType.Identifier
      (wstr "Expected component name after '#'.")
    if e.1 = false then
      (Synchronize v ct fuel e.2).map fun t1 =>
        let name := read v 212 nameToken.1 t1
        ({ ComponentNode.empty with location := name.1.location }, name.2)
    else
      let name := read v 217 nameToken.1 e.2
      let node : ComponentNode :=
        { ComponentNode.empty with component := name.1.lexeme, location := name.1.location }
      let e1 := Expect v ct name.2 TokenType.LBrace
        (wstr "Expected '\x7b' to start component body.")
      if e1.1 = false then (Synchronize v ct fuel e1.2).map fun t1 => (node, t1)
      else runLoop (componentStep v ct (ParseComponent v ct pv fuel) pv) fuel node e1.2

/-- One turn of the loop of `Parse`. -/
def parseStep (v : TokenVector) (ct : CType) (fuel : Nat) (document : ThemeDocument)
    (t : RefParser) : Option (RefStep ThemeDocument) :=
  let r := IsAtEnd v ct t
  if r.1 then some (RefStep.leave document r.2)
  else
    let token := LookAhead v ct r.2 0
    let head := read v 83 token.1 token.2
    if head.1.type = TokenType.Hash then
      let child := startsComponent v ct 88 head.2
      if child.1 then
        (ParseComponent v ct (ParseValue v ct fuel) fuel child.2).map fun r1 =>
          RefStep.again { document with rootNodes := document.rootNodes ++ [r1.1] } r1.2
      else
        (ParseDirective v ct fuel child.2).map fun r1 =>
          RefStep.again { document with directives := document.directives ++ [r1.1] } r1.2
    else
      let tail := read v 97 token.1 head.2
      if tail.1.type = TokenType.EndOfFile then some (RefStep.leave document tail.2)
      else
        some (RefStep.again document
          (Advance v ct (ReportError v 103 tail.2 token.1 (wstr "Unexpected token at top-level."))))

/-- The method `Parser::Parse`: the document and the parser after the call, with the
reads through invalidated references that the run has made. The behaviour of
the source is defined when there is none; from the first of them on, the run
depends on what the freed buffers hold, which is the field `freed`. The result
is `none` when `fuel` is too small for the input. -/
def Parse (v : TokenVector) (ct : CType) (fuel : Nat) (t : RefParser) :
    Option (ThemeDocument × RefParser) :=
  runLoop (parseStep v ct fuel) fuel ThemeDocument.empty t

end RefParser

/-- The token `k` tokens after the cursor of `p` is unexpected in a component body
whatever a read through an invalidated reference yields: it is neither the
`EndOfFile` token nor `}`; when it is `#`, the token after it is not `=` and the
second token after it is not `{`; when it is an identifier, the token after it is
not `=`. The tests on the tokens after it are those that `ParseComponent` makes
on references that `LookAhead` has just returned (`third.type` at line 240,
`LookAhead(1).type` at line 247). -/
def Parser.surelyStrayInBody (ct : CType) (p : Parser) (k : Nat) : Prop :=
  (Parser.token ct p k).type ≠ TokenType.EndOfFile ∧
    (Parser.token ct p k).type ≠ TokenType.RBrace ∧
    ((Parser.token ct p k).type = TokenType.Hash →
      (Parser.token ct p (k + 1)).type ≠ TokenType.Equals ∧
        (Parser.token ct p (k + 2)).type ≠ TokenType.LBrace) ∧
    ((Parser.token ct p k).type = TokenType.Identifier →
      (Parser.token ct p (k + 1)).type ≠ TokenType.Equals)

/-- The state `u` is a valid state of the same document whose cursor is `n` tokens
after the one of `t`, with `n` more diagnostics, one for each of these tokens in
their order: an `Error` with the message `Unexpected token inside component body.`.
Its location is the location of the token, or what the freed buffer holds of
it when the read of line 283 was through an invalidated reference, which is then
among the reads that `u` has recorded since `t`; it is the location of the
token when the token is neither `#` nor an identifier. -/
def RefParser.ReportedInBody (v : TokenVector) (ct : CType) (t : RefParser) (n : Nat)
    (u : RefParser) : Prop :=
  Parser.Valid ct u.parser ∧ u.parser.m_document = t.parser.m_document ∧
    u.parser.m_cursor = t.parser.m_cursor + n ∧
    ∃ (added : List Diagnostic) (more : List StaleRead),
      u.stale = t.stale ++ more ∧ u.parser.m_diagnostics = t.parser.m_diagnostics ++ added ∧
      added.length = n ∧
      ∀ k d, added[k]? = some d →
        d.severity = DiagnosticSeverity.Error ∧
        d.message = wstr "Unexpected token inside component body." ∧
        (d.location = (Parser.token ct t.parser k).location ∨
          (d.location = (v.freed (Parser.token ct t.parser k)).location ∧
            (⟨283, t.parser.m_cursor + k⟩ : StaleRead) ∈ more)) ∧
        ((Parser.token ct t.parser k).type ≠ TokenType.Hash →
          (Parser.token ct t.parser k).type ≠ TokenType.Identifier →
          d.location = (Parser.token ct t.parser k).location)

end themev2

/-! # Theorems -/

namespace themev2

namespace Lexer

/-! ## The lexer only moves forward -/

theorem Reach.refl (lx : Lexer) : Reach lx lx := ⟨rfl, rfl, le_refl _, id⟩

theorem Reach.trans {a b c : Lexer} (h₁ : Reach a b) (h₂ : Reach b c) : Reach a c := by
  obtain ⟨d₁, l₁, o₁, b₁⟩ := h₁
  obtain ⟨d₂, l₂, o₂, b₂⟩ := h₂
  refine ⟨d₂.trans d₁, l₂.trans l₁, le_trans o₁ o₂, fun h => ?_⟩
  have := b₂ (l₁ ▸ b₁ h)
  rwa [l₁] at this

theorem isAtEnd_false_iff (lx : Lexer) : lx.IsAtEnd = false ↔ lx.m_offset < lx.m_length := by
  simp [IsAtEnd]

theorem isAtEnd_true_iff (lx : Lexer) : lx.IsAtEnd = true ↔ lx.m_length ≤ lx.m_offset := by
  simp [IsAtEnd]

theorem Advance_of_not_atEnd (lx : Lexer) (h : lx.IsAtEnd = false) :
    lx.Advance.2 = { lx with m_offset := lx.m_offset + 1 } := by
  simp [Advance, h]

theorem Advance_of_atEnd (lx : Lexer) (h : lx.IsAtEnd = true) : lx.Advance.2 = lx := by
  simp [Advance, h]

theorem reach_Advance (lx : Lexer) : Reach lx lx.Advance.2 := by
  cases h : lx.IsAtEnd
  · rw [Advance_of_not_atEnd lx h]
    have := (isAtEnd_false_iff lx).1 h
    exact ⟨rfl, rfl, Nat.le_succ _, fun _ => this⟩
  · rw [Advance_of_atEnd lx h]
    exact Reach.refl lx

theorem Advance_offset (lx : Lexer) (h : lx.IsAtEnd = false) :
    lx.Advance.2.m_offset = lx.m_offset + 1 := by
  rw [Advance_of_not_atEnd lx h]

theorem reach_advanceWhile (p : Nat → Bool) (fuel : Nat) (lx : Lexer) :
    Reach lx (advanceWhile p fuel lx) := by
  induction fuel generalizing lx with
  | zero => exact Reach.refl lx
  | succ n ih =>
    unfold advanceWhile
    split
    · exact (reach_Advance lx).trans (ih _)
    · exact Reach.refl lx

theorem reach_advanceWhilePeek (p : Nat → Bool) (fuel : Nat) (lx : Lexer) :
    Reach lx (advanceWhilePeek p fuel lx) := by
  induction fuel generalizing lx with
  | zero => exact Reach.refl lx
  | succ n ih =>
    unfold advanceWhilePeek
    split
    · exact (reach_Advance lx).trans (ih _)
    · exact Reach.refl lx

theorem reach_skipBlockComment (fuel : Nat) (lx : Lexer) :
    Reach lx (skipBlockComment fuel lx) := by
  induction fuel generalizing lx with
  | zero => exact Reach.refl lx
  | succ n ih =>
    unfold skipBlockComment
    split
    · exact Reach.refl lx
    · split
      · exact (reach_Advance lx).trans (reach_Advance _)
      · exact (reach_Advance lx).trans (ih _)

theorem reach_skipLoop (ct : CType) (fuel : Nat) (lx : Lexer) (advanced : Bool) :
    Reach lx (skipLoop ct fuel lx advanced) := by
  induction fuel generalizing lx advanced with
  | zero => exact Reach.refl lx
  | succ n ih =>
    unfold skipLoop
    have h1 := reach_advanceWhile ct.iswspace lx.remaining lx
    split
    · dsimp only
      split
      · exact h1
      · split
        · refine h1.trans (((reach_Advance _).trans (reach_Advance _)).trans ?_)
          exact (reach_advanceWhile _ _ _).trans (ih _ _)
        · split
          · refine h1.trans (((reach_Advance _).trans (reach_Advance _)).trans ?_)
            exact (reach_skipBlockComment _ _).trans (ih _ _)
          · exact h1.trans (ih _ _)
    · exact Reach.refl lx

theorem reach_SkipWhitespaceAndComments (ct : CType) (lx : Lexer) :
    Reach lx (SkipWhitespaceAndComments ct lx) :=
  reach_skipLoop ct _ lx true

theorem reach_stringLoop (fuel : Nat) (lx : Lexer) (value : WString) :
    Reach lx (stringLoop fuel lx value).1 := by
  induction fuel generalizing lx value with
  | zero => exact Reach.refl lx
  | succ n ih =>
    unfold stringLoop
    split
    · exact Reach.refl lx
    · dsimp only
      split
      · exact reach_Advance lx
      · split
        · exact ((reach_Advance lx).trans (reach_Advance _)).trans (ih _ _)
        · exact (reach_Advance lx).trans (ih _ _)

/-! ## The fuel passed to the loops of the lexer is enough -/

theorem remaining_Advance (lx : Lexer) (h : lx.IsAtEnd = false) :
    lx.Advance.2.remaining + 1 = lx.remaining := by
  have := (isAtEnd_false_iff lx).1 h
  rw [Advance_of_not_atEnd lx h]
  simp only [remaining]
  omega

theorem remaining_eq_zero_iff (lx : Lexer) : lx.remaining = 0 ↔ lx.IsAtEnd = true := by
  simp only [remaining, isAtEnd_true_iff]
  omega

theorem remaining_le_of_reach {a b : Lexer} (h : Reach a b) : b.remaining ≤ a.remaining := by
  obtain ⟨_, l, o, _⟩ := h
  simp only [remaining, l]
  omega

theorem remaining_lt_of_reach {a b : Lexer} (h : Reach a b) (hne : b.m_offset ≠ a.m_offset)
    (hb : b.IsAtEnd = false) : b.remaining + 1 ≤ a.remaining := by
  obtain ⟨_, l, o, _⟩ := h
  have := (isAtEnd_false_iff b).1 hb
  simp only [remaining, l] at this ⊢
  omega

theorem Peek_of_atEnd (lx : Lexer) (h : lx.IsAtEnd = true) : lx.Peek = 0 := by
  simp [Peek, h]

/-- The loop `while (!IsAtEnd() && p(Peek())) Advance();` gives the same state for
every fuel that is at least the number of characters left. -/
theorem advanceWhile_fuel (p : Nat → Bool) (n m : Nat) (lx : Lexer)
    (hn : lx.remaining ≤ n) (hm : lx.remaining ≤ m) :
    advanceWhile p n lx = advanceWhile p m lx := by
  induction n generalizing lx m with
  | zero =>
    have hend : lx.IsAtEnd = true := (remaining_eq_zero_iff lx).1 (Nat.le_zero.1 hn)
    cases m with
    | zero => rfl
    | succ m => simp [advanceWhile, hend]
  | succ n ih =>
    cases hend : lx.IsAtEnd with
    | true =>
      cases m with
      | zero => simp [advanceWhile, hend]
      | succ m => simp [advanceWhile, hend]
    | false =>
      have hr := remaining_Advance lx hend
      cases m with
      | zero => omega
      | succ m =>
        simp only [advanceWhile, hend]
        split
        · apply ih <;> omega
        · rfl

/-- The loop `while (p(Peek())) Advance();` gives the same state for every fuel that
is at least the number of characters left, because `p` rejects the `0` that
`Peek()` returns at the end of the input. -/
theorem advanceWhilePeek_fuel (p : Nat → Bool) (hp : p 0 = false) (n m : Nat) (lx : Lexer)
    (hn : lx.remaining ≤ n) (hm : lx.remaining ≤ m) :
    advanceWhilePeek p n lx = advanceWhilePeek p m lx := by
  induction n generalizing lx m with
  | zero =>
    have hend : lx.IsAtEnd = true := (remaining_eq_zero_iff lx).1 (Nat.le_zero.1 hn)
    cases m with
    | zero => rfl
    | succ m => simp [advanceWhilePeek, Peek_of_atEnd lx hend, hp]
  | succ n ih =>
    cases hend : lx.IsAtEnd with
    | true =>
      cases m with
      | zero => simp [advanceWhilePeek, Peek_of_atEnd lx hend, hp]
      | succ m => simp [advanceWhilePeek, Peek_of_atEnd lx hend, hp]
    | false =>
      have hr := remaining_Advance lx hend
      cases m with
      | zero => omega
      | succ m =>
        simp only [advanceWhilePeek]
        split
        · apply ih <;> omega
        · rfl

theorem skipBlockComment_fuel (n m : Nat) (lx : Lexer)
    (hn : lx.remaining ≤ n) (hm : lx.remaining ≤ m) :
    skipBlockComment n lx = skipBlockComment m lx := by
  induction n generalizing lx m with
  | zero =>
    have hend : lx.IsAtEnd = true := (remaining_eq_zero_iff lx).1 (Nat.le_zero.1 hn)
    cases m with
    | zero => rfl
    | succ m => simp [skipBlockComment, hend]
  | succ n ih =>
    cases hend : lx.IsAtEnd with
    | true =>
      cases m with
      | zero => simp [skipBlockComment, hend]
      | succ m => simp [skipBlockComment, hend]
    | false =>
      have hr := remaining_Advance lx hend
      cases m with
      | zero => omega
      | succ m =>
        simp only [skipBlockComment, hend, Bool.false_eq_true, if_false]
        split
        · rfl
        · apply ih <;> omega

theorem stringLoop_fuel (n m : Nat) (lx : Lexer) (value : WString)
    (hn : lx.remaining ≤ n) (hm : lx.remaining ≤ m) :
    stringLoop n lx value = stringLoop m lx value := by
  induction n generalizing lx m value with
  | zero =>
    have hend : lx.IsAtEnd = true := (remaining_eq_zero_iff lx).1 (Nat.le_zero.1 hn)
    cases m with
    | zero => rfl
    | succ m => simp [stringLoop, hend]
  | succ n ih =>
    cases hend : lx.IsAtEnd with
    | true =>
      cases m with
      | zero => simp [stringLoop, hend]
      | succ m => simp [stringLoop, hend]
    | false =>
      have hr := remaining_Advance lx hend
      have hr2 := remaining_le_of_reach (reach_Advance lx.Advance.2)
      cases m with
      | zero => omega
      | succ m =>
        simp only [stringLoop, hend, Bool.false_eq_true, if_false]
        split
        · rfl
        · split
          · apply ih <;> omega
          · apply ih <;> omega

theorem skipLoop_not_advanced (ct : CType) (n : Nat) (lx : Lexer) :
    skipLoop ct n lx false = lx := by
  cases n <;> simp [skipLoop]

/-- The loop of `SkipWhitespaceAndComments` gives the same state for every fuel
that is at least two more than the number of characters left. -/
theorem skipLoop_fuel (ct : CType) (n m : Nat) (lx : Lexer)
    (hn : lx.remaining + 2 ≤ n) (hm : lx.remaining + 2 ≤ m) :
    skipLoop ct n lx true = skipLoop ct m lx true := by
  induction n generalizing lx m with
  | zero => omega
  | succ n ih =>
    cases m with
    | zero => omega
    | succ m =>
      cases hend : lx.IsAtEnd with
      | true => simp [skipLoop, hend]
      | false =>
        simp only [skipLoop, hend, Bool.not_false, Bool.and_self, if_true]
        have h1 := reach_advanceWhile ct.iswspace lx.remaining lx
        have hr1 := remaining_le_of_reach h1
        split
        · rfl
        · rename_i hend1
          have hend1 : (advanceWhile ct.iswspace lx.remaining lx).IsAtEnd = false := by
            simpa using hend1
          have hr2 := remaining_Advance _ hend1
          have hr3 := remaining_le_of_reach
            (reach_Advance (advanceWhile ct.iswspace lx.remaining lx).Advance.2)
          split
          · have := remaining_le_of_reach (reach_advanceWhile (fun c => c != 10)
              (advanceWhile ct.iswspace lx.remaining lx).Advance.2.Advance.2.remaining
              (advanceWhile ct.iswspace lx.remaining lx).Advance.2.Advance.2)
            apply ih <;> omega
          · split
            · have := remaining_le_of_reach (reach_skipBlockComment
                (advanceWhile ct.iswspace lx.remaining lx).Advance.2.Advance.2.remaining
                (advanceWhile ct.iswspace lx.remaining lx).Advance.2.Advance.2)
              apply ih <;> omega
            · by_cases hadv : (advanceWhile ct.iswspace lx.remaining lx).m_offset = lx.m_offset
              · simp [hadv, skipLoop_not_advanced]
              · simp only [ne_eq, hadv, not_false_eq_true, decide_True]
                have := remaining_lt_of_reach h1 hadv hend1
                apply ih <;> omega

/-! ## Every call of `NextToken` before the end of the input moves the cursor -/

@[simp] theorem MakeToken_type (lx : Lexer) (t : TokenType) (s l : Nat) (x : WString) :
    (lx.MakeToken t s l x).type = t := rfl

@[simp] theorem MakeToken_startOffset (lx : Lexer) (t : TokenType) (s l : Nat) (x : WString) :
    (lx.MakeToken t s l x).startOffset = s := rfl

@[simp] theorem MakeToken_length (lx : Lexer) (t : TokenType) (s l : Nat) (x : WString) :
    (lx.MakeToken t s l x).length = l := rfl

@[simp] theorem MakeToken_lexeme (lx : Lexer) (t : TokenType) (s l : Nat) (x : WString) :
    (lx.MakeToken t s l x).lexeme = x := rfl

@[simp] theorem LexPunctuation_type (lx : Lexer) (t : TokenType) (s l : Nat) :
    (lx.LexPunctuation t s l).type = t := rfl

@[simp] theorem LexPunctuation_startOffset (lx : Lexer) (t : TokenType) (s l : Nat) :
    (lx.LexPunctuation t s l).startOffset = s := rfl

@[simp] theorem LexPunctuation_length (lx : Lexer) (t : TokenType) (s l : Nat) :
    (lx.LexPunctuation t s l).length = l := rfl

theorem ite_ne_of {α : Type} {c : Prop} [Decidable c] {a b x : α} (ha : a ≠ x) (hb : b ≠ x) :
    (if c then a else b) ≠ x := by
  split <;> assumption

theorem punctuationType_ne_EndOfFile (c : Nat) : punctuationType c ≠ TokenType.EndOfFile := by
  unfold punctuationType
  repeat' apply ite_ne_of
  all_goals decide

theorem advanceWhile_progress (p : Nat → Bool) (n : Nat) (lx : Lexer)
    (hend : lx.IsAtEnd = false) (hp : p lx.Peek = true) (hn : 0 < n) :
    lx.m_offset < (advanceWhile p n lx).m_offset := by
  cases n with
  | zero => omega
  | succ n =>
    simp only [advanceWhile, hend, hp, Bool.not_false, Bool.and_self, if_true]
    have h1 := Advance_offset lx hend
    have h2 := (reach_advanceWhile p n lx.Advance.2).2.2.1
    omega

theorem SkipWhitespaceAndComments_atEnd (ct : CType) (lx : Lexer) (h : lx.IsAtEnd = true) :
    SkipWhitespaceAndComments ct lx = lx := by
  simp [SkipWhitespaceAndComments, skipLoop, h]

theorem LexString_spec (lx : Lexer) (h : lx.IsAtEnd = false) :
    (LexString lx).1.type = TokenType.String ∧ (LexString lx).1.startOffset = lx.m_offset ∧
      Reach lx (LexString lx).2 ∧ lx.m_offset < (LexString lx).2.m_offset := by
  have h1 := Advance_offset lx h
  have h2 := reach_stringLoop lx.Advance.2.remaining lx.Advance.2 []
  refine ⟨rfl, rfl, (reach_Advance lx).trans h2, ?_⟩
  have := h2.2.2.1
  simp only [LexString]
  omega

theorem LexIdentifier_spec (ct : CType) (lx : Lexer) (h : lx.IsAtEnd = false)
    (hc : (ct.iswalpha lx.Peek || lx.Peek == 95) = true) :
    (LexIdentifier ct lx).1.type = TokenType.Identifier ∧
      (LexIdentifier ct lx).1.startOffset = lx.m_offset ∧
      Reach lx (LexIdentifier ct lx).2 ∧ lx.m_offset < (LexIdentifier ct lx).2.m_offset := by
  refine ⟨rfl, rfl, reach_advanceWhile _ _ _, ?_⟩
  simp only [LexIdentifier]
  apply advanceWhile_progress _ _ _ h
  · rcases Bool.or_eq_true _ _ ▸ hc with h1 | h1
    · simp [ct.iswalnum_of_iswalpha _ h1]
    · simp [h1]
  · have := (isAtEnd_false_iff lx).1 h
    simp only [remaining]
    omega

theorem LexNumber_spec (ct : CType) (lx : Lexer) (h : lx.IsAtEnd = false) :
    (LexNumber ct lx).1.type ≠ TokenType.EndOfFile ∧
      (LexNumber ct lx).1.startOffset = lx.m_offset ∧
      Reach lx (LexNumber ct lx).2 ∧ lx.m_offset < (LexNumber ct lx).2.m_offset := by
  have hlt := (isAtEnd_false_iff lx).1 h
  -- the states of the scan, in order
  obtain ⟨lx1, hlx1, r1⟩ : ∃ lx1, lx1 = (if lx.Peek = 43 ∨ lx.Peek = 45 then lx.Advance.2 else lx)
      ∧ Reach lx lx1 := by
    refine ⟨_, rfl, ?_⟩
    split
    · exact reach_Advance lx
    · exact Reach.refl lx
  obtain ⟨lx2, hlx2, r2⟩ : ∃ lx2, lx2 = advanceWhilePeek ct.iswdigit lx1.remaining lx1
      ∧ Reach lx1 lx2 := ⟨_, rfl, reach_advanceWhilePeek _ _ _⟩
  obtain ⟨lx3, hlx3, r3⟩ : ∃ lx3, lx3 =
      (if lx2.Peek = 46 && ct.iswdigit lx2.PeekNext then lx2.Advance.2 else lx2)
      ∧ Reach lx2 lx3 := by
    refine ⟨_, rfl, ?_⟩
    split
    · exact reach_Advance lx2
    · exact Reach.refl lx2
  obtain ⟨lx4, hlx4, r4⟩ : ∃ lx4, lx4 =
      (if lx2.Peek = 46 && ct.iswdigit lx2.PeekNext then
        advanceWhilePeek ct.iswdigit lx3.remaining lx3 else lx2)
      ∧ Reach lx3 lx4 := by
    refine ⟨_, rfl, ?_⟩
    split
    · exact reach_advanceWhilePeek _ _ _
    · rename_i hc
      rw [hlx3, if_neg hc]
      exact Reach.refl lx2
  have r04 : Reach lx lx4 := r1.trans (r2.trans (r3.trans r4))
  have hdef : LexNumber ct lx =
      if (!decide (lx2.m_offset ≠ lx1.m_offset) && !decide (lx4.m_offset ≠ lx3.m_offset)) = true then
        ((({ lx4 with m_offset := lx.m_offset } : Lexer).Advance.2).LexPunctuation
            TokenType.Unknown lx.m_offset 1,
          ({ lx4 with m_offset := lx.m_offset } : Lexer).Advance.2)
      else
        ((advanceWhilePeek ct.iswalpha (if lx4.Peek = 37 then lx4.Advance.2 else lx4).remaining
            (if lx4.Peek = 37 then lx4.Advance.2 else lx4)).MakeToken TokenType.Number lx.m_offset
            ((advanceWhilePeek ct.iswalpha (if lx4.Peek = 37 then lx4.Advance.2 else lx4).remaining
              (if lx4.Peek = 37 then lx4.Advance.2 else lx4)).m_offset - lx.m_offset)
            (substr (advanceWhilePeek ct.iswalpha
              (if lx4.Peek = 37 then lx4.Advance.2 else lx4).remaining
              (if lx4.Peek = 37 then lx4.Advance.2 else lx4)).m_document.content lx.m_offset
              ((advanceWhilePeek ct.iswalpha (if lx4.Peek = 37 then lx4.Advance.2 else lx4).remaining
              (if lx4.Peek = 37 then lx4.Advance.2 else lx4)).m_offset - lx.m_offset)),
          advanceWhilePeek ct.iswalpha (if lx4.Peek = 37 then lx4.Advance.2 else lx4).remaining
            (if lx4.Peek = 37 then lx4.Advance.2 else lx4)) := by
    subst hlx1 hlx2 hlx3 hlx4
    rfl
  rw [hdef]
  split
  · -- the fallback: back to `start`, one character consumed
    have hend' : ({ lx4 with m_offset := lx.m_offset } : Lexer).IsAtEnd = false := by
      rw [isAtEnd_false_iff]
      simpa [r04.2.1] using hlt
    rw [Advance_of_not_atEnd _ hend']
    refine ⟨by simp, rfl, ⟨r04.1, r04.2.1, Nat.le_succ _, fun _ => hlt⟩, Nat.lt_succ_self _⟩
  · rename_i hdig
    have r5 : Reach lx4 (if lx4.Peek = 37 then lx4.Advance.2 else lx4) := by
      split
      · exact reach_Advance lx4
      · exact Reach.refl lx4
    have r6 := reach_advanceWhilePeek ct.iswalpha
      (if lx4.Peek = 37 then lx4.Advance.2 else lx4).remaining
      (if lx4.Peek = 37 then lx4.Advance.2 else lx4)
    refine ⟨by simp, rfl, r04.trans (r5.trans r6), ?_⟩
    have o1 := r1.2.2.1
    have o2 := r2.2.2.1
    have o3 := r3.2.2.1
    have o4 := r4.2.2.1
    have o5 := r5.2.2.1
    have o6 := r6.2.2.1
    have : lx2.m_offset ≠ lx1.m_offset ∨ lx4.m_offset ≠ lx3.m_offset := by
      by_contra hcon
      push_neg at hcon
      exact hdig (by simp [hcon.1, hcon.2])
    dsimp only
    omega

/-- What one call of `NextToken` does, by whether the input is exhausted after the
whitespace and the comments have been skipped. -/
theorem NextToken_spec (ct : CType) (lx : Lexer) :
    ((SkipWhitespaceAndComments ct lx).IsAtEnd = true →
        NextToken ct lx = ((SkipWhitespaceAndComments ct lx).MakeToken TokenType.EndOfFile
          (SkipWhitespaceAndComments ct lx).m_offset 0 [], SkipWhitespaceAndComments ct lx)) ∧
      ((SkipWhitespaceAndComments ct lx).IsAtEnd = false →
        (NextToken ct lx).1.type ≠ TokenType.EndOfFile ∧
        (NextToken ct lx).1.startOffset = (SkipWhitespaceAndComments ct lx).m_offset ∧
        Reach (SkipWhitespaceAndComments ct lx) (NextToken ct lx).2 ∧
        (SkipWhitespaceAndComments ct lx).m_offset < (NextToken ct lx).2.m_offset) := by
  constructor
  · intro h
    simp [NextToken, h]
  · intro h
    simp only [NextToken, h, Bool.false_eq_true, if_false]
    split
    · have := LexString_spec _ h
      exact ⟨by simp [this.1], this.2⟩
    · split
      · exact LexNumber_spec ct _ h
      · split
        · rename_i hc
          have := LexIdentifier_spec ct _ h hc
          exact ⟨by simp [this.1], this.2⟩
        · have h1 := Advance_offset _ h
          refine ⟨punctuationType_ne_EndOfFile _, rfl, reach_Advance _, ?_⟩
          dsimp only
          omega

theorem reach_NextToken (ct : CType) (lx : Lexer) : Reach lx (NextToken ct lx).2 := by
  have hs := reach_SkipWhitespaceAndComments ct lx
  cases h : (SkipWhitespaceAndComments ct lx).IsAtEnd with
  | true =>
    rw [(NextToken_spec ct lx).1 h]
    exact hs
  | false => exact hs.trans ((NextToken_spec ct lx).2 h).2.2.1

theorem NextToken_progress (ct : CType) (lx : Lexer)
    (h : (NextToken ct lx).1.type ≠ TokenType.EndOfFile) :
    lx.m_offset < (NextToken ct lx).2.m_offset := by
  have hs := (reach_SkipWhitespaceAndComments ct lx).2.2.1
  cases hend : (SkipWhitespaceAndComments ct lx).IsAtEnd with
  | true =>
    rw [(NextToken_spec ct lx).1 hend] at h
    exact absurd rfl h
  | false =>
    have := ((NextToken_spec ct lx).2 hend).2.2.2
    omega

/-- A call that returns `EndOfFile` leaves the lexer at the end of its input. -/
theorem NextToken_EndOfFile (ct : CType) (lx : Lexer)
    (h : (NextToken ct lx).1.type = TokenType.EndOfFile) :
    (NextToken ct lx).2.IsAtEnd = true ∧
      (NextToken ct lx).1 =
        (NextToken ct lx).2.MakeToken TokenType.EndOfFile (NextToken ct lx).2.m_offset 0 [] := by
  cases hend : (SkipWhitespaceAndComments ct lx).IsAtEnd with
  | true =>
    rw [(NextToken_spec ct lx).1 hend]
    exact ⟨hend, rfl⟩
  | false => exact absurd h ((NextToken_spec ct lx).2 hend).1

/-- At the end of the input `NextToken` returns an `EndOfFile` token and changes
nothing. -/
theorem NextToken_of_atEnd (ct : CType) (lx : Lexer) (h : lx.IsAtEnd = true) :
    NextToken ct lx = (lx.MakeToken TokenType.EndOfFile lx.m_offset 0 [], lx) := by
  have hs := SkipWhitespaceAndComments_atEnd ct lx h
  have := (NextToken_spec ct lx).1 (by rw [hs]; exact h)
  rw [hs] at this
  exact this

theorem afterCalls_succ (ct : CType) (n : Nat) (lx : Lexer) :
    afterCalls ct (n + 1) lx = (NextToken ct (afterCalls ct n lx)).2 := by
  induction n generalizing lx with
  | zero => rfl
  | succ n ih =>
    show afterCalls ct (n + 1) (NextToken ct lx).2 = _
    rw [ih]
    rfl

theorem reach_afterCalls (ct : CType) (n : Nat) (lx : Lexer) : Reach lx (afterCalls ct n lx) := by
  induction n with
  | zero => exact Reach.refl lx
  | succ n ih =>
    rw [afterCalls_succ]
    exact ih.trans (reach_NextToken ct _)

theorem afterCalls_of_atEnd (ct : CType) (n : Nat) (lx : Lexer) (h : lx.IsAtEnd = true) :
    afterCalls ct n lx = lx := by
  induction n with
  | zero => rfl
  | succ n ih => rw [afterCalls_succ, ih, NextToken_of_atEnd ct lx h]

theorem afterCalls_add (ct : CType) (n k : Nat) (lx : Lexer) :
    afterCalls ct (n + k) lx = afterCalls ct k (afterCalls ct n lx) := by
  induction n generalizing lx with
  | zero => simp [afterCalls]
  | succ n ih =>
    rw [Nat.succ_add]
    exact ih _

/-- While no call has returned `EndOfFile`, the cursor after `k` calls is at least `k`
characters further. -/
theorem afterCalls_offset_ge (ct : CType) (lx : Lexer) (k : Nat)
    (h : ∀ n, n < k → (nthToken ct n lx).type ≠ TokenType.EndOfFile) :
    lx.m_offset + k ≤ (afterCalls ct k lx).m_offset := by
  induction k with
  | zero => exact le_refl _
  | succ k ih =>
    have h1 := ih (fun n hn => h n (Nat.lt_succ_of_lt hn))
    have h2 := NextToken_progress ct (afterCalls ct k lx) (h k (Nat.lt_succ_self k))
    rw [afterCalls_succ]
    omega

/-- C2 (token stream totality). For every document, so for every content string
(the empty one, one that ends inside a string literal or inside a block comment
included): a call of `NextToken`, in any state of the lexer, that returns a token
other than `EndOfFile` leaves the cursor strictly further than it found it; and
one of the first `length(content) + 1` calls (the calls numbered `0` to
`length(content)`) on a new lexer returns `EndOfFile`. -/
theorem C2_NextToken_advances_until_EndOfFile (ct : CType) (doc : SourceDocument) :
    (∀ lx : Lexer, (NextToken ct lx).1.type ≠ TokenType.EndOfFile →
        lx.m_offset < (NextToken ct lx).2.m_offset) ∧
      ∃ n, n ≤ doc.content.length ∧
        (nthToken ct n (Lexer.new doc)).type = TokenType.EndOfFile := by
  refine ⟨NextToken_progress ct, ?_⟩
  by_contra hcon
  push_neg at hcon
  have h1 := afterCalls_offset_ge ct (Lexer.new doc) (doc.content.length + 1)
    (fun n hn => hcon n (Nat.lt_succ_iff.1 hn))
  have h2 : _ ≤ doc.content.length :=
    (reach_afterCalls ct (doc.content.length + 1) (Lexer.new doc)).2.2.2 (Nat.zero_le _)
  have h3 : (Lexer.new doc).m_offset = 0 := rfl
  omega

/-- C3 (`EndOfFile` is a fixed point). If call number `n` of `NextToken` on a new
lexer over `doc` returns an `EndOfFile` token, then every later call (number
`k > n`) returns a token equal to it in every field (so with the same location),
of type `EndOfFile`, with an empty lexeme, length `0` and `startOffset` the length
of the content, and leaves the lexer, its cursor included, as it found it. -/
theorem C3_EndOfFile_is_fixed_point (ct : CType) (doc : SourceDocument) (n k : Nat)
    (h : (nthToken ct n (Lexer.new doc)).type = TokenType.EndOfFile) (hk : n < k) :
    nthToken ct k (Lexer.new doc) = nthToken ct n (Lexer.new doc) ∧
      (nthToken ct k (Lexer.new doc)).type = TokenType.EndOfFile ∧
      (nthToken ct k (Lexer.new doc)).lexeme = [] ∧
      (nthToken ct k (Lexer.new doc)).length = 0 ∧
      (nthToken ct k (Lexer.new doc)).startOffset = doc.content.length ∧
      afterCalls ct (k + 1) (Lexer.new doc) = afterCalls ct k (Lexer.new doc) ∧
      (afterCalls ct (k + 1) (Lexer.new doc)).m_offset =
        (afterCalls ct k (Lexer.new doc)).m_offset := by
  obtain ⟨hend, htok⟩ := NextToken_EndOfFile ct (afterCalls ct n (Lexer.new doc)) h
  rw [← afterCalls_succ] at hend htok
  -- every later state is the state after call `n`
  have hstate : ∀ j, afterCalls ct (n + 1 + j) (Lexer.new doc) =
      afterCalls ct (n + 1) (Lexer.new doc) := by
    intro j
    rw [afterCalls_add, afterCalls_of_atEnd ct j _ hend]
  obtain ⟨j, rfl⟩ : ∃ j, k = n + 1 + j := ⟨k - (n + 1), by omega⟩
  have hreach := reach_afterCalls ct (n + 1) (Lexer.new doc)
  have hlen : (afterCalls ct (n + 1) (Lexer.new doc)).m_offset = doc.content.length := by
    have h1 := (isAtEnd_true_iff _).1 hend
    have h2 : _ ≤ doc.content.length := hreach.2.2.2 (Nat.zero_le _)
    have h3 : _ = doc.content.length := hreach.2.1
    omega
  have hkth : nthToken ct (n + 1 + j) (Lexer.new doc) = nthToken ct n (Lexer.new doc) := by
    show (NextToken ct (afterCalls ct (n + 1 + j) (Lexer.new doc))).1 =
      (NextToken ct (afterCalls ct n (Lexer.new doc))).1
    rw [hstate j, NextToken_of_atEnd ct _ hend, htok]
  have hnext : afterCalls ct (n + 1 + j + 1) (Lexer.new doc) =
      afterCalls ct (n + 1 + j) (Lexer.new doc) := by
    rw [show n + 1 + j + 1 = n + 1 + (j + 1) by omega, hstate, hstate]
  refine ⟨hkth, ?_, ?_, ?_, ?_, hnext, by rw [hnext]⟩
  · rw [hkth]; exact h
  · rw [hkth]
    show (NextToken ct (afterCalls ct n (Lexer.new doc))).1.lexeme = []
    rw [htok]; rfl
  · rw [hkth]
    show (NextToken ct (afterCalls ct n (Lexer.new doc))).1.length = 0
    rw [htok]; rfl
  · rw [hkth]
    show (NextToken ct (afterCalls ct n (Lexer.new doc))).1.startOffset = _
    rw [htok]
    exact hlen

/-- C3 at a concrete input: over the content `a /*` call number `1` returns
`EndOfFile`, and so does call number `3`. -/
theorem C3_EndOfFile_is_fixed_point_witness :
    (nthToken CType.ascii 1 (Lexer.new ⟨[], wstr "a /*", [], []⟩)).type = TokenType.EndOfFile ∧
      (nthToken CType.ascii 3 (Lexer.new ⟨[], wstr "a /*", [], []⟩)).type = TokenType.EndOfFile ∧
      (nthToken CType.ascii 3 (Lexer.new ⟨[], wstr "a /*", [], []⟩)).startOffset = 4 :=
  have h := C3_EndOfFile_is_fixed_point CType.ascii ⟨[], wstr "a /*", [], []⟩ 1 3
    (by decide) (by decide)
  ⟨by decide, h.2.1, h.2.2.2.2.1⟩

end Lexer

/-! ## What a load leaves of the state -/

theorem Frame.of_eq (st : LoadState) (document : SourceDocument) :
    Frame st (true, document, st) :=
  ⟨rfl, rfl, ⟨[], rfl⟩, ⟨[], by simp⟩, fun _ => rfl, fun h => by simp at h⟩

theorem Frame.error (st : LoadState) (document : SourceDocument) (message file : WString)
    (hfile : file ≠ []) : Frame st (false, document, st.error message file) :=
  ⟨rfl, rfl, ⟨[], rfl⟩, ⟨[], by simp [LoadState.error]⟩, fun h => by simp at h,
    fun _ => ⟨_, rfl, rfl, hfile⟩⟩

/-- A successful call followed by a second call. -/
theorem Frame.step {st st1 : LoadState} {d1 : SourceDocument}
    {r : Bool × SourceDocument × LoadState}
    (h₁ : Frame st (true, d1, st1)) (h₂ : Frame st1 r) : Frame st r := by
  obtain ⟨c1, b1, ⟨a1, ha1⟩, ⟨m1, hm1⟩, ok1, _⟩ := h₁
  obtain ⟨c2, b2, ⟨a2, ha2⟩, ⟨m2, hm2⟩, ok2, ko2⟩ := h₂
  have hd := ok1 rfl
  dsimp only at c1 b1 ha1 hm1 hd
  refine ⟨c2.trans c1, b2.trans b1, ⟨a2 ++ a1, ?_⟩, ⟨m1 ++ m2, ?_⟩, ?_, ?_⟩
  · rw [ha2, ha1, List.append_assoc]
  · rw [hm2, hm1, List.append_assoc]
  · intro h; rw [ok2 h, hd]
  · intro h
    obtain ⟨d, e1, e2⟩ := ko2 h
    exact ⟨d, by rw [e1, hd], e2⟩

/-- The result of `LoadDocumentFromDisk` but for the diagnostics does not depend on the
diagnostics passed in; on success no diagnostic is added, on failure one `Error`
that names the path. -/
theorem LoadDocumentFromDisk_diagnostics (P : Platform) (w : World) (path : WString)
    (ds : List Diagnostic) :
    (LoadDocumentFromDisk P w path ds).1 = (LoadDocumentFromDisk P w path []).1 ∧
      (LoadDocumentFromDisk P w path ds).2.1 = (LoadDocumentFromDisk P w path []).2.1 ∧
      ((LoadDocumentFromDisk P w path ds).1 = true → (LoadDocumentFromDisk P w path ds).2.2 = ds) ∧
      ((LoadDocumentFromDisk P w path ds).1 = false →
        ∃ d, (LoadDocumentFromDisk P w path ds).2.2 = ds ++ [d] ∧
          d.severity = DiagnosticSeverity.Error ∧ d.location.file = path) := by
  unfold LoadDocumentFromDisk
  cases w path with
  | none => simp [AppendDiagnostic]
  | some file =>
    simp only [AppendDiagnostic]
    split_ifs <;> simp

theorem stackErase_stackInsert (stack : List WString) (key : WString) (h : key ∉ stack) :
    stackErase (stackInsert stack key) key = stack := by
  simp only [stackInsert, if_neg h, stackErase, List.filter_cons, ne_eq, not_true_eq_false,
    decide_False, Bool.false_eq_true, if_false]
  rw [List.filter_eq_self]
  intro a ha
  simp only [decide_eq_true_eq]
  rintro rfl
  exact h ha

theorem NormalizePath_ne_nil {P : Platform} {path : WString}
    (h : (NormalizePath P path).isEmpty = false) : NormalizePath P path ≠ [] := by
  intro e
  rw [e] at h
  simp at h

theorem cacheInsert_suffix (cache : List (WString × SourceDocument)) (key : WString)
    (document : SourceDocument) : ∃ added, cacheInsert cache key document = added ++ cache := by
  unfold cacheInsert
  split
  · exact ⟨[], rfl⟩
  · exact ⟨[(key, document)], rfl⟩

theorem AppendInclude_frame (load : Loader) (hload : LoaderFrame load) (ct : CType)
    (P : Platform) (requestingPath includeToken : WString) (outDocument : SourceDocument)
    (st : LoadState) (r : Bool × SourceDocument × LoadState) (hreq : requestingPath ≠ [])
    (h : AppendInclude load ct P requestingPath includeToken outDocument st = some r) :
    Frame st r := by
  unfold AppendInclude at h
  dsimp only at h
  split at h
  · cases h
    exact Frame.error st _ _ _ hreq
  · rename_i hne
    split at h
    · cases h
      refine Frame.error st _ _ _ ?_
      intro e
      exact hne (by rw [e]; rfl)
    · rename_i hnorm
      cases hl : load (NormalizePath P (resolveInclude P requestingPath (includePathOf ct P includeToken)))
          SourceDocument.empty st with
      | none => rw [hl] at h; cases h
      | some loaded =>
        rw [hl] at h
        have hf := hload _ _ _ _ (NormalizePath_ne_nil (by simpa using hnorm)) hl
        dsimp only at h
        split at h
        · rename_i hfail
          cases h
          have hfail : loaded.1 = false := by simpa using hfail
          obtain ⟨c, b, a, m, ok, ko⟩ := hf
          exact ⟨c, b, a, m, fun h => by simp at h, fun _ => ko hfail⟩
        · rename_i hok
          cases h
          have hok : loaded.1 = true := by simpa using hok
          obtain ⟨c, b, a, m, ok, ko⟩ := hf
          exact ⟨c, b, a, m, fun _ => ok hok, fun h => by simp at h⟩

theorem processLines_frame (load : Loader) (hload : LoaderFrame load) (ct : CType)
    (P : Platform) (absolutePath : WString) (hpath : absolutePath ≠ [])
    (lines : List ScannedLine) (currentLine : Nat) (pending : Pending)
    (outDocument : SourceDocument) (st : LoadState) (r : Bool × SourceDocument × LoadState)
    (h : processLines load ct P absolutePath lines currentLine pending outDocument st = some r) :
    Frame st r := by
  induction lines generalizing currentLine pending outDocument st with
  | nil =>
    unfold processLines at h
    dsimp only at h
    split at h <;> cases h <;> exact Frame.of_eq st _
  | cons ln rest ih =>
    unfold processLines at h
    dsimp only at h
    split at h
    · cases ha : AppendInclude load ct P absolutePath ((TrimLeft ct ln.line).drop 8)
          (flushChunk absolutePath pending outDocument).2 st with
      | none => rw [ha] at h; cases h
      | some appended =>
        rw [ha] at h
        have hf := AppendInclude_frame load hload ct P _ _ _ _ _ hpath ha
        dsimp only at h
        split at h
        · rename_i hfail
          cases h
          have hfail : appended.1 = false := by simpa using hfail
          obtain ⟨c, b, a, m, ok, ko⟩ := hf
          exact ⟨c, b, a, m, fun h => by simp at h, fun _ => ko hfail⟩
        · rename_i hok
          have hok : appended.1 = true := by simpa using hok
          have h2 := ih _ _ _ _ h
          have hf' : Frame st (true, appended.2.1, appended.2.2) := by
            obtain ⟨c, b, a, m, ok, ko⟩ := hf
            exact ⟨c, b, a, m, fun _ => ok hok, fun h => by simp at h⟩
          exact hf'.step h2
    · exact ih _ _ _ _ h

theorem ProcessFileContent_frame (load : Loader) (hload : LoaderFrame load) (ct : CType)
    (P : Platform) (absolutePath : WString) (hpath : absolutePath ≠ [])
    (fileContents : WString) (outDocument : SourceDocument) (st : LoadState)
    (r : Bool × SourceDocument × LoadState)
    (h : ProcessFileContent load ct P absolutePath fileContents outDocument st = some r) :
    Frame st r :=
  processLines_frame load hload ct P absolutePath hpath _ _ _ _ _ _ h

/-- Every call of `LoadDocumentRecursive` that returns satisfies `Frame`. -/
theorem LoadDocumentRecursive_frame (ct : CType) (P : Platform) (w : World) (fuel : Nat) :
    LoaderFrame (LoadDocumentRecursive ct P w fuel) := by
  induction fuel with
  | zero =>
    intro path out st r _ h
    simp [LoadDocumentRecursive] at h
  | succ fuel ih =>
    intro path out st r hpath h
    unfold LoadDocumentRecursive at h
    dsimp only at h
    split at h
    · cases h
      exact Frame.error st _ _ _ hpath
    · rename_i hcanon
      have hcanon : NormalizePath P path ≠ [] := NormalizePath_ne_nil (by simpa using hcanon)
      split at h
      · cases h
        exact Frame.of_eq st _
      · split at h
        · cases h
          exact Frame.error st _ _ _ hcanon
        · rename_i hcache hstack
          have hd := LoadDocumentFromDisk_diagnostics P w (NormalizePath P path) st.diagnostics
          split at h
          · rename_i hfail
            cases h
            have hfail : (LoadDocumentFromDisk P w (NormalizePath P path) st.diagnostics).1
                = false := by simpa using hfail
            obtain ⟨d, e1, e2, e3⟩ := hd.2.2.2 hfail
            refine ⟨?_, rfl, ⟨[], rfl⟩, ⟨[NormalizePath P path], rfl⟩, fun h => by simp at h,
              fun _ => ⟨d, e1, e2, by rw [e3]; exact hcanon⟩⟩
            show LoadContext.mk _ = st.context
            rw [stackErase_stackInsert _ _ hstack]
          · rename_i hok
            have hok : (LoadDocumentFromDisk P w (NormalizePath P path) st.diagnostics).1
                = true := by simpa using hok
            have hds := hd.2.2.1 hok
            split at h
            · cases h
            · rename_i processed hproc
              have hf := ProcessFileContent_frame _ ih ct P _ hcanon _ _ _ _ hproc
              obtain ⟨c, b, ⟨a, ha⟩, ⟨m, hm⟩, ok, ko⟩ := hf
              dsimp only at c b ha hm ok ko
              have hctx : (⟨stackErase processed.2.2.context.activeStack
                  (ToLookupKey ct (NormalizePath P path))⟩ : LoadContext) = st.context := by
                rw [c]
                show LoadContext.mk _ = st.context
                rw [stackErase_stackInsert _ _ hstack]
              split at h
              · rename_i hfail
                cases h
                have hfail : processed.1 = false := by simpa using hfail
                refine ⟨hctx, b, ⟨a, ha⟩, ⟨NormalizePath P path :: m, ?_⟩,
                  fun h => by simp at h, fun _ => ?_⟩
                · show processed.2.2.sm.opened = _
                  rw [hm]; simp
                · obtain ⟨d, e1, e2⟩ := ko hfail
                  exact ⟨d, by rw [← hds]; exact e1, e2⟩
              · rename_i hok2
                cases h
                have hok2 : processed.1 = true := by simpa using hok2
                obtain ⟨a2, ha2⟩ := cacheInsert_suffix processed.2.2.sm.m_cache
                  (ToLookupKey ct (NormalizePath P path)) processed.2.1
                refine ⟨hctx, b, ⟨a2 ++ a, ?_⟩, ⟨NormalizePath P path :: m, ?_⟩,
                  fun _ => ?_, fun h => by simp at h⟩
                · show cacheInsert _ _ _ = _
                  rw [ha2, ha, List.append_assoc]
                · show processed.2.2.sm.opened = _
                  rw [hm]; simp
                · show processed.2.2.diagnostics = _
                  rw [ok hok2, hds]

/-! ## Properties of every document that a load returns or caches -/

theorem cacheFind_mem {cache : List (WString × SourceDocument)} {key : WString}
    {document : SourceDocument} (h : cacheFind cache key = some document) :
    (key, document) ∈ cache := by
  induction cache with
  | nil => simp [cacheFind] at h
  | cons entry rest ih =>
    obtain ⟨k, d⟩ := entry
    simp only [cacheFind] at h
    split at h
    · rename_i hk
      cases h
      rw [hk]
      exact List.mem_cons_self _ _
    · exact List.mem_cons_of_mem _ (ih h)

theorem mem_cacheInsert {cache : List (WString × SourceDocument)} {key : WString}
    {document : SourceDocument} {entry : WString × SourceDocument}
    (h : entry ∈ cacheInsert cache key document) : entry = (key, document) ∨ entry ∈ cache := by
  unfold cacheInsert at h
  split at h
  · exact Or.inr h
  · exact List.mem_cons.1 h

/-- The state of the cache along `AppendInclude` changes only through `load`. -/
theorem AppendInclude_good (Good : WString → SourceDocument → Prop) (load : Loader)
    (ct : CType) (P : Platform) (hload : LoaderGood ct P Good load)
    (requestingPath includeToken : WString) (outDocument : SourceDocument) (st : LoadState)
    (r : Bool × SourceDocument × LoadState) (hst : CacheAll Good st)
    (h : AppendInclude load ct P requestingPath includeToken outDocument st = some r) :
    CacheAll Good r.2.2 ∧
      (r.1 = true → ∃ target included,
        includeTarget ct P requestingPath includeToken = some target ∧
        Good (ToLookupKey ct target) included ∧
        r.2.1 = { outDocument with
          content := outDocument.content ++ included.content
          segments := outDocument.segments ++ included.segments.map
            (fun segment =>
              { segment with startOffset := segment.startOffset + outDocument.content.length })
          origins := outDocument.origins ++ included.origins }) := by
  unfold AppendInclude at h
  dsimp only at h
  split at h
  · cases h
    exact ⟨hst, fun h => by simp at h⟩
  · rename_i h1
    split at h
    · cases h
      exact ⟨hst, fun h => by simp at h⟩
    · rename_i h2
      cases hl : load (NormalizePath P (resolveInclude P requestingPath (includePathOf ct P includeToken)))
          SourceDocument.empty st with
      | none => rw [hl] at h; cases h
      | some loaded =>
        rw [hl] at h
        have hg := hload _ _ _ _ hst hl
        dsimp only at h
        split at h
        · cases h
          exact ⟨hg.1, fun h => by simp at h⟩
        · rename_i hok
          cases h
          have hok : loaded.1 = true := by simpa using hok
          refine ⟨hg.1, fun _ => ⟨_, loaded.2.1, ?_, (hg.2 hok).2, rfl⟩⟩
          unfold includeTarget
          dsimp only
          rw [if_neg h1, if_neg h2, if_neg]
          have := (hg.2 hok).1
          intro hemp
          apply this
          cases hn : NormalizePath P (NormalizePath P (resolveInclude P requestingPath
            (includePathOf ct P includeToken))) with
          | nil => rfl
          | cons a l => rw [hn] at hemp; simp at hemp

theorem processLines_cacheAll (Good : WString → SourceDocument → Prop) (load : Loader)
    (ct : CType) (P : Platform) (hload : LoaderGood ct P Good load) (absolutePath : WString)
    (lines : List ScannedLine) (currentLine : Nat) (pending : Pending)
    (outDocument : SourceDocument) (st : LoadState) (r : Bool × SourceDocument × LoadState)
    (hst : CacheAll Good st)
    (h : processLines load ct P absolutePath lines currentLine pending outDocument st = some r) :
    CacheAll Good r.2.2 := by
  induction lines generalizing currentLine pending outDocument st with
  | nil =>
    unfold processLines at h
    dsimp only at h
    split at h <;> cases h <;> exact hst
  | cons ln rest ih =>
    unfold processLines at h
    dsimp only at h
    split at h
    · cases ha : AppendInclude load ct P absolutePath ((TrimLeft ct ln.line).drop 8)
          (flushChunk absolutePath pending outDocument).2 st with
      | none => rw [ha] at h; cases h
      | some appended =>
        rw [ha] at h
        have hg := (AppendInclude_good Good load ct P hload _ _ _ _ _ hst ha).1
        dsimp only at h
        split at h
        · cases h
          exact hg
        · exact ih _ _ _ _ hg h
    · exact ih _ _ _ _ hst h

/-- The induction over the depth of the includes, once for all properties of
documents: if `ProcessFileContent`, run on the text of a file with a loader that
returns `Good` documents, builds a `Good` document, then every document that
`LoadDocumentRecursive` returns or adds to the cache is `Good`. -/
theorem LoadDocumentRecursive_good (ct : CType) (P : Platform) (w : World)
    (Good : WString → SourceDocument → Prop)
    (hproc : ∀ load, LoaderGood ct P Good load → ∀ x contents st r, NormalizePath P x ≠ [] →
      LoadDocumentFromDisk P w (NormalizePath P x) [] = (true, contents, []) →
      CacheAll Good st →
      ProcessFileContent load ct P (NormalizePath P x) contents
        { SourceDocument.empty with primaryFile := NormalizePath P x } st = some r →
      r.1 = true → Good (ToLookupKey ct (NormalizePath P x)) r.2.1)
    (fuel : Nat) : LoaderGood ct P Good (LoadDocumentRecursive ct P w fuel) := by
  induction fuel with
  | zero =>
    intro path out st r _ h
    simp [LoadDocumentRecursive] at h
  | succ fuel ih =>
    intro path out st r hst h
    unfold LoadDocumentRecursive at h
    dsimp only at h
    split at h
    · cases h
      exact ⟨hst, fun h => by simp at h⟩
    · rename_i hcanon
      have hcanon : NormalizePath P path ≠ [] := NormalizePath_ne_nil (by simpa using hcanon)
      split at h
      · rename_i cached hfind
        cases h
        exact ⟨hst, fun _ => ⟨hcanon, hst _ (cacheFind_mem hfind)⟩⟩
      · split at h
        · cases h
          exact ⟨hst, fun h => by simp at h⟩
        · have hd := LoadDocumentFromDisk_diagnostics P w (NormalizePath P path) st.diagnostics
          split at h
          · cases h
            exact ⟨hst, fun h => by simp at h⟩
          · rename_i hok
            have hok : (LoadDocumentFromDisk P w (NormalizePath P path) st.diagnostics).1
                = true := by simpa using hok
            split at h
            · cases h
            · rename_i processed hproc'
              have hst1 : CacheAll Good
                  { sm := { st.sm with opened := st.sm.opened ++ [NormalizePath P path] },
                    context := ⟨stackInsert st.context.activeStack
                      (ToLookupKey ct (NormalizePath P path))⟩,
                    diagnostics := (LoadDocumentFromDisk P w (NormalizePath P path)
                      st.diagnostics).2.2 } := hst
              have hc := processLines_cacheAll Good _ ct P ih _ _ _ _ _ _ _ hst1 hproc'
              split at h
              · cases h
                exact ⟨hc, fun h => by simp at h⟩
              · rename_i hok2
                cases h
                have hok2 : processed.1 = true := by simpa using hok2
                have hread : LoadDocumentFromDisk P w (NormalizePath P path) [] =
                    (true, (LoadDocumentFromDisk P w (NormalizePath P path)
                      st.diagnostics).2.1, []) := by
                  have hd0 := LoadDocumentFromDisk_diagnostics P w (NormalizePath P path) []
                  have h1 : (LoadDocumentFromDisk P w (NormalizePath P path) []).1 = true :=
                    hd.1 ▸ hok
                  exact Prod.ext h1 (Prod.ext hd.2.1.symm (hd0.2.2.1 h1))
                have hgood := hproc _ ih _ _ _ _ hcanon hread hst1 hproc' hok2
                refine ⟨?_, fun _ => ⟨hcanon, hgood⟩⟩
                intro entry hentry
                rcases mem_cacheInsert hentry with rfl | hmem
                · exact hgood
                · exact hc _ hmem

/-! ## The segment list of a loaded document -/

theorem SegmentsPartial.empty (path : WString) :
    SegmentsPartial { SourceDocument.empty with primaryFile := path } :=
  ⟨fun _ => rfl, fun _ h => by simp [SourceDocument.empty] at h, List.Pairwise.nil,
    fun _ h => by simp [SourceDocument.empty] at h⟩

/-- Pushing a segment that starts at the end of the content, then appending text. -/
theorem SegmentsPartial.push {document : SourceDocument} (h : SegmentsPartial document)
    (path : WString) (lineStart : Nat) (text : WString) (origins : List Origin) :
    SegmentsPartial
      { document with
        segments := document.segments ++ [⟨path, document.content.length, lineStart⟩]
        content := document.content ++ text
        origins := origins } := by
  obtain ⟨he, hh, hs, hb⟩ := h
  refine ⟨fun h => by simp at h, ?_, ?_, ?_⟩
  · intro first hfirst
    cases hseg : document.segments with
    | nil =>
      simp only [hseg, List.nil_append, List.head?_cons, Option.some.injEq] at hfirst
      rw [← hfirst, he hseg]
      rfl
    | cons a rest =>
      simp only [hseg, List.cons_append, List.head?_cons, Option.some.injEq] at hfirst
      exact hh first (by rw [hseg, ← hfirst]; rfl)
  · refine List.pairwise_append.2 ⟨hs, List.pairwise_singleton _ _, ?_⟩
    intro a ha b hb'
    rw [List.mem_singleton.1 hb']
    exact hb a ha
  · intro segment hseg
    simp only [List.length_append]
    rcases List.mem_append.1 hseg with h1 | h1
    · exact le_trans (hb _ h1) (Nat.le_add_right _ _)
    · rw [List.mem_singleton.1 h1]
      exact Nat.le_add_right _ _

/-- Splicing an included document whose segment list is in order. -/
theorem SegmentsPartial.splice {document included : SourceDocument}
    (h : SegmentsPartial document) (hi : SegmentsOK included) (origins : List Origin) :
    SegmentsPartial
        { document with
          content := document.content ++ included.content
          segments := document.segments ++ included.segments.map
            (fun segment =>
              { segment with startOffset := segment.startOffset + document.content.length })
          origins := origins } ∧
      document.segments ++ included.segments.map
        (fun segment =>
          { segment with startOffset := segment.startOffset + document.content.length }) ≠ [] := by
  obtain ⟨he, hh, hs, hb⟩ := h
  obtain ⟨ine, ih, is, ib⟩ := hi
  refine ⟨⟨?_, ?_, ?_, ?_⟩, ?_⟩
  · intro hnil
    simp only [List.append_eq_nil, List.map_eq_nil_iff] at hnil
    exact absurd hnil.2 ine
  · intro first hfirst
    cases hseg : document.segments with
    | nil =>
      cases hinc : included.segments with
      | nil => exact absurd hinc ine
      | cons a rest =>
        simp only [hseg, hinc, List.nil_append, List.map_cons, List.head?_cons,
          Option.some.injEq] at hfirst
        rw [← hfirst, he hseg]
        simp only [List.length_nil, Nat.add_zero]
        exact ih a (by rw [hinc]; rfl)
    | cons a rest =>
      simp only [hseg, List.cons_append, List.head?_cons, Option.some.injEq] at hfirst
      exact hh first (by rw [hseg, ← hfirst]; rfl)
  · refine List.pairwise_append.2 ⟨hs, ?_, ?_⟩
    · refine (List.pairwise_map).2 (is.imp ?_)
      intro a b hab
      exact Nat.add_le_add_right hab _
    · intro a ha b hb'
      obtain ⟨c, _, rfl⟩ := List.mem_map.1 hb'
      exact le_trans (hb a ha) (Nat.le_add_left _ _)
  · intro segment hseg
    simp only [List.length_append]
    rcases List.mem_append.1 hseg with h1 | h1
    · exact le_trans (hb _ h1) (Nat.le_add_right _ _)
    · obtain ⟨c, hc, rfl⟩ := List.mem_map.1 h1
      have := ib c hc
      show c.startOffset + document.content.length ≤ _
      omega
  · intro hnil
    simp only [List.append_eq_nil, List.map_eq_nil_iff] at hnil
    exact absurd hnil.2 ine

theorem SegmentsPartial.flush {document : SourceDocument} (h : SegmentsPartial document)
    (path : WString) (pending : Pending) :
    SegmentsPartial (flushChunk path pending document).2 := by
  unfold flushChunk
  split
  · exact h.push path _ _ _
  · exact h

theorem flushChunk_segments_ne_nil {document : SourceDocument} (path : WString)
    (pending : Pending) (h : document.segments ≠ []) :
    (flushChunk path pending document).2.segments ≠ [] := by
  unfold flushChunk
  split
  · simp
  · exact h

/-- The document that `processLines` builds from a document in order, with a loader
that returns documents in order, is in order. -/
theorem processLines_segments (load : Loader) (ct : CType) (P : Platform)
    (hload : LoaderGood ct P (fun _ => SegmentsOK) load) (absolutePath : WString) (lines : List ScannedLine) (currentLine : Nat)
    (pending : Pending) (outDocument : SourceDocument) (st : LoadState)
    (r : Bool × SourceDocument × LoadState) (hst : CacheAll (fun _ => SegmentsOK) st)
    (hdoc : SegmentsPartial outDocument)
    (h : processLines load ct P absolutePath lines currentLine pending outDocument st = some r)
    (hok : r.1 = true) : SegmentsOK r.2.1 := by
  induction lines generalizing currentLine pending outDocument st with
  | nil =>
    unfold processLines at h
    dsimp only at h
    have hf := hdoc.flush absolutePath pending
    split at h
    · rename_i hempty
      cases h
      have hnil : (flushChunk absolutePath pending outDocument).2.segments = [] := by
        simpa using hempty
      have hc := hf.1 hnil
      refine ⟨by simp, ?_, ?_, ?_⟩
      · intro first hfirst
        simp only [hnil, List.nil_append, List.head?_cons, Option.some.injEq] at hfirst
        rw [← hfirst]
      · show Ascending (_ ++ _)
        rw [hnil]
        exact List.pairwise_singleton _ _
      · intro segment hseg
        simp only [hnil, List.nil_append, List.mem_singleton] at hseg
        rw [hseg]
        exact Nat.zero_le _
    · rename_i hne
      cases h
      exact ⟨by simpa using hne, hf.2⟩
  | cons ln rest ih =>
    unfold processLines at h
    dsimp only at h
    split at h
    · cases ha : AppendInclude load ct P absolutePath ((TrimLeft ct ln.line).drop 8)
          (flushChunk absolutePath pending outDocument).2 st with
      | none => rw [ha] at h; cases h
      | some appended =>
        rw [ha] at h
        have hg := AppendInclude_good (fun _ => SegmentsOK) load ct P hload _ _ _ _ _ hst ha
        dsimp only at h
        split at h
        · rename_i hfail
          cases h
          cases hok
        · rename_i hok2
          have hok2 : appended.1 = true := by simpa using hok2
          obtain ⟨_, included, _, hinc, heq⟩ := hg.2 hok2
          have hsp := ((hdoc.flush absolutePath pending).splice hinc
            ((flushChunk absolutePath pending outDocument).2.origins ++ included.origins)).1
          rw [← heq] at hsp
          refine ih _ _ _ _ hg.1 ?_ h
          split
          · exact hsp.push absolutePath _ _ _
          · exact hsp
    · exact ih _ _ _ _ hst hdoc h

/-- Every document that `LoadDocumentRecursive` returns or caches has its segment
list in order. -/
theorem LoadDocumentRecursive_segments (ct : CType) (P : Platform) (w : World) (fuel : Nat) :
    LoaderGood ct P (fun _ => SegmentsOK) (LoadDocumentRecursive ct P w fuel) := by
  apply LoadDocumentRecursive_good
  intro load hload x contents st r _ _ hst h hok
  exact processLines_segments load ct P hload _ _ _ _ _ _ _ hst
    (SegmentsPartial.empty _) h hok

/-- The search of `BuildLocation` over a list in order: it returns the last candidate
that is at most `offset`, or the segment it started from when there is none. -/
theorem pickSegment_spec (offset : Nat) (candidates : List SourceDocumentSegment)
    (hs : Ascending candidates) (segment : SourceDocumentSegment) :
    ∃ before after, candidates = before ++ after ∧
      (∀ x ∈ before, x.startOffset ≤ offset) ∧ (∀ x ∈ after, offset < x.startOffset) ∧
      Lexer.pickSegment offset segment candidates = (before.getLast?).getD segment := by
  induction candidates generalizing segment with
  | nil => exact ⟨[], [], rfl, by simp, by simp, rfl⟩
  | cons c rest ih =>
    have hrest : Ascending rest := (List.pairwise_cons.1 hs).2
    by_cases hc : c.startOffset ≤ offset
    · obtain ⟨before, after, e, hb, ha, hp⟩ := ih hrest c
      refine ⟨c :: before, after, by rw [e]; rfl, ?_, ha, ?_⟩
      · intro x hx
        rcases List.mem_cons.1 hx with rfl | hx
        · exact hc
        · exact hb x hx
      · simp only [Lexer.pickSegment, if_pos hc, hp]
        cases before with
        | nil => rfl
        | cons b bs => rw [List.getLast?_cons_cons]; rfl
    · refine ⟨[], c :: rest, rfl, by simp, ?_, by simp [Lexer.pickSegment, hc]⟩
      intro x hx
      rcases List.mem_cons.1 hx with rfl | hx
      · omega
      · have := (List.pairwise_cons.1 hs).1 x hx
        omega

/-- In a list in order that begins at offset `0`, the search of `BuildLocation` finds
the last segment that is at most `offset`, and there is only one way to split
the list at such a segment. -/
theorem pickSegment_lastAtMost (document : SourceDocument) (hd : SegmentsOK document)
    (offset : Nat) (front : SourceDocumentSegment)
    (hfront : document.segments.head? = some front) :
    ∃ before segment after, LastAtMost document.segments offset before segment after ∧
      Lexer.pickSegment offset front document.segments = segment ∧
      ∀ before' segment' after', LastAtMost document.segments offset before' segment' after' →
        before' = before ∧ segment' = segment ∧ after' = after := by
  obtain ⟨_, hh, hs, _⟩ := hd
  obtain ⟨before, after, e, hb, ha, hp⟩ := pickSegment_spec offset document.segments hs front
  have h0 := hh front hfront
  -- `before` is not empty, since it holds the first segment
  have hbne : before ≠ [] := by
    rintro rfl
    rw [List.nil_append] at e
    rw [e] at hfront
    cases after with
    | nil => simp at hfront
    | cons a rest =>
      simp only [List.head?_cons, Option.some.injEq] at hfront
      have := ha a (List.mem_cons_self _ _)
      rw [hfront] at this
      omega
  obtain ⟨init, last, rfl⟩ : ∃ init last, before = init ++ [last] :=
    ⟨before.dropLast, before.getLast hbne, (List.dropLast_append_getLast hbne).symm⟩
  have hsplit : document.segments = init ++ last :: after := by
    rw [e, List.append_assoc]; rfl
  refine ⟨init, last, after, ⟨hsplit, ?_, ?_, ha⟩, ?_, ?_⟩
  · intro x hx
    exact hb x (List.mem_append_left _ hx)
  · exact hb last (by simp)
  · rw [hp]; simp
  · rintro before' segment' after' ⟨e', hb', hs', ha'⟩
    have hlast : last.startOffset ≤ offset := hb last (by simp)
    have hinit : ∀ x ∈ init, x.startOffset ≤ offset :=
      fun x hx => hb x (List.mem_append_left _ hx)
    rw [hsplit] at e'
    rcases List.append_eq_append_iff.1 e' with ⟨mid, h1, h2⟩ | ⟨mid, h1, h2⟩
    · cases mid with
      | nil =>
        simp only [List.append_nil, List.nil_append] at h1 h2
        cases h2
        exact ⟨h1, rfl, rfl⟩
      | cons m rest =>
        simp only [List.cons_append, List.cons.injEq] at h2
        obtain ⟨rfl, h2⟩ := h2
        have hmem : segment' ∈ after := by rw [h2]; simp
        have := ha segment' hmem
        omega
    · cases mid with
      | nil =>
        simp only [List.append_nil, List.nil_append] at h1 h2
        cases h2
        exact ⟨h1.symm, rfl, rfl⟩
      | cons m rest =>
        simp only [List.cons_append, List.cons.injEq] at h2
        obtain ⟨rfl, h2⟩ := h2
        have hmem : last ∈ after' := by rw [h2]; simp
        have := ha' last hmem
        omega

theorem loadNormalized_segments (ct : CType) (P : Platform) (w : World) (fuel : Nat)
    (sm : SourceManager) (normalized : WString) (out : SourceDocument) (ds : List Diagnostic)
    (r : Bool × SourceDocument × List Diagnostic × SourceManager)
    (hcache : ∀ entry ∈ sm.m_cache, SegmentsOK entry.2)
    (h : loadNormalized ct P w fuel sm normalized out ds = some r) (hok : r.1 = true) :
    SegmentsOK r.2.1 := by
  unfold loadNormalized at h
  split at h
  · cases h
  · rename_i loaded hl
    cases h
    have hok : loaded.1 = true := hok
    have hst : CacheAll (fun _ => SegmentsOK) ⟨sm, ⟨[]⟩, ds⟩ := hcache
    have := ((LoadDocumentRecursive_segments ct P w fuel _ _ _ _ hst hl).2 hok).2
    simp only [hok, if_true]
    exact this

theorem LoadStructuredDocument_segments (ct : CType) (P : Platform) (w : World) (fuel : Nat)
    (sm : SourceManager) (entryFile : WString) (out : SourceDocument) (ds : List Diagnostic)
    (r : Bool × SourceDocument × List Diagnostic × SourceManager)
    (hcache : ∀ entry ∈ sm.m_cache, SegmentsOK entry.2)
    (h : LoadStructuredDocument ct P w fuel sm entryFile out ds = some r) (hok : r.1 = true) :
    SegmentsOK r.2.1 := by
  unfold LoadStructuredDocument at h
  dsimp only at h
  split at h
  · cases h; cases hok
  · exact loadNormalized_segments ct P w fuel sm _ out ds r hcache h hok

theorem LoadStyleDocument_segments (ct : CType) (P : Platform) (w : World) (fuel : Nat)
    (sm : SourceManager) (entryFile : WString) (out : SourceDocument) (ds : List Diagnostic)
    (r : Bool × SourceDocument × List Diagnostic × SourceManager)
    (hcache : ∀ entry ∈ sm.m_cache, SegmentsOK entry.2)
    (h : LoadStyleDocument ct P w fuel sm entryFile out ds = some r) (hok : r.1 = true) :
    SegmentsOK r.2.1 := by
  unfold LoadStyleDocument at h
  dsimp only at h
  split at h
  · cases h; cases hok
  · exact loadNormalized_segments ct P w fuel sm _ out ds r hcache h hok

/-- C5 (segments cover the buffer). Let a load through `LoadStructuredDocument` or
`LoadStyleDocument` succeed, on a source manager whose cached documents have
their segment lists in order (a new source manager has none). Then the document
returned has a segment list that is not empty, whose first segment starts at
offset `0`, whose `startOffset`s are in non-decreasing order and at most the
length of the content (`SegmentsOK`); and for every offset there is exactly one
way to split the list at a segment with the segments before it at most the
offset, the segment itself at most the offset and the segments after it beyond
the offset (`LastAtMost`): that segment is the last one whose `startOffset` is at
most the offset, and it is the one that the search of `Lexer::BuildLocation`
returns. -/
theorem C5_loaded_segments_cover (ct : CType) (P : Platform) (w : World) (fuel : Nat)
    (sm : SourceManager) (entryFile : WString) (out : SourceDocument) (ds : List Diagnostic)
    (r : Bool × SourceDocument × List Diagnostic × SourceManager)
    (hcache : ∀ entry ∈ sm.m_cache, SegmentsOK entry.2)
    (h : LoadStructuredDocument ct P w fuel sm entryFile out ds = some r ∨
      LoadStyleDocument ct P w fuel sm entryFile out ds = some r)
    (hok : r.1 = true) :
    SegmentsOK r.2.1 ∧
      ∀ offset, ∃ before segment after,
        LastAtMost r.2.1.segments offset before segment after ∧
        (∀ front, r.2.1.segments.head? = some front →
          Lexer.pickSegment offset front r.2.1.segments = segment) ∧
        ∀ before' segment' after', LastAtMost r.2.1.segments offset before' segment' after' →
          before' = before ∧ segment' = segment ∧ after' = after := by
  have hseg : SegmentsOK r.2.1 := by
    rcases h with h | h
    · exact LoadStructuredDocument_segments ct P w fuel sm entryFile out ds r hcache h hok
    · exact LoadStyleDocument_segments ct P w fuel sm entryFile out ds r hcache h hok
  refine ⟨hseg, fun offset => ?_⟩
  cases hfront : r.2.1.segments.head? with
  | none =>
    have := hseg.1
    cases hs : r.2.1.segments with
    | nil => exact absurd hs this
    | cons a rest => rw [hs] at hfront; simp at hfront
  | some front =>
    obtain ⟨before, segment, after, h1, h2, h3⟩ :=
      pickSegment_lastAtMost r.2.1 hseg offset front hfront
    refine ⟨before, segment, after, h1, ?_, h3⟩
    intro front' hfront'
    cases hfront'
    exact h2

/-- C5 at a concrete input: the load of `main.lsx` from the example disk succeeds and
the segment list of its document is in order. -/
theorem C5_loaded_segments_cover_witness :
    ∃ r, LoadStructuredDocument CType.ascii Platform.plain exampleWorld 3 (SourceManager.new [])
        (wstr "main.lsx") SourceDocument.empty [] = some r ∧ r.1 = true ∧ SegmentsOK r.2.1 :=
  ⟨(LoadStructuredDocument CType.ascii Platform.plain exampleWorld 3 (SourceManager.new [])
      (wstr "main.lsx") SourceDocument.empty []).get (by decide),
    (Option.some_get _).symm, by decide,
    (C5_loaded_segments_cover CType.ascii Platform.plain exampleWorld 3 (SourceManager.new [])
      (wstr "main.lsx") SourceDocument.empty [] _ (by simp [SourceManager.new])
      (Or.inl (Option.some_get _).symm) (by decide)).1⟩

/-! ## The scan of `ProcessFileContent` -/

theorem getD_eq_head_drop (text : WString) (index : Nat) (h : index < text.length) :
    text.drop index = text.getD index 0 :: text.drop (index + 1) := by
  rw [List.getD_eq_getElem _ _ h]
  exact List.drop_eq_getElem_cons h

/-- The inner loop stops at the first terminator at or after `index`, or at the end. -/
theorem lineEnd_spec (text : WString) (fuel index : Nat) (hi : index ≤ text.length)
    (hf : text.length - index ≤ fuel) :
    lineEnd text fuel index = index + ((text.drop index).takeWhile notTerminator).length := by
  induction fuel generalizing index with
  | zero =>
    have : index = text.length := by omega
    subst this
    simp [lineEnd]
  | succ fuel ih =>
    unfold lineEnd
    by_cases hlt : index < text.length
    · have hcond : (decide (index < text.length) && text.getD index 0 != 13 &&
          text.getD index 0 != 10) = notTerminator (text.getD index 0) := by
        simp only [notTerminator, hlt, decide_True, Bool.true_and]
      rw [hcond, getD_eq_head_drop text index hlt, List.takeWhile_cons]
      by_cases hc : notTerminator (text.getD index 0) = true
      · rw [if_pos hc, if_pos hc, ih (index + 1) hlt (by omega)]
        simp only [List.length_cons]
        omega
      · rw [if_neg hc, if_neg hc]
        rfl
    · have : index = text.length := by omega
      subst this
      simp

theorem scanLines_of_ge (text : WString) (fuel index : Nat) (h : text.length ≤ index) :
    scanLines text fuel index = [] := by
  cases fuel with
  | zero => rfl
  | succ fuel =>
    unfold scanLines
    rw [if_neg (by omega)]

theorem take_length_takeWhile (p : Nat → Bool) (l : WString) :
    l.take (l.takeWhile p).length = l.takeWhile p := by
  induction l with
  | nil => rfl
  | cons a l ih =>
    rw [List.takeWhile_cons]
    split
    · simp only [List.length_cons, List.take_succ_cons, ih]
    · rfl

theorem drop_length_takeWhile (p : Nat → Bool) (l : WString) :
    l.drop (l.takeWhile p).length = l.dropWhile p := by
  induction l with
  | nil => rfl
  | cons a l ih =>
    rw [List.takeWhile_cons, List.dropWhile_cons]
    split
    · simp only [List.length_cons, List.drop_succ_cons, ih]
    · rfl

/-- One iteration of the scan, in terms of the text from `index` on: the line is the
longest prefix without a terminator, and the terminator is the one that
follows. -/
theorem scanLines_cons (text : WString) (fuel index : Nat) (hi : index < text.length) :
    scanLines text (fuel + 1) index =
      ⟨index, (text.drop index).takeWhile notTerminator,
        terminatorLength ((text.drop index).dropWhile notTerminator)⟩ ::
      scanLines text fuel (index + ((text.drop index).takeWhile notTerminator).length +
        terminatorLength ((text.drop index).dropWhile notTerminator)) := by
  have hstop := lineEnd_spec text (text.length - index) index (le_of_lt hi) (le_refl _)
  have hdrop : text.drop (index + ((text.drop index).takeWhile notTerminator).length) =
      (text.drop index).dropWhile notTerminator := by
    rw [← List.drop_drop, drop_length_takeWhile]
  have hnl : (if lineEnd text (text.length - index) index < text.length then
        if text.getD (lineEnd text (text.length - index) index) 0 = 13 ∧
            lineEnd text (text.length - index) index + 1 < text.length ∧
            text.getD (lineEnd text (text.length - index) index + 1) 0 = 10 then 2
        else 1
      else 0) = terminatorLength ((text.drop index).dropWhile notTerminator) := by
    rw [hstop, ← hdrop]
    generalize index + ((text.drop index).takeWhile notTerminator).length = stop
    by_cases hs : stop < text.length
    · rw [if_pos hs, getD_eq_head_drop text stop hs]
      simp only [terminatorLength]
      by_cases hs1 : stop + 1 < text.length
      · rw [getD_eq_head_drop text (stop + 1) hs1]
        simp [hs1]
      · have : text.drop (stop + 1) = [] := List.drop_eq_nil_of_le (by omega)
        simp [this, hs1]
    · rw [if_neg hs, List.drop_eq_nil_of_le (by omega)]
      rfl
  conv_lhs => rw [scanLines]
  rw [if_pos hi]
  dsimp only
  rw [hnl, hstop]
  congr 2
  simp only [Lexer.substr, Nat.add_sub_cancel_left]
  exact take_length_takeWhile _ _

theorem head_dropWhile_not (p : Nat → Bool) (l : WString) (c : Nat) (rest : WString)
    (h : l.dropWhile p = c :: rest) : p c = false := by
  induction l with
  | nil => simp at h
  | cons a l ih =>
    rw [List.dropWhile_cons] at h
    split at h
    · exact ih h
    · rename_i hp
      cases h
      simpa using hp

/-- Every line of the scan stands for at least one character of the file. -/
theorem scanned_line_advances (text : WString) (index : Nat) (hi : index < text.length) :
    0 < ((text.drop index).takeWhile notTerminator).length +
      terminatorLength ((text.drop index).dropWhile notTerminator) := by
  have hne : text.drop index ≠ [] := by
    rw [getD_eq_head_drop text index hi]
    exact List.cons_ne_nil _ _
  have hsplit := List.takeWhile_append_dropWhile notTerminator (text.drop index)
  cases ht : (text.drop index).dropWhile notTerminator with
  | nil =>
    rw [ht, List.append_nil] at hsplit
    rw [hsplit]
    simp only [terminatorLength, Nat.add_zero]
    exact List.length_pos.2 hne
  | cons c rest =>
    simp only [terminatorLength]
    split <;> omega

theorem drop_after_line (text : WString) (index : Nat) :
    text.drop (index + ((text.drop index).takeWhile notTerminator).length +
        terminatorLength ((text.drop index).dropWhile notTerminator)) =
      ((text.drop index).dropWhile notTerminator).drop
        (terminatorLength ((text.drop index).dropWhile notTerminator)) := by
  rw [← List.drop_drop, ← List.drop_drop, drop_length_takeWhile]

theorem normalizeNewlines_cons_of_ne (c : Nat) (rest : WString) (h : c ≠ 13) :
    normalizeNewlines (c :: rest) = c :: normalizeNewlines rest := by
  cases rest with
  | nil => simp [normalizeNewlines, h]
  | cons d rest => simp [normalizeNewlines, h]

theorem normalizeNewlines_append (body tail : WString)
    (h : ∀ c ∈ body, notTerminator c = true) :
    normalizeNewlines (body ++ tail) = body ++ normalizeNewlines tail := by
  induction body with
  | nil => rfl
  | cons c body ih =>
    have hc : c ≠ 13 := by
      have := h c (List.mem_cons_self _ _)
      simp only [notTerminator, Bool.and_eq_true, bne_iff_ne] at this
      exact this.1
    rw [List.cons_append, normalizeNewlines_cons_of_ne _ _ hc,
      ih (fun x hx => h x (List.mem_cons_of_mem _ hx))]
    rfl

/-- The terminator at the head of the rest of a line becomes one `\n`. -/
theorem normalizeNewlines_terminator (tail : WString)
    (h : ∀ c rest, tail = c :: rest → notTerminator c = false) :
    normalizeNewlines tail =
      (if terminatorLength tail > 0 then [10] else []) ++
        normalizeNewlines (tail.drop (terminatorLength tail)) := by
  cases tail with
  | nil => rfl
  | cons c rest =>
    have hc := h c rest rfl
    have hc' : c = 13 ∨ c = 10 := by
      simp only [notTerminator, Bool.and_eq_false_iff, bne_eq_false_iff_eq, beq_iff_eq] at hc
      simpa using hc
    cases rest with
    | nil =>
      rcases hc' with rfl | rfl <;> simp [terminatorLength, normalizeNewlines]
    | cons d rest =>
      rcases hc' with rfl | rfl
      · by_cases hd : d = 10
        · subst hd
          simp [terminatorLength, normalizeNewlines]
        · simp [terminatorLength, normalizeNewlines, hd]
      · simp [terminatorLength, normalizeNewlines]

/-- The lines of the scan from `index`, put together with `\n` for each terminator,
are the rest of the text with its terminators normalized. -/
theorem linesText_scanLines (text : WString) (fuel index : Nat)
    (hf : text.length - index ≤ fuel) :
    linesText (scanLines text fuel index) = normalizeNewlines (text.drop index) := by
  induction fuel generalizing index with
  | zero =>
    rw [scanLines_of_ge text 0 index (by omega), List.drop_eq_nil_of_le (by omega)]
    rfl
  | succ fuel ih =>
    by_cases hi : index < text.length
    · have hadv := scanned_line_advances text index hi
      rw [scanLines_cons text fuel index hi]
      simp only [linesText]
      rw [ih _ (by omega), drop_after_line]
      conv_rhs => rw [← List.takeWhile_append_dropWhile notTerminator (text.drop index)]
      rw [normalizeNewlines_append _ _ (fun c hc => (List.mem_takeWhile_imp hc)),
        normalizeNewlines_terminator _ (fun c rest h => head_dropWhile_not _ _ c rest h),
        List.append_assoc]
    · rw [scanLines_of_ge text _ index (by omega), List.drop_eq_nil_of_le (by omega)]
      rfl

theorem scanLines_contributes (text : WString) (fuel index : Nat) :
    ∀ ln ∈ scanLines text fuel index, ln.line ≠ [] ∨ ln.newlineLength > 0 := by
  induction fuel generalizing index with
  | zero => intro ln h; simp [scanLines] at h
  | succ fuel ih =>
    intro ln h
    by_cases hi : index < text.length
    · rw [scanLines_cons text fuel index hi] at h
      rcases List.mem_cons.1 h with rfl | h
      · have hadv := scanned_line_advances text index hi
        dsimp only
        by_cases hb : (text.drop index).takeWhile notTerminator = []
        · right
          rw [hb] at hadv
          simpa using hadv
        · exact Or.inl hb
      · exact ih _ ln h
    · rw [scanLines_of_ge text _ index (by omega)] at h
      simp at h

/-! ## A file without include lines -/

/-- Over lines none of which is an include line, `processLines` calls no loader: it
gathers the lines in one chunk and flushes it as one segment at offset `0`. -/
theorem processLines_plain (load : Loader) (ct : CType) (P : Platform) (path : WString)
    (lines : List ScannedLine) (currentLine : Nat) (pending : Pending) (st : LoadState)
    (hplain : ∀ ln ∈ lines, isIncludeLine (TrimLeft ct ln.line) = false)
    (hadv : ∀ ln ∈ lines, ln.line ≠ [] ∨ ln.newlineLength > 0) :
    ∃ document, processLines load ct P path lines currentLine pending
        { SourceDocument.empty with primaryFile := path } st = some (true, document, st) ∧
      document.primaryFile = path ∧
      document.content = pending.chunk ++ linesText lines ∧
      document.segments = [⟨path, 0,
        if pending.chunk.isEmpty then (if lines.isEmpty then 1 else currentLine)
        else pending.chunkLineStart⟩] := by
  induction lines generalizing currentLine pending with
  | nil =>
    unfold processLines
    dsimp only
    cases hc : pending.chunk with
    | nil =>
      refine ⟨⟨path, [], [⟨path, 0, 1⟩], []⟩, ?_, rfl, ?_, ?_⟩
      · simp [flushChunk, hc, SourceDocument.empty]
      · simp [linesText]
      · simp
    | cons a rest =>
      refine ⟨⟨path, pending.chunk, [⟨path, 0, pending.chunkLineStart⟩], pending.chunkOrigins⟩,
        ?_, rfl, ?_, ?_⟩
      · simp [flushChunk, hc, SourceDocument.empty]
      · simp [linesText, hc]
      · simp
  | cons ln rest ih =>
    unfold processLines
    dsimp only
    rw [hplain ln (List.mem_cons_self _ _)]
    simp only [Bool.false_eq_true, if_false]
    obtain ⟨document, h1, h2, h3, h4⟩ := ih (currentLine + 1)
      ⟨pending.chunk ++ ln.line ++ (if decide (ln.newlineLength > 0) = true then [10] else []),
        if pending.chunk.isEmpty then currentLine else pending.chunkLineStart,
        pending.chunkOrigins ++ lineOrigins path ln.lineStart ln.line.length ++
          (if decide (ln.newlineLength > 0) = true then [⟨path, ln.lineStart + ln.line.length⟩]
          else [])⟩
      (fun x hx => hplain x (List.mem_cons_of_mem _ hx))
      (fun x hx => hadv x (List.mem_cons_of_mem _ hx))
    refine ⟨document, h1, h2, ?_, ?_⟩
    · rw [h3]
      simp only [linesText, decide_eq_true_eq, List.append_assoc]
    · rw [h4]
      have hne : (pending.chunk ++ ln.line ++
          (if decide (ln.newlineLength > 0) = true then [10] else [])).isEmpty = false := by
        rcases hadv ln (List.mem_cons_self _ _) with h | h
        · cases hl : ln.line with
          | nil => exact absurd hl h
          | cons a l => cases pending.chunk <;> simp
        · simp [h]
      simp only [hne, Bool.false_eq_true, if_false, List.isEmpty_cons]

theorem LoadDocumentFromDisk_eq (P : Platform) (w : World) (path : WString)
    (ds : List Diagnostic) (text : WString)
    (h : LoadDocumentFromDisk P w path [] = (true, text, [])) :
    LoadDocumentFromDisk P w path ds = (true, text, ds) := by
  have hd := LoadDocumentFromDisk_diagnostics P w path ds
  rw [h] at hd
  have h1 : (LoadDocumentFromDisk P w path ds).1 = true := hd.1
  have h2 : (LoadDocumentFromDisk P w path ds).2.1 = text := hd.2.1
  have h3 := hd.2.2.1 h1
  exact Prod.ext h1 (Prod.ext h2 h3)

/-- C10, amended. Let `text` be the decoded text of a file that is neither in the cache
nor being expanded, and let none of its lines be an include line. Then
`LoadDocumentRecursive` succeeds on it, the flattened content is `text` with every
line terminator (`\r\n`, a lone `\r`, `\n`) replaced by one `\n` and every other
character unchanged, and the segment list is the single segment
`{ filePath := the file, startOffset := 0, lineStart := 1 }`. -/
theorem C10_plain_file_is_normalized_text (ct : CType) (P : Platform) (w : World) (fuel : Nat)
    (path : WString) (out : SourceDocument) (st : LoadState) (text : WString)
    (hcanon : NormalizePath P path ≠ [])
    (hcache : cacheFind st.sm.m_cache (ToLookupKey ct (NormalizePath P path)) = none)
    (hstack : ToLookupKey ct (NormalizePath P path) ∉ st.context.activeStack)
    (hread : LoadDocumentFromDisk P w (NormalizePath P path) [] = (true, text, []))
    (hplain : ∀ ln ∈ scanLines text text.length 0, isIncludeLine (TrimLeft ct ln.line) = false) :
    ∃ document st', LoadDocumentRecursive ct P w (fuel + 1) path out st =
        some (true, document, st') ∧
      document.content = normalizeNewlines text ∧
      document.segments = [⟨NormalizePath P path, 0, 1⟩] := by
  obtain ⟨document, h1, _, h3, h4⟩ := processLines_plain (LoadDocumentRecursive ct P w fuel) ct P
    (NormalizePath P path) (scanLines text text.length 0) 1 ⟨[], 0, []⟩
    { sm := { st.sm with opened := st.sm.opened ++ [NormalizePath P path] },
      context := ⟨stackInsert st.context.activeStack (ToLookupKey ct (NormalizePath P path))⟩,
      diagnostics := st.diagnostics } hplain (scanLines_contributes text _ _)
  have hempty : (NormalizePath P path).isEmpty = false := by
    cases hn : NormalizePath P path with
    | nil => exact absurd hn hcanon
    | cons a l => rfl
  have hload : ∃ st', LoadDocumentRecursive ct P w (fuel + 1) path out st =
      some (true, document, st') := by
    unfold LoadDocumentRecursive
    dsimp only
    rw [hempty, hcache]
    simp only [Bool.false_eq_true, if_false, if_neg hstack]
    rw [LoadDocumentFromDisk_eq P w _ st.diagnostics text hread]
    simp only [Bool.not_true, Bool.false_eq_true, if_false]
    unfold ProcessFileContent
    rw [h1]
    exact ⟨_, rfl⟩
  obtain ⟨st', hst'⟩ := hload
  refine ⟨document, st', hst', ?_, ?_⟩
  · rw [h3, linesText_scanLines text _ 0 (by omega)]
    rfl
  · rw [h4]
    simp

/-- C10 at a concrete input: the file `crlf.lsx` of the example disk, whose text is
`a\r\nb\rc`, is flattened to `a\nb\nc`. -/
theorem C10_plain_file_is_normalized_text_witness :
    ∃ document st', LoadDocumentRecursive CType.ascii Platform.plain exampleWorld 1
        (wstr "crlf.lsx") SourceDocument.empty ⟨SourceManager.new [], ⟨[]⟩, []⟩ =
        some (true, document, st') ∧
      document.content = wstr "a\nb\nc" ∧
      document.segments = [⟨wstr "crlf.lsx", 0, 1⟩] :=
  C10_plain_file_is_normalized_text CType.ascii Platform.plain exampleWorld 0 (wstr "crlf.lsx")
    SourceDocument.empty ⟨SourceManager.new [], ⟨[]⟩, []⟩ (wstr "a\r\nb\rc")
    (by decide) (by decide) (by decide) (by decide) (by decide)

/-- C10 as stated fails: the file `crlf.lsx` has no include line and is loaded with
success, but the flattened content is not its decoded text (the terminators
`\r\n` and `\r` have become `\n`). -/
theorem C10_counterexample :
    ∃ r text, LoadStructuredDocument CType.ascii Platform.plain exampleWorld 1
        (SourceManager.new []) (wstr "crlf.lsx") SourceDocument.empty [] = some r ∧
      r.1 = true ∧
      LoadDocumentFromDisk Platform.plain exampleWorld (wstr "crlf.lsx") [] = (true, text, []) ∧
      (∀ ln ∈ scanLines text text.length 0,
        isIncludeLine (TrimLeft CType.ascii ln.line) = false) ∧
      r.2.1.content ≠ text :=
  ⟨(LoadStructuredDocument CType.ascii Platform.plain exampleWorld 1
      (SourceManager.new []) (wstr "crlf.lsx") SourceDocument.empty []).get (by decide),
    wstr "a\r\nb\rc", (Option.some_get _).symm, by decide, by decide, by decide, by decide⟩

/-! ## The cache across loads -/

/-- C9, the code at the failing input. A source manager loads `theme.lsx` while the
file holds `#Old {}`; the file then changes to `#New {}` and the same source
manager loads it again. The second load succeeds with the old text and opens no
file (the log of opened files is the one left by the first load), while a new
source manager returns the new text: the cache is not scoped to one load. -/
theorem C9_second_load_returns_stale_text :
    ∃ first second,
      LoadStructuredDocument CType.ascii Platform.plain
          (World.ofFiles [("theme.lsx", "#Old \x7b\x7d")]) 1 (SourceManager.new []) []
          SourceDocument.empty [] = some first ∧
        first.1 = true ∧ first.2.1.content = wstr "#Old \x7b\x7d" ∧
        first.2.2.2.opened = [wstr "theme.lsx"] ∧
      LoadStructuredDocument CType.ascii Platform.plain
          (World.ofFiles [("theme.lsx", "#New \x7b\x7d")]) 1 first.2.2.2 []
          SourceDocument.empty [] = some second ∧
        second.1 = true ∧ second.2.1.content = wstr "#Old \x7b\x7d" ∧
        second.2.2.2.opened = [wstr "theme.lsx"] ∧
      (LoadStructuredDocument CType.ascii Platform.plain
          (World.ofFiles [("theme.lsx", "#New \x7b\x7d")]) 1 (SourceManager.new []) []
          SourceDocument.empty []).map (fun r => r.2.1.content) = some (wstr "#New \x7b\x7d") :=
  ⟨(LoadStructuredDocument CType.ascii Platform.plain
      (World.ofFiles [("theme.lsx", "#Old \x7b\x7d")]) 1 (SourceManager.new []) []
      SourceDocument.empty []).get (by decide),
    (LoadStructuredDocument CType.ascii Platform.plain
      (World.ofFiles [("theme.lsx", "#New \x7b\x7d")]) 1
      ((LoadStructuredDocument CType.ascii Platform.plain
        (World.ofFiles [("theme.lsx", "#Old \x7b\x7d")]) 1 (SourceManager.new []) []
        SourceDocument.empty []).get (by decide)).2.2.2 []
      SourceDocument.empty []).get (by decide),
    (Option.some_get _).symm, by decide, by decide, by decide,
    (Option.some_get _).symm, by decide, by decide, by decide, by decide⟩

/-! ## A file that is included twice -/

theorem cacheFind_cacheInsert (cache : List (WString × SourceDocument)) (key : WString)
    (document : SourceDocument) (h : cacheFind cache key = none) :
    cacheFind (cacheInsert cache key document) key = some document := by
  simp [cacheInsert, h, cacheFind]

theorem isEmpty_false_of_ne_nil {l : WString} (h : l ≠ []) : l.isEmpty = false := by
  cases l with
  | nil => exact absurd rfl h
  | cons a l => rfl

/-- The load of a file without include lines that is neither cached nor being
expanded, with the state it leaves: the file has been opened once and its
document is in the cache. -/
theorem LoadDocumentRecursive_plain (ct : CType) (P : Platform) (w : World) (fuel : Nat)
    (path : WString) (out : SourceDocument) (st : LoadState) (text : WString)
    (hcanon : NormalizePath P path ≠ [])
    (hcache : cacheFind st.sm.m_cache (ToLookupKey ct (NormalizePath P path)) = none)
    (hstack : ToLookupKey ct (NormalizePath P path) ∉ st.context.activeStack)
    (hread : LoadDocumentFromDisk P w (NormalizePath P path) [] = (true, text, []))
    (hplain : ∀ ln ∈ scanLines text text.length 0, isIncludeLine (TrimLeft ct ln.line) = false) :
    ∃ document, LoadDocumentRecursive ct P w (fuel + 1) path out st =
        some (true, document,
          { st with
            sm := { st.sm with
              opened := st.sm.opened ++ [NormalizePath P path]
              m_cache := cacheInsert st.sm.m_cache (ToLookupKey ct (NormalizePath P path))
                document } }) ∧
      document.content = normalizeNewlines text ∧
      document.segments = [⟨NormalizePath P path, 0, 1⟩] := by
  obtain ⟨document, h1, _, h3, h4⟩ := processLines_plain (LoadDocumentRecursive ct P w fuel) ct P
    (NormalizePath P path) (scanLines text text.length 0) 1 ⟨[], 0, []⟩
    { sm := { st.sm with opened := st.sm.opened ++ [NormalizePath P path] },
      context := ⟨stackInsert st.context.activeStack (ToLookupKey ct (NormalizePath P path))⟩,
      diagnostics := st.diagnostics } hplain (scanLines_contributes text _ _)
  refine ⟨document, ?_, ?_, ?_⟩
  · unfold LoadDocumentRecursive
    dsimp only
    rw [isEmpty_false_of_ne_nil hcanon, hcache]
    simp only [Bool.false_eq_true, if_false, if_neg hstack]
    rw [LoadDocumentFromDisk_eq P w _ st.diagnostics text hread]
    simp only [Bool.not_true, Bool.false_eq_true, if_false]
    unfold ProcessFileContent
    rw [h1]
    simp only [Bool.not_true, Bool.false_eq_true, if_false, stackErase_stackInsert _ _ hstack]
  · rw [h3, linesText_scanLines text _ 0 (by omega)]
    rfl
  · rw [h4]
    simp

theorem includeTarget_some {ct : CType} {P : Platform} {requestingPath token b : WString}
    (h : includeTarget ct P requestingPath token = some b) :
    (includePathOf ct P token).isEmpty = false ∧
      (NormalizePath P (resolveInclude P requestingPath (includePathOf ct P token))).isEmpty = false ∧
      NormalizePath P (NormalizePath P
        (resolveInclude P requestingPath (includePathOf ct P token))) = b ∧
      b ≠ [] := by
  unfold includeTarget at h
  dsimp only at h
  split at h
  · cases h
  · rename_i h1
    split at h
    · cases h
    · rename_i h2
      split at h
      · cases h
      · rename_i h3
        cases h
        refine ⟨by simpa using h1, by simpa using h2, rfl, ?_⟩
        intro e
        rw [e] at h3
        simp at h3

/-- An include of a file without include lines, either not yet cached or cached with
the expected content: the include succeeds, appends that content, and opens the
file only when it was not cached. -/
theorem AppendInclude_plain (ct : CType) (P : Platform) (w : World) (fuel : Nat)
    (requestingPath token b text : WString) (document : SourceDocument) (st : LoadState)
    (htarget : includeTarget ct P requestingPath token = some b)
    (hread : LoadDocumentFromDisk P w b [] = (true, text, []))
    (hplain : ∀ ln ∈ scanLines text text.length 0, isIncludeLine (TrimLeft ct ln.line) = false)
    (hstack : ToLookupKey ct b ∉ st.context.activeStack)
    (hcache : cacheFind st.sm.m_cache (ToLookupKey ct b) = none ∨
      ∃ d, cacheFind st.sm.m_cache (ToLookupKey ct b) = some d ∧
        d.content = normalizeNewlines text) :
    ∃ document' st',
      AppendInclude (LoadDocumentRecursive ct P w (fuel + 1)) ct P requestingPath token
        document st = some (true, document', st') ∧
      document'.content = document.content ++ normalizeNewlines text ∧
      st'.context = st.context ∧ st'.diagnostics = st.diagnostics ∧
      (∃ d, cacheFind st'.sm.m_cache (ToLookupKey ct b) = some d ∧
        d.content = normalizeNewlines text) ∧
      st'.sm.opened = st.sm.opened ++
        (if cacheFind st.sm.m_cache (ToLookupKey ct b) = none then [b] else []) := by
  obtain ⟨h1, h2, h3, hb⟩ := includeTarget_some htarget
  unfold AppendInclude
  dsimp only
  rw [h1, h2]
  simp only [Bool.false_eq_true, if_false]
  rcases hcache with hnone | ⟨d, hd, hcontent⟩
  · obtain ⟨loaded, hl, hc, _⟩ := LoadDocumentRecursive_plain ct P w fuel
      (NormalizePath P (resolveInclude P requestingPath (includePathOf ct P token)))
      SourceDocument.empty st text (h3 ▸ hb) (h3 ▸ hnone) (h3 ▸ hstack) (h3 ▸ hread) hplain
    rw [hl]
    simp only [Bool.not_true, Bool.false_eq_true, if_false]
    refine ⟨_, _, rfl, ?_, rfl, rfl, ?_, ?_⟩
    · simp only [hc]
    · refine ⟨loaded, ?_, hc⟩
      rw [h3]
      exact cacheFind_cacheInsert _ _ _ hnone
    · simp only [hnone, if_true, h3]
  · have hl : LoadDocumentRecursive ct P w (fuel + 1)
        (NormalizePath P (resolveInclude P requestingPath (includePathOf ct P token)))
        SourceDocument.empty st = some (true, d, st) := by
      unfold LoadDocumentRecursive
      dsimp only
      rw [h3, isEmpty_false_of_ne_nil hb, hd]
      simp
    rw [hl]
    simp only [Bool.not_true, Bool.false_eq_true, if_false]
    refine ⟨_, _, rfl, ?_, rfl, rfl, ⟨d, hd, hcontent⟩, ?_⟩
    · simp only [hcontent]
    · simp [hd]

theorem getLast?_append_ne_nil (a b : WString) (h : b ≠ []) :
    (a ++ b).getLast? = b.getLast? := by
  rw [List.getLast?_append]
  cases hb : b.getLast? with
  | none => exact absurd (List.getLast?_eq_none_iff.1 hb) h
  | some x => rfl

/-- The step of `ProcessFileContent` after a successful include: whether a `\n` is
added depends only on the terminator of the line and on the text included. -/
theorem include_newline_content (ln : ScannedLine) (before included : WString) :
    (if (decide (ln.newlineLength > 0) &&
          !(decide (before.length ≠ (before ++ included).length) &&
            (before ++ included).getLast? == some 10)) = true
      then before ++ included ++ [10] else before ++ included) =
      before ++ included ++ includeNewline ln included := by
  unfold includeNewline
  cases hi : included with
  | nil =>
    by_cases hn : ln.newlineLength > 0 <;> simp [hn]
  | cons c rest =>
    have hne : c :: rest ≠ [] := List.cons_ne_nil _ _
    rw [getLast?_append_ne_nil before (c :: rest) hne]
    have hlen : before.length ≠ (before ++ c :: rest).length := by
      simp only [List.length_append, List.length_cons]
      omega
    by_cases hn : ln.newlineLength > 0
    · by_cases hl : (c :: rest).getLast? = some 10
      · simp [hn, hl, hlen]
      · have hl' : ((c :: rest).getLast? == some 10) = false := by
          simpa using hl
        simp [hn, hl, hl', hlen]
    · simp [hn]

/-- Over lines whose include lines all name the same file `b`, a file without include
lines: `processLines` succeeds, the content is the text before followed by the
lines with each include line replaced by the text of `b`, and `b` is opened at
most once, at the first include line when it is not in the cache. -/
theorem processLines_sameInclude (ct : CType) (P : Platform) (w : World) (fuel : Nat)
    (path b text : WString) (lines : List ScannedLine) (currentLine : Nat) (pending : Pending)
    (document : SourceDocument) (st : LoadState)
    (htarget : ∀ ln ∈ lines, ln.isInclude ct = true →
      includeTarget ct P path (ln.includeToken ct) = some b)
    (hread : LoadDocumentFromDisk P w b [] = (true, text, []))
    (hplain : ∀ ln ∈ scanLines text text.length 0, isIncludeLine (TrimLeft ct ln.line) = false)
    (hstack : ToLookupKey ct b ∉ st.context.activeStack)
    (hcache : cacheFind st.sm.m_cache (ToLookupKey ct b) = none ∨
      ∃ d, cacheFind st.sm.m_cache (ToLookupKey ct b) = some d ∧
        d.content = normalizeNewlines text) :
    ∃ document' st',
      processLines (LoadDocumentRecursive ct P w (fuel + 1)) ct P path lines currentLine pending
        document st = some (true, document', st') ∧
      document'.content = document.content ++ pending.chunk ++
        flattenWith ct (normalizeNewlines text) lines ∧
      st'.context = st.context ∧ st'.diagnostics = st.diagnostics ∧
      st'.sm.opened = st.sm.opened ++
        (if cacheFind st.sm.m_cache (ToLookupKey ct b) = none ∧
            ∃ ln ∈ lines, ln.isInclude ct = true then [b] else []) := by
  induction lines generalizing currentLine pending document st with
  | nil =>
    unfold processLines
    dsimp only
    have hcontent : (flushChunk path pending document).2.content =
        document.content ++ pending.chunk := by
      unfold flushChunk
      cases hc : pending.chunk <;> simp
    split
    · exact ⟨_, _, rfl, by simp [hcontent, flattenWith], rfl, rfl, by simp⟩
    · exact ⟨_, _, rfl, by simp [hcontent, flattenWith], rfl, rfl, by simp⟩
  | cons ln rest ih =>
    have hcontent : (flushChunk path pending document).2.content =
        document.content ++ pending.chunk := by
      unfold flushChunk
      cases hc : pending.chunk <;> simp
    have hpend : (flushChunk path pending document).1.chunk = [] := by
      unfold flushChunk
      cases hc : pending.chunk <;> simp [hc]
    unfold processLines
    dsimp only
    by_cases hinc : isIncludeLine (TrimLeft ct ln.line) = true
    · rw [if_pos hinc]
      obtain ⟨d2, st2, ha, hc2, hctx, hds, hcache2, hopen⟩ := AppendInclude_plain ct P w fuel path
        ((TrimLeft ct ln.line).drop 8) b text (flushChunk path pending document).2 st
        (htarget ln (List.mem_cons_self _ _) hinc) hread hplain hstack hcache
      rw [ha]
      simp only [Bool.not_true, Bool.false_eq_true, if_false]
      obtain ⟨d3, st3, hp, hc3, hctx3, hds3, hopen3⟩ := ih (currentLine + 1)
        (flushChunk path pending document).1
        (if (decide (ln.newlineLength > 0) &&
              !(decide ((flushChunk path pending document).2.content.length ≠ d2.content.length) &&
                d2.content.getLast? == some 10)) = true
          then { d2 with
                segments := d2.segments ++ [⟨path, d2.content.length, currentLine⟩]
                content := d2.content ++ [10]
                origins := d2.origins ++ [⟨path, ln.lineStart + ln.line.length⟩] }
          else d2) st2
        (fun x hx => htarget x (List.mem_cons_of_mem _ hx)) (hctx ▸ hstack) (Or.inr hcache2)
      refine ⟨d3, st3, hp, ?_, hctx3.trans hctx, hds3.trans hds, ?_⟩
      · rw [hc3, hpend, List.append_nil]
        have hstep := include_newline_content ln (flushChunk path pending document).2.content
          (normalizeNewlines text)
        rw [← hc2] at hstep
        have hcont : (if (decide (ln.newlineLength > 0) &&
              !(decide ((flushChunk path pending document).2.content.length ≠ d2.content.length) &&
                d2.content.getLast? == some 10)) = true
            then ({ d2 with
                segments := d2.segments ++ [⟨path, d2.content.length, currentLine⟩]
                content := d2.content ++ [10]
                origins := d2.origins ++ [⟨path, ln.lineStart + ln.line.length⟩] } : SourceDocument)
            else d2).content = d2.content ++ includeNewline ln (normalizeNewlines text) := by
          rw [← hstep]
          split <;> rfl
        rw [hcont, hc2, hcontent]
        simp only [flattenWith, ScannedLine.isInclude, hinc, if_true, List.append_assoc]
      · rw [hopen3, hopen]
        obtain ⟨d, hd, _⟩ := hcache2
        have hex : ∃ x ∈ ln :: rest, x.isInclude ct = true := ⟨ln, List.mem_cons_self _ _, hinc⟩
        by_cases hnone : cacheFind st.sm.m_cache (ToLookupKey ct b) = none
        · have hln : ln.isInclude ct = true := hinc
          simp [hnone, hd, hln]
        · simp [hnone, hd]
    · rw [if_neg hinc]
      obtain ⟨d3, st3, hp, hc3, hctx3, hds3, hopen3⟩ := ih (currentLine + 1)
        ⟨pending.chunk ++ ln.line ++ (if decide (ln.newlineLength > 0) = true then [10] else []),
          if pending.chunk.isEmpty then currentLine else pending.chunkLineStart,
          pending.chunkOrigins ++ lineOrigins path ln.lineStart ln.line.length ++
            (if decide (ln.newlineLength > 0) = true then [⟨path, ln.lineStart + ln.line.length⟩]
            else [])⟩ document st
        (fun x hx => htarget x (List.mem_cons_of_mem _ hx)) hstack hcache
      refine ⟨d3, st3, hp, ?_, hctx3, hds3, ?_⟩
      · rw [hc3]
        simp only [flattenWith, ScannedLine.isInclude, hinc, Bool.false_eq_true, if_false,
          decide_eq_true_eq, List.append_assoc]
      · rw [hopen3]
        have hiff : (∃ x ∈ ln :: rest, x.isInclude ct = true) ↔
            ∃ x ∈ rest, x.isInclude ct = true := by
          constructor
          · rintro ⟨x, hx, hxi⟩
            rcases List.mem_cons.1 hx with rfl | hx
            · exact absurd hxi hinc
            · exact ⟨x, hx, hxi⟩
          · rintro ⟨x, hx, hxi⟩
            exact ⟨x, List.mem_cons_of_mem _ hx, hxi⟩
        simp only [hiff]

theorem flattenWith_append (ct : CType) (included : WString) (a b : List ScannedLine) :
    flattenWith ct included (a ++ b) = flattenWith ct included a ++ flattenWith ct included b := by
  induction a with
  | nil => rfl
  | cons ln rest ih =>
    show flattenWith ct included (ln :: (rest ++ b)) = _
    simp only [flattenWith, ih, List.append_assoc]

theorem flattenWith_of_plain (ct : CType) (included : WString) (lines : List ScannedLine)
    (h : ∀ ln ∈ lines, ln.isInclude ct = false) :
    flattenWith ct included lines = linesText lines := by
  induction lines with
  | nil => rfl
  | cons ln rest ih =>
    simp only [flattenWith, linesText, h ln (List.mem_cons_self _ _), Bool.false_eq_true,
      if_false, ih (fun x hx => h x (List.mem_cons_of_mem _ hx))]

/-- The load of a file, neither cached nor being expanded, whose include lines all
name one other file `b` that has no include lines. -/
theorem LoadDocumentRecursive_sameInclude (ct : CType) (P : Platform) (w : World) (fuel : Nat)
    (path : WString) (out : SourceDocument) (st : LoadState) (textE b textB : WString)
    (hcanon : NormalizePath P path ≠ [])
    (hcache : cacheFind st.sm.m_cache (ToLookupKey ct (NormalizePath P path)) = none)
    (hstack : ToLookupKey ct (NormalizePath P path) ∉ st.context.activeStack)
    (hreadE : LoadDocumentFromDisk P w (NormalizePath P path) [] = (true, textE, []))
    (htarget : ∀ ln ∈ scanLines textE textE.length 0, ln.isInclude ct = true →
      includeTarget ct P (NormalizePath P path) (ln.includeToken ct) = some b)
    (hkeys : ToLookupKey ct b ≠ ToLookupKey ct (NormalizePath P path))
    (hstackB : ToLookupKey ct b ∉ st.context.activeStack)
    (hcacheB : cacheFind st.sm.m_cache (ToLookupKey ct b) = none)
    (hreadB : LoadDocumentFromDisk P w b [] = (true, textB, []))
    (hplainB : ∀ ln ∈ scanLines textB textB.length 0,
      isIncludeLine (TrimLeft ct ln.line) = false) :
    ∃ document st', LoadDocumentRecursive ct P w (fuel + 2) path out st =
        some (true, document, st') ∧
      document.content =
        flattenWith ct (normalizeNewlines textB) (scanLines textE textE.length 0) ∧
      st'.diagnostics = st.diagnostics ∧
      st'.sm.opened = st.sm.opened ++ [NormalizePath P path] ++
        (if ∃ ln ∈ scanLines textE textE.length 0, ln.isInclude ct = true then [b] else []) := by
  have hstackB' : ToLookupKey ct b ∉
      stackInsert st.context.activeStack (ToLookupKey ct (NormalizePath P path)) := by
    simp only [stackInsert, if_neg hstack, List.mem_cons, not_or]
    exact ⟨hkeys, hstackB⟩
  obtain ⟨d, st', hp, hc, hctx, hds, hopen⟩ := processLines_sameInclude ct P w fuel
    (NormalizePath P path) b textB (scanLines textE textE.length 0) 1 ⟨[], 0, []⟩
    { SourceDocument.empty with primaryFile := NormalizePath P path }
    { sm := { st.sm with opened := st.sm.opened ++ [NormalizePath P path] },
      context := ⟨stackInsert st.context.activeStack (ToLookupKey ct (NormalizePath P path))⟩,
      diagnostics := st.diagnostics } htarget hreadB hplainB hstackB' (Or.inl hcacheB)
  have hload : ∃ st'', LoadDocumentRecursive ct P w (fuel + 2) path out st =
      some (true, d, st'') ∧ st''.diagnostics = st'.diagnostics ∧
      st''.sm.opened = st'.sm.opened := by
    conv => enter [1, st'', 1, 1]; unfold LoadDocumentRecursive
    dsimp only
    rw [isEmpty_false_of_ne_nil hcanon, hcache]
    simp only [Bool.false_eq_true, if_false, if_neg hstack]
    rw [LoadDocumentFromDisk_eq P w _ st.diagnostics textE hreadE]
    simp only [Bool.not_true, Bool.false_eq_true, if_false]
    unfold ProcessFileContent
    rw [hp]
    exact ⟨_, rfl, rfl, rfl⟩
  obtain ⟨st'', h1, h2, h3⟩ := hload
  refine ⟨d, st'', h1, ?_, h2.trans hds, ?_⟩
  · rw [hc]
    simp [SourceDocument.empty]
  · rw [h3, hopen]
    simp only [hcacheB, true_and]

/-- C8 (include idempotence). Let the entry file resolve to a file that is not in the
cache and whose scanned lines are `pre ++ first :: mid ++ second :: post`, where
`first` and `second` are include lines that both name the file `b` and the
lines of `pre`, `mid` and `post` are not include lines; let `b` be another file,
not in the cache, that can be read and has no include line. Then the load
succeeds without a diagnostic; the content is the lines of `pre`, the flattened
text of `b`, the lines of `mid`, the flattened text of `b` again and the lines
of `post` (with the `\n` of each include line when the text of `b` does not
end with one); and during the load exactly two files are opened, the entry file
and then `b`, so `b` is read once and the second include is served from the
cache. -/
theorem C8_file_included_twice_is_read_once (ct : CType) (P : Platform) (w : World)
    (fuel : Nat) (sm : SourceManager) (entryFile : WString) (out : SourceDocument)
    (ds : List Diagnostic) (e textE b textB : WString)
    (pre mid post : List ScannedLine) (first second : ScannedLine)
    (he : NormalizePath P (NormalizePath P (structuredEntryPath P sm entryFile)) = e)
    (hne : e ≠ [])
    (hcacheE : cacheFind sm.m_cache (ToLookupKey ct e) = none)
    (hreadE : LoadDocumentFromDisk P w e [] = (true, textE, []))
    (hlines : scanLines textE textE.length 0 = pre ++ first :: mid ++ second :: post)
    (hpre : ∀ ln ∈ pre, ln.isInclude ct = false)
    (hmid : ∀ ln ∈ mid, ln.isInclude ct = false)
    (hpost : ∀ ln ∈ post, ln.isInclude ct = false)
    (hfirst : first.isInclude ct = true ∧ includeTarget ct P e (first.includeToken ct) = some b)
    (hsecond : second.isInclude ct = true ∧
      includeTarget ct P e (second.includeToken ct) = some b)
    (hkeys : ToLookupKey ct b ≠ ToLookupKey ct e)
    (hcacheB : cacheFind sm.m_cache (ToLookupKey ct b) = none)
    (hreadB : LoadDocumentFromDisk P w b [] = (true, textB, []))
    (hplainB : ∀ ln ∈ scanLines textB textB.length 0,
      isIncludeLine (TrimLeft ct ln.line) = false) :
    ∃ r, LoadStructuredDocument ct P w (fuel + 2) sm entryFile out ds = some r ∧
      r.1 = true ∧
      r.2.1.content = linesText pre ++
        normalizeNewlines textB ++ includeNewline first (normalizeNewlines textB) ++
        linesText mid ++
        normalizeNewlines textB ++ includeNewline second (normalizeNewlines textB) ++
        linesText post ∧
      r.2.2.1 = ds ∧
      r.2.2.2.opened = sm.opened ++ [e, b] ∧
      (r.2.2.2.opened.drop sm.opened.length).count b = 1 := by
  have hnorm : NormalizePath P (structuredEntryPath P sm entryFile) ≠ [] := by
    intro h0
    rw [h0] at he
    exact hne (by rw [← he]; rfl)
  have htarget : ∀ ln ∈ scanLines textE textE.length 0, ln.isInclude ct = true →
      includeTarget ct P e (ln.includeToken ct) = some b := by
    intro ln hln hinc
    rw [hlines] at hln
    simp only [List.mem_append, List.mem_cons, or_assoc] at hln
    rcases hln with h | h | h | h | h
    · rw [hpre ln h] at hinc; cases hinc
    · rw [h]; exact hfirst.2
    · rw [hmid ln h] at hinc; cases hinc
    · rw [h]; exact hsecond.2
    · rw [hpost ln h] at hinc; cases hinc
  obtain ⟨d, st', hl, hc, hds, hopen⟩ := LoadDocumentRecursive_sameInclude ct P w fuel
    (NormalizePath P (structuredEntryPath P sm entryFile)) out ⟨sm, ⟨[]⟩, ds⟩ textE b textB
    (he ▸ hne) (he ▸ hcacheE) (by simp) (he ▸ hreadE) (he ▸ htarget) (he ▸ hkeys) (by simp)
    hcacheB hreadB hplainB
  have hex : ∃ ln ∈ scanLines textE textE.length 0, ln.isInclude ct = true :=
    ⟨first, by rw [hlines]; simp, hfirst.1⟩
  have hbe : e ≠ b := by
    rintro rfl
    exact hkeys rfl
  refine ⟨(true, { d with primaryFile := NormalizePath P (structuredEntryPath P sm entryFile) },
    st'.diagnostics, st'.sm), ?_, rfl, ?_, hds, ?_, ?_⟩
  · unfold LoadStructuredDocument
    dsimp only
    rw [isEmpty_false_of_ne_nil hnorm]
    simp only [Bool.false_eq_true, if_false, loadNormalized, hl, if_true]
  · show d.content = _
    rw [hc, hlines, flattenWith_append, flattenWith, flattenWith_append, flattenWith,
      flattenWith_of_plain ct _ pre hpre, flattenWith_of_plain ct _ mid hmid,
      flattenWith_of_plain ct _ post hpost]
    simp only [hfirst.1, hsecond.1, if_true, List.append_assoc]
  · show st'.sm.opened = _
    rw [hopen, if_pos hex, he]
    simp
  · show (st'.sm.opened.drop sm.opened.length).count b = 1
    rw [hopen, if_pos hex, he]
    have hbe' : (e == b) = false := by simpa using hbe
    simp [List.count_cons, hbe']

/-- C8 at a concrete input: `main.lsx` of the example disk includes `part.lsx` twice;
the load opens `main.lsx`, then `part.lsx`, and nothing else. -/
theorem C8_file_included_twice_is_read_once_witness :
    ∃ r, LoadStructuredDocument CType.ascii Platform.plain
        (World.ofFiles [("twice.lsx", "a\n#include part.lsx\nb\n#include 'part.lsx'\nc"),
          ("part.lsx", "#Child \x7b\x7d\n // c")])
        2 (SourceManager.new []) (wstr "twice.lsx") SourceDocument.empty [] = some r ∧
      r.1 = true ∧
      r.2.1.content = wstr "a\n#Child \x7b\x7d\n // c\nb\n#Child \x7b\x7d\n // c\nc" ∧
      r.2.2.2.opened = [wstr "twice.lsx", wstr "part.lsx"] :=
  have h := C8_file_included_twice_is_read_once CType.ascii Platform.plain
    (World.ofFiles [("twice.lsx", "a\n#include part.lsx\nb\n#include 'part.lsx'\nc"),
      ("part.lsx", "#Child \x7b\x7d\n // c")])
    0 (SourceManager.new []) (wstr "twice.lsx") SourceDocument.empty []
    (wstr "twice.lsx") (wstr "a\n#include part.lsx\nb\n#include 'part.lsx'\nc")
    (wstr "part.lsx") (wstr "#Child \x7b\x7d\n // c")
    [⟨0, wstr "a", 1⟩] [⟨20, wstr "b", 1⟩] [⟨42, wstr "c", 0⟩]
    ⟨2, wstr "#include part.lsx", 1⟩ ⟨22, wstr "#include 'part.lsx'", 1⟩
    (by decide) (by decide) (by decide) (by decide) (by decide) (by decide) (by decide)
    (by decide) (by decide) (by decide) (by decide) (by decide) (by decide) (by decide)
  h.imp fun r hr => ⟨hr.1, hr.2.1, hr.2.2.1.trans (by decide), hr.2.2.2.2.1.trans (by decide)⟩

/-! ## Termination of the load -/

theorem AppendInclude_total (load : Loader) (ct : CType) (P : Platform) (c : LoadContext)
    (hload : LoaderTotal c load) (requestingPath includeToken : WString)
    (outDocument : SourceDocument) (st : LoadState) (hst : st.context = c) :
    ∃ r, AppendInclude load ct P requestingPath includeToken outDocument st = some r := by
  unfold AppendInclude
  dsimp only
  split
  · exact ⟨_, rfl⟩
  · split
    · exact ⟨_, rfl⟩
    · obtain ⟨loaded, hl⟩ := hload (NormalizePath P (resolveInclude P requestingPath
        (includePathOf ct P includeToken))) SourceDocument.empty st hst
      rw [hl]
      dsimp only
      split <;> exact ⟨_, rfl⟩

theorem processLines_total (load : Loader) (ct : CType) (P : Platform) (c : LoadContext)
    (hload : LoaderTotal c load) (hframe : LoaderFrame load) (absolutePath : WString)
    (hpath : absolutePath ≠ []) (lines : List ScannedLine) (currentLine : Nat)
    (pending : Pending) (outDocument : SourceDocument) (st : LoadState) (hst : st.context = c) :
    ∃ r, processLines load ct P absolutePath lines currentLine pending outDocument st =
      some r := by
  induction lines generalizing currentLine pending outDocument st with
  | nil =>
    unfold processLines
    dsimp only
    split <;> exact ⟨_, rfl⟩
  | cons ln rest ih =>
    unfold processLines
    dsimp only
    split
    · obtain ⟨appended, ha⟩ := AppendInclude_total load ct P c hload absolutePath
        ((TrimLeft ct ln.line).drop 8) (flushChunk absolutePath pending outDocument).2 st hst
      have hf := AppendInclude_frame load hframe ct P _ _ _ _ _ hpath ha
      rw [ha]
      dsimp only
      split
      · exact ⟨_, rfl⟩
      · exact ih _ _ _ _ (hf.1.trans hst)
    · exact ih _ _ _ _ hst

theorem LoadDocumentFromDisk_isSome (P : Platform) (w : World) (path : WString)
    (ds : List Diagnostic) (h : (LoadDocumentFromDisk P w path ds).1 = true) :
    (w path).isSome = true := by
  unfold LoadDocumentFromDisk at h
  cases hw : w path with
  | none => rw [hw] at h; simp at h
  | some file => rfl

theorem idleFiles_insert (files : Finset WString) (activeStack : List WString) (key : WString)
    (hkey : key ∈ files) (hstack : key ∉ activeStack) :
    idleFiles files (stackInsert activeStack key) + 1 ≤ idleFiles files activeStack := by
  unfold idleFiles
  simp only [stackInsert, if_neg hstack]
  apply Finset.card_lt_card
  refine ⟨?_, ?_⟩
  · intro k hk
    simp only [Finset.mem_filter, List.mem_cons, not_or] at hk ⊢
    exact ⟨hk.1, hk.2.2⟩
  · intro hsub
    have : key ∈ files.filter (fun k => k ∉ key :: activeStack) :=
      hsub (Finset.mem_filter.2 ⟨hkey, hstack⟩)
    simp at this

/-- The load returns for every fuel that exceeds the number of files that can be
opened and are not being expanded: a call that recurses has put one more of
them on the active stack. -/
theorem LoadDocumentRecursive_total (ct : CType) (P : Platform) (w : World)
    (files : Finset WString) (hfiles : ∀ p, (w p).isSome = true → ToLookupKey ct p ∈ files)
    (fuel : Nat) (path : WString) (out : SourceDocument) (st : LoadState)
    (hfuel : idleFiles files st.context.activeStack + 1 ≤ fuel) :
    ∃ r, LoadDocumentRecursive ct P w fuel path out st = some r := by
  induction fuel generalizing path out st with
  | zero => omega
  | succ fuel ih =>
    unfold LoadDocumentRecursive
    dsimp only
    split
    · exact ⟨_, rfl⟩
    · rename_i hcanon
      have hcanon : NormalizePath P path ≠ [] := NormalizePath_ne_nil (by simpa using hcanon)
      split
      · exact ⟨_, rfl⟩
      · split
        · exact ⟨_, rfl⟩
        · rename_i hstack
          split
          · exact ⟨_, rfl⟩
          · rename_i hok
            have hok : (LoadDocumentFromDisk P w (NormalizePath P path) st.diagnostics).1
                = true := by simpa using hok
            have hkey := hfiles _ (LoadDocumentFromDisk_isSome P w _ _ hok)
            have hidle := idleFiles_insert files st.context.activeStack _ hkey hstack
            have htotal : LoaderTotal
                ⟨stackInsert st.context.activeStack (ToLookupKey ct (NormalizePath P path))⟩
                (LoadDocumentRecursive ct P w fuel) := by
              intro path' out' st' hst'
              apply ih
              rw [hst']
              dsimp only
              omega
            obtain ⟨processed, hp⟩ := processLines_total _ ct P _ htotal
              (LoadDocumentRecursive_frame ct P w fuel) (NormalizePath P path) hcanon
              (scanLines (LoadDocumentFromDisk P w (NormalizePath P path) st.diagnostics).2.1
                (LoadDocumentFromDisk P w (NormalizePath P path) st.diagnostics).2.1.length 0)
              1 ⟨[], 0, []⟩ { SourceDocument.empty with primaryFile := NormalizePath P path }
              { sm := { st.sm with opened := st.sm.opened ++ [NormalizePath P path] },
                context := ⟨stackInsert st.context.activeStack
                  (ToLookupKey ct (NormalizePath P path))⟩,
                diagnostics := (LoadDocumentFromDisk P w (NormalizePath P path)
                  st.diagnostics).2.2 } rfl
            unfold ProcessFileContent
            rw [hp]
            dsimp only
            split <;> exact ⟨_, rfl⟩

theorem AppendInclude_mono (load load' : Loader)
    (hmono : ∀ path out st r, load path out st = some r → load' path out st = some r)
    (ct : CType) (P : Platform) (requestingPath includeToken : WString)
    (outDocument : SourceDocument) (st : LoadState) (r : Bool × SourceDocument × LoadState)
    (h : AppendInclude load ct P requestingPath includeToken outDocument st = some r) :
    AppendInclude load' ct P requestingPath includeToken outDocument st = some r := by
  unfold AppendInclude at h ⊢
  dsimp only at h ⊢
  split
  · rename_i h1; rw [if_pos h1] at h; exact h
  · rename_i h1
    rw [if_neg h1] at h
    split
    · rename_i h2; rw [if_pos h2] at h; exact h
    · rename_i h2
      rw [if_neg h2] at h
      cases hl : load (NormalizePath P (resolveInclude P requestingPath
          (includePathOf ct P includeToken))) SourceDocument.empty st with
      | none => rw [hl] at h; cases h
      | some loaded =>
        rw [hl] at h
        rw [hmono _ _ _ _ hl]
        exact h

theorem processLines_mono (load load' : Loader)
    (hmono : ∀ path out st r, load path out st = some r → load' path out st = some r)
    (ct : CType) (P : Platform) (absolutePath : WString) (lines : List ScannedLine)
    (currentLine : Nat) (pending : Pending) (outDocument : SourceDocument) (st : LoadState)
    (r : Bool × SourceDocument × LoadState)
    (h : processLines load ct P absolutePath lines currentLine pending outDocument st = some r) :
    processLines load' ct P absolutePath lines currentLine pending outDocument st = some r := by
  induction lines generalizing currentLine pending outDocument st with
  | nil =>
    unfold processLines at h ⊢
    exact h
  | cons ln rest ih =>
    unfold processLines at h ⊢
    dsimp only at h ⊢
    split
    · rename_i hinc
      rw [if_pos hinc] at h
      cases ha : AppendInclude load ct P absolutePath ((TrimLeft ct ln.line).drop 8)
          (flushChunk absolutePath pending outDocument).2 st with
      | none => rw [ha] at h; cases h
      | some appended =>
        rw [ha] at h
        rw [AppendInclude_mono load load' hmono ct P _ _ _ _ _ ha]
        dsimp only at h ⊢
        split
        · rename_i hf; rw [if_pos hf] at h; exact h
        · rename_i hf
          rw [if_neg hf] at h
          exact ih _ _ _ _ h
    · rename_i hinc
      rw [if_neg hinc] at h
      exact ih _ _ _ _ h

/-- More fuel does not change a result. -/
theorem LoadDocumentRecursive_mono (ct : CType) (P : Platform) (w : World) (fuel : Nat)
    (path : WString) (out : SourceDocument) (st : LoadState)
    (r : Bool × SourceDocument × LoadState)
    (h : LoadDocumentRecursive ct P w fuel path out st = some r) :
    LoadDocumentRecursive ct P w (fuel + 1) path out st = some r := by
  induction fuel generalizing path out st r with
  | zero => simp [LoadDocumentRecursive] at h
  | succ fuel ih =>
    unfold LoadDocumentRecursive at h ⊢
    dsimp only at h ⊢
    split
    · rename_i h1; rw [if_pos h1] at h; exact h
    · rename_i h1
      rw [if_neg h1] at h
      split
      · rename_i cached hfind
        rw [hfind] at h
        exact h
      · rename_i hfind
        rw [hfind] at h
        dsimp only at h
        split
        · rename_i h2; rw [if_pos h2] at h; exact h
        · rename_i h2
          rw [if_neg h2] at h
          split
          · rename_i h3; rw [if_pos h3] at h; exact h
          · rename_i h3
            rw [if_neg h3] at h
            unfold ProcessFileContent at h ⊢
            split at h
            · cases h
            · rename_i processed hp
              rw [processLines_mono _ _ (fun p o s r' hr => ih p o s r' hr) ct P _ _ _ _ _ _ _ hp]
              exact h

/-! ## Include cycles -/

theorem flushChunk_primaryFile (path : WString) (pending : Pending)
    (document : SourceDocument) :
    (flushChunk path pending document).2.primaryFile = document.primaryFile := by
  unfold flushChunk
  split <;> rfl

/-- What a successful run of `processLines` tells about its include lines: each has a
target, and the loader has returned a `Good` document for the key of the
target; the `primaryFile` of the document under construction is kept. -/
theorem processLines_targets (Good : WString → SourceDocument → Prop) (load : Loader)
    (ct : CType) (P : Platform) (hload : LoaderGood ct P Good load) (absolutePath : WString)
    (lines : List ScannedLine) (currentLine : Nat) (pending : Pending)
    (outDocument : SourceDocument) (st : LoadState) (r : Bool × SourceDocument × LoadState)
    (hst : CacheAll Good st)
    (h : processLines load ct P absolutePath lines currentLine pending outDocument st = some r)
    (hok : r.1 = true) :
    r.2.1.primaryFile = outDocument.primaryFile ∧
      ∀ ln ∈ lines, ln.isInclude ct = true → ∃ target included,
        includeTarget ct P absolutePath (ln.includeToken ct) = some target ∧
        Good (ToLookupKey ct target) included := by
  induction lines generalizing currentLine pending outDocument st with
  | nil =>
    unfold processLines at h
    dsimp only at h
    refine ⟨?_, fun ln hln => by simp at hln⟩
    split at h <;> cases h <;> exact flushChunk_primaryFile _ _ _
  | cons ln rest ih =>
    unfold processLines at h
    dsimp only at h
    split at h
    · rename_i hinc
      cases ha : AppendInclude load ct P absolutePath ((TrimLeft ct ln.line).drop 8)
          (flushChunk absolutePath pending outDocument).2 st with
      | none => rw [ha] at h; cases h
      | some appended =>
        rw [ha] at h
        have hg := AppendInclude_good Good load ct P hload _ _ _ _ _ hst ha
        dsimp only at h
        split at h
        · cases h
          cases hok
        · rename_i hok2
          have hok2 : appended.1 = true := by simpa using hok2
          obtain ⟨target, included, htarget, hgood, heq⟩ := hg.2 hok2
          obtain ⟨h1, h2⟩ := ih _ _ _ _ hg.1 h
          refine ⟨?_, ?_⟩
          · rw [h1]
            have hp : appended.2.1.primaryFile = outDocument.primaryFile := by
              rw [heq]
              exact flushChunk_primaryFile _ _ _
            split
            · exact hp
            · exact hp
          · intro x hx hxi
            rcases List.mem_cons.1 hx with rfl | hx
            · exact ⟨target, included, htarget, hgood⟩
            · exact h2 x hx hxi
    · rename_i hinc
      obtain ⟨h1, h2⟩ := ih _ _ _ _ hst h
      refine ⟨h1, ?_⟩
      intro x hx hxi
      rcases List.mem_cons.1 hx with rfl | hx
      · exact absurd hxi hinc
      · exact h2 x hx hxi

theorem LoadDocumentRecursive_failure_document (ct : CType) (P : Platform) (w : World)
    (fuel : Nat) (path : WString) (out : SourceDocument) (st : LoadState)
    (r : Bool × SourceDocument × LoadState)
    (h : LoadDocumentRecursive ct P w fuel path out st = some r) (hfail : r.1 = false) :
    r.2.1 = out := by
  cases fuel with
  | zero => simp [LoadDocumentRecursive] at h
  | succ fuel =>
    unfold LoadDocumentRecursive at h
    dsimp only at h
    split at h
    · cases h; rfl
    · split at h
      · cases h; cases hfail
      · split at h
        · cases h; rfl
        · split at h
          · cases h; rfl
          · split at h
            · cases h
            · split at h
              · cases h; rfl
              · cases h; cases hfail

/-- A request for a file that is being expanded: the call fails at once, without
reading the file and without recursing, and appends the diagnostic
`Detected recursive #include directive.` for the canonical path. -/
theorem LoadDocumentRecursive_reentry (ct : CType) (P : Platform) (w : World) (fuel : Nat)
    (path : WString) (out : SourceDocument) (st : LoadState)
    (hcanon : NormalizePath P path ≠ [])
    (hcache : cacheFind st.sm.m_cache (ToLookupKey ct (NormalizePath P path)) = none)
    (hstack : ToLookupKey ct (NormalizePath P path) ∈ st.context.activeStack) :
    LoadDocumentRecursive ct P w (fuel + 1) path out st =
      some (false, out,
        st.error (wstr "Detected recursive #include directive.") (NormalizePath P path)) := by
  unfold LoadDocumentRecursive
  dsimp only
  rw [isEmpty_false_of_ne_nil hcanon, hcache]
  simp only [Bool.false_eq_true, if_false, if_pos hstack]

theorem idleFiles_nil (files : Finset WString) : idleFiles files [] = files.card := by
  simp [idleFiles]

/-- A key all of whose include targets reach no cycle reaches no cycle. -/
theorem NoKeyCycleFrom.of_targets (ct : CType) (P : Platform) (w : World) (k : WString)
    (h : ∀ k2, KeyIncludes ct P w k k2 → NoKeyCycleFrom ct P w k2) : NoKeyCycleFrom ct P w k := by
  intro c hpc hcc
  rcases Relation.ReflTransGen.cases_head hpc with rfl | ⟨q, hpq, hqc⟩
  · obtain ⟨q, hpq, hqp⟩ := Relation.TransGen.head'_iff.1 hcc
    exact h q hpq _ hqp hcc
  · exact h q hpq c hqc hcc

/-- What `LoadDocumentFromDisk` reads from a file that it can read depends on the
path through the disk alone. -/
theorem LoadDocumentFromDisk_congr (P : Platform) (w : World) (p p2 : WString)
    (hw : w p = w p2) (text : WString)
    (h : LoadDocumentFromDisk P w p [] = (true, text, [])) :
    LoadDocumentFromDisk P w p2 [] = (true, text, []) := by
  unfold LoadDocumentFromDisk at h ⊢
  rw [← hw]
  cases hf : w p with
  | none =>
    rw [hf] at h
    simp at h
  | some file =>
    rw [hf] at h
    dsimp only at h ⊢
    split_ifs at h ⊢ <;> first | exact h | simp at h

/-- On a disk and a platform that do not distinguish case, files whose paths have
the same key include files whose paths have the same key. -/
theorem Includes.of_key (ct : CType) (P : Platform) (w : World)
    (hdisk : ∀ p p2, ToLookupKey ct p = ToLookupKey ct p2 → w p = w p2)
    (hpath : ∀ p p2 token, ToLookupKey ct p = ToLookupKey ct p2 →
      (includeTarget ct P p token).map (ToLookupKey ct) =
        (includeTarget ct P p2 token).map (ToLookupKey ct))
    (p p2 q : WString) (hk : ToLookupKey ct p = ToLookupKey ct p2)
    (h : Includes ct P w p q) :
    ∃ q2, Includes ct P w p2 q2 ∧ ToLookupKey ct q2 = ToLookupKey ct q := by
  obtain ⟨text, htext, ln, hln, hinc, htarget⟩ := h
  have hmap := hpath p p2 (ln.includeToken ct) hk
  rw [htarget] at hmap
  cases h2 : includeTarget ct P p2 (ln.includeToken ct) with
  | none =>
    rw [h2] at hmap
    cases hmap
  | some q2 =>
    rw [h2] at hmap
    exact ⟨q2, ⟨text, LoadDocumentFromDisk_congr P w p p2 (hdisk p p2 hk) text htext, ln, hln,
      hinc, h2⟩, (Option.some.inj hmap).symm⟩

/-- On a disk and a platform that do not distinguish case, every document that
`LoadDocumentRecursive` returns or caches has a key from which no cycle of the
include graph on keys can be reached. -/
theorem LoadDocumentRecursive_acyclic (ct : CType) (P : Platform) (w : World)
    (hdisk : ∀ p p2, ToLookupKey ct p = ToLookupKey ct p2 → w p = w p2)
    (hpath : ∀ p p2 token, ToLookupKey ct p = ToLookupKey ct p2 →
      (includeTarget ct P p token).map (ToLookupKey ct) =
        (includeTarget ct P p2 token).map (ToLookupKey ct))
    (fuel : Nat) :
    LoaderGood ct P (fun key _ => NoKeyCycleFrom ct P w key)
      (LoadDocumentRecursive ct P w fuel) := by
  apply LoadDocumentRecursive_good
  intro load hload x contents st r hx hread hst h hok
  obtain ⟨hp, htargets⟩ := processLines_targets (fun key _ => NoKeyCycleFrom ct P w key) load ct P
    hload _ _ _ _ _ _ _ hst h hok
  apply NoKeyCycleFrom.of_targets
  intro k2 hk2
  obtain ⟨p, q, hpk, hqk, hinc⟩ := hk2
  obtain ⟨q2, ⟨text, htext, ln, hln, hisinc, htarget⟩, hq2⟩ :=
    Includes.of_key ct P w hdisk hpath p (NormalizePath P x) q hpk hinc
  have : text = contents := by
    have := htext.symm.trans hread
    exact (Prod.mk.inj (Prod.mk.inj this).2).1
  subst this
  obtain ⟨target, included, htarget2, hgood⟩ := htargets ln hln hisinc
  have hqt : target = q2 := Option.some.inj (htarget2.symm.trans htarget)
  subst hqt
  rw [← hqk, ← hq2]
  exact hgood

/-- C6, amended. Let the disk and the platform not distinguish case: paths with the
same lookup key name the same file, and resolve the text of an include line to
canonical paths with the same lookup key. Let every file that can be opened have
its key in the finite set `files`, let the cache hold no document under a key
from which a cycle of the include graph can be reached (an empty cache in
particular), and let the include graph that can be reached from the entry file
contain a cycle. Then for every fuel above the number of `files`, that is for a
depth of recursion of at most the number of distinct files below the first
call, `LoadStructuredDocument` returns, and it returns failure: the output
document is untouched and exactly one diagnostic has been appended, an `Error`
that names a path that is not empty. Moreover a request for a file that is
being expanded (its key is on the active stack and not in the cache) fails at
once with the diagnostic `Detected recursive #include directive.` for the
canonical path of that file. -/
theorem C6_include_cycle_fails (ct : CType) (P : Platform) (w : World)
    (files : Finset WString) (hfiles : ∀ p, (w p).isSome = true → ToLookupKey ct p ∈ files)
    (hdisk : ∀ p p2, ToLookupKey ct p = ToLookupKey ct p2 → w p = w p2)
    (hpath : ∀ p p2 token, ToLookupKey ct p = ToLookupKey ct p2 →
      (includeTarget ct P p token).map (ToLookupKey ct) =
        (includeTarget ct P p2 token).map (ToLookupKey ct))
    (sm : SourceManager) (hcache : ∀ entry ∈ sm.m_cache, NoKeyCycleFrom ct P w entry.1)
    (entryFile : WString) (out : SourceDocument) (ds : List Diagnostic) (e : WString)
    (he : NormalizePath P (NormalizePath P (structuredEntryPath P sm entryFile)) = e)
    (hne : e ≠ [])
    (hcycle : ∃ c, Relation.ReflTransGen (Includes ct P w) e c ∧
      Relation.TransGen (Includes ct P w) c c)
    (fuel : Nat) (hfuel : files.card + 1 ≤ fuel) :
    (∃ d sm2, LoadStructuredDocument ct P w fuel sm entryFile out ds =
        some (false, out, ds ++ [d], sm2) ∧
      d.severity = DiagnosticSeverity.Error ∧ d.location.file ≠ []) ∧
    ∀ (n : Nat) (path : WString) (out2 : SourceDocument) (st : LoadState),
      NormalizePath P path ≠ [] →
      cacheFind st.sm.m_cache (ToLookupKey ct (NormalizePath P path)) = none →
      ToLookupKey ct (NormalizePath P path) ∈ st.context.activeStack →
      LoadDocumentRecursive ct P w (n + 1) path out2 st =
        some (false, out2,
          st.error (wstr "Detected recursive #include directive.") (NormalizePath P path)) := by
  refine ⟨?_, fun n path out2 st h1 h2 h3 =>
    LoadDocumentRecursive_reentry ct P w n path out2 st h1 h2 h3⟩
  have hnorm : NormalizePath P (structuredEntryPath P sm entryFile) ≠ [] := by
    intro h0
    rw [h0] at he
    exact hne (by rw [← he]; rfl)
  obtain ⟨r, hr⟩ := LoadDocumentRecursive_total ct P w files hfiles fuel
    (NormalizePath P (structuredEntryPath P sm entryFile)) out ⟨sm, ⟨[]⟩, ds⟩
    (by rw [idleFiles_nil]; exact hfuel)
  have hst : CacheAll (fun key _ => NoKeyCycleFrom ct P w key) ⟨sm, ⟨[]⟩, ds⟩ := hcache
  have hfail : r.1 = false := by
    cases hr1 : r.1 with
    | false => rfl
    | true =>
      exfalso
      obtain ⟨_, hno⟩ :=
        (LoadDocumentRecursive_acyclic ct P w hdisk hpath fuel _ _ _ _ hst hr).2 hr1
      rw [he] at hno
      obtain ⟨c, hec, hcc⟩ := hcycle
      exact hno (ToLookupKey ct c)
        (Relation.ReflTransGen.lift (ToLookupKey ct) (fun a b hab => ⟨a, b, rfl, rfl, hab⟩) hec)
        (Relation.TransGen.lift (ToLookupKey ct) (fun a b hab => ⟨a, b, rfl, rfl, hab⟩) hcc)
  have hdoc := LoadDocumentRecursive_failure_document ct P w fuel _ _ _ _ hr hfail
  obtain ⟨d, hd, hsev, hfile⟩ := (LoadDocumentRecursive_frame ct P w fuel _ _ _ _ hnorm hr).2.2.2.2.2
    hfail
  refine ⟨d, r.2.2.sm, ?_, hsev, hfile⟩
  unfold LoadStructuredDocument
  dsimp only
  rw [isEmpty_false_of_ne_nil hnorm]
  simp only [Bool.false_eq_true, if_false, loadNormalized, hr, hfail, hdoc]
  rw [hd]

theorem ofFilesNoCase_congr (files : List (String × String)) (p p2 : WString)
    (h : ToLookupKey CType.ascii p = ToLookupKey CType.ascii p2) :
    World.ofFilesNoCase files p = World.ofFilesNoCase files p2 := by
  simp only [World.ofFilesNoCase, h]

theorem ofFilesNoCase_files (files : List (String × String)) (p : WString)
    (h : (World.ofFilesNoCase files p).isSome = true) :
    ToLookupKey CType.ascii p ∈
      (files.map (fun f => ToLookupKey CType.ascii (wstr f.1))).toFinset := by
  simp only [World.ofFilesNoCase, Option.isSome_map', List.find?_isSome] at h
  obtain ⟨f, hf, hk⟩ := h
  rw [List.mem_toFinset, List.mem_map]
  exact ⟨f, hf, by simpa using hk⟩

theorem NormalizePath_rooted (x : WString) : NormalizePath Platform.rooted x = x := by
  cases x <;> rfl

theorem towlower_ascii_backslash (c : Nat) : (CType.ascii.towlower c != 92) = (c != 92) := by
  simp only [CType.ascii]
  split
  · have h1 : (c + 32 != 92) = true := by
      simp only [bne_iff_ne, ne_eq]
      omega
    have h2 : (c != 92) = true := by
      simp only [bne_iff_ne, ne_eq]
      omega
    rw [h1, h2]
  · rfl

/-- On `Platform.rooted` the directory of a path in lower case is the directory of
the path, in lower case. -/
theorem DirectoryOf_rooted_key (p : WString) :
    ToLookupKey CType.ascii (DirectoryOf Platform.rooted p) =
      DirectoryOf Platform.rooted (ToLookupKey CType.ascii p) := by
  have key : ∀ l : WString, (l.map CType.ascii.towlower).dropWhile (fun c => c != 92) =
      (l.dropWhile (fun c => c != 92)).map CType.ascii.towlower := by
    intro l
    rw [List.dropWhile_map]
    congr 2
    funext c
    exact towlower_ascii_backslash c
  simp only [DirectoryOf, Platform.rooted, ToLookupKey]
  rw [← List.map_reverse, key, ← List.map_tail, ← List.map_reverse]

/-- On `Platform.rooted`, paths with the same key resolve the text of an include line
to canonical paths with the same key. -/
theorem includeTarget_rooted_key (p p2 token : WString)
    (h : ToLookupKey CType.ascii p = ToLookupKey CType.ascii p2) :
    (includeTarget CType.ascii Platform.rooted p token).map (ToLookupKey CType.ascii) =
      (includeTarget CType.ascii Platform.rooted p2 token).map (ToLookupKey CType.ascii) := by
  have hd : ToLookupKey CType.ascii (DirectoryOf Platform.rooted p) =
      ToLookupKey CType.ascii (DirectoryOf Platform.rooted p2) := by
    rw [DirectoryOf_rooted_key, DirectoryOf_rooted_key, h]
  unfold includeTarget
  dsimp only
  simp only [NormalizePath_rooted]
  split
  · rfl
  · unfold resolveInclude
    split
    · have e1 : ∀ d : WString, (Platform.rooted.PathAppendW d
          (includePathOf CType.ascii Platform.rooted token)).isEmpty = false := by
        intro d
        simp [Platform.rooted]
      simp only [e1, Bool.false_eq_true, if_false, Option.map_some']
      congr 1
      simp only [Platform.rooted, ToLookupKey, List.map_append] at hd ⊢
      rw [hd]
    · rfl
set_option maxRecDepth 100000 in
/-- C6 at a concrete input, on a disk that does not distinguish case and a platform
that keeps the case of paths: `first.lsx` includes `Second.lsx` and `second.lsx`
includes `FIRST.LSX`; the load of `C:\theme\first.lsx` with fuel `3` returns
failure with one diagnostic. -/
theorem C6_include_cycle_fails_witness :
    ∃ d sm2, LoadStructuredDocument CType.ascii Platform.rooted cycleWorld 3
        (SourceManager.new []) (wstr "C:\\theme\\first.lsx") SourceDocument.empty [] =
        some (false, SourceDocument.empty, [] ++ [d], sm2) ∧
      d.severity = DiagnosticSeverity.Error ∧ d.location.file ≠ [] :=
  (C6_include_cycle_fails CType.ascii Platform.rooted cycleWorld
    {wstr "c:\\theme\\first.lsx", wstr "c:\\theme\\second.lsx"}
    (fun p h => by
      have := ofFilesNoCase_files _ p h
      simpa [ToLookupKey, CType.ascii, wstr] using this)
    (ofFilesNoCase_congr _) includeTarget_rooted_key
    (SourceManager.new []) (by simp [SourceManager.new]) (wstr "C:\\theme\\first.lsx")
    SourceDocument.empty [] (wstr "C:\\theme\\first.lsx") (by decide) (by decide)
    ⟨wstr "C:\\theme\\Second.lsx",
      Relation.ReflTransGen.single
        (show Includes CType.ascii Platform.rooted cycleWorld (wstr "C:\\theme\\first.lsx")
            (wstr "C:\\theme\\Second.lsx") from
          ⟨wstr "#include Second.lsx", by decide, ⟨0, wstr "#include Second.lsx", 0⟩,
            by decide, by decide, by decide⟩),
      Relation.TransGen.head
        (show Includes CType.ascii Platform.rooted cycleWorld (wstr "C:\\theme\\Second.lsx")
            (wstr "C:\\theme\\FIRST.LSX") from
          ⟨wstr "q\n#include \"FIRST.LSX\"", by decide,
            ⟨2, wstr "#include \"FIRST.LSX\"", 0⟩, by decide, by decide, by decide⟩)
        (Relation.TransGen.single
          (show Includes CType.ascii Platform.rooted cycleWorld (wstr "C:\\theme\\FIRST.LSX")
              (wstr "C:\\theme\\Second.lsx") from
            ⟨wstr "#include Second.lsx", by decide, ⟨0, wstr "#include Second.lsx", 0⟩,
              by decide, by decide, by decide⟩))⟩
    3 (by decide)).1

set_option maxRecDepth 100000 in
/-- C6 as stated fails, in two ways. On a disk that does not distinguish case,
`pre.lsx` includes a missing file and then itself, so the include graph that can
be reached from it has a cycle; the load fails, but its only diagnostic is the
one for the missing file, which is never expanded, and no diagnostic names the
file on the cycle. On a disk that distinguishes case, `a.lsx` includes `b.lsx` and
then `B.lsx`, which includes `a.lsx`, so `a.lsx` is on a cycle; the second include is
served from the cache under the key of `b.lsx`, `B.lsx` is never opened, and the
load succeeds without a diagnostic. -/
theorem C6_counterexample :
    (Relation.TransGen (Includes CType.ascii Platform.rooted missingWorld)
        (wstr "C:\\theme\\pre.lsx") (wstr "C:\\theme\\pre.lsx") ∧
      (LoadStructuredDocument CType.ascii Platform.rooted missingWorld 3
          (SourceManager.new []) (wstr "C:\\theme\\pre.lsx") SourceDocument.empty []).map
          (fun r => (r.1, r.2.2.1, r.2.2.2.opened)) =
        some (false,
          [⟨DiagnosticSeverity.Error, wstr "Failed to open file.",
            ⟨wstr "C:\\theme\\missing.lsx", 0, 0⟩⟩],
          [wstr "C:\\theme\\pre.lsx", wstr "C:\\theme\\missing.lsx"]) ∧
      missingWorld (wstr "C:\\theme\\missing.lsx") = none) ∧
    (Relation.TransGen (Includes CType.ascii Platform.rooted caseWorld)
        (wstr "C:\\theme\\a.lsx") (wstr "C:\\theme\\a.lsx") ∧
      (LoadStructuredDocument CType.ascii Platform.rooted caseWorld 3
          (SourceManager.new []) (wstr "C:\\theme\\a.lsx") SourceDocument.empty []).map
          (fun r => (r.1, r.2.1.content, r.2.2.1, r.2.2.2.opened)) =
        some (true, wstr "x\nx", [], [wstr "C:\\theme\\a.lsx", wstr "C:\\theme\\b.lsx"])) :=
  ⟨⟨Relation.TransGen.single
      ⟨wstr "#include missing.lsx\n#include pre.lsx", by decide,
        ⟨21, wstr "#include pre.lsx", 0⟩, by decide, by decide, by decide⟩,
    by decide, by decide⟩,
   ⟨Relation.TransGen.head
      (show Includes CType.ascii Platform.rooted caseWorld (wstr "C:\\theme\\a.lsx")
          (wstr "C:\\theme\\B.lsx") from
        ⟨wstr "#include b.lsx\n#include B.lsx", by decide,
          ⟨15, wstr "#include B.lsx", 0⟩, by decide, by decide, by decide⟩)
      (Relation.TransGen.single
        (show Includes CType.ascii Platform.rooted caseWorld (wstr "C:\\theme\\B.lsx")
            (wstr "C:\\theme\\a.lsx") from
          ⟨wstr "#include a.lsx", by decide, ⟨0, wstr "#include a.lsx", 0⟩,
            by decide, by decide, by decide⟩)),
    by decide⟩⟩

/-! ## The parser: the token buffer and the cursor -/

namespace Parser

theorem Later.here {ct : CType} {p : Parser} (h : Valid ct p) : Later ct p p :=
  ⟨h, rfl, le_refl _⟩

theorem Later.andThen {ct : CType} {p q r : Parser} (h1 : Later ct p q) (h2 : Later ct q r) :
    Later ct p r :=
  ⟨h2.1, h2.2.1.trans h1.2.1, le_trans h1.2.2 h2.2.2⟩

theorem Further.later {ct : CType} {p q : Parser} (h : Further ct p q) : Later ct p q :=
  ⟨h.1, h.2.1, le_of_lt h.2.2⟩

theorem Further.of_later {ct : CType} {p q r : Parser} (h1 : Later ct p q)
    (h2 : Further ct q r) : Further ct p r :=
  ⟨h2.1, h2.2.1.trans h1.2.1, lt_of_le_of_lt h1.2.2 h2.2.2⟩

theorem Further.then_later {ct : CType} {p q r : Parser} (h1 : Further ct p q)
    (h2 : Later ct q r) : Further ct p r :=
  ⟨h2.1, h2.2.1.trans h1.2.1, lt_of_lt_of_le h1.2.2 h2.2.2⟩

theorem valid_new (ct : CType) (document : SourceDocument) (diagnostics : List Diagnostic) :
    Valid ct (Parser.new document diagnostics) :=
  ⟨rfl, rfl, fun _ h => absurd h (Nat.not_lt_zero _)⟩

/-- In a valid state the cursor is within the content of the document. -/
theorem Valid.cursor_le {ct : CType} {p : Parser} (h : Valid ct p) :
    p.m_cursor ≤ p.m_document.content.length := by
  have h1 := Lexer.afterCalls_offset_ge ct (Lexer.new p.m_document) p.m_cursor h.2.2
  have h2 : _ ≤ p.m_document.content.length :=
    (Lexer.reach_afterCalls ct p.m_cursor (Lexer.new p.m_document)).2.2.2 (Nat.zero_le _)
  have h3 : (Lexer.new p.m_document).m_offset = 0 := rfl
  omega

theorem Later.remaining_le {ct : CType} {p q : Parser} (h : Later ct p q) :
    remaining q ≤ remaining p := by
  have := h.2.2
  simp only [remaining, h.2.1]
  omega

theorem Further.remaining_lt {ct : CType} {p q : Parser} (h : Further ct p q) :
    remaining q < remaining p := by
  have h1 := h.2.2
  have h2 := h.1.cursor_le
  rw [h.2.1] at h2
  simp only [remaining, h.2.1]
  omega

@[simp] theorem fill_document (ct : CType) (count : Nat) (p : Parser) :
    (fill ct count p).m_document = p.m_document := by
  induction count generalizing p with
  | zero => rfl
  | succ n ih => rw [fill, ih]

@[simp] theorem fill_cursor (ct : CType) (count : Nat) (p : Parser) :
    (fill ct count p).m_cursor = p.m_cursor := by
  induction count generalizing p with
  | zero => rfl
  | succ n ih => rw [fill, ih]

@[simp] theorem fill_diagnostics (ct : CType) (count : Nat) (p : Parser) :
    (fill ct count p).m_diagnostics = p.m_diagnostics := by
  induction count generalizing p with
  | zero => rfl
  | succ n ih => rw [fill, ih]

theorem fill_length (ct : CType) (count : Nat) (p : Parser) :
    (fill ct count p).m_tokens.length = p.m_tokens.length + count := by
  induction count generalizing p with
  | zero => rfl
  | succ n ih =>
    rw [fill, ih]
    simp only [List.length_append, List.length_singleton]
    omega

theorem fill_valid (ct : CType) (count : Nat) (p : Parser) (h : Valid ct p) :
    Valid ct (fill ct count p) := by
  induction count generalizing p with
  | zero => exact h
  | succ n ih =>
    rw [fill]
    apply ih
    obtain ⟨h1, h2, h3⟩ := h
    refine ⟨?_, ?_, h3⟩
    · show p.m_tokens ++ [(Lexer.NextToken ct p.m_lexer).1] =
        (List.range (p.m_tokens ++ [(Lexer.NextToken ct p.m_lexer).1]).length).map
          (tokenAt ct p.m_document)
      rw [List.length_append, List.length_singleton, List.range_succ, List.map_append, ← h1,
        List.map_singleton, h2]
      rfl
    · show (Lexer.NextToken ct p.m_lexer).2 =
        Lexer.afterCalls ct (p.m_tokens ++ [(Lexer.NextToken ct p.m_lexer).1]).length
          (Lexer.new p.m_document)
      rw [List.length_append, List.length_singleton, Lexer.afterCalls_succ, ← h2]

theorem getD_of_range_map (tokens : List Token) (f : Nat → Token) (i : Nat) (d : Token)
    (h : tokens = (List.range tokens.length).map f) (hi : i < tokens.length) :
    tokens.getD i d = f i := by
  rw [h, List.getD_eq_getElem?_getD, List.getElem?_map, List.getElem?_range (by simpa using hi)]
  rfl

@[simp] theorem LookAhead_document (ct : CType) (p : Parser) (distance : Nat) :
    (LookAhead ct p distance).2.m_document = p.m_document := fill_document ct _ p

@[simp] theorem LookAhead_cursor (ct : CType) (p : Parser) (distance : Nat) :
    (LookAhead ct p distance).2.m_cursor = p.m_cursor := fill_cursor ct _ p

@[simp] theorem LookAhead_diagnostics (ct : CType) (p : Parser) (distance : Nat) :
    (LookAhead ct p distance).2.m_diagnostics = p.m_diagnostics := fill_diagnostics ct _ p

theorem LookAhead_valid {ct : CType} {p : Parser} (h : Valid ct p) (distance : Nat) :
    Valid ct (LookAhead ct p distance).2 := fill_valid ct _ p h

/-- The token that `LookAhead(distance)` returns is the token of the stream at
the cursor plus `distance`: the index is within `m_tokens` after the loop. -/
theorem LookAhead_token {ct : CType} {p : Parser} (h : Valid ct p) (distance : Nat) :
    (LookAhead ct p distance).1 = tokenAt ct p.m_document (p.m_cursor + distance) := by
  have hv := fill_valid ct (p.m_cursor + distance + 1 - p.m_tokens.length) p h
  have hl := fill_length ct (p.m_cursor + distance + 1 - p.m_tokens.length) p
  have := getD_of_range_map _ (tokenAt ct p.m_document) (p.m_cursor + distance) noToken
    (by simpa using hv.1) (by rw [hl]; omega)
  exact this

theorem LookAhead_later {ct : CType} {p : Parser} (h : Valid ct p) (distance : Nat) :
    Later ct p (LookAhead ct p distance).2 :=
  ⟨LookAhead_valid h distance, LookAhead_document ct p distance,
    le_of_eq (LookAhead_cursor ct p distance).symm⟩

@[simp] theorem IsAtEnd_document (ct : CType) (p : Parser) :
    (IsAtEnd ct p).2.m_document = p.m_document := LookAhead_document ct p 0

@[simp] theorem IsAtEnd_cursor (ct : CType) (p : Parser) :
    (IsAtEnd ct p).2.m_cursor = p.m_cursor := LookAhead_cursor ct p 0

theorem IsAtEnd_valid {ct : CType} {p : Parser} (h : Valid ct p) : Valid ct (IsAtEnd ct p).2 :=
  LookAhead_valid h 0

theorem IsAtEnd_later {ct : CType} {p : Parser} (h : Valid ct p) : Later ct p (IsAtEnd ct p).2 :=
  LookAhead_later h 0

theorem IsAtEnd_iff {ct : CType} {p : Parser} (h : Valid ct p) :
    (IsAtEnd ct p).1 = true ↔ Sees ct p TokenType.EndOfFile := by
  simp only [IsAtEnd, LookAhead_token h, decide_eq_true_eq, Sees, Nat.add_zero]

theorem IsAtEnd_false_iff {ct : CType} {p : Parser} (h : Valid ct p) :
    (IsAtEnd ct p).1 = false ↔ ¬ Sees ct p TokenType.EndOfFile := by
  rw [← IsAtEnd_iff h, Bool.not_eq_true]

/-- States of the same document with the same cursor see the same token. -/
theorem Sees.congr {ct : CType} {p q : Parser} (hd : q.m_document = p.m_document)
    (hc : q.m_cursor = p.m_cursor) (type : TokenType) : Sees ct q type ↔ Sees ct p type := by
  simp only [Sees, hd, hc]

@[simp] theorem Advance_document (ct : CType) (p : Parser) :
    (Advance ct p).m_document = p.m_document := by
  simp only [Advance]
  split <;> simp

theorem Advance_cursor_ge (ct : CType) (p : Parser) : p.m_cursor ≤ (Advance ct p).m_cursor := by
  simp only [Advance]
  split <;> simp

theorem Advance_cursor {ct : CType} {p : Parser} (h : Valid ct p)
    (hne : ¬ Sees ct p TokenType.EndOfFile) : (Advance ct p).m_cursor = p.m_cursor + 1 := by
  simp only [Advance, (IsAtEnd_false_iff h).2 hne, Bool.false_eq_true, if_false, IsAtEnd_cursor]

theorem Advance_valid {ct : CType} {p : Parser} (h : Valid ct p) : Valid ct (Advance ct p) := by
  have hv := IsAtEnd_valid h
  simp only [Advance]
  split
  · exact hv
  · rename_i hend
    have hne := (IsAtEnd_false_iff h).1 (by simpa using hend)
    refine ⟨hv.1, hv.2.1, ?_⟩
    intro i hi
    have hi' : i < p.m_cursor + 1 := by simpa using hi
    show (tokenAt ct (IsAtEnd ct p).2.m_document i).type ≠ _
    rw [IsAtEnd_document]
    rcases Nat.lt_succ_iff_lt_or_eq.1 hi' with hlt | heq
    · exact h.2.2 i hlt
    · rw [heq]
      exact hne

theorem Advance_later {ct : CType} {p : Parser} (h : Valid ct p) : Later ct p (Advance ct p) :=
  ⟨Advance_valid h, Advance_document ct p, Advance_cursor_ge ct p⟩

theorem Advance_further {ct : CType} {p : Parser} (h : Valid ct p)
    (hne : ¬ Sees ct p TokenType.EndOfFile) : Further ct p (Advance ct p) :=
  ⟨Advance_valid h, Advance_document ct p, by rw [Advance_cursor h hne]; exact Nat.lt_succ_self _⟩

/-- A call of `Advance` in a later state with the same cursor, before the
`EndOfFile` token. -/
theorem Advance_further_from {ct : CType} {p q : Parser} (hq : Later ct p q)
    (hc : q.m_cursor = p.m_cursor) (hne : ¬ Sees ct p TokenType.EndOfFile) :
    Further ct p (Advance ct q) :=
  Further.of_later hq (Advance_further hq.1 (fun h => hne ((Sees.congr hq.2.1 hc _).1 h)))

@[simp] theorem Check_document (ct : CType) (p : Parser) (type : TokenType) :
    (Check ct p type).2.m_document = p.m_document := by
  simp only [Check]
  split <;> simp

@[simp] theorem Check_cursor (ct : CType) (p : Parser) (type : TokenType) :
    (Check ct p type).2.m_cursor = p.m_cursor := by
  simp only [Check]
  split <;> simp

theorem Check_valid {ct : CType} {p : Parser} (h : Valid ct p) (type : TokenType) :
    Valid ct (Check ct p type).2 := by
  simp only [Check]
  split
  · exact IsAtEnd_valid h
  · exact LookAhead_valid (IsAtEnd_valid h) 0

theorem Check_later {ct : CType} {p : Parser} (h : Valid ct p) (type : TokenType) :
    Later ct p (Check ct p type).2 :=
  ⟨Check_valid h type, Check_document ct p type, le_of_eq (Check_cursor ct p type).symm⟩

theorem Check_iff {ct : CType} {p : Parser} (h : Valid ct p) (type : TokenType) :
    (Check ct p type).1 = true ↔ ¬ Sees ct p TokenType.EndOfFile ∧ Sees ct p type := by
  simp only [Check]
  split
  · rename_i hend
    have := (IsAtEnd_iff h).1 hend
    simp [this]
  · rename_i hend
    have hne := (IsAtEnd_false_iff h).1 (by simpa using hend)
    simp only [LookAhead_token (IsAtEnd_valid h), decide_eq_true_eq, IsAtEnd_document,
      IsAtEnd_cursor, Nat.add_zero]
    exact ⟨fun h1 => ⟨hne, h1⟩, fun h1 => h1.2⟩

@[simp] theorem Match_document (ct : CType) (p : Parser) (type : TokenType) :
    (Match ct p type).2.m_document = p.m_document := by
  simp only [Match]
  split <;> simp

theorem Match_iff {ct : CType} {p : Parser} (h : Valid ct p) (type : TokenType) :
    (Match ct p type).1 = true ↔ ¬ Sees ct p TokenType.EndOfFile ∧ Sees ct p type := by
  rw [← Check_iff h]
  simp only [Match]
  split <;> simp_all

theorem Match_later {ct : CType} {p : Parser} (h : Valid ct p) (type : TokenType) :
    Later ct p (Match ct p type).2 := by
  cases hc : (Check ct p type).1 with
  | true =>
    simp only [Match, hc, if_true]
    exact (Check_later h type).andThen (Advance_later (Check_valid h type))
  | false =>
    simp only [Match, hc, Bool.false_eq_true, if_false]
    exact Check_later h type

theorem Match_further {ct : CType} {p : Parser} (h : Valid ct p) (type : TokenType)
    (hm : (Match ct p type).1 = true) : Further ct p (Match ct p type).2 := by
  have hs := (Match_iff h type).1 hm
  have hc := (Check_iff h type).2 hs
  simp only [Match, hc, if_true]
  refine Further.of_later (Check_later h type) (Advance_further (Check_valid h type) ?_)
  rw [Sees.congr (Check_document ct p type) (Check_cursor ct p type)]
  exact hs.1

theorem Match_false_cursor (ct : CType) (p : Parser) (type : TokenType)
    (hm : (Match ct p type).1 = false) : (Match ct p type).2.m_cursor = p.m_cursor := by
  simp only [Match] at hm ⊢
  split
  · rename_i hc
    simp [hc] at hm
  · simp

@[simp] theorem ReportError_document (p : Parser) (token : Token) (message : WString) :
    (ReportError p token message).m_document = p.m_document := rfl

@[simp] theorem ReportError_cursor (p : Parser) (token : Token) (message : WString) :
    (ReportError p token message).m_cursor = p.m_cursor := rfl

theorem ReportError_valid {ct : CType} {p : Parser} (h : Valid ct p) (token : Token)
    (message : WString) : Valid ct (ReportError p token message) := h

theorem ReportError_later {ct : CType} {p : Parser} (h : Valid ct p) (token : Token)
    (message : WString) : Later ct p (ReportError p token message) :=
  ⟨h, rfl, le_refl _⟩

@[simp] theorem Expect_document (ct : CType) (p : Parser) (type : TokenType)
    (message : WString) : (Expect ct p type message).2.m_document = p.m_document := by
  simp only [Expect, Current]
  split <;> simp

theorem Expect_iff {ct : CType} {p : Parser} (h : Valid ct p) (type : TokenType)
    (message : WString) :
    (Expect ct p type message).1 = true ↔ ¬ Sees ct p TokenType.EndOfFile ∧ Sees ct p type := by
  rw [← Match_iff h]
  simp only [Expect]
  split <;> simp_all

theorem Expect_later {ct : CType} {p : Parser} (h : Valid ct p) (type : TokenType)
    (message : WString) : Later ct p (Expect ct p type message).2 := by
  have hm := Match_later h type
  cases hc : (Match ct p type).1 with
  | true =>
    simp only [Expect, hc, if_true]
    exact hm
  | false =>
    simp only [Expect, Current, hc, Bool.false_eq_true, if_false]
    exact hm.andThen ((LookAhead_later hm.1 0).andThen (ReportError_later (LookAhead_valid hm.1 0) _ _))

theorem Expect_further {ct : CType} {p : Parser} (h : Valid ct p) (type : TokenType)
    (message : WString) (he : (Expect ct p type message).1 = true) :
    Further ct p (Expect ct p type message).2 := by
  have hs := (Expect_iff h type message).1 he
  have hm := (Match_iff h type).2 hs
  have := Match_further h type hm
  simp only [Expect, hm, if_true]
  exact this

theorem skipComma_later {ct : CType} {p : Parser} (h : Valid ct p) :
    Later ct p (skipComma ct p) := by
  cases hc : (Check ct p TokenType.Comma).1 with
  | true =>
    simp only [skipComma, hc, if_true]
    exact (Check_later h _).andThen (Advance_later (Check_valid h _))
  | false =>
    simp only [skipComma, hc, Bool.false_eq_true, if_false]
    exact Check_later h _

theorem startsComponent_later {ct : CType} {p : Parser} (h : Valid ct p) :
    Later ct p (startsComponent ct p).2 :=
  (LookAhead_later h 1).andThen (LookAhead_later (LookAhead_valid h 1) 2)

@[simp] theorem startsComponent_cursor (ct : CType) (p : Parser) :
    (startsComponent ct p).2.m_cursor = p.m_cursor := by
  simp [startsComponent]

@[simp] theorem startsComponent_document (ct : CType) (p : Parser) :
    (startsComponent ct p).2.m_document = p.m_document := by
  simp [startsComponent]

/-! ## The loops of the parser -/

theorem runLoop_later {α : Type} {ct : CType} {body : α → Parser → Option (LoopStep α)}
    (hbody : ∀ acc p s, Valid ct p → body acc p = some s → Turn ct p s) :
    ∀ fuel acc p r, Valid ct p → runLoop body fuel acc p = some r → Later ct p r.2 := by
  intro fuel
  induction fuel with
  | zero =>
    intro acc p r _ h
    simp [runLoop] at h
  | succ fuel ih =>
    intro acc p r hv h
    rw [runLoop] at h
    cases hb : body acc p with
    | none => simp [hb] at h
    | some s =>
      have ht := hbody acc p s hv hb
      cases s with
      | leave a q =>
        simp only [hb, Option.some.injEq] at h
        rw [← h]
        exact ht
      | again a q =>
        simp only [hb] at h
        have hq : Further ct p q := ht
        exact hq.later.andThen (ih a q r hq.1 h)

theorem runLoop_total {α : Type} {ct : CType} {body : α → Parser → Option (LoopStep α)} (n : Nat)
    (hbody : ∀ acc p s, Valid ct p → body acc p = some s → Turn ct p s)
    (htotal : ∀ acc p, Valid ct p → remaining p < n → ∃ s, body acc p = some s) :
    ∀ fuel acc p, Valid ct p → remaining p < n → remaining p < fuel →
      ∃ r, runLoop body fuel acc p = some r := by
  intro fuel
  induction fuel with
  | zero =>
    intro acc p _ _ h
    exact absurd h (Nat.not_lt_zero _)
  | succ fuel ih =>
    intro acc p hv hn hf
    obtain ⟨s, hb⟩ := htotal acc p hv hn
    have ht := hbody acc p s hv hb
    rw [runLoop]
    cases s with
    | leave a q => exact ⟨(a, q), by simp only [hb]⟩
    | again a q =>
      simp only [hb]
      have hq : Further ct p q := ht
      have := hq.remaining_lt
      exact ih a q hq.1 (by omega) (by omega)

theorem synchronizeStep_turn {ct : CType} {p : Parser} (hv : Valid ct p) (a : Unit)
    (s : LoopStep Unit) (h : synchronizeStep ct a p = some s) : Turn ct p s := by
  have h1 := IsAtEnd_later hv
  have h2 := LookAhead_later h1.1 0
  cases hend : (IsAtEnd ct p).1 with
  | true =>
    simp only [synchronizeStep, hend, if_true, Option.some.injEq] at h
    rw [← h]
    exact h1
  | false =>
    have hne := (IsAtEnd_false_iff hv).1 hend
    simp only [synchronizeStep, hend, Bool.false_eq_true, if_false] at h
    split at h
    · simp only [Option.some.injEq] at h
      rw [← h]
      exact h1.andThen h2
    · simp only [Option.some.injEq] at h
      rw [← h]
      exact Advance_further_from (h1.andThen h2) (by simp) hne

theorem Synchronize_later {ct : CType} {p q : Parser} {fuel : Nat} (hv : Valid ct p)
    (h : Synchronize ct fuel p = some q) : Later ct p q := by
  simp only [Synchronize, Option.map_eq_some'] at h
  obtain ⟨r, hr, rfl⟩ := h
  exact runLoop_later (fun a p s => synchronizeStep_turn (a := a) (s := s)) fuel () p r hv hr

theorem Synchronize_total {ct : CType} {p : Parser} (fuel : Nat) (hv : Valid ct p)
    (hf : remaining p < fuel) : ∃ q, Synchronize ct fuel p = some q := by
  obtain ⟨r, hr⟩ := runLoop_total (remaining p + 1)
    (fun a p s => synchronizeStep_turn (a := a) (s := s))
    (fun a p _ _ => by
      simp only [synchronizeStep]
      split
      · exact ⟨_, rfl⟩
      · split <;> exact ⟨_, rfl⟩)
    fuel () p hv (Nat.lt_succ_self _) hf
  exact ⟨r.2, by simp only [Synchronize, hr, Option.map_some']⟩

theorem directiveStep_turn {ct : CType} {p : Parser} (hv : Valid ct p) (lineEnd : Nat) (a : Unit)
    (s : LoopStep Unit) (h : directiveStep ct lineEnd a p = some s) : Turn ct p s := by
  have h1 := IsAtEnd_later hv
  have h2 := LookAhead_later h1.1 0
  cases hend : (IsAtEnd ct p).1 with
  | true =>
    simp only [directiveStep, hend, if_true, Option.some.injEq] at h
    rw [← h]
    exact h1
  | false =>
    have hne := (IsAtEnd_false_iff hv).1 hend
    simp only [directiveStep, hend, Bool.false_eq_true, if_false] at h
    split at h
    · simp only [Option.some.injEq] at h
      rw [← h]
      exact Advance_further_from (h1.andThen h2) (by simp) hne
    · simp only [Option.some.injEq] at h
      rw [← h]
      exact h1.andThen h2

theorem directiveStep_total (ct : CType) (lineEnd : Nat) (a : Unit) (p : Parser) :
    ∃ s, directiveStep ct lineEnd a p = some s := by
  simp only [directiveStep]
  split
  · exact ⟨_, rfl⟩
  · split <;> exact ⟨_, rfl⟩

theorem Sees.not_eof {ct : CType} {p : Parser} {type : TokenType} (h : Sees ct p type)
    (ht : type ≠ TokenType.EndOfFile) : ¬ Sees ct p TokenType.EndOfFile := by
  intro h1
  simp only [Sees] at h h1
  rw [h] at h1
  exact ht h1

/-- A call of `Match` in a later state with the same cursor, at a token of the type
that is asked for. -/
theorem Match_further_from {ct : CType} {p q : Parser} {type : TokenType} (hq : Later ct p q)
    (hc : q.m_cursor = p.m_cursor) (hs : Sees ct p type) (ht : type ≠ TokenType.EndOfFile) :
    (Match ct q type).1 = true ∧ Further ct p (Match ct q type).2 := by
  have hs1 : Sees ct q type := (Sees.congr hq.2.1 hc _).2 hs
  have hm := (Match_iff hq.1 type).2 ⟨hs1.not_eof ht, hs1⟩
  exact ⟨hm, Further.of_later hq (Match_further hq.1 type hm)⟩

/-- The branches that end in `Advance()`, in a later state with the same cursor. -/
theorem Advance_from {ct : CType} {p q : Parser} (hq : Later ct p q)
    (hc : q.m_cursor = p.m_cursor) :
    Later ct p (Advance ct q) ∧
      (¬ Sees ct p TokenType.EndOfFile → p.m_cursor < (Advance ct q).m_cursor) :=
  ⟨hq.andThen (Advance_later hq.1), fun hne => (Advance_further_from hq hc hne).2.2⟩

theorem ParseDirective_consumes (ct : CType) (fuel : Nat) :
    Consumes ct TokenType.Hash (ParseDirective ct fuel) := by
  intro p r hv h
  have h1 := LookAhead_later hv 0
  have h2 := Match_later h1.1 TokenType.Hash
  have h3 := LookAhead_later h2.1 0
  have h4 := Expect_later h3.1 TokenType.Identifier (wstr "Expected directive identifier.")
  have hr : Later ct
      (Expect ct (LookAhead ct (Match ct (LookAhead ct p 0).2 TokenType.Hash).2 0).2
        TokenType.Identifier (wstr "Expected directive identifier.")).2 r.2 := by
    simp only [ParseDirective] at h
    split at h
    · simp only [Option.map_eq_some'] at h
      obtain ⟨q, hq, rfl⟩ := h
      exact Synchronize_later h4.1 hq
    · simp only [Option.map_eq_some'] at h
      obtain ⟨q, hq, rfl⟩ := h
      exact runLoop_later (fun a p s hv h => directiveStep_turn hv _ a s h) fuel () _ q h4.1 hq
  refine ⟨h1.andThen (h2.andThen (h3.andThen (h4.andThen hr))), fun hs => ?_⟩
  have hm := (Match_further_from h1 (by simp) hs (by decide)).2
  exact lt_of_lt_of_le hm.2.2 (h3.andThen (h4.andThen hr)).2.2

theorem ParseDirective_total {ct : CType} {p : Parser} (fuel : Nat) (hv : Valid ct p)
    (hf : remaining p < fuel) : ∃ r, ParseDirective ct fuel p = some r := by
  have h1 := LookAhead_later hv 0
  have h2 := Match_later h1.1 TokenType.Hash
  have h3 := LookAhead_later h2.1 0
  have h4 := Expect_later h3.1 TokenType.Identifier (wstr "Expected directive identifier.")
  have hle := (h1.andThen (h2.andThen (h3.andThen h4))).remaining_le
  simp only [ParseDirective]
  split
  · obtain ⟨q, hq⟩ := Synchronize_total fuel h4.1 (by omega)
    rw [hq]
    exact ⟨_, rfl⟩
  · obtain ⟨q, hq⟩ := runLoop_total (remaining p + 1)
      (fun a p s hv h => directiveStep_turn hv _ a s h)
      (fun a p _ _ => directiveStep_total ct _ a p) fuel () _ h4.1 (by omega) (by omega)
    rw [hq]
    exact ⟨_, rfl⟩

theorem ParseReference_spec {ct : CType} {p : Parser} (hv : Valid ct p) :
    Later ct p (ParseReference ct p).2 ∧
      (Sees ct p TokenType.At → p.m_cursor < (ParseReference ct p).2.m_cursor) := by
  have h1 := LookAhead_later hv 0
  have h2 := Match_later h1.1 TokenType.At
  have h3 := LookAhead_later h2.1 0
  have h4 := Match_later h3.1 TokenType.Identifier
  have hr : Later ct
      (Match ct (LookAhead ct (Match ct (LookAhead ct p 0).2 TokenType.At).2 0).2
        TokenType.Identifier).2 (ParseReference ct p).2 := by
    simp only [ParseReference]
    split
    · dsimp only
      exact ReportError_later h4.1 _ _
    · dsimp only
      exact Later.here h4.1
  refine ⟨h1.andThen (h2.andThen (h3.andThen (h4.andThen hr))), fun hs => ?_⟩
  have hm := (Match_further_from h1 (by simp) hs (by decide)).2
  exact lt_of_lt_of_le hm.2.2 (h3.andThen (h4.andThen hr)).2.2

theorem objectStep_turn {ct : CType} {pv : Sub Value} (hpv : ConsumesValue ct pv) {fuel : Nat}
    {object : Value} {p : Parser} {s : LoopStep Value} (hv : Valid ct p)
    (h : objectStep ct pv fuel object p = some s) : Turn ct p s := by
  have h1 := IsAtEnd_later hv
  have h2 := Check_later h1.1 TokenType.RBrace
  have h3 := LookAhead_later h2.1 0
  have h4 := Match_later h3.1 TokenType.Identifier
  have h5 := Expect_later h4.1 TokenType.Equals (wstr "Expected '=' in object literal.")
  have h03 := h1.andThen (h2.andThen h3)
  simp only [objectStep] at h
  split at h
  · simp only [Option.some.injEq] at h
    rw [← h]
    exact h1
  · split at h
    · simp only [Option.some.injEq] at h
      rw [← h]
      exact h1.andThen (h2.andThen (Advance_later h2.1))
    · split at h
      · simp only [Option.map_eq_some'] at h
        obtain ⟨q, hq, rfl⟩ := h
        exact h03.andThen (h4.andThen ((ReportError_later h4.1 _ _).andThen
          (Synchronize_later (ReportError_valid h4.1 _ _) hq)))
      · rename_i hm
        have hm1 := Match_further h3.1 TokenType.Identifier (by simpa using hm)
        split at h
        · simp only [Option.map_eq_some'] at h
          obtain ⟨q, hq, rfl⟩ := h
          exact h03.andThen (h4.andThen (h5.andThen (Synchronize_later h5.1 hq)))
        · simp only [Option.map_eq_some'] at h
          obtain ⟨r1, hr1, rfl⟩ := h
          have h6 := (hpv _ r1 h5.1 hr1).1
          exact Further.of_later h03
            (hm1.then_later (h5.andThen (h6.andThen (skipComma_later h6.1))))

theorem objectStep_total {ct : CType} {pv : Sub Value} {n : Nat} (hpvt : TotalBelow ct n pv)
    {fuel : Nat} (object : Value) {p : Parser} (hv : Valid ct p) (hn : remaining p < n)
    (hf : remaining p < fuel) : ∃ s, objectStep ct pv fuel object p = some s := by
  have h1 := IsAtEnd_later hv
  have h2 := Check_later h1.1 TokenType.RBrace
  have h3 := LookAhead_later h2.1 0
  have h4 := Match_later h3.1 TokenType.Identifier
  have h5 := Expect_later h4.1 TokenType.Equals (wstr "Expected '=' in object literal.")
  have h04 := h1.andThen (h2.andThen (h3.andThen h4))
  have hle4 := h04.remaining_le
  have hle5 := (h04.andThen h5).remaining_le
  simp only [objectStep]
  split
  · exact ⟨_, rfl⟩
  · split
    · exact ⟨_, rfl⟩
    · split
      · have h4r := h04.andThen (ReportError_later h4.1
          (LookAhead ct (Check ct (IsAtEnd ct p).2 TokenType.RBrace).2 0).1
          (wstr "Expected identifier in object literal."))
        obtain ⟨q, hq⟩ := Synchronize_total fuel h4r.1
          (lt_of_le_of_lt h4r.remaining_le hf)
        rw [hq]
        exact ⟨_, rfl⟩
      · split
        · obtain ⟨q, hq⟩ := Synchronize_total fuel h5.1 (by omega)
          rw [hq]
          exact ⟨_, rfl⟩
        · obtain ⟨r1, hr1⟩ := hpvt _ h5.1 (by omega)
          rw [hr1]
          exact ⟨_, rfl⟩

theorem ParseObjectLiteral_consumes {ct : CType} {pv : Sub Value} (hpv : ConsumesValue ct pv)
    (fuel : Nat) : Consumes ct TokenType.LBrace (ParseObjectLiteral ct pv fuel) := by
  intro p r hv h
  have h1 := LookAhead_later hv 0
  have h2 := Match_later h1.1 TokenType.LBrace
  simp only [ParseObjectLiteral] at h
  have hl := runLoop_later (fun _ _ _ hv h => objectStep_turn hpv hv h) fuel _ _ r h2.1 h
  refine ⟨h1.andThen (h2.andThen hl), fun hs => ?_⟩
  have hm := (Match_further_from h1 (by simp) hs (by decide)).2
  exact lt_of_lt_of_le hm.2.2 hl.2.2

theorem ParseObjectLiteral_total {ct : CType} {pv : Sub Value} {n : Nat}
    (hpv : ConsumesValue ct pv) (hpvt : TotalBelow ct n pv) {fuel : Nat} {p q : Parser}
    (hq : Later ct p q) (hc : q.m_cursor = p.m_cursor) (hs : Sees ct p TokenType.LBrace)
    (hn : remaining p ≤ n) (hf : remaining p ≤ fuel) :
    ∃ r, ParseObjectLiteral ct pv fuel q = some r := by
  have h1 := hq.andThen (LookAhead_later hq.1 0)
  have hm := (Match_further_from h1 (by simp [hc]) hs (by decide)).2
  have hlt := hm.remaining_lt
  simp only [ParseObjectLiteral]
  exact runLoop_total (remaining p) (fun _ _ _ hv h => objectStep_turn hpv hv h)
    (fun acc q hvq hq => objectStep_total hpvt acc hvq (by omega) (by omega)) fuel _ _ hm.1
    hlt (by omega)

theorem arrayStep_turn {ct : CType} {pv : Sub Value} (hpv : ConsumesValue ct pv)
    {array : Value} {p : Parser} {s : LoopStep Value} (hv : Valid ct p)
    (h : arrayStep ct pv array p = some s) : Turn ct p s := by
  have h1 := IsAtEnd_later hv
  have h2 := Check_later h1.1 TokenType.RBracket
  simp only [arrayStep] at h
  split at h
  · simp only [Option.some.injEq] at h
    rw [← h]
    exact h1
  · rename_i hend
    have hne := (IsAtEnd_false_iff hv).1 (by simpa using hend)
    split at h
    · simp only [Option.some.injEq] at h
      rw [← h]
      exact h1.andThen (h2.andThen (Advance_later h2.1))
    · simp only [Option.map_eq_some'] at h
      obtain ⟨r1, hr1, rfl⟩ := h
      have h3 := hpv _ r1 h2.1 hr1
      have hne2 : ¬ Sees ct (Check ct (IsAtEnd ct p).2 TokenType.RBracket).2
          TokenType.EndOfFile := fun hs => hne ((Sees.congr (by simp) (by simp) _).1 hs)
      have hlt := h3.2 hne2
      have h4 := skipComma_later h3.1.1
      refine ⟨h4.1, ?_, ?_⟩
      · rw [h4.2.1, h3.1.2.1]
        simp
      · have hc : (Check ct (IsAtEnd ct p).2 TokenType.RBracket).2.m_cursor = p.m_cursor := by
          simp
        have := h4.2.2
        show p.m_cursor < (skipComma ct r1.2).m_cursor
        omega

theorem arrayStep_total {ct : CType} {pv : Sub Value} {n : Nat} (hpvt : TotalBelow ct n pv)
    (array : Value) {p : Parser} (hv : Valid ct p) (hn : remaining p < n) :
    ∃ s, arrayStep ct pv array p = some s := by
  have h1 := IsAtEnd_later hv
  have h2 := Check_later h1.1 TokenType.RBracket
  have hle := (h1.andThen h2).remaining_le
  simp only [arrayStep]
  split
  · exact ⟨_, rfl⟩
  · split
    · exact ⟨_, rfl⟩
    · obtain ⟨r1, hr1⟩ := hpvt _ h2.1 (by omega)
      rw [hr1]
      exact ⟨_, rfl⟩

theorem ParseArrayLiteral_consumes {ct : CType} {pv : Sub Value} (hpv : ConsumesValue ct pv)
    (fuel : Nat) : Consumes ct TokenType.LBracket (ParseArrayLiteral ct pv fuel) := by
  intro p r hv h
  have h1 := LookAhead_later hv 0
  have h2 := Match_later h1.1 TokenType.LBracket
  simp only [ParseArrayLiteral] at h
  have hl := runLoop_later (fun _ _ _ hv h => arrayStep_turn hpv hv h) fuel _ _ r h2.1 h
  refine ⟨h1.andThen (h2.andThen hl), fun hs => ?_⟩
  have hm := (Match_further_from h1 (by simp) hs (by decide)).2
  exact lt_of_lt_of_le hm.2.2 hl.2.2

theorem ParseArrayLiteral_total {ct : CType} {pv : Sub Value} {n : Nat}
    (hpv : ConsumesValue ct pv) (hpvt : TotalBelow ct n pv) {fuel : Nat} {p q : Parser}
    (hq : Later ct p q) (hc : q.m_cursor = p.m_cursor) (hs : Sees ct p TokenType.LBracket)
    (hn : remaining p ≤ n) (hf : remaining p ≤ fuel) :
    ∃ r, ParseArrayLiteral ct pv fuel q = some r := by
  have h1 := hq.andThen (LookAhead_later hq.1 0)
  have hm := (Match_further_from h1 (by simp [hc]) hs (by decide)).2
  have hlt := hm.remaining_lt
  simp only [ParseArrayLiteral]
  exact runLoop_total (remaining p) (fun _ _ _ hv h => arrayStep_turn hpv hv h)
    (fun acc q hvq hq => arrayStep_total hpvt acc hvq (by omega)) fuel _ _ hm.1
    hlt (by omega)

/-- The token that a state sees is the token that `LookAhead(0)` returns. -/
theorem sees_of_LookAhead {ct : CType} {p : Parser} (hv : Valid ct p) {type : TokenType}
    (h : (LookAhead ct p 0).1.type = type) : Sees ct p type := by
  rw [LookAhead_token hv 0] at h
  exact h

theorem not_sees_of_LookAhead {ct : CType} {p : Parser} (hv : Valid ct p) {type : TokenType}
    (h : ¬ (LookAhead ct p 0).1.type = type) : ¬ Sees ct p type := by
  rw [LookAhead_token hv 0] at h
  exact h

theorem ParseValue_consumes (ct : CType) (fuel : Nat) : ConsumesValue ct (ParseValue ct fuel) := by
  induction fuel with
  | zero =>
    intro p r _ h
    simp [ParseValue] at h
  | succ fuel ih =>
    intro p r hv h
    have h1 := LookAhead_later hv 0
    have hc : (LookAhead ct p 0).2.m_cursor = p.m_cursor := by simp
    have ha := Advance_from h1 hc
    simp only [ParseValue] at h
    split at h
    · simp only [Option.some.injEq] at h
      rw [← h]
      exact ha
    · split at h
      · simp only [Option.some.injEq] at h
        rw [← h]
        exact ha
      · split at h
        · split at h
          · simp only [Option.some.injEq] at h
            rw [← h]
            exact ha
          · split at h
            · simp only [Option.some.injEq] at h
              rw [← h]
              exact ha
            · simp only [Option.some.injEq] at h
              rw [← h]
              exact ha
        · split at h
          · rename_i hb
            have hs := (Sees.congr h1.2.1 hc _).2 (sees_of_LookAhead hv hb)
            have := ParseObjectLiteral_consumes ih fuel _ r h1.1 h
            exact ⟨h1.andThen this.1, fun _ => lt_of_le_of_lt (le_of_eq hc.symm) (this.2 hs)⟩
          · split at h
            · rename_i hb
              have hs := (Sees.congr h1.2.1 hc _).2 (sees_of_LookAhead hv hb)
              have := ParseArrayLiteral_consumes ih fuel _ r h1.1 h
              exact ⟨h1.andThen this.1, fun _ => lt_of_le_of_lt (le_of_eq hc.symm) (this.2 hs)⟩
            · split at h
              · rename_i hb
                have hs := (Sees.congr h1.2.1 hc _).2 (sees_of_LookAhead hv hb)
                have := ParseReference_spec h1.1
                simp only [Option.some.injEq] at h
                rw [← h]
                exact ⟨h1.andThen this.1, fun _ => lt_of_le_of_lt (le_of_eq hc.symm) (this.2 hs)⟩
              · simp only [Option.some.injEq] at h
                rw [← h]
                exact Advance_from (h1.andThen (ReportError_later h1.1 _ _)) hc

theorem ParseValue_total (ct : CType) (fuel : Nat) : TotalBelow ct fuel (ParseValue ct fuel) := by
  induction fuel with
  | zero =>
    intro p _ h
    exact absurd h (Nat.not_lt_zero _)
  | succ fuel ih =>
    intro p hv hn
    have h1 := LookAhead_later hv 0
    have hc : (LookAhead ct p 0).2.m_cursor = p.m_cursor := by simp
    simp only [ParseValue]
    split
    · exact ⟨_, rfl⟩
    · split
      · exact ⟨_, rfl⟩
      · split
        · split
          · exact ⟨_, rfl⟩
          · split <;> exact ⟨_, rfl⟩
        · split
          · rename_i hb
            exact ParseObjectLiteral_total (ParseValue_consumes ct fuel) ih h1 hc
              (sees_of_LookAhead hv hb) (by omega) (by omega)
          · split
            · rename_i hb
              exact ParseArrayLiteral_total (ParseValue_consumes ct fuel) ih h1 hc
                (sees_of_LookAhead hv hb) (by omega) (by omega)
            · split <;> exact ⟨_, rfl⟩

theorem ParseAttribute_consumes {ct : CType} {pv : Sub Value} (hpv : ConsumesValue ct pv) :
    Consumes ct TokenType.Identifier (ParseAttribute ct pv) := by
  intro p r hv h
  have h1 := LookAhead_later hv 0
  have h2 := Match_later h1.1 TokenType.Identifier
  have h3 := Expect_later h2.1 TokenType.Equals (wstr "Expected '=' after attribute name.")
  have hr : Later ct
      (Expect ct (Match ct (LookAhead ct p 0).2 TokenType.Identifier).2 TokenType.Equals
        (wstr "Expected '=' after attribute name.")).2 r.2 := by
    simp only [ParseAttribute] at h
    split at h
    · simp only [Option.some.injEq] at h
      rw [← h]
      dsimp only
      exact Later.here h3.1
    · simp only [Option.map_eq_some'] at h
      obtain ⟨r1, hr1, rfl⟩ := h
      have h4 := (hpv _ r1 h3.1 hr1).1
      exact h4.andThen (skipComma_later h4.1)
  refine ⟨h1.andThen (h2.andThen (h3.andThen hr)), fun hs => ?_⟩
  have hm := (Match_further_from h1 (by simp) hs (by decide)).2
  exact lt_of_lt_of_le hm.2.2 (h3.andThen hr).2.2

theorem ParseAttribute_total {ct : CType} {pv : Sub Value} {n : Nat} (hpvt : TotalBelow ct n pv)
    {p : Parser} (hv : Valid ct p) (hn : remaining p < n) :
    ∃ r, ParseAttribute ct pv p = some r := by
  have h1 := LookAhead_later hv 0
  have h2 := Match_later h1.1 TokenType.Identifier
  have h3 := Expect_later h2.1 TokenType.Equals (wstr "Expected '=' after attribute name.")
  have hle := (h1.andThen (h2.andThen h3)).remaining_le
  simp only [ParseAttribute]
  split
  · exact ⟨_, rfl⟩
  · obtain ⟨r1, hr1⟩ := hpvt _ h3.1 (by omega)
    rw [hr1]
    exact ⟨_, rfl⟩

theorem componentStep_turn {ct : CType} {pc : Sub ComponentNode} {pv : Sub Value}
    (hpc : Consumes ct TokenType.Hash pc) (hpv : ConsumesValue ct pv) {node : ComponentNode}
    {p : Parser} {s : LoopStep ComponentNode} (hv : Valid ct p)
    (h : componentStep ct pc pv node p = some s) : Turn ct p s := by
  have h1 := IsAtEnd_later hv
  have h2 := LookAhead_later h1.1 0
  have h02 := h1.andThen h2
  have htok : ∀ type, (LookAhead ct (IsAtEnd ct p).2 0).1.type = type → Sees ct p type :=
    fun type ht => (Sees.congr h1.2.1 (by simp) _).1 (sees_of_LookAhead h1.1 ht)
  simp only [componentStep] at h
  split at h
  · simp only [Option.some.injEq] at h
    rw [← h]
    exact h1
  · rename_i hend
    have hne := (IsAtEnd_false_iff hv).1 (by simpa using hend)
    split at h
    · simp only [Option.some.injEq] at h
      rw [← h]
      exact h02.andThen (Advance_later h2.1)
    · by_cases hh : (LookAhead ct (IsAtEnd ct p).2 0).1.type = TokenType.Hash
      · have hni : ¬ (LookAhead ct (IsAtEnd ct p).2 0).1.type = TokenType.Identifier := by
          rw [hh]
          decide
        have h3 := h02.andThen (startsComponent_later h2.1)
        simp only [if_pos hh, if_neg hni] at h
        split at h
        · simp only [Option.map_eq_some'] at h
          obtain ⟨r1, hr1, rfl⟩ := h
          have h4 := hpc _ r1 h3.1 hr1
          have hs := h4.2 ((Sees.congr h3.2.1 (by simp) _).2 (htok _ hh))
          show Further ct p r1.2
          refine ⟨h4.1.1, h4.1.2.1.trans h3.2.1, ?_⟩
          simpa using hs
        · simp only [Bool.false_eq_true, if_false, Option.some.injEq] at h
          rw [← h]
          exact Advance_further_from (h3.andThen (ReportError_later h3.1 _ _)) (by simp) hne
      · simp only [if_neg hh, Bool.false_eq_true, if_false] at h
        by_cases hi : (LookAhead ct (IsAtEnd ct p).2 0).1.type = TokenType.Identifier
        · have h3 := h02.andThen (LookAhead_later h2.1 1)
          simp only [if_pos hi] at h
          split at h
          · simp only [Option.map_eq_some'] at h
            obtain ⟨r1, hr1, rfl⟩ := h
            have h4 := ParseAttribute_consumes hpv _ r1 h3.1 hr1
            have hs := h4.2 ((Sees.congr h3.2.1 (by simp) _).2 (htok _ hi))
            show Further ct p r1.2
            refine ⟨h4.1.1, h4.1.2.1.trans h3.2.1, ?_⟩
            simpa using hs
          · simp only [Option.some.injEq] at h
            rw [← h]
            exact Advance_further_from (h3.andThen (ReportError_later h3.1 _ _)) (by simp) hne
        · simp only [if_neg hi, Bool.false_eq_true, if_false, Option.some.injEq] at h
          rw [← h]
          exact Advance_further_from (h02.andThen (ReportError_later h2.1 _ _)) (by simp) hne

theorem componentStep_total {ct : CType} {pc : Sub ComponentNode} {pv : Sub Value} {m n : Nat}
    (hpct : TotalBelow ct m pc) (hpvt : TotalBelow ct n pv) (node : ComponentNode) {p : Parser}
    (hv : Valid ct p) (hm : remaining p < m) (hn : remaining p < n) :
    ∃ s, componentStep ct pc pv node p = some s := by
  have h1 := IsAtEnd_later hv
  have h2 := LookAhead_later h1.1 0
  have h02 := h1.andThen h2
  simp only [componentStep]
  split
  · exact ⟨_, rfl⟩
  · split
    · exact ⟨_, rfl⟩
    · by_cases hh : (LookAhead ct (IsAtEnd ct p).2 0).1.type = TokenType.Hash
      · have hni : ¬ (LookAhead ct (IsAtEnd ct p).2 0).1.type = TokenType.Identifier := by
          rw [hh]
          decide
        have h3 := h02.andThen (startsComponent_later h2.1)
        have hle := h3.remaining_le
        simp only [if_pos hh, if_neg hni]
        split
        · obtain ⟨r1, hr1⟩ := hpct _ h3.1 (by omega)
          rw [hr1]
          exact ⟨_, rfl⟩
        · exact ⟨_, rfl⟩
      · simp only [if_neg hh, Bool.false_eq_true, if_false]
        by_cases hi : (LookAhead ct (IsAtEnd ct p).2 0).1.type = TokenType.Identifier
        · have h3 := h02.andThen (LookAhead_later h2.1 1)
          have hle := h3.remaining_le
          simp only [if_pos hi]
          split
          · obtain ⟨r1, hr1⟩ := ParseAttribute_total hpvt h3.1 (by omega)
            rw [hr1]
            exact ⟨_, rfl⟩
          · exact ⟨_, rfl⟩
        · simp only [if_neg hi, Bool.false_eq_true, if_false]
          exact ⟨_, rfl⟩

theorem ParseComponent_consumes {ct : CType} {pv : Sub Value} (hpv : ConsumesValue ct pv)
    (fuel : Nat) : Consumes ct TokenType.Hash (ParseComponent ct pv fuel) := by
  induction fuel with
  | zero =>
    intro p r _ h
    simp [ParseComponent] at h
  | succ fuel ih =>
    intro p r hv h
    have h1 := Match_later hv TokenType.Hash
    have h2 := LookAhead_later h1.1 0
    have h3 := Expect_later h2.1 TokenType.Identifier (wstr "Expected component name after '#'.")
    have h4 := Expect_later h3.1 TokenType.LBrace
      (wstr "Expected '\x7b' to start component body.")
    have hr : Later ct
        (Expect ct (LookAhead ct (Match ct p TokenType.Hash).2 0).2 TokenType.Identifier
          (wstr "Expected component name after '#'.")).2 r.2 := by
      simp only [ParseComponent] at h
      split at h
      · simp only [Option.map_eq_some'] at h
        obtain ⟨q, hq, rfl⟩ := h
        exact Synchronize_later h3.1 hq
      · split at h
        · simp only [Option.map_eq_some'] at h
          obtain ⟨q, hq, rfl⟩ := h
          exact h4.andThen (Synchronize_later h4.1 hq)
        · exact h4.andThen
            (runLoop_later (fun _ _ _ hv h => componentStep_turn ih hpv hv h) fuel _ _ r h4.1 h)
    refine ⟨h1.andThen (h2.andThen (h3.andThen hr)), fun hs => ?_⟩
    have hm := (Match_further_from (Later.here hv) rfl hs (by decide)).2
    exact lt_of_lt_of_le hm.2.2 (h2.andThen (h3.andThen hr)).2.2

theorem ParseComponent_total {ct : CType} {pv : Sub Value} {n : Nat} (hpv : ConsumesValue ct pv)
    (hpvt : TotalBelow ct n pv) (fuel : Nat) :
    TotalBelow ct (min n (fuel - 1)) (ParseComponent ct pv fuel) := by
  induction fuel with
  | zero =>
    intro p _ h
    simp at h
  | succ fuel ih =>
    intro p hv hlt
    have hn : remaining p < n := lt_of_lt_of_le hlt (min_le_left _ _)
    have hf : remaining p < fuel := lt_of_lt_of_le hlt (min_le_right _ _)
    have h1 := Match_later hv TokenType.Hash
    have h2 := LookAhead_later h1.1 0
    have h3 := Expect_later h2.1 TokenType.Identifier (wstr "Expected component name after '#'.")
    have h4 := Expect_later h3.1 TokenType.LBrace
      (wstr "Expected '\x7b' to start component body.")
    have hle3 := (h1.andThen (h2.andThen h3)).remaining_le
    have hle4 := h4.remaining_le
    simp only [ParseComponent]
    split
    · obtain ⟨q, hq⟩ := Synchronize_total fuel h3.1 (by omega)
      rw [hq]
      exact ⟨_, rfl⟩
    · rename_i he
      have he1 := Expect_further h2.1 TokenType.Identifier
        (wstr "Expected component name after '#'.") (by simpa using he)
      have hlt3 := (Further.of_later (h1.andThen h2) he1).remaining_lt
      split
      · obtain ⟨q, hq⟩ := Synchronize_total fuel h4.1 (by omega)
        rw [hq]
        exact ⟨_, rfl⟩
      · exact runLoop_total (remaining p)
          (fun _ _ _ hv h => componentStep_turn (ParseComponent_consumes hpv fuel) hpv hv h)
          (fun acc q hvq hq => componentStep_total ih hpvt acc hvq
            (lt_min (by omega) (by omega)) (by omega))
          fuel _ _ h4.1 (by omega) (by omega)

theorem parseStep_turn {ct : CType} {fuel : Nat} {document : ThemeDocument} {p : Parser}
    {s : LoopStep ThemeDocument} (hv : Valid ct p) (h : parseStep ct fuel document p = some s) :
    Turn ct p s := by
  have h1 := IsAtEnd_later hv
  have h2 := LookAhead_later h1.1 0
  have h02 := h1.andThen h2
  have h3 := h02.andThen (startsComponent_later h2.1)
  have htok : ∀ type, (LookAhead ct (IsAtEnd ct p).2 0).1.type = type → Sees ct p type :=
    fun type ht => (Sees.congr h1.2.1 (by simp) _).1 (sees_of_LookAhead h1.1 ht)
  simp only [parseStep] at h
  split at h
  · simp only [Option.some.injEq] at h
    rw [← h]
    exact h1
  · rename_i hend
    have hne := (IsAtEnd_false_iff hv).1 (by simpa using hend)
    split at h
    · rename_i hh
      have hs : Sees ct (startsComponent ct (LookAhead ct (IsAtEnd ct p).2 0).2).2
          TokenType.Hash := (Sees.congr h3.2.1 (by simp) _).2 (htok _ hh)
      split at h
      · simp only [Option.map_eq_some'] at h
        obtain ⟨r1, hr1, rfl⟩ := h
        have h4 := ParseComponent_consumes (ParseValue_consumes ct fuel) fuel _ r1 h3.1 hr1
        have hlt := h4.2 hs
        show Further ct p r1.2
        refine ⟨h4.1.1, h4.1.2.1.trans h3.2.1, ?_⟩
        simpa using hlt
      · simp only [Option.map_eq_some'] at h
        obtain ⟨r1, hr1, rfl⟩ := h
        have h4 := ParseDirective_consumes ct fuel _ r1 h3.1 hr1
        have hlt := h4.2 hs
        show Further ct p r1.2
        refine ⟨h4.1.1, h4.1.2.1.trans h3.2.1, ?_⟩
        simpa using hlt
    · split at h
      · simp only [Option.some.injEq] at h
        rw [← h]
        exact h02
      · simp only [Option.some.injEq] at h
        rw [← h]
        exact Advance_further_from (h02.andThen (ReportError_later h2.1 _ _)) (by simp) hne

theorem parseStep_total {ct : CType} {fuel : Nat} (document : ThemeDocument) {p : Parser}
    (hv : Valid ct p) (hf : remaining p + 1 < fuel) :
    ∃ s, parseStep ct fuel document p = some s := by
  have h1 := IsAtEnd_later hv
  have h2 := LookAhead_later h1.1 0
  have h3 := (h1.andThen h2).andThen (startsComponent_later h2.1)
  have hle := h3.remaining_le
  simp only [parseStep]
  split
  · exact ⟨_, rfl⟩
  · split
    · split
      · obtain ⟨r1, hr1⟩ := ParseComponent_total (ParseValue_consumes ct fuel)
          (ParseValue_total ct fuel) fuel _ h3.1 (lt_min (by omega) (by omega))
        rw [hr1]
        exact ⟨_, rfl⟩
      · obtain ⟨r1, hr1⟩ := ParseDirective_total fuel h3.1 (by omega)
        rw [hr1]
        exact ⟨_, rfl⟩
    · split <;> exact ⟨_, rfl⟩

theorem Parse_later {ct : CType} {fuel : Nat} {p : Parser} {r : ThemeDocument × Parser}
    (hv : Valid ct p) (h : Parse ct fuel p = some r) : Later ct p r.2 :=
  runLoop_later (fun _ _ _ hv h => parseStep_turn hv h) fuel _ p r hv h

theorem Parse_total {ct : CType} {p : Parser} (fuel : Nat) (hv : Valid ct p)
    (hf : remaining p + 1 < fuel) : ∃ r, Parse ct fuel p = some r :=
  runLoop_total (remaining p + 1) (fun _ _ _ hv h => parseStep_turn hv h)
    (fun acc q hvq hq => parseStep_total acc hvq (by omega)) fuel _ p hv (Nat.lt_succ_self _)
    (by omega)

/-! ## The diagnostics of the parser -/

theorem Grows.nothing (p : Parser) : Grows p p := ⟨[], by simp, by simp⟩

theorem Grows.of_same {p q : Parser} (h : q.m_diagnostics = p.m_diagnostics) : Grows p q :=
  ⟨[], by simp [h], by simp⟩

theorem Grows.followedBy {p q r : Parser} (h1 : Grows p q) (h2 : Grows q r) : Grows p r := by
  obtain ⟨e1, h1, g1⟩ := h1
  obtain ⟨e2, h2, g2⟩ := h2
  refine ⟨e1 ++ e2, by rw [h2, h1, List.append_assoc], ?_⟩
  intro d hd
  rcases List.mem_append.1 hd with h | h
  · exact g1 d h
  · exact g2 d h

@[simp] theorem IsAtEnd_diagnostics (ct : CType) (p : Parser) :
    (IsAtEnd ct p).2.m_diagnostics = p.m_diagnostics := LookAhead_diagnostics ct p 0

@[simp] theorem Advance_diagnostics (ct : CType) (p : Parser) :
    (Advance ct p).m_diagnostics = p.m_diagnostics := by
  simp only [Advance]
  split <;> simp

@[simp] theorem Check_diagnostics (ct : CType) (p : Parser) (type : TokenType) :
    (Check ct p type).2.m_diagnostics = p.m_diagnostics := by
  simp only [Check]
  split <;> simp

@[simp] theorem Match_diagnostics (ct : CType) (p : Parser) (type : TokenType) :
    (Match ct p type).2.m_diagnostics = p.m_diagnostics := by
  simp only [Match]
  split <;> simp

@[simp] theorem skipComma_diagnostics (ct : CType) (p : Parser) :
    (skipComma ct p).m_diagnostics = p.m_diagnostics := by
  simp only [skipComma]
  split <;> simp

@[simp] theorem startsComponent_diagnostics (ct : CType) (p : Parser) :
    (startsComponent ct p).2.m_diagnostics = p.m_diagnostics := by
  simp [startsComponent]

theorem ReportError_grows (p : Parser) (token : Token) (message : WString) :
    Grows p (ReportError p token message) :=
  ⟨[⟨DiagnosticSeverity.Error, message, token.location⟩], rfl, by simp⟩

theorem Expect_grows (ct : CType) (p : Parser) (type : TokenType) (message : WString) :
    Grows p (Expect ct p type message).2 := by
  cases hc : (Match ct p type).1 with
  | true =>
    simp only [Expect, hc, if_true]
    exact Grows.of_same (by simp)
  | false =>
    simp only [Expect, Current, hc, Bool.false_eq_true, if_false]
    exact (Grows.of_same (by simp)).followedBy (ReportError_grows _ _ _)

/-- A property of the locals and the state that every turn of a loop keeps holds
when the loop is left. -/
theorem runLoop_invariant {α : Type} {body : α → Parser → Option (LoopStep α)}
    (I : α → Parser → Prop)
    (hbody : ∀ acc p s, I acc p → body acc p = some s → I s.acc s.parser) :
    ∀ fuel acc p r, I acc p → runLoop body fuel acc p = some r → I r.1 r.2 := by
  intro fuel
  induction fuel with
  | zero =>
    intro acc p r _ h
    simp [runLoop] at h
  | succ fuel ih =>
    intro acc p r hi h
    rw [runLoop] at h
    cases hb : body acc p with
    | none => simp [hb] at h
    | some s =>
      have ht := hbody acc p s hi hb
      cases s with
      | leave a q =>
        simp only [hb, Option.some.injEq] at h
        rw [← h]
        exact ht
      | again a q =>
        simp only [hb] at h
        exact ih a q r ht h

theorem runLoop_grows {α : Type} {body : α → Parser → Option (LoopStep α)}
    (hbody : ∀ acc p s, body acc p = some s → Grows p s.parser)
    (fuel : Nat) (acc : α) (p : Parser) (r : α × Parser) (h : runLoop body fuel acc p = some r) :
    Grows p r.2 :=
  runLoop_invariant (fun _ q => Grows p q)
    (fun acc q s hq hs => hq.followedBy (hbody acc q s hs)) fuel acc p r (Grows.nothing p) h

theorem synchronizeStep_grows (ct : CType) (a : Unit) (p : Parser) (s : LoopStep Unit)
    (h : synchronizeStep ct a p = some s) : Grows p s.parser := by
  simp only [synchronizeStep] at h
  split at h
  · simp only [Option.some.injEq] at h
    rw [← h]
    exact Grows.of_same (by simp [LoopStep.parser])
  · split at h <;>
    · simp only [Option.some.injEq] at h
      rw [← h]
      exact Grows.of_same (by simp [LoopStep.parser])

theorem Synchronize_grows {ct : CType} {p q : Parser} {fuel : Nat}
    (h : Synchronize ct fuel p = some q) : Grows p q := by
  simp only [Synchronize, Option.map_eq_some'] at h
  obtain ⟨r, hr, rfl⟩ := h
  exact runLoop_grows (synchronizeStep_grows ct) fuel () p r hr

theorem directiveStep_grows (ct : CType) (lineEnd : Nat) (a : Unit) (p : Parser)
    (s : LoopStep Unit) (h : directiveStep ct lineEnd a p = some s) : Grows p s.parser := by
  simp only [directiveStep] at h
  split at h
  · simp only [Option.some.injEq] at h
    rw [← h]
    exact Grows.of_same (by simp [LoopStep.parser])
  · split at h <;>
    · simp only [Option.some.injEq] at h
      rw [← h]
      exact Grows.of_same (by simp [LoopStep.parser])

theorem ParseDirective_grows {ct : CType} {fuel : Nat} {p : Parser} {r : Directive × Parser}
    (h : ParseDirective ct fuel p = some r) : Grows p r.2 := by
  have h0 : Grows p (LookAhead ct (Match ct (LookAhead ct p 0).2 TokenType.Hash).2 0).2 :=
    Grows.of_same (by simp)
  have he := Expect_grows ct (LookAhead ct (Match ct (LookAhead ct p 0).2 TokenType.Hash).2 0).2
    TokenType.Identifier (wstr "Expected directive identifier.")
  simp only [ParseDirective] at h
  split at h
  · simp only [Option.map_eq_some'] at h
    obtain ⟨q, hq, rfl⟩ := h
    exact (h0.followedBy he).followedBy (Synchronize_grows hq)
  · simp only [Option.map_eq_some'] at h
    obtain ⟨q, hq, rfl⟩ := h
    exact (h0.followedBy he).followedBy (runLoop_grows (directiveStep_grows ct _) _ _ _ _ hq)

theorem Grows.report (ct : CType) {p q : Parser} (h : q.m_diagnostics = p.m_diagnostics)
    (token : Token) (message : WString) : Grows p (Advance ct (ReportError q token message)) :=
  ((Grows.of_same h).followedBy (ReportError_grows q token message)).followedBy (Grows.of_same (by simp))

theorem ParseReference_grows (ct : CType) (p : Parser) : Grows p (ParseReference ct p).2 := by
  simp only [ParseReference]
  split
  · exact (Grows.of_same (by simp)).followedBy (ReportError_grows _ _ _)
  · exact Grows.of_same (by simp)

theorem objectStep_grows {ct : CType} {pv : Sub Value} (hpv : GrowsOnly pv) (fuel : Nat)
    (object : Value) (p : Parser) (s : LoopStep Value)
    (h : objectStep ct pv fuel object p = some s) : Grows p s.parser := by
  simp only [objectStep] at h
  split at h
  · simp only [Option.some.injEq] at h
    rw [← h]
    exact Grows.of_same (by simp [LoopStep.parser])
  · split at h
    · simp only [Option.some.injEq] at h
      rw [← h]
      exact Grows.of_same (by simp [LoopStep.parser])
    · split at h
      · simp only [Option.map_eq_some'] at h
        obtain ⟨q, hq, rfl⟩ := h
        exact ((Grows.of_same (by simp)).followedBy (ReportError_grows _ _ _)).followedBy
          (Synchronize_grows hq)
      · split at h
        · simp only [Option.map_eq_some'] at h
          obtain ⟨q, hq, rfl⟩ := h
          exact ((Grows.of_same (by simp)).followedBy (Expect_grows ct _ _ _)).followedBy
            (Synchronize_grows hq)
        · simp only [Option.map_eq_some'] at h
          obtain ⟨r1, hr1, rfl⟩ := h
          exact ((Grows.of_same (by simp)).followedBy (Expect_grows ct _ _ _)).followedBy
            ((hpv _ _ hr1).followedBy (Grows.of_same (by simp [LoopStep.parser])))

theorem ParseObjectLiteral_grows {ct : CType} {pv : Sub Value} (hpv : GrowsOnly pv)
    (fuel : Nat) : GrowsOnly (ParseObjectLiteral ct pv fuel) := by
  intro p r h
  simp only [ParseObjectLiteral] at h
  exact (Grows.of_same (by simp)).followedBy (runLoop_grows (objectStep_grows hpv fuel) _ _ _ _ h)

theorem arrayStep_grows {ct : CType} {pv : Sub Value} (hpv : GrowsOnly pv)
    (array : Value) (p : Parser) (s : LoopStep Value)
    (h : arrayStep ct pv array p = some s) : Grows p s.parser := by
  simp only [arrayStep] at h
  split at h
  · simp only [Option.some.injEq] at h
    rw [← h]
    exact Grows.of_same (by simp [LoopStep.parser])
  · split at h
    · simp only [Option.some.injEq] at h
      rw [← h]
      exact Grows.of_same (by simp [LoopStep.parser])
    · simp only [Option.map_eq_some'] at h
      obtain ⟨r1, hr1, rfl⟩ := h
      exact (Grows.of_same (by simp)).followedBy
        ((hpv _ _ hr1).followedBy (Grows.of_same (by simp [LoopStep.parser])))

theorem ParseArrayLiteral_grows {ct : CType} {pv : Sub Value} (hpv : GrowsOnly pv)
    (fuel : Nat) : GrowsOnly (ParseArrayLiteral ct pv fuel) := by
  intro p r h
  simp only [ParseArrayLiteral] at h
  exact (Grows.of_same (by simp)).followedBy (runLoop_grows (arrayStep_grows hpv) _ _ _ _ h)

theorem ParseValue_grows (ct : CType) (fuel : Nat) : GrowsOnly (ParseValue ct fuel) := by
  induction fuel with
  | zero =>
    intro p r h
    simp [ParseValue] at h
  | succ fuel ih =>
    intro p r h
    have h0 : Grows p (LookAhead ct p 0).2 := Grows.of_same (by simp)
    have ha : Grows p (Advance ct (LookAhead ct p 0).2) := Grows.of_same (by simp)
    simp only [ParseValue] at h
    split at h
    · simp only [Option.some.injEq] at h
      rw [← h]
      exact ha
    · split at h
      · simp only [Option.some.injEq] at h
        rw [← h]
        exact ha
      · split at h
        · split at h
          · simp only [Option.some.injEq] at h
            rw [← h]
            exact ha
          · split at h <;>
            · simp only [Option.some.injEq] at h
              rw [← h]
              exact ha
        · split at h
          · exact h0.followedBy (ParseObjectLiteral_grows ih fuel _ _ h)
          · split at h
            · exact h0.followedBy (ParseArrayLiteral_grows ih fuel _ _ h)
            · split at h
              · simp only [Option.some.injEq] at h
                rw [← h]
                exact h0.followedBy (ParseReference_grows ct _)
              · simp only [Option.some.injEq] at h
                rw [← h]
                simp only [LoopStep.parser]
                refine Grows.report ct ?_ _ _
                simp

theorem ParseAttribute_grows {ct : CType} {pv : Sub Value} (hpv : GrowsOnly pv) :
    GrowsOnly (ParseAttribute ct pv) := by
  intro p r h
  simp only [ParseAttribute] at h
  have he := Expect_grows ct (Match ct (LookAhead ct p 0).2 TokenType.Identifier).2
    TokenType.Equals (wstr "Expected '=' after attribute name.")
  have h0 : Grows p (Match ct (LookAhead ct p 0).2 TokenType.Identifier).2 :=
    Grows.of_same (by simp)
  split at h
  · simp only [Option.some.injEq] at h
    rw [← h]
    dsimp only
    exact h0.followedBy he
  · simp only [Option.map_eq_some'] at h
    obtain ⟨r1, hr1, rfl⟩ := h
    exact (h0.followedBy he).followedBy ((hpv _ _ hr1).followedBy (Grows.of_same (by simp)))

/-- The turn of the loop of `ParseComponent` with the tests of its branches in a
row: the end of the input, `}`, `#`, an identifier, and any other token. -/
theorem componentStep_eq (ct : CType) (pc : Sub ComponentNode) (pv : Sub Value)
    (node : ComponentNode) (p : Parser) :
    componentStep ct pc pv node p =
      if (IsAtEnd ct p).1 = true then some (LoopStep.leave node (IsAtEnd ct p).2)
      else if (LookAhead ct (IsAtEnd ct p).2 0).1.type = TokenType.RBrace then
        some (LoopStep.leave node (Advance ct (LookAhead ct (IsAtEnd ct p).2 0).2))
      else if (LookAhead ct (IsAtEnd ct p).2 0).1.type = TokenType.Hash then
        if (startsComponent ct (LookAhead ct (IsAtEnd ct p).2 0).2).1 = true then
          (pc (startsComponent ct (LookAhead ct (IsAtEnd ct p).2 0).2).2).map fun r1 =>
            LoopStep.again { node with children := node.children ++ [r1.1] } r1.2
        else
          some (LoopStep.again node
            (Advance ct
              (ReportError (startsComponent ct (LookAhead ct (IsAtEnd ct p).2 0).2).2
                (LookAhead ct (IsAtEnd ct p).2 0).1
                (wstr "Unexpected token inside component body."))))
      else if (LookAhead ct (IsAtEnd ct p).2 0).1.type = TokenType.Identifier then
        if (LookAhead ct (LookAhead ct (IsAtEnd ct p).2 0).2 1).1.type = TokenType.Equals then
          (ParseAttribute ct pv (LookAhead ct (LookAhead ct (IsAtEnd ct p).2 0).2 1).2).map
            fun r1 => LoopStep.again (applyAttribute ct node r1.1) r1.2
        else
          some (LoopStep.again node
            (Advance ct
              (ReportError (LookAhead ct (LookAhead ct (IsAtEnd ct p).2 0).2 1).2
                (LookAhead ct (IsAtEnd ct p).2 0).1
                (wstr "Unexpected token inside component body."))))
      else
        some (LoopStep.again node
          (Advance ct
            (ReportError (LookAhead ct (IsAtEnd ct p).2 0).2 (LookAhead ct (IsAtEnd ct p).2 0).1
              (wstr "Unexpected token inside component body.")))) := by
  simp only [componentStep]
  by_cases hend : (IsAtEnd ct p).1 = true
  · simp only [if_pos hend]
  · simp only [if_neg hend]
    by_cases hr : (LookAhead ct (IsAtEnd ct p).2 0).1.type = TokenType.RBrace
    · simp only [if_pos hr]
    · simp only [if_neg hr]
      by_cases hh : (LookAhead ct (IsAtEnd ct p).2 0).1.type = TokenType.Hash
      · have hni : ¬ (LookAhead ct (IsAtEnd ct p).2 0).1.type = TokenType.Identifier := by
          rw [hh]
          decide
        simp only [if_pos hh, if_neg hni]
        split
        · rfl
        · simp only [Bool.false_eq_true, if_false]
      · simp only [if_neg hh, Bool.false_eq_true, if_false]
        by_cases hi : (LookAhead ct (IsAtEnd ct p).2 0).1.type = TokenType.Identifier
        · simp only [if_pos hi, decide_eq_true_eq]
        · simp only [if_neg hi, Bool.false_eq_true, if_false]

theorem componentStep_grows {ct : CType} {pc : Sub ComponentNode} {pv : Sub Value}
    (hpc : GrowsOnly pc) (hpv : GrowsOnly pv) (node : ComponentNode) (p : Parser)
    (s : LoopStep ComponentNode) (h : componentStep ct pc pv node p = some s) :
    Grows p s.parser := by
  rw [componentStep_eq] at h
  split at h
  · simp only [Option.some.injEq] at h
    rw [← h]
    exact Grows.of_same (by simp [LoopStep.parser])
  · split at h
    · simp only [Option.some.injEq] at h
      rw [← h]
      exact Grows.of_same (by simp [LoopStep.parser])
    · split at h
      · split at h
        · simp only [Option.map_eq_some'] at h
          obtain ⟨r1, hr1, rfl⟩ := h
          exact (Grows.of_same (by simp)).followedBy (hpc _ _ hr1)
        · simp only [Option.some.injEq] at h
          rw [← h]
          simp only [LoopStep.parser]
          refine Grows.report ct ?_ _ _
          simp
      · split at h
        · split at h
          · simp only [Option.map_eq_some'] at h
            obtain ⟨r1, hr1, rfl⟩ := h
            exact (Grows.of_same (by simp)).followedBy (ParseAttribute_grows hpv _ _ hr1)
          · simp only [Option.some.injEq] at h
            rw [← h]
            simp only [LoopStep.parser]
            refine Grows.report ct ?_ _ _
            simp
        · simp only [Option.some.injEq] at h
          rw [← h]
          simp only [LoopStep.parser]
          refine Grows.report ct ?_ _ _
          simp

theorem ParseComponent_grows {ct : CType} {pv : Sub Value} (hpv : GrowsOnly pv) (fuel : Nat) :
    GrowsOnly (ParseComponent ct pv fuel) := by
  induction fuel with
  | zero =>
    intro p r h
    simp [ParseComponent] at h
  | succ fuel ih =>
    intro p r h
    have h0 : Grows p (LookAhead ct (Match ct p TokenType.Hash).2 0).2 := Grows.of_same (by simp)
    have he := Expect_grows ct (LookAhead ct (Match ct p TokenType.Hash).2 0).2
      TokenType.Identifier (wstr "Expected component name after '#'.")
    have he1 := Expect_grows ct
      (Expect ct (LookAhead ct (Match ct p TokenType.Hash).2 0).2
        TokenType.Identifier (wstr "Expected component name after '#'.")).2
      TokenType.LBrace (wstr "Expected '\x7b' to start component body.")
    simp only [ParseComponent] at h
    split at h
    · simp only [Option.map_eq_some'] at h
      obtain ⟨q, hq, rfl⟩ := h
      exact (h0.followedBy he).followedBy (Synchronize_grows hq)
    · split at h
      · simp only [Option.map_eq_some'] at h
        obtain ⟨q, hq, rfl⟩ := h
        exact ((h0.followedBy he).followedBy he1).followedBy (Synchronize_grows hq)
      · exact ((h0.followedBy he).followedBy he1).followedBy
          (runLoop_grows (componentStep_grows ih hpv) _ _ _ _ h)

theorem parseStep_grows (ct : CType) (fuel : Nat) (document : ThemeDocument) (p : Parser)
    (s : LoopStep ThemeDocument) (h : parseStep ct fuel document p = some s) :
    Grows p s.parser := by
  have h1 : Grows p (LookAhead ct (IsAtEnd ct p).2 0).2 := Grows.of_same (by simp)
  have h2 : Grows p (startsComponent ct (LookAhead ct (IsAtEnd ct p).2 0).2).2 :=
    Grows.of_same (by simp)
  simp only [parseStep] at h
  split at h
  · simp only [Option.some.injEq] at h
    rw [← h]
    exact Grows.of_same (by simp [LoopStep.parser])
  · split at h
    · split at h
      · simp only [Option.map_eq_some'] at h
        obtain ⟨r1, hr1, rfl⟩ := h
        exact h2.followedBy (ParseComponent_grows (ParseValue_grows ct fuel) fuel _ _ hr1)
      · simp only [Option.map_eq_some'] at h
        obtain ⟨r1, hr1, rfl⟩ := h
        exact h2.followedBy (ParseDirective_grows hr1)
    · split at h
      · simp only [Option.some.injEq] at h
        rw [← h]
        exact h1
      · simp only [Option.some.injEq] at h
        rw [← h]
        simp only [LoopStep.parser]
        refine Grows.report ct ?_ _ _
        simp

theorem Parse_grows {ct : CType} {fuel : Nat} {p : Parser} {r : ThemeDocument × Parser}
    (h : Parse ct fuel p = some r) : Grows p r.2 :=
  runLoop_grows (parseStep_grows ct fuel) fuel _ p r h

/-! ## More fuel does not change a result -/

theorem runLoop_mono {α : Type} {body body1 : α → Parser → Option (LoopStep α)}
    (hbody : ∀ acc p s, body acc p = some s → body1 acc p = some s) :
    ∀ (fuel fuel1 : Nat) (acc : α) (p : Parser) (r : α × Parser), fuel ≤ fuel1 →
      runLoop body fuel acc p = some r → runLoop body1 fuel1 acc p = some r := by
  intro fuel
  induction fuel with
  | zero =>
    intro fuel1 acc p r _ h
    simp [runLoop] at h
  | succ fuel ih =>
    intro fuel1 acc p r hle h
    obtain ⟨fuel1, rfl⟩ := Nat.exists_eq_succ_of_ne_zero (Nat.ne_of_gt (Nat.lt_of_lt_of_le
      (Nat.succ_pos fuel) hle))
    rw [runLoop] at h ⊢
    cases hb : body acc p with
    | none => simp [hb] at h
    | some s =>
      rw [hbody acc p s hb]
      cases s with
      | leave a q =>
        simp only [hb] at h
        exact h
      | again a q =>
        simp only [hb] at h
        exact ih fuel1 a q r (Nat.le_of_succ_le_succ hle) h

theorem Below.map {α β : Type} {f g : Option α} (k : α → β) {r : β}
    (hfg : ∀ a, f = some a → g = some a) (h : f.map k = some r) : g.map k = some r := by
  simp only [Option.map_eq_some'] at h ⊢
  obtain ⟨a, ha, hk⟩ := h
  exact ⟨a, hfg a ha, hk⟩

theorem Synchronize_mono {ct : CType} {fuel fuel1 : Nat} (hle : fuel ≤ fuel1) (p q : Parser)
    (h : Synchronize ct fuel p = some q) : Synchronize ct fuel1 p = some q :=
  Below.map Prod.snd (fun a ha => runLoop_mono (fun _ _ _ hs => hs) fuel fuel1 () p a hle ha) h

theorem ParseDirective_mono {ct : CType} {fuel fuel1 : Nat} (hle : fuel ≤ fuel1) :
    Below (ParseDirective ct fuel) (ParseDirective ct fuel1) := by
  intro p r h
  simp only [ParseDirective] at h ⊢
  split
  · rename_i hc
    rw [if_pos hc] at h
    exact Below.map _ (fun a ha => Synchronize_mono hle _ a ha) h
  · rename_i hc
    rw [if_neg hc] at h
    exact Below.map _ (fun a ha => runLoop_mono (fun _ _ _ hs => hs) fuel fuel1 () _ a hle ha) h

theorem objectStep_mono {ct : CType} {pv pv1 : Sub Value} (hpv : Below pv pv1)
    {fuel fuel1 : Nat} (hle : fuel ≤ fuel1) (object : Value) (p : Parser) (s : LoopStep Value)
    (h : objectStep ct pv fuel object p = some s) : objectStep ct pv1 fuel1 object p = some s := by
  simp only [objectStep] at h ⊢
  split
  · rename_i hc
    rw [if_pos hc] at h
    exact h
  · rename_i hc
    rw [if_neg hc] at h
    split
    · rename_i hc1
      rw [if_pos hc1] at h
      exact h
    · rename_i hc1
      rw [if_neg hc1] at h
      split
      · rename_i hc2
        rw [if_pos hc2] at h
        exact Below.map _ (fun a ha => Synchronize_mono hle _ a ha) h
      · rename_i hc2
        rw [if_neg hc2] at h
        split
        · rename_i hc3
          rw [if_pos hc3] at h
          exact Below.map _ (fun a ha => Synchronize_mono hle _ a ha) h
        · rename_i hc3
          rw [if_neg hc3] at h
          exact Below.map _ (fun a ha => hpv _ a ha) h

theorem ParseObjectLiteral_mono {ct : CType} {pv pv1 : Sub Value} (hpv : Below pv pv1)
    {fuel fuel1 : Nat} (hle : fuel ≤ fuel1) :
    Below (ParseObjectLiteral ct pv fuel) (ParseObjectLiteral ct pv1 fuel1) := by
  intro p r h
  simp only [ParseObjectLiteral] at h ⊢
  exact runLoop_mono (fun object q s hs => objectStep_mono hpv hle object q s hs) fuel fuel1 _ _ r
    hle h

theorem arrayStep_mono {ct : CType} {pv pv1 : Sub Value} (hpv : Below pv pv1)
    (array : Value) (p : Parser) (s : LoopStep Value)
    (h : arrayStep ct pv array p = some s) : arrayStep ct pv1 array p = some s := by
  simp only [arrayStep] at h ⊢
  split
  · rename_i hc
    rw [if_pos hc] at h
    exact h
  · rename_i hc
    rw [if_neg hc] at h
    split
    · rename_i hc1
      rw [if_pos hc1] at h
      exact h
    · rename_i hc1
      rw [if_neg hc1] at h
      exact Below.map _ (fun a ha => hpv _ a ha) h

theorem ParseArrayLiteral_mono {ct : CType} {pv pv1 : Sub Value} (hpv : Below pv pv1)
    {fuel fuel1 : Nat} (hle : fuel ≤ fuel1) :
    Below (ParseArrayLiteral ct pv fuel) (ParseArrayLiteral ct pv1 fuel1) := by
  intro p r h
  simp only [ParseArrayLiteral] at h ⊢
  exact runLoop_mono (fun array q s hs => arrayStep_mono hpv array q s hs) fuel fuel1 _ _ r hle h

theorem ParseValue_mono (ct : CType) :
    ∀ fuel fuel1 : Nat, fuel ≤ fuel1 → Below (ParseValue ct fuel) (ParseValue ct fuel1) := by
  intro fuel
  induction fuel with
  | zero =>
    intro fuel1 _ p r h
    simp [ParseValue] at h
  | succ fuel ih =>
    intro fuel1 hle p r h
    obtain ⟨fuel1, rfl⟩ := Nat.exists_eq_succ_of_ne_zero (Nat.ne_of_gt (Nat.lt_of_lt_of_le
      (Nat.succ_pos fuel) hle))
    have hle1 := Nat.le_of_succ_le_succ hle
    simp only [ParseValue] at h ⊢
    split
    · rename_i hc
      rw [if_pos hc] at h
      exact h
    · rename_i hc
      rw [if_neg hc] at h
      split
      · rename_i hc1
        rw [if_pos hc1] at h
        exact h
      · rename_i hc1
        rw [if_neg hc1] at h
        split
        · rename_i hc2
          rw [if_pos hc2] at h
          exact h
        · rename_i hc2
          rw [if_neg hc2] at h
          split
          · rename_i hc3
            rw [if_pos hc3] at h
            exact ParseObjectLiteral_mono (ih fuel1 hle1) hle1 _ _ h
          · rename_i hc3
            rw [if_neg hc3] at h
            split
            · rename_i hc4
              rw [if_pos hc4] at h
              exact ParseArrayLiteral_mono (ih fuel1 hle1) hle1 _ _ h
            · rename_i hc4
              rw [if_neg hc4] at h
              exact h

theorem ParseAttribute_mono {ct : CType} {pv pv1 : Sub Value} (hpv : Below pv pv1) :
    Below (ParseAttribute ct pv) (ParseAttribute ct pv1) := by
  intro p r h
  simp only [ParseAttribute] at h ⊢
  split
  · rename_i hc
    rw [if_pos hc] at h
    exact h
  · rename_i hc
    rw [if_neg hc] at h
    exact Below.map _ (fun a ha => hpv _ a ha) h

theorem componentStep_mono {ct : CType} {pc pc1 : Sub ComponentNode} {pv pv1 : Sub Value}
    (hpc : Below pc pc1) (hpv : Below pv pv1) (node : ComponentNode) (p : Parser)
    (s : LoopStep ComponentNode) (h : componentStep ct pc pv node p = some s) :
    componentStep ct pc1 pv1 node p = some s := by
  rw [componentStep_eq] at h ⊢
  split
  · rename_i hc
    rw [if_pos hc] at h
    exact h
  · rename_i hc
    rw [if_neg hc] at h
    split
    · rename_i hc1
      rw [if_pos hc1] at h
      exact h
    · rename_i hc1
      rw [if_neg hc1] at h
      split
      · rename_i hc2
        rw [if_pos hc2] at h
        split
        · rename_i hc3
          rw [if_pos hc3] at h
          exact Below.map _ (fun a ha => hpc _ a ha) h
        · rename_i hc3
          rw [if_neg hc3] at h
          exact h
      · rename_i hc2
        rw [if_neg hc2] at h
        split
        · rename_i hc3
          rw [if_pos hc3] at h
          split
          · rename_i hc4
            rw [if_pos hc4] at h
            exact Below.map _ (fun a ha => ParseAttribute_mono hpv _ a ha) h
          · rename_i hc4
            rw [if_neg hc4] at h
            exact h
        · rename_i hc3
          rw [if_neg hc3] at h
          exact h

theorem ParseComponent_mono {ct : CType} {pv pv1 : Sub Value} (hpv : Below pv pv1) :
    ∀ fuel fuel1 : Nat, fuel ≤ fuel1 →
      Below (ParseComponent ct pv fuel) (ParseComponent ct pv1 fuel1) := by
  intro fuel
  induction fuel with
  | zero =>
    intro fuel1 _ p r h
    simp [ParseComponent] at h
  | succ fuel ih =>
    intro fuel1 hle p r h
    obtain ⟨fuel1, rfl⟩ := Nat.exists_eq_succ_of_ne_zero (Nat.ne_of_gt (Nat.lt_of_lt_of_le
      (Nat.succ_pos fuel) hle))
    have hle1 := Nat.le_of_succ_le_succ hle
    simp only [ParseComponent] at h ⊢
    split
    · rename_i hc
      rw [if_pos hc] at h
      exact Below.map _ (fun a ha => Synchronize_mono hle1 _ a ha) h
    · rename_i hc
      rw [if_neg hc] at h
      split
      · rename_i hc1
        rw [if_pos hc1] at h
        exact Below.map _ (fun a ha => Synchronize_mono hle1 _ a ha) h
      · rename_i hc1
        rw [if_neg hc1] at h
        exact runLoop_mono
          (fun node q s hs => componentStep_mono (ih fuel1 hle1) hpv node q s hs)
          fuel fuel1 _ _ r hle1 h

theorem parseStep_mono {ct : CType} {fuel fuel1 : Nat} (hle : fuel ≤ fuel1)
    (document : ThemeDocument) (p : Parser) (s : LoopStep ThemeDocument)
    (h : parseStep ct fuel document p = some s) : parseStep ct fuel1 document p = some s := by
  simp only [parseStep] at h ⊢
  split
  · rename_i hc
    rw [if_pos hc] at h
    exact h
  · rename_i hc
    rw [if_neg hc] at h
    split
    · rename_i hc1
      rw [if_pos hc1] at h
      split
      · rename_i hc2
        rw [if_pos hc2] at h
        exact Below.map _
          (fun a ha => ParseComponent_mono (ParseValue_mono ct fuel fuel1 hle) fuel fuel1 hle _ a ha)
          h
      · rename_i hc2
        rw [if_neg hc2] at h
        exact Below.map _ (fun a ha => ParseDirective_mono hle _ a ha) h
    · rename_i hc1
      rw [if_neg hc1] at h
      exact h

/-- The result of `Parse` is the same for every larger fuel. -/
theorem Parse_mono {ct : CType} {fuel fuel1 : Nat} (hle : fuel ≤ fuel1) (p : Parser)
    (r : ThemeDocument × Parser) (h : Parse ct fuel p = some r) : Parse ct fuel1 p = some r :=
  runLoop_mono (fun document q s hs => parseStep_mono hle document q s hs) fuel fuel1 _ p r hle h

/-! ## The classes of a component -/

theorem addAll_append (classes xs ys : List WString) :
    addAll classes (xs ++ ys) = addAll (addAll classes xs) ys := by
  simp [addAll, List.foldl_append]

theorem addAll_cons (classes : List WString) (name : WString) (names : List WString) :
    addAll classes (name :: names) = addAll (AppendClassName name classes) names := rfl

theorem modifyHead_append_nil (pieces : List WString) :
    pieces.modifyHead (fun piece => [] ++ piece) = pieces := by
  cases pieces <;> simp [List.modifyHead]

theorem splitClassLoop_eq (ct : CType) (text current : WString) (classes : List WString) :
    splitClassLoop ct text current classes =
      addAll classes ((text.splitOnP ct.iswspace).modifyHead (fun piece => current ++ piece)) := by
  induction text generalizing current classes with
  | nil => simp [splitClassLoop, List.splitOnP_nil, List.modifyHead, addAll]
  | cons ch rest ih =>
    rw [splitClassLoop, List.splitOnP_cons]
    by_cases hs : ct.iswspace ch = true
    · simp only [hs, if_true, List.modifyHead, List.append_nil, addAll_cons]
      rw [ih, modifyHead_append_nil]
    · simp only [hs, Bool.false_eq_true, if_false]
      rw [ih, List.modifyHead_modifyHead]
      congr 2
      funext piece
      simp

theorem SplitClassString_eq (ct : CType) (text : WString) (classes : List WString) :
    SplitClassString ct text classes = addAll classes (text.splitOnP ct.iswspace) := by
  rw [SplitClassString, splitClassLoop_eq, modifyHead_append_nil]

theorem addAll_filter (classes names : List WString) :
    addAll classes names = addAll classes (names.filter (fun word => !word.isEmpty)) := by
  induction names generalizing classes with
  | nil => rfl
  | cons name rest ih =>
    by_cases he : name.isEmpty = true
    · rw [addAll_cons, List.filter_cons_of_neg (by simpa using he), ← ih]
      simp [AppendClassName, he]
    · rw [addAll_cons, List.filter_cons_of_pos (by simpa using he), addAll_cons, ih]

theorem addAll_eq (classes names : List WString) (h : ∀ name ∈ names, name.isEmpty = false) :
    addAll classes names =
      classes ++ (firstAppearances names).filter (fun name => decide (name ∉ classes)) := by
  induction names generalizing classes with
  | nil => simp [addAll, firstAppearances]
  | cons name rest ih =>
    have hn := h name (List.mem_cons_self _ _)
    have hr : ∀ other ∈ rest, other.isEmpty = false :=
      fun other ho => h other (List.mem_cons_of_mem _ ho)
    rw [addAll_cons, ih _ hr, firstAppearances]
    by_cases hm : name ∈ classes
    · have hc : AppendClassName name classes = classes := by
        simp [AppendClassName, hn, hm]
      rw [hc, List.filter_cons_of_neg (by simpa using hm), List.filter_filter]
      congr 1
      apply List.filter_congr
      intro other _
      by_cases ho : other ∈ classes
      · simp [ho]
      · have : other ≠ name := fun e => ho (e ▸ hm)
        simp [ho, this]
    · have hc : AppendClassName name classes = classes ++ [name] := by
        simp [AppendClassName, hn, hm]
      rw [hc, List.filter_cons_of_pos (by simpa using hm), List.filter_filter, List.append_assoc,
        List.singleton_append]
      congr 2
      apply List.filter_congr
      intro other _
      by_cases ho : other ∈ classes
      · simp [ho]
      · by_cases hon : other = name
        · simp [hon]
        · simp [ho, hon]

theorem addAll_nil (names : List WString) :
    addAll [] names = firstAppearances (names.filter (fun word => !word.isEmpty)) := by
  rw [addAll_filter, addAll_eq _ _ (by
    intro name hn
    simpa using (List.mem_filter.1 hn).2)]
  simp

theorem mem_firstAppearances (names : List WString) (name : WString) :
    name ∈ firstAppearances names ↔ name ∈ names := by
  induction names with
  | nil => simp [firstAppearances]
  | cons head rest ih =>
    simp only [firstAppearances, List.mem_cons, List.mem_filter, ih, decide_eq_true_eq]
    by_cases h : name = head
    · simp [h]
    · simp [h]

theorem firstAppearances_nodup (names : List WString) : (firstAppearances names).Nodup := by
  induction names with
  | nil => simp [firstAppearances]
  | cons head rest ih =>
    rw [firstAppearances, List.nodup_cons]
    exact ⟨by simp [List.mem_filter], ih.filter _⟩

theorem wcsicmpEqual_length {ct : CType} {left right : WString}
    (h : wcsicmpEqual ct left right = true) : (c_str left).length = (c_str right).length := by
  simp only [wcsicmpEqual, beq_iff_eq] at h
  simpa using congrArg List.length h

theorem not_id_of_class {ct : CType} {name : WString}
    (h : wcsicmpEqual ct name (wstr "class") = true) :
    wcsicmpEqual ct name (wstr "id") = false ∧ wcsicmpEqual ct name (wstr "name") = false := by
  have hl := wcsicmpEqual_length h
  have h5 : (c_str (wstr "class")).length = 5 := by decide
  have h2 : (c_str (wstr "id")).length = 2 := by decide
  have h4 : (c_str (wstr "name")).length = 4 := by decide
  constructor
  · cases hc : wcsicmpEqual ct name (wstr "id") with
    | false => rfl
    | true =>
      have := wcsicmpEqual_length hc
      omega
  · cases hc : wcsicmpEqual ct name (wstr "name") with
    | false => rfl
    | true =>
      have := wcsicmpEqual_length hc
      omega

theorem applyAttribute_attributes (ct : CType) (node : ComponentNode) (attr : Attribute) :
    (applyAttribute ct node attr).attributes = node.attributes ++ [attr] := by
  simp only [applyAttribute]
  split_ifs <;> rfl

theorem applyAttribute_children (ct : CType) (node : ComponentNode) (attr : Attribute) :
    (applyAttribute ct node attr).children = node.children := by
  simp only [applyAttribute]
  split_ifs <;> rfl

theorem applyAttribute_component (ct : CType) (node : ComponentNode) (attr : Attribute) :
    (applyAttribute ct node attr).component = node.component ∧
      (applyAttribute ct node attr).location = node.location := by
  simp only [applyAttribute]
  split_ifs <;> exact ⟨rfl, rfl⟩

theorem applyAttribute_id (ct : CType) (node : ComponentNode) (attr : Attribute) :
    (applyAttribute ct node attr).id =
      if wcsicmpEqual ct attr.name (wstr "id") = true ∧ isText attr.value = true then
        attr.value.text
      else node.id := by
  simp only [applyAttribute]
  split_ifs <;> simp_all

theorem applyAttribute_name (ct : CType) (node : ComponentNode) (attr : Attribute) :
    (applyAttribute ct node attr).name =
      if wcsicmpEqual ct attr.name (wstr "name") = true ∧ isText attr.value = true ∧
          ¬ wcsicmpEqual ct attr.name (wstr "id") = true then
        attr.value.text
      else node.name := by
  simp only [applyAttribute]
  split_ifs <;> simp_all

theorem foldl_SplitClassString (ct : CType) (entries : List Value) (classes : List WString) :
    entries.foldl
        (fun classes entry =>
          if isText entry = true then SplitClassString ct entry.text classes else classes)
        classes =
      addAll classes
        (((entries.filter isText).map (fun entry => entry.text)).flatMap
          (fun text => text.splitOnP ct.iswspace)) := by
  induction entries generalizing classes with
  | nil => rfl
  | cons entry rest ih =>
    rw [List.foldl_cons, ih]
    by_cases he : isText entry = true
    · rw [List.filter_cons_of_pos he, List.map_cons, List.flatMap_cons, addAll_append, if_pos he,
        SplitClassString_eq]
    · rw [List.filter_cons_of_neg he, if_neg he]

theorem addAll_flatMap_classWords (ct : CType) (classes : List WString) (texts : List WString) :
    addAll classes (texts.flatMap (fun text => text.splitOnP ct.iswspace)) =
      addAll classes (texts.flatMap (classWords ct)) := by
  induction texts generalizing classes with
  | nil => rfl
  | cons text rest ih =>
    rw [List.flatMap_cons, List.flatMap_cons, addAll_append, addAll_append, ih, classWords,
      ← addAll_filter]

theorem applyAttribute_classes (ct : CType) (node : ComponentNode) (attr : Attribute) :
    (applyAttribute ct node attr).classes = addAll node.classes (classNamesOf ct attr) := by
  by_cases hc : wcsicmpEqual ct attr.name (wstr "class") = true
  · have hn := not_id_of_class hc
    simp only [classNamesOf, classTexts, applyAttribute, hn.1, hn.2, hc, Bool.false_and,
      Bool.false_eq_true, if_false, if_true]
    cases ht : isText attr.value with
    | true =>
      simp only [if_true]
      rw [← addAll_flatMap_classWords, SplitClassString_eq]
      simp
    | false =>
      simp only [Bool.false_eq_true, if_false]
      by_cases ha : attr.value.kind = ValueKind.Array
      · simp only [ha, if_true]
        rw [← addAll_flatMap_classWords, ← foldl_SplitClassString]
      · simp only [ha, if_false]
        rfl
  · have hc1 : wcsicmpEqual ct attr.name (wstr "class") = false := by simpa using hc
    have hx : classNamesOf ct attr = [] := by
      simp only [classNamesOf, hc1, Bool.false_eq_true, if_false]
    rw [hx]
    simp only [applyAttribute, hc1, Bool.false_eq_true, if_false]
    split_ifs <;> rfl

theorem declaredClasses_append (ct : CType) (attributes : List Attribute) (attr : Attribute) :
    addAll (declaredClasses ct attributes) (classNamesOf ct attr) =
      declaredClasses ct (attributes ++ [attr]) := by
  have hne : ∀ attributes : List Attribute,
      ∀ name ∈ attributes.flatMap (classNamesOf ct), name.isEmpty = false := by
    intro attributes name hn
    obtain ⟨a, _, ha⟩ := List.mem_flatMap.1 hn
    simp only [classNamesOf] at ha
    split at ha
    · obtain ⟨text, _, ht⟩ := List.mem_flatMap.1 ha
      simpa using (List.mem_filter.1 ht).2
    · simp at ha
  have hd : ∀ attributes : List Attribute,
      declaredClasses ct attributes = addAll [] (attributes.flatMap (classNamesOf ct)) := by
    intro attributes
    rw [addAll_eq _ _ (hne attributes)]
    simp [declaredClasses]
  rw [hd, hd, ← addAll_append]
  simp

theorem Within.cases {inner node : ComponentNode} (h : ComponentNode.Within inner node) :
    inner = node ∨ ∃ child ∈ node.children, ComponentNode.Within inner child := by
  cases h with
  | self => exact Or.inl rfl
  | under hc hw => exact Or.inr ⟨_, hc, hw⟩

/-- One turn of the loop of `ParseComponent` keeps a property of the node and of
the nodes below it, when the property holds of the children that are parsed,
and adding a child or an attribute to a node keeps it. -/
theorem componentStep_nodes {ct : CType} {pc : Sub ComponentNode} {pv : Sub Value}
    {I : ComponentNode → Prop} (hpc : NodesSatisfy I pc)
    (hattr : ∀ node attr, I node → I (applyAttribute ct node attr))
    (hchild : ∀ (node child : ComponentNode), I node →
      I { node with children := node.children ++ [child] })
    (node : ComponentNode) (p : Parser) (s : LoopStep ComponentNode)
    (hn : ∀ inner, ComponentNode.Within inner node → I inner)
    (h : componentStep ct pc pv node p = some s) :
    ∀ inner, ComponentNode.Within inner s.acc → I inner := by
  rw [componentStep_eq] at h
  split at h
  · simp only [Option.some.injEq] at h
    rw [← h]
    exact hn
  · split at h
    · simp only [Option.some.injEq] at h
      rw [← h]
      exact hn
    · split at h
      · split at h
        · simp only [Option.map_eq_some'] at h
          obtain ⟨r1, hr1, rfl⟩ := h
          intro inner hw
          rcases Within.cases hw with rfl | ⟨child, hc, hwc⟩
          · exact hchild node r1.1 (hn node (ComponentNode.Within.self node))
          · simp only [LoopStep.acc, List.mem_append, List.mem_singleton] at hc
            rcases hc with hc | rfl
            · exact hn inner (ComponentNode.Within.under hc hwc)
            · exact hpc _ _ hr1 inner hwc
        · simp only [Option.some.injEq] at h
          rw [← h]
          exact hn
      · split at h
        · split at h
          · simp only [Option.map_eq_some'] at h
            obtain ⟨r1, hr1, rfl⟩ := h
            intro inner hw
            rcases Within.cases hw with rfl | ⟨child, hc, hwc⟩
            · exact hattr node r1.1 (hn node (ComponentNode.Within.self node))
            · simp only [LoopStep.acc, applyAttribute_children] at hc
              exact hn inner (ComponentNode.Within.under hc hwc)
          · simp only [Option.some.injEq] at h
            rw [← h]
            exact hn
        · simp only [Option.some.injEq] at h
          rw [← h]
          exact hn

theorem Within.of_no_children {inner node : ComponentNode} (hc : node.children = [])
    (h : ComponentNode.Within inner node) : inner = node := by
  rcases Within.cases h with rfl | ⟨child, hm, _⟩
  · rfl
  · simp [hc] at hm

theorem ParseComponent_nodes {ct : CType} {pv : Sub Value} {I : ComponentNode → Prop}
    (hstart : ∀ component location,
      I { ComponentNode.empty with component := component, location := location })
    (hattr : ∀ node attr, I node → I (applyAttribute ct node attr))
    (hchild : ∀ (node child : ComponentNode), I node →
      I { node with children := node.children ++ [child] })
    (fuel : Nat) : NodesSatisfy I (ParseComponent ct pv fuel) := by
  induction fuel with
  | zero =>
    intro p r h
    simp [ParseComponent] at h
  | succ fuel ih =>
    intro p r h
    simp only [ParseComponent] at h
    split at h
    · simp only [Option.map_eq_some'] at h
      obtain ⟨q, _, rfl⟩ := h
      intro inner hw
      rw [Within.of_no_children rfl hw]
      exact hstart [] _
    · split at h
      · simp only [Option.map_eq_some'] at h
        obtain ⟨q, _, rfl⟩ := h
        intro inner hw
        rw [Within.of_no_children rfl hw]
        exact hstart _ _
      · refine runLoop_invariant (fun node _ => ∀ inner, ComponentNode.Within inner node → I inner)
          (fun node q s hn hs => componentStep_nodes ih hattr hchild node q s hn hs) _ _ _ _ ?_ h
        intro inner hw
        rw [Within.of_no_children rfl hw]
        exact hstart _ _

theorem Parse_nodes (ct : CType) {I : ComponentNode → Prop}
    (hstart : ∀ component location,
      I { ComponentNode.empty with component := component, location := location })
    (hattr : ∀ node attr, I node → I (applyAttribute ct node attr))
    (hchild : ∀ (node child : ComponentNode), I node →
      I { node with children := node.children ++ [child] })
    {fuel : Nat} {p : Parser} {r : ThemeDocument × Parser} (h : Parse ct fuel p = some r) :
    ∀ root ∈ r.1.rootNodes, ∀ inner, ComponentNode.Within inner root → I inner := by
  refine runLoop_invariant
    (fun (document : ThemeDocument) _ =>
      ∀ root ∈ document.rootNodes, ∀ inner, ComponentNode.Within inner root → I inner)
    ?_ fuel _ p r (by simp [ThemeDocument.empty]) h
  intro document q s hd hs
  simp only [parseStep] at hs
  split at hs
  · simp only [Option.some.injEq] at hs
    rw [← hs]
    exact hd
  · split at hs
    · split at hs
      · simp only [Option.map_eq_some'] at hs
        obtain ⟨r1, hr1, rfl⟩ := hs
        intro root hroot
        simp only [LoopStep.acc, List.mem_append, List.mem_singleton] at hroot
        rcases hroot with hroot | rfl
        · exact hd root hroot
        · exact ParseComponent_nodes hstart hattr hchild fuel _ _ hr1
      · simp only [Option.map_eq_some'] at hs
        obtain ⟨r1, _, rfl⟩ := hs
        exact hd
    · split at hs <;>
      · simp only [Option.some.injEq] at hs
        rw [← hs]
        exact hd

theorem mem_declaredClasses_ne_nil (ct : CType) (attributes : List Attribute) :
    [] ∉ declaredClasses ct attributes := by
  intro h
  rw [declaredClasses, mem_firstAppearances] at h
  obtain ⟨attr, _, ha⟩ := List.mem_flatMap.1 h
  simp only [classNamesOf] at ha
  split at ha
  · obtain ⟨text, _, ht⟩ := List.mem_flatMap.1 ha
    simpa using (List.mem_filter.1 ht).2
  · simp at ha

/-- C14: in every component of the document that `Parse` returns, a root node or a
node below one, `classes` has no duplicates, does not contain the empty string,
and is `declaredClasses` of the attributes of the component: the words, split at
white space, of the values of all its attributes named `class` up to case (the
text of a String or Identifier value, the texts of the String and Identifier
elements of an Array value), in the order of their first appearance. -/
theorem C14_classes_are_the_declared_classes (ct : CType) (fuel : Nat) (p : Parser)
    (r : ThemeDocument × Parser) (h : Parse ct fuel p = some r) :
    ∀ root ∈ r.1.rootNodes, ∀ node, ComponentNode.Within node root →
      node.classes.Nodup ∧ [] ∉ node.classes ∧
        node.classes = declaredClasses ct node.attributes := by
  have key := Parse_nodes ct
    (I := fun node => node.classes = declaredClasses ct node.attributes)
    (fun _ _ => rfl)
    (fun node attr hn => by
      show (applyAttribute ct node attr).classes =
        declaredClasses ct (applyAttribute ct node attr).attributes
      rw [applyAttribute_classes, applyAttribute_attributes, hn, declaredClasses_append])
    (fun _ _ hn => hn) h
  intro root hroot node hw
  have hc := key root hroot node hw
  refine ⟨?_, ?_, hc⟩
  · rw [hc]
    exact firstAppearances_nodup _
  · rw [hc]
    exact mem_declaredClasses_ne_nil ct _

set_option maxRecDepth 100000 in
/-- C14 on the document `#A { class="a a b" #B { class=[a, "b", a] } }`: the classes
of `A` and of its child `B` are `a` and `b`. -/
theorem C14_classes_are_the_declared_classes_witness :
    ∃ r, Parse CType.ascii 20
        (Parser.new
          (documentOf "#A \x7b class=\"a a b\" #B \x7b class=[a, \"b\", a] \x7d \x7d") []) =
        some r ∧
      (∀ root ∈ r.1.rootNodes, ∀ node, ComponentNode.Within node root →
        node.classes.Nodup ∧ [] ∉ node.classes ∧
          node.classes = declaredClasses CType.ascii node.attributes) ∧
      r.1.rootNodes.map
          (fun node => (node.component, node.classes,
            node.children.map (fun child => (child.component, child.classes)))) =
        [(wstr "A", [wstr "a", wstr "b"], [(wstr "B", [wstr "a", wstr "b"])])] :=
  ⟨(Parse CType.ascii 20
      (Parser.new
        (documentOf "#A \x7b class=\"a a b\" #B \x7b class=[a, \"b\", a] \x7d \x7d") [])).get
      (by decide),
    (Option.some_get _).symm,
    C14_classes_are_the_declared_classes CType.ascii 20 _ _ (Option.some_get _).symm,
    by decide⟩

theorem isText_iff (value : Value) :
    isText value = true ↔
      value.kind = ValueKind.String ∨ value.kind = ValueKind.Identifier := by
  simp [isText]

/-- C15: what the loop of `ParseComponent` does with an attribute it has parsed,
`applyAttribute`, appends the attribute to `attributes` in every case; it sets
the id of the node to the text of the value when the name is `id` up to case
and the value is a String or an Identifier, and the name of the node likewise
for `name`. A turn of the loop leaves `attributes` as it is or it applies the
attribute that `ParseAttribute` has just returned, so that `attributes` lists
the parsed attributes in the order of parsing. -/
theorem C15_attributes_are_appended_in_every_case (ct : CType) :
    (∀ (node : ComponentNode) (attr : Attribute),
      (applyAttribute ct node attr).attributes = node.attributes ++ [attr] ∧
      (wcsicmpEqual ct attr.name (wstr "id") = true →
        attr.value.kind = ValueKind.String ∨ attr.value.kind = ValueKind.Identifier →
        (applyAttribute ct node attr).id = attr.value.text) ∧
      (wcsicmpEqual ct attr.name (wstr "name") = true →
        attr.value.kind = ValueKind.String ∨ attr.value.kind = ValueKind.Identifier →
        (applyAttribute ct node attr).name = attr.value.text)) ∧
    (∀ (pc : Sub ComponentNode) (pv : Sub Value) (node : ComponentNode) (p : Parser)
      (s : LoopStep ComponentNode), componentStep ct pc pv node p = some s →
      s.acc.attributes = node.attributes ∨
        ∃ q r1, ParseAttribute ct pv q = some r1 ∧
          s = LoopStep.again (applyAttribute ct node r1.1) r1.2) := by
  refine ⟨fun node attr => ⟨applyAttribute_attributes ct node attr, ?_, ?_⟩, ?_⟩
  · intro hn hk
    rw [applyAttribute_id, if_pos ⟨hn, (isText_iff _).2 hk⟩]
  · intro hn hk
    have hid : ¬ wcsicmpEqual ct attr.name (wstr "id") = true := by
      intro hid
      have h1 := wcsicmpEqual_length hn
      have h2 := wcsicmpEqual_length hid
      have h4 : (c_str (wstr "name")).length = 4 := by decide
      have h3 : (c_str (wstr "id")).length = 2 := by decide
      omega
    rw [applyAttribute_name, if_pos ⟨hn, (isText_iff _).2 hk, hid⟩]
  · intro pc pv node p s h
    rw [componentStep_eq] at h
    split at h
    · simp only [Option.some.injEq] at h
      rw [← h]
      exact Or.inl rfl
    · split at h
      · simp only [Option.some.injEq] at h
        rw [← h]
        exact Or.inl rfl
      · split at h
        · split at h
          · simp only [Option.map_eq_some'] at h
            obtain ⟨r1, _, rfl⟩ := h
            exact Or.inl rfl
          · simp only [Option.some.injEq] at h
            rw [← h]
            exact Or.inl rfl
        · split at h
          · split at h
            · simp only [Option.map_eq_some'] at h
              obtain ⟨r1, hr1, rfl⟩ := h
              exact Or.inr ⟨_, r1, hr1, rfl⟩
            · simp only [Option.some.injEq] at h
              rw [← h]
              exact Or.inl rfl
          · simp only [Option.some.injEq] at h
            rw [← h]
            exact Or.inl rfl

set_option maxRecDepth 100000 in
/-- C15 on the attribute `ID` with the String `main`, and on the document
`#A { ID=x Name="y" id=3 class=k }`: the id is `x`, which the Number `3` does
not replace, the name is `y`, and the four attributes are listed in order. -/
theorem C15_attributes_are_appended_in_every_case_witness :
    (applyAttribute CType.ascii ComponentNode.empty
        ⟨wstr "ID", Value.CreateString (wstr "main") SourceLocation.default,
          SourceLocation.default⟩).id = wstr "main" ∧
      ∃ r, Parse CType.ascii 20
          (Parser.new (documentOf "#A \x7b ID=x Name=\"y\" id=3 class=k \x7d") []) = some r ∧
        r.1.rootNodes.map (fun node => (node.id, node.name)) = [(wstr "x", wstr "y")] ∧
        r.1.rootNodes.map
            (fun node =>
              node.attributes.map (fun attr => (attr.name, attr.value.kind, attr.value.text))) =
          [[(wstr "ID", ValueKind.Identifier, wstr "x"), (wstr "Name", ValueKind.String, wstr "y"),
            (wstr "id", ValueKind.Number, wstr "3"),
            (wstr "class", ValueKind.Identifier, wstr "k")]] :=
  ⟨((C15_attributes_are_appended_in_every_case CType.ascii).1 ComponentNode.empty
      ⟨wstr "ID", Value.CreateString (wstr "main") SourceLocation.default,
        SourceLocation.default⟩).2.1 (by decide) (Or.inl rfl),
    (Parse CType.ascii 20
      (Parser.new (documentOf "#A \x7b ID=x Name=\"y\" id=3 class=k \x7d") [])).get (by decide),
    (Option.some_get _).symm, by decide, by decide⟩

end Parser

/-! ## The location of a token and the origin of its first character -/

theorem countLines_fst (content : WString) (count index line lastLineStart : Nat) :
    (Lexer.countLines content count index line lastLineStart).1 =
      line + ((content.drop index).take count).count 10 := by
  induction count generalizing index line lastLineStart with
  | zero => simp [Lexer.countLines]
  | succ n ih =>
    rw [Lexer.countLines]
    by_cases hi : index < content.length
    · rw [getD_eq_head_drop content index hi]
      simp only [List.take_succ_cons, List.count_cons]
      split
      · rename_i h
        rw [ih]
        simp only [h, beq_self_eq_true, if_true]
        omega
      · rename_i h
        rw [ih]
        have : (content.getD index 0 == 10) = false := by simpa using h
        simp only [this, Bool.false_eq_true, if_false]
        omega
    · have hd : content.drop index = [] := List.drop_eq_nil_of_le (by omega)
      have hg : content.getD index 0 = 0 := by
        rw [List.getD_eq_default]
        omega
      rw [hg, hd]
      simp only [Nat.reduceEqDiff, if_false, ih, List.take_nil, List.count_nil, Nat.add_zero]
      have hd' : content.drop (index + 1) = [] := List.drop_eq_nil_of_le (by omega)
      rw [hd']
      simp

/-- The location that `BuildLocation` computes is `locate`, when the segment list is
not empty, the offset is within the content and the segment found has a file
path. -/
theorem BuildLocation_locate (document : SourceDocument) (offset : Nat)
    (hs : document.segments ≠ []) (ho : offset ≤ document.content.length)
    (hf : (locate document.segments document.content offset).1 ≠ []) :
    ((Lexer.new document).BuildLocation offset).file =
        (locate document.segments document.content offset).1 ∧
      ((Lexer.new document).BuildLocation offset).line =
        (locate document.segments document.content offset).2 := by
  cases hseg : document.segments with
  | nil => exact absurd hseg hs
  | cons front rest =>
    have hlim : (if offset < document.content.length then offset else document.content.length)
        = offset := by
      split
      · rfl
      · omega
    simp only [locate, hseg] at hf ⊢
    simp only [Lexer.BuildLocation, Lexer.new, hseg, hlim, countLines_fst]
    refine ⟨?_, trivial⟩
    have : (Lexer.pickSegment offset front (front :: rest)).filePath.isEmpty = false := by
      cases h : (Lexer.pickSegment offset front (front :: rest)).filePath with
      | nil => exact absurd h hf
      | cons a l => rfl
    simp only [this, Bool.false_eq_true, if_false]

theorem pickSegment_append_gt (offset : Nat) (segment : SourceDocumentSegment)
    (candidates more : List SourceDocumentSegment)
    (h : ∀ x ∈ more, offset < x.startOffset) :
    Lexer.pickSegment offset segment (candidates ++ more) =
      Lexer.pickSegment offset segment candidates := by
  induction candidates generalizing segment with
  | nil =>
    cases more with
    | nil => rfl
    | cons x xs =>
      have := h x (List.mem_cons_self _ _)
      simp only [List.nil_append, Lexer.pickSegment]
      rw [if_neg (by omega)]
  | cons c l ih =>
    simp only [List.cons_append, Lexer.pickSegment]
    split
    · exact ih c
    · rfl

theorem pickSegment_append_le (offset : Nat) (segment : SourceDocumentSegment)
    (candidates more : List SourceDocumentSegment)
    (h : ∀ x ∈ candidates, x.startOffset ≤ offset) :
    Lexer.pickSegment offset segment (candidates ++ more) =
      Lexer.pickSegment offset (candidates.getLast?.getD segment) more := by
  induction candidates generalizing segment with
  | nil => rfl
  | cons c l ih =>
    rw [List.cons_append, Lexer.pickSegment, if_pos (h c (List.mem_cons_self _ _)),
      ih c (fun x hx => h x (List.mem_cons_of_mem _ hx))]
    congr 1
    cases l with
    | nil => rfl
    | cons d l =>
      rw [List.getLast?_cons_cons]
      cases hl : (d :: l).getLast? with
      | none => simp at hl
      | some last => rfl

theorem pickSegment_shift (shift offset : Nat) (segment : SourceDocumentSegment)
    (candidates : List SourceDocumentSegment) :
    Lexer.pickSegment (shift + offset) { segment with startOffset := segment.startOffset + shift }
        (candidates.map (fun s => { s with startOffset := s.startOffset + shift })) =
      { Lexer.pickSegment offset segment candidates with
        startOffset := (Lexer.pickSegment offset segment candidates).startOffset + shift } := by
  induction candidates generalizing segment with
  | nil => rfl
  | cons c l ih =>
    simp only [List.map_cons, Lexer.pickSegment]
    by_cases hc : c.startOffset ≤ offset
    · rw [if_pos hc, if_pos (by omega)]
      exact ih c
    · rw [if_neg hc, if_neg (by omega)]

theorem pickSegment_start_le (offset : Nat) (segment : SourceDocumentSegment)
    (candidates : List SourceDocumentSegment) (h : segment.startOffset ≤ offset) :
    (Lexer.pickSegment offset segment candidates).startOffset ≤ offset := by
  induction candidates generalizing segment with
  | nil => exact h
  | cons c l ih =>
    simp only [Lexer.pickSegment]
    split
    · rename_i hc
      exact ih c hc
    · exact h

theorem pickSegment_mem (offset : Nat) (segment : SourceDocumentSegment)
    (candidates : List SourceDocumentSegment) :
    Lexer.pickSegment offset segment candidates = segment ∨
      Lexer.pickSegment offset segment candidates ∈ candidates := by
  induction candidates generalizing segment with
  | nil => exact Or.inl rfl
  | cons c l ih =>
    simp only [Lexer.pickSegment]
    split
    · rcases ih c with h | h
      · exact Or.inr (by rw [h]; exact List.mem_cons_self _ _)
      · exact Or.inr (List.mem_cons_of_mem _ h)
    · exact Or.inl rfl

/-- The file that `locate` returns is the file of one of the segments. -/
theorem locate_file_mem (segments : List SourceDocumentSegment) (content : WString)
    (offset : Nat) (hs : segments ≠ []) :
    ∃ segment ∈ segments, (locate segments content offset).1 = segment.filePath := by
  cases segments with
  | nil => exact absurd rfl hs
  | cons front rest =>
    simp only [locate]
    rcases pickSegment_mem offset front (front :: rest) with h | h
    · exact ⟨front, List.mem_cons_self _ _, by rw [h]⟩
    · exact ⟨_, h, rfl⟩

theorem take_drop_append_left (content more : WString) (start count : Nat)
    (h : start + count ≤ content.length) :
    ((content ++ more).drop start).take count = (content.drop start).take count := by
  rw [List.drop_append_of_le_length (by omega), List.take_append_of_le_length]
  rw [List.length_drop]
  omega

/-- Before the text that is spliced in, `locate` finds what it found. -/
theorem locate_splice_left (document included : SourceDocument) (offset : Nat)
    (ho : offset < document.content.length) (hs : document.segments ≠ []) :
    locate (document.splice included).segments (document.splice included).content offset =
      locate document.segments document.content offset := by
  cases hseg : document.segments with
  | nil => exact absurd hseg hs
  | cons front rest =>
    have hgt : ∀ x ∈ included.segments.map
        (fun s => { s with startOffset := s.startOffset + document.content.length }),
        offset < x.startOffset := by
      intro x hx
      obtain ⟨c, _, rfl⟩ := List.mem_map.1 hx
      show offset < c.startOffset + document.content.length
      omega
    simp only [SourceDocument.splice, hseg, locate, List.cons_append]
    have hp := pickSegment_append_gt offset front (front :: rest) _ hgt
    simp only [List.cons_append] at hp
    rw [hp]
    by_cases hle : (Lexer.pickSegment offset front (front :: rest)).startOffset ≤ offset
    · rw [take_drop_append_left _ _ _ _ (by omega)]
    · have : offset - (Lexer.pickSegment offset front (front :: rest)).startOffset = 0 := by omega
      rw [this]
      simp

/-- Within the text that is spliced in, `locate` finds what it finds in the document
that is spliced. -/
theorem locate_splice_right (document included : SourceDocument) (offset : Nat)
    (hle : ∀ x ∈ document.segments, x.startOffset ≤ document.content.length)
    (front : SourceDocumentSegment) (rest : List SourceDocumentSegment)
    (hinc : included.segments = front :: rest) (h0 : front.startOffset = 0) :
    locate (document.splice included).segments (document.splice included).content
        (document.content.length + offset) =
      locate included.segments included.content offset := by
  have hpick : ∀ head, Lexer.pickSegment (document.content.length + offset) head
      (document.segments ++ included.segments.map
        (fun s => { s with startOffset := s.startOffset + document.content.length })) =
      { Lexer.pickSegment offset front (front :: rest) with
        startOffset := (Lexer.pickSegment offset front (front :: rest)).startOffset +
          document.content.length } := by
    intro head
    rw [pickSegment_append_le _ _ _ _ (fun x hx => le_trans (hle x hx) (Nat.le_add_right _ _)),
      hinc]
    simp only [List.map_cons, Lexer.pickSegment]
    rw [if_pos (by omega), if_pos (by omega)]
    exact pickSegment_shift _ _ _ _
  have hstart := pickSegment_start_le offset front (front :: rest) (by omega)
  have hcontent : ∀ s, s ≤ offset →
      ((document.content ++ included.content).drop (s + document.content.length)).take
        (document.content.length + offset - (s + document.content.length)) =
      (included.content.drop s).take (offset - s) := by
    intro s hs
    have h1 : s + document.content.length = document.content.length + s := Nat.add_comm _ _
    rw [h1, ← List.drop_drop, List.drop_left]
    congr 1
    omega
  cases hd : document.segments with
  | nil =>
    have hp := hpick { front with startOffset := front.startOffset + document.content.length }
    simp only [hd, hinc, List.nil_append, List.map_cons] at hp
    simp only [SourceDocument.splice, hd, hinc, List.nil_append, List.map_cons, locate]
    rw [hp]
    simp only
    rw [hcontent _ hstart]
  | cons dfront drest =>
    have hp := hpick dfront
    simp only [hd, hinc, List.cons_append, List.map_cons] at hp
    simp only [SourceDocument.splice, hd, hinc, List.cons_append, List.map_cons, locate]
    rw [hp]
    simp only
    rw [hcontent _ hstart]

theorem BuildLocation_of_paths (document : SourceDocument) (offset : Nat)
    (hs : document.segments ≠ []) (ho : offset ≤ document.content.length)
    (hf : ∀ segment ∈ document.segments, segment.filePath ≠ []) :
    ((Lexer.new document).BuildLocation offset).file =
        (locate document.segments document.content offset).1 ∧
      ((Lexer.new document).BuildLocation offset).line =
        (locate document.segments document.content offset).2 := by
  obtain ⟨segment, hmem, heq⟩ := locate_file_mem document.segments document.content offset hs
  exact BuildLocation_locate document offset hs ho (by rw [heq]; exact hf segment hmem)

/-- A character is traced in a document when it is traced in another one that has
the same origin, the same character and the same result of `locate` for it. -/
theorem TracedAt.transfer {P : Platform} {w : World} {source target : SourceDocument}
    {i j : Nat} (h : TracedAt P w source i)
    (hs : source.segments ≠ []) (hi : i ≤ source.content.length)
    (hsf : ∀ segment ∈ source.segments, segment.filePath ≠ [])
    (ht : target.segments ≠ []) (hj : j ≤ target.content.length)
    (htf : ∀ segment ∈ target.segments, segment.filePath ≠ [])
    (horigin : target.originAt j = source.originAt i)
    (hchar : target.content.getD j 0 = source.content.getD i 0)
    (hloc : locate target.segments target.content j = locate source.segments source.content i) :
    TracedAt P w target j := by
  obtain ⟨text, h1, h2, h3, h4, h5⟩ := h
  have hb := BuildLocation_of_paths source i hs hi hsf
  have hc := BuildLocation_of_paths target j ht hj htf
  refine ⟨text, ?_, ?_, ?_, ?_, ?_⟩
  · rw [horigin]; exact h1
  · rw [horigin]; exact h2
  · rw [horigin, hchar]; exact h3
  · rw [horigin, hc.1, hloc, ← hb.1]; exact h4
  · rw [horigin, hc.2, hloc, ← hb.2]; exact h5

theorem splice_segments_ne_nil (document included : SourceDocument)
    (h : document.segments ≠ [] ∨ included.segments ≠ []) :
    (document.splice included).segments ≠ [] := by
  simp only [SourceDocument.splice, ne_eq, List.append_eq_nil, List.map_eq_nil_iff, not_and_or]
  exact h

theorem splice_paths (document included : SourceDocument)
    (hd : ∀ segment ∈ document.segments, segment.filePath ≠ [])
    (hi : ∀ segment ∈ included.segments, segment.filePath ≠ []) :
    ∀ segment ∈ (document.splice included).segments, segment.filePath ≠ [] := by
  intro segment hmem
  simp only [SourceDocument.splice, List.mem_append, List.mem_map] at hmem
  rcases hmem with h | ⟨c, hc, rfl⟩
  · exact hd _ h
  · exact hi c hc

/-- Splicing a traced document into a traced document gives a traced document. -/
theorem Traced.spliced {P : Platform} {w : World} {document included : SourceDocument}
    (hd : Traced P w document) (hp : SegmentsPartial document) (hi : Traced P w included)
    (hio : SegmentsOK included) : Traced P w (document.splice included) := by
  have hpaths := splice_paths document included hd.2.1 hi.2.1
  have hne := splice_segments_ne_nil document included (Or.inr hio.1)
  refine ⟨?_, hpaths, ?_⟩
  · simp only [SourceDocument.splice, List.length_append, hd.1, hi.1]
  · intro offset ho
    have hlen : (document.splice included).content.length =
        document.content.length + included.content.length := by
      simp only [SourceDocument.splice, List.length_append]
    rw [hlen] at ho
    by_cases hlt : offset < document.content.length
    · have hs : document.segments ≠ [] := by
        intro hnil
        have := hp.1 hnil
        rw [this] at hlt
        exact absurd hlt (Nat.not_lt_zero _)
      refine (hd.2.2 offset hlt).transfer hs (le_of_lt hlt) hd.2.1 hne (by rw [hlen]; omega) hpaths
        ?_ ?_ (locate_splice_left document included offset hlt hs)
      · simp only [SourceDocument.originAt, SourceDocument.splice]
        rw [List.getD_append _ _ _ _ (by rw [hd.1]; exact hlt)]
      · simp only [SourceDocument.splice]
        rw [List.getD_append _ _ _ _ hlt]
    · obtain ⟨j, rfl⟩ : ∃ j, offset = document.content.length + j :=
        ⟨offset - document.content.length, by omega⟩
      have hj : j < included.content.length := by omega
      cases hseg : included.segments with
      | nil => exact absurd hseg hio.1
      | cons front rest =>
        have h0 := hio.2.1 front (by rw [hseg]; rfl)
        refine (hi.2.2 j hj).transfer hio.1 (le_of_lt hj) hi.2.1 hne (by rw [hlen]; omega) hpaths
          ?_ ?_ (locate_splice_right document included j hp.2.2.2 front rest hseg h0)
        · simp only [SourceDocument.originAt, SourceDocument.splice]
          rw [List.getD_append_right _ _ _ _ (by rw [hd.1]; omega), hd.1]
          congr 1
          omega
        · simp only [SourceDocument.splice]
          rw [List.getD_append_right _ _ _ _ (by omega)]
          congr 1
          omega

theorem blockDocument_segments (path : WString) (lineStart : Nat) (text : WString)
    (origins : List Origin) : SegmentsOK (blockDocument path lineStart text origins) := by
  refine ⟨by simp [blockDocument], ?_, ?_, ?_⟩
  · intro first h
    simp only [blockDocument, List.head?_cons, Option.some.injEq] at h
    rw [← h]
  · exact List.pairwise_singleton _ _
  · intro segment h
    simp only [blockDocument, List.mem_singleton] at h
    rw [h]
    exact Nat.zero_le _

theorem blockDocument_traced (P : Platform) (w : World) (contents path : WString)
    (lineStart : Nat) (text : WString) (origins : List Origin) (hpath : path ≠ [])
    (hread : readText P w path = some contents)
    (hb : BlockOK contents path lineStart text origins) :
    Traced P w (blockDocument path lineStart text origins) := by
  have hpaths : ∀ segment ∈ (blockDocument path lineStart text origins).segments,
      segment.filePath ≠ [] := by
    intro segment h
    simp only [blockDocument, List.mem_singleton] at h
    rw [h]
    exact hpath
  refine ⟨hb.1, hpaths, ?_⟩
  intro k hk
  obtain ⟨h1, h2, h3, h4⟩ := hb.2 k hk
  have hloc := BuildLocation_of_paths (blockDocument path lineStart text origins) k
    (by simp [blockDocument]) (le_of_lt hk) hpaths
  have hl : locate (blockDocument path lineStart text origins).segments
      (blockDocument path lineStart text origins).content k =
      (path, lineStart + (text.take k).count 10) := by
    simp [blockDocument, locate, Lexer.pickSegment]
  rw [hl] at hloc
  refine ⟨contents, ?_, h2, h3, ?_, ?_⟩
  · show readText P w (origins.getD k ⟨[], 0⟩).file = _
    rw [h1]
    exact hread
  · rw [hloc.1]
    exact h1.symm
  · rw [hloc.2]
    exact h4.symm

theorem flushChunk_splice (path : WString) (pending : Pending) (document : SourceDocument)
    (h : pending.chunk ≠ []) :
    (flushChunk path pending document).2 =
      document.splice
        (blockDocument path pending.chunkLineStart pending.chunk pending.chunkOrigins) := by
  have he : pending.chunk.isEmpty = false := by
    cases hc : pending.chunk with
    | nil => exact absurd hc h
    | cons a l => rfl
  simp [flushChunk, he, SourceDocument.splice, blockDocument]

theorem flushChunk_of_empty (path : WString) (pending : Pending) (document : SourceDocument)
    (h : pending.chunk = []) : flushChunk path pending document = (pending, document) := by
  simp [flushChunk, h]

theorem lineNumberAt_succ (text : WString) (k : Nat) :
    lineNumberAt text (k + 1) = lineNumberAt text k + (if endsLine text k then 1 else 0) := by
  simp only [lineNumberAt, List.range_succ, List.filter_append, List.length_append]
  cases he : endsLine text k
  · simp [List.filter_cons, he]
  · simp [List.filter_cons, he]
    omega

theorem getD_drop_eq (text : WString) (i m : Nat) :
    (text.drop i).getD m 0 = text.getD (i + m) 0 := by
  simp only [List.getD_eq_getElem?_getD, List.getElem?_drop]

theorem notTerminator_takeWhile (l : WString) (m : Nat)
    (hm : m < (l.takeWhile notTerminator).length) :
    (l.takeWhile notTerminator).getD m 0 = l.getD m 0 ∧ notTerminator (l.getD m 0) = true := by
  induction l generalizing m with
  | nil => simp at hm
  | cons c rest ih =>
    by_cases hc : notTerminator c = true
    · simp only [List.takeWhile_cons, hc, if_true, List.length_cons] at hm ⊢
      cases m with
      | zero => exact ⟨rfl, hc⟩
      | succ m =>
        simp only [List.getD_cons_succ]
        exact ih m (by omega)
    · simp [List.takeWhile_cons, hc] at hm

theorem endsLine_eq (text : WString) (k a b : Nat) (ha : text.getD k 0 = a)
    (hb : text.getD (k + 1) 0 = b) : endsLine text k = (a == 10 || (a == 13 && b != 10)) := by
  simp only [endsLine, ha, hb]

/-- A character that ends no line is not the end of a line terminator. -/
theorem endsLine_of_notTerminator (text : WString) (k : Nat)
    (h : notTerminator (text.getD k 0) = true) : endsLine text k = false := by
  simp only [endsLine]
  generalize text.getD k 0 = a at h ⊢
  generalize text.getD (k + 1) 0 = b
  simp only [notTerminator, Bool.and_eq_true, bne_iff_ne, ne_eq] at h
  simp [h.1, h.2]

/-- Within a line, and at its terminator, the line number is the one of the start
of the line. -/
theorem lineNumberAt_within (text : WString) (index m : Nat)
    (hm : m ≤ ((text.drop index).takeWhile notTerminator).length) :
    lineNumberAt text (index + m) = lineNumberAt text index := by
  induction m with
  | zero => rfl
  | succ m ih =>
    have h1 := notTerminator_takeWhile (text.drop index) m (by omega)
    rw [getD_drop_eq] at h1
    rw [← Nat.add_assoc, lineNumberAt_succ, endsLine_of_notTerminator _ _ h1.2, ih (by omega)]
    simp

/-- The characters of the terminator of a line: with `stop` the index after the
text of the line, the terminator is at `stop` when the scan found one of length
`1` or `2`, it is `\r` or `\n`, and the line number after it is one more. -/
theorem lineNumberAt_after (text : WString) (index : Nat)
    (h : 0 < terminatorLength ((text.drop index).dropWhile notTerminator)) :
    index + ((text.drop index).takeWhile notTerminator).length < text.length ∧
      (text.getD (index + ((text.drop index).takeWhile notTerminator).length) 0 = 10 ∨
        text.getD (index + ((text.drop index).takeWhile notTerminator).length) 0 = 13) ∧
      lineNumberAt text (index + ((text.drop index).takeWhile notTerminator).length +
        terminatorLength ((text.drop index).dropWhile notTerminator)) =
          lineNumberAt text index + 1 ∧
      endsLine text (index + ((text.drop index).takeWhile notTerminator).length +
        terminatorLength ((text.drop index).dropWhile notTerminator) - 1) = true := by
  have hsplit := List.takeWhile_append_dropWhile notTerminator (text.drop index)
  have hline := lineNumberAt_within text index _ (le_refl _)
  have hdrop := drop_length_takeWhile notTerminator (text.drop index)
  rw [List.drop_drop] at hdrop
  cases hdw : (text.drop index).dropWhile notTerminator with
  | nil =>
    rw [hdw] at h
    simp [terminatorLength] at h
  | cons c rest =>
    have hc := head_dropWhile_not notTerminator _ c rest hdw
    rw [hdw] at hdrop
    have hlt : index + ((text.drop index).takeWhile notTerminator).length < text.length := by
      by_contra hge
      rw [List.drop_eq_nil_of_le (by omega)] at hdrop
      cases hdrop
    have hget : text.getD (index + ((text.drop index).takeWhile notTerminator).length) 0 = c := by
      have := getD_eq_head_drop text _ hlt
      rw [hdrop] at this
      exact (List.cons.inj this).1.symm
    have hrest : text.drop (index + ((text.drop index).takeWhile notTerminator).length + 1)
        = rest := by
      have := getD_eq_head_drop text _ hlt
      rw [hdrop] at this
      exact (List.cons.inj this).2.symm
    have hc' : c = 10 ∨ c = 13 := by
      simp only [notTerminator, Bool.and_eq_false_iff, bne_eq_false_iff_eq] at hc
      exact hc.symm
    refine ⟨hlt, by rw [hget]; exact hc', ?_⟩
    have hnext : text.getD (index + ((text.drop index).takeWhile notTerminator).length + 1) 0
        = rest.headD 0 := by
      rw [← hrest]
      cases hr : text.drop (index + ((text.drop index).takeWhile notTerminator).length + 1) with
      | nil =>
        rw [List.getD_eq_default]
        · rfl
        · have := congrArg List.length hr
          simp only [List.length_drop, List.length_nil] at this
          omega
      | cons d l =>
        have hlt2 : index + ((text.drop index).takeWhile notTerminator).length + 1 < text.length := by
          by_contra hge
          rw [List.drop_eq_nil_of_le (by omega)] at hr
          cases hr
        have := getD_eq_head_drop text _ hlt2
        rw [hr] at this
        exact (List.cons.inj this).1.symm
    simp only [terminatorLength]
    by_cases h2 : c = 13 ∧ rest.head? = some 10
    · rw [if_pos h2]
      have hn : rest.headD 0 = 10 := by
        cases rest with
        | nil => simp at h2
        | cons d l =>
          simp only [List.head?_cons, Option.some.injEq] at h2
          simp [h2.2]
      have e1 : endsLine text (index + ((text.drop index).takeWhile notTerminator).length)
          = false := by
        rw [endsLine_eq text _ _ _ hget hnext, h2.1, hn]
        rfl
      have e2 : endsLine text (index + ((text.drop index).takeWhile notTerminator).length + 1)
          = true := by
        rw [endsLine_eq text _ _ _ hnext rfl, hn]
        rfl
      refine ⟨?_, ?_⟩
      · rw [lineNumberAt_succ, lineNumberAt_succ, e1, e2, hline]
        simp
      · exact e2
    · rw [if_neg h2]
      have e1 : endsLine text (index + ((text.drop index).takeWhile notTerminator).length)
          = true := by
        rw [endsLine_eq text _ _ _ hget hnext]
        rcases hc' with h10 | h13
        · rw [h10]
          rfl
        · have hn : rest.headD 0 ≠ 10 := by
            intro hh
            apply h2
            refine ⟨h13, ?_⟩
            cases rest with
            | nil => simp at hh
            | cons d l =>
              simp only [List.headD_cons] at hh
              simp [hh]
          rw [h13]
          generalize rest.headD 0 = b at hn
          simp [hn]
      refine ⟨?_, ?_⟩
      · rw [lineNumberAt_succ, e1, hline]
        simp
      · simpa using e1

theorem length_takeWhile_drop_le (text : WString) (index : Nat) :
    index + ((text.drop index).takeWhile notTerminator).length ≤ max index text.length := by
  have h1 := congrArg List.length (List.takeWhile_append_dropWhile notTerminator (text.drop index))
  simp only [List.length_append, List.length_drop] at h1
  omega

/-- What the scan says of the first of the lines that are left, and of the lines
after it. -/
theorem LinesOK.cons {contents : WString} {ln : ScannedLine} {rest : List ScannedLine}
    {currentLine : Nat} (h : LinesOK contents (ln :: rest) currentLine) :
    (∀ m, m < ln.line.length → ln.lineStart + m < contents.length ∧
        contents.getD (ln.lineStart + m) 0 = ln.line.getD m 0) ∧
      (∀ m, m ≤ ln.line.length → lineNumberAt contents (ln.lineStart + m) = currentLine) ∧
      ln.line.count 10 = 0 ∧
      (0 < ln.newlineLength → ln.lineStart + ln.line.length < contents.length ∧
        (contents.getD (ln.lineStart + ln.line.length) 0 = 10 ∨
          contents.getD (ln.lineStart + ln.line.length) 0 = 13)) ∧
      (ln.newlineLength = 0 → rest = []) ∧
      LinesOK contents rest (currentLine + 1) := by
  rcases h with h | ⟨fuel, index, hfuel, hi, hscan, hline, _⟩
  · cases h
  · cases fuel with
    | zero => omega
    | succ fuel =>
      rw [scanLines_cons contents fuel index hi] at hscan
      obtain ⟨hln, hrest⟩ := List.cons.inj hscan
      have hle := length_takeWhile_drop_le contents index
      subst hln
      refine ⟨?_, ?_, ?_, ?_, ?_, ?_⟩
      · intro m hm
        have h1 := notTerminator_takeWhile (contents.drop index) m hm
        rw [getD_drop_eq] at h1
        dsimp only at hm ⊢
        exact ⟨by omega, h1.1.symm⟩
      · intro m hm
        rw [← hline]
        exact lineNumberAt_within contents index m hm
      · rw [List.count_eq_zero]
        intro hmem
        have := List.mem_takeWhile_imp hmem
        simp [notTerminator] at this
      · intro hnl
        have := lineNumberAt_after contents index hnl
        exact ⟨this.1, this.2.1⟩
      · intro hnl
        rw [hrest]
        apply scanLines_of_ge
        dsimp only at hnl ⊢
        rw [hnl, Nat.add_zero]
        have hdw : (contents.drop index).dropWhile notTerminator = [] := by
          cases hd : (contents.drop index).dropWhile notTerminator with
          | nil => rfl
          | cons c l =>
            rw [hd] at hnl
            simp only [terminatorLength] at hnl
            split at hnl <;> omega
        have hsplit := List.takeWhile_append_dropWhile notTerminator (contents.drop index)
        rw [hdw, List.append_nil] at hsplit
        have := congrArg List.length hsplit
        rw [List.length_drop] at this
        omega
      · rw [hrest]
        by_cases hnext : index + ((contents.drop index).takeWhile notTerminator).length +
            terminatorLength ((contents.drop index).dropWhile notTerminator) < contents.length
        · have hpos : 0 < terminatorLength ((contents.drop index).dropWhile notTerminator) := by
            by_contra hz
            have hz : terminatorLength ((contents.drop index).dropWhile notTerminator) = 0 := by
              omega
            have hdw : (contents.drop index).dropWhile notTerminator = [] := by
              cases hd : (contents.drop index).dropWhile notTerminator with
              | nil => rfl
              | cons c l =>
                rw [hd] at hz
                simp only [terminatorLength] at hz
                split at hz <;> omega
            have hsplit := List.takeWhile_append_dropWhile notTerminator (contents.drop index)
            rw [hdw, List.append_nil] at hsplit
            have := congrArg List.length hsplit
            rw [List.length_drop] at this
            omega
          have ha := lineNumberAt_after contents index hpos
          refine Or.inr ⟨fuel, _, by omega, hnext, rfl, ?_, Or.inr ha.2.2.2⟩
          rw [ha.2.2.1, hline]
        · exact Or.inl (scanLines_of_ge _ _ _ (by omega))

theorem lineOrigins_length (path : WString) (lineStart count : Nat) :
    (lineOrigins path lineStart count).length = count := by
  simp [lineOrigins]

theorem lineOrigins_succ (path : WString) (lineStart count : Nat) :
    lineOrigins path lineStart count ++ [⟨path, lineStart + count⟩] =
      lineOrigins path lineStart (count + 1) := by
  simp [lineOrigins, List.range_succ]

theorem lineOrigins_getD (path : WString) (lineStart count m : Nat) (h : m < count) :
    (lineOrigins path lineStart count).getD m ⟨[], 0⟩ = ⟨path, lineStart + m⟩ := by
  simp only [lineOrigins, List.getD_eq_getElem?_getD, List.getElem?_map,
    List.getElem?_range h, Option.map_some', Option.getD_some]

theorem count_take_eq_zero (l : WString) (m : Nat) (h : l.count 10 = 0) :
    (l.take m).count 10 = 0 := by
  have := (List.take_sublist m l).count_le 10
  omega

/-- The block that `ProcessFileContent` collects in `chunk` stays a block of the file
when a line that is no include line is appended to it. -/
theorem BlockOK.extend {contents path : WString} {lineStart : Nat} {chunk : WString}
    {origins : List Origin} (hb : BlockOK contents path lineStart chunk origins)
    (ln : ScannedLine) (currentLine : Nat)
    (hcur : chunk ≠ [] → lineStart + chunk.count 10 = currentLine)
    (h1 : ∀ m, m < ln.line.length → ln.lineStart + m < contents.length ∧
      contents.getD (ln.lineStart + m) 0 = ln.line.getD m 0)
    (h2 : ∀ m, m ≤ ln.line.length → lineNumberAt contents (ln.lineStart + m) = currentLine)
    (h3 : ln.line.count 10 = 0)
    (h4 : 0 < ln.newlineLength → ln.lineStart + ln.line.length < contents.length ∧
      (contents.getD (ln.lineStart + ln.line.length) 0 = 10 ∨
        contents.getD (ln.lineStart + ln.line.length) 0 = 13)) :
    BlockOK contents path (if chunk.isEmpty then currentLine else lineStart)
      (chunk ++ ln.line ++ (if decide (ln.newlineLength > 0) then [10] else []))
      (origins ++ lineOrigins path ln.lineStart ln.line.length ++
        (if decide (ln.newlineLength > 0) then [⟨path, ln.lineStart + ln.line.length⟩]
          else [])) := by
  obtain ⟨hlen, hpts⟩ := hb
  -- the text and the origins that are added
  have hadd : ∃ bit, bit ≤ 1 ∧ (bit = 1 → 0 < ln.newlineLength) ∧
      (if decide (ln.newlineLength > 0) then [10] else ([] : WString)) = List.replicate bit 10 ∧
      lineOrigins path ln.lineStart ln.line.length ++
        (if decide (ln.newlineLength > 0) then [(⟨path, ln.lineStart + ln.line.length⟩ : Origin)]
          else []) = lineOrigins path ln.lineStart (ln.line.length + bit) := by
    by_cases hn : ln.newlineLength > 0
    · refine ⟨1, le_refl _, fun _ => hn, ?_, ?_⟩
      · simp [hn]
      · simp only [hn, decide_True, if_true]
        exact lineOrigins_succ _ _ _
    · refine ⟨0, Nat.zero_le _, fun h => by omega, ?_, ?_⟩
      · simp [hn]
      · simp [hn]
  obtain ⟨bit, hbit, hbitpos, hnl, horg⟩ := hadd
  rw [hnl, List.append_assoc origins, horg, List.append_assoc chunk]
  refine ⟨?_, ?_⟩
  · simp only [List.length_append, lineOrigins_length, List.length_replicate, hlen]
  · intro k hk
    simp only [List.length_append, List.length_replicate] at hk
    by_cases hold : k < chunk.length
    · have hne : chunk.isEmpty = false := by
        cases chunk with
        | nil => simp at hold
        | cons a l => rfl
      obtain ⟨p1, p2, p3, p4⟩ := hpts k hold
      rw [List.getD_append _ _ _ _ (by rw [hlen]; exact hold),
        List.getD_append _ _ _ _ hold, List.take_append_of_le_length (le_of_lt hold)]
      simp only [hne, Bool.false_eq_true, if_false]
      exact ⟨p1, p2, p3, p4⟩
    · obtain ⟨m, rfl⟩ : ∃ m, k = chunk.length + m := ⟨k - chunk.length, by omega⟩
      have hm : m < ln.line.length + bit := by omega
      have horigin : (origins ++ lineOrigins path ln.lineStart (ln.line.length + bit)).getD
          (chunk.length + m) ⟨[], 0⟩ = ⟨path, ln.lineStart + m⟩ := by
        rw [List.getD_append_right _ _ _ _ (by rw [hlen]; omega), hlen, Nat.add_sub_cancel_left]
        exact lineOrigins_getD _ _ _ _ hm
      have hchar : (chunk ++ (ln.line ++ List.replicate bit 10)).getD (chunk.length + m) 0 =
          (ln.line ++ List.replicate bit 10).getD m 0 := by
        rw [List.getD_append_right _ _ _ _ (by omega), Nat.add_sub_cancel_left]
      have htake : ((chunk ++ (ln.line ++ List.replicate bit 10)).take (chunk.length + m)).count 10
          = chunk.count 10 := by
        rw [List.take_append, List.count_append]
        have hm' : m ≤ ln.line.length := by omega
        rw [List.take_append_of_le_length hm', count_take_eq_zero _ _ h3]
        rfl
      have hstart : (if chunk.isEmpty then currentLine else lineStart) + chunk.count 10 =
          currentLine := by
        cases hc : chunk with
        | nil => simp
        | cons a l =>
          have := hcur (by rw [hc]; exact List.cons_ne_nil _ _)
          rw [hc] at this
          simpa using this
      rw [horigin, hchar, htake, hstart]
      refine ⟨rfl, ?_, ?_, h2 m (by omega)⟩
      · by_cases hlt : m < ln.line.length
        · exact (h1 m hlt).1
        · have : m = ln.line.length := by omega
          rw [this]
          exact (h4 (hbitpos (by omega))).1
      · by_cases hlt : m < ln.line.length
        · rw [List.getD_append _ _ _ _ hlt]
          exact Or.inl (h1 m hlt).2.symm
        · have hme : m = ln.line.length := by omega
          have hb1 : bit = 1 := by omega
          rw [List.getD_append_right _ _ _ _ (by omega), hme, Nat.sub_self, hb1]
          rcases (h4 (hbitpos hb1)).2 with h10 | h13
          · exact Or.inl h10.symm
          · exact Or.inr ⟨rfl, h13⟩

theorem flushChunk_traced {P : Platform} {w : World} {contents path : WString}
    (hpath : path ≠ []) (hread : readText P w path = some contents) {pending : Pending}
    {document : SourceDocument} (hd : Traced P w document) (hp : SegmentsPartial document)
    (hb : BlockOK contents path pending.chunkLineStart pending.chunk pending.chunkOrigins) :
    Traced P w (flushChunk path pending document).2 := by
  by_cases hc : pending.chunk = []
  · rw [flushChunk_of_empty path pending document hc]
    exact hd
  · rw [flushChunk_splice path pending document hc]
    exact hd.spliced hp (blockDocument_traced P w contents path _ _ _ hpath hread hb)
      (blockDocument_segments _ _ _ _)

/-- After `flushChunk` the block that is collected is empty. -/
theorem flushChunk_pending (contents path : WString) (pending : Pending)
    (document : SourceDocument)
    (hb : BlockOK contents path pending.chunkLineStart pending.chunk pending.chunkOrigins) :
    (flushChunk path pending document).1.chunk = [] ∧
      BlockOK contents path (flushChunk path pending document).1.chunkLineStart
        (flushChunk path pending document).1.chunk
        (flushChunk path pending document).1.chunkOrigins := by
  by_cases hc : pending.chunk = []
  · rw [flushChunk_of_empty path pending document hc]
    exact ⟨hc, hb⟩
  · have he : pending.chunk.isEmpty = false := by
      cases h : pending.chunk with
      | nil => exact absurd h hc
      | cons a l => rfl
    simp only [flushChunk, he, Bool.not_false, if_true]
    exact ⟨trivial, rfl, fun k hk => absurd hk (Nat.not_lt_zero _)⟩

/-- The `\n` that `ProcessFileContent` adds after an include line is a block of the
file: it stands for the terminator of the include line. -/
theorem newline_traced {P : Platform} {w : World} {contents path : WString}
    (hpath : path ≠ []) (hread : readText P w path = some contents)
    {document : SourceDocument} (hd : Traced P w document) (hp : SegmentsPartial document)
    (currentLine index : Nat) (hi : index < contents.length)
    (hc : contents.getD index 0 = 10 ∨ contents.getD index 0 = 13)
    (hl : lineNumberAt contents index = currentLine) :
    Traced P w
      { document with
        segments := document.segments ++ [⟨path, document.content.length, currentLine⟩]
        content := document.content ++ [10]
        origins := document.origins ++ [⟨path, index⟩] } := by
  have hb : BlockOK contents path currentLine [10] [⟨path, index⟩] := by
    refine ⟨rfl, ?_⟩
    intro k hk
    have hk0 : k = 0 := by simpa using hk
    subst hk0
    refine ⟨rfl, hi, ?_, by simpa using hl⟩
    rcases hc with h10 | h13
    · exact Or.inl h10.symm
    · exact Or.inr ⟨rfl, h13⟩
  have := hd.spliced hp (blockDocument_traced P w contents path _ _ _ hpath hread hb)
    (blockDocument_segments _ _ _ _)
  simpa [SourceDocument.splice, blockDocument] using this

/-- The document that `processLines` builds from a traced document, with a loader
that returns traced documents, is traced. -/
theorem processLines_traced (load : Loader) (ct : CType) (P : Platform) (w : World)
    (hload : LoaderGood ct P (Located P w) load) (contents absolutePath : WString)
    (hpath : absolutePath ≠ []) (hread : readText P w absolutePath = some contents)
    (lines : List ScannedLine) (currentLine : Nat) (pending : Pending)
    (outDocument : SourceDocument) (st : LoadState) (r : Bool × SourceDocument × LoadState)
    (hst : CacheAll (Located P w) st) (hdoc : SegmentsPartial outDocument)
    (htr : Traced P w outDocument) (hlines : LinesOK contents lines currentLine)
    (hblock : BlockOK contents absolutePath pending.chunkLineStart pending.chunk
      pending.chunkOrigins)
    (hcur : lines ≠ [] → pending.chunk ≠ [] →
      pending.chunkLineStart + pending.chunk.count 10 = currentLine)
    (h : processLines load ct P absolutePath lines currentLine pending outDocument st = some r)
    (hok : r.1 = true) : SegmentsOK r.2.1 ∧ Traced P w r.2.1 := by
  induction lines generalizing currentLine pending outDocument st with
  | nil =>
    unfold processLines at h
    dsimp only at h
    have hf := hdoc.flush absolutePath pending
    have hft := flushChunk_traced hpath hread htr hdoc hblock
    split at h
    · rename_i hempty
      cases h
      have hnil : (flushChunk absolutePath pending outDocument).2.segments = [] := by
        simpa using hempty
      have hc := hf.1 hnil
      refine ⟨⟨by simp, ?_, ?_, ?_⟩, hft.1, ?_, ?_⟩
      · intro first hfirst
        simp only [hnil, List.nil_append, List.head?_cons, Option.some.injEq] at hfirst
        rw [← hfirst]
      · show Ascending (_ ++ _)
        rw [hnil]
        exact List.pairwise_singleton _ _
      · intro segment hseg
        simp only [hnil, List.nil_append, List.mem_singleton] at hseg
        rw [hseg]
        exact Nat.zero_le _
      · intro segment hseg
        simp only [hnil, List.nil_append, List.mem_singleton] at hseg
        rw [hseg]
        exact hpath
      · intro offset ho
        have ho' : offset < (flushChunk absolutePath pending outDocument).2.content.length := ho
        rw [hc] at ho'
        exact absurd ho' (Nat.not_lt_zero _)
    · rename_i hne
      cases h
      exact ⟨⟨by simpa using hne, hf.2⟩, hft⟩
  | cons ln rest ih =>
    obtain ⟨k1, k2, k3, k4, k5, k6⟩ := hlines.cons
    unfold processLines at h
    dsimp only at h
    split at h
    · have hf := hdoc.flush absolutePath pending
      have hft := flushChunk_traced hpath hread htr hdoc hblock
      have hfp := flushChunk_pending contents absolutePath pending outDocument hblock
      cases ha : AppendInclude load ct P absolutePath ((TrimLeft ct ln.line).drop 8)
          (flushChunk absolutePath pending outDocument).2 st with
      | none => rw [ha] at h; cases h
      | some appended =>
        rw [ha] at h
        have hg := AppendInclude_good (Located P w) load ct P hload _ _ _ _ _ hst ha
        dsimp only at h
        split at h
        · rename_i hfail
          cases h
          cases hok
        · rename_i hok2
          have hok2 : appended.1 = true := by simpa using hok2
          obtain ⟨_, included, _, hinc, heq⟩ := hg.2 hok2
          have hsp := (hf.splice hinc.1
            ((flushChunk absolutePath pending outDocument).2.origins ++ included.origins)).1
          rw [← heq] at hsp
          have htr2 : Traced P w appended.2.1 := by
            rw [heq]
            exact hft.spliced hf hinc.2 hinc.1
          refine ih _ _ _ _ hg.1 ?_ ?_ k6 hfp.2 (fun _ hne => absurd hfp.1 hne) h
          · split
            · exact hsp.push absolutePath _ _ _
            · exact hsp
          · split
            · rename_i hnl
              have hpos : 0 < ln.newlineLength := by
                simp only [Bool.and_eq_true, decide_eq_true_eq] at hnl
                exact hnl.1
              exact newline_traced hpath hread htr2 hsp currentLine _ (k4 hpos).1 (k4 hpos).2
                (k2 _ (le_refl _))
            · exact htr2
    · refine ih _ _ _ _ hst hdoc htr k6
        (hblock.extend ln currentLine (fun hne => ?_) k1 k2 k3 k4) ?_ h
      · exact hcur (List.cons_ne_nil _ _) hne
      · intro hrest _
        have hpos : 0 < ln.newlineLength := by
          by_contra hz
          exact hrest (k5 (by omega))
        have hstart : (if pending.chunk.isEmpty then currentLine else pending.chunkLineStart) +
            pending.chunk.count 10 = currentLine := by
          cases hc : pending.chunk with
          | nil => simp
          | cons a l =>
            have := hcur (List.cons_ne_nil _ _) (by rw [hc]; exact List.cons_ne_nil _ _)
            rw [hc] at this
            simpa using this
        simp only [hpos, gt_iff_lt, decide_True, if_true, List.count_append, k3,
          List.count_singleton_self, Nat.add_zero]
        omega

theorem Traced.initial (P : Platform) (w : World) (path : WString) :
    Traced P w { SourceDocument.empty with primaryFile := path } :=
  ⟨rfl, fun _ h => by simp [SourceDocument.empty] at h,
    fun _ h => by simp [SourceDocument.empty] at h⟩

/-- The locations do not depend on `primaryFile` when no segment has an empty path. -/
theorem Traced.withPrimaryFile {P : Platform} {w : World} {document : SourceDocument}
    (h : Traced P w document) (hs : SegmentsOK document) (path : WString) :
    Traced P w { document with primaryFile := path } := by
  refine ⟨h.1, h.2.1, ?_⟩
  intro offset ho
  exact (h.2.2 offset ho).transfer hs.1 (le_of_lt ho) h.2.1 hs.1 (le_of_lt ho) h.2.1 rfl rfl rfl

theorem readText_of_disk (P : Platform) (w : World) (path contents : WString)
    (h : LoadDocumentFromDisk P w path [] = (true, contents, [])) :
    readText P w path = some contents := by
  simp [readText, h]

theorem LinesOK.start (contents : WString) :
    LinesOK contents (scanLines contents contents.length 0) 1 := by
  by_cases h : 0 < contents.length
  · exact Or.inr ⟨contents.length, 0, by omega, h, rfl, rfl, Or.inl rfl⟩
  · exact Or.inl (scanLines_of_ge _ _ _ (by omega))

/-- Every document that `LoadDocumentRecursive` returns or caches is traced. -/
theorem LoadDocumentRecursive_traced (ct : CType) (P : Platform) (w : World) (fuel : Nat) :
    LoaderGood ct P (Located P w) (LoadDocumentRecursive ct P w fuel) := by
  apply LoadDocumentRecursive_good
  intro load hload x contents st r hx hdisk hst h hok
  exact processLines_traced load ct P w hload contents _ hx (readText_of_disk P w _ _ hdisk)
    _ _ _ _ _ _ hst (SegmentsPartial.empty _) (Traced.initial P w _) (LinesOK.start contents)
    ⟨rfl, fun k hk => absurd hk (Nat.not_lt_zero _)⟩ (fun _ hne => absurd rfl hne) h hok

theorem loadNormalized_traced (ct : CType) (P : Platform) (w : World) (fuel : Nat)
    (sm : SourceManager) (normalized : WString) (out : SourceDocument) (ds : List Diagnostic)
    (r : Bool × SourceDocument × List Diagnostic × SourceManager)
    (hcache : ∀ entry ∈ sm.m_cache, Located P w entry.1 entry.2)
    (h : loadNormalized ct P w fuel sm normalized out ds = some r) (hok : r.1 = true) :
    SegmentsOK r.2.1 ∧ Traced P w r.2.1 := by
  unfold loadNormalized at h
  split at h
  · cases h
  · rename_i loaded hl
    cases h
    have hok : loaded.1 = true := hok
    have hst : CacheAll (Located P w) ⟨sm, ⟨[]⟩, ds⟩ := hcache
    have := ((LoadDocumentRecursive_traced ct P w fuel _ _ _ _ hst hl).2 hok).2
    simp only [hok, if_true]
    exact ⟨this.1, this.2.withPrimaryFile this.1 _⟩

theorem LoadStructuredDocument_traced (ct : CType) (P : Platform) (w : World) (fuel : Nat)
    (sm : SourceManager) (entryFile : WString) (out : SourceDocument) (ds : List Diagnostic)
    (r : Bool × SourceDocument × List Diagnostic × SourceManager)
    (hcache : ∀ entry ∈ sm.m_cache, Located P w entry.1 entry.2)
    (h : LoadStructuredDocument ct P w fuel sm entryFile out ds = some r) (hok : r.1 = true) :
    SegmentsOK r.2.1 ∧ Traced P w r.2.1 := by
  unfold LoadStructuredDocument at h
  dsimp only at h
  split at h
  · cases h; cases hok
  · exact loadNormalized_traced ct P w fuel sm _ out ds r hcache h hok

theorem LoadStyleDocument_traced (ct : CType) (P : Platform) (w : World) (fuel : Nat)
    (sm : SourceManager) (entryFile : WString) (out : SourceDocument) (ds : List Diagnostic)
    (r : Bool × SourceDocument × List Diagnostic × SourceManager)
    (hcache : ∀ entry ∈ sm.m_cache, Located P w entry.1 entry.2)
    (h : LoadStyleDocument ct P w fuel sm entryFile out ds = some r) (hok : r.1 = true) :
    SegmentsOK r.2.1 ∧ Traced P w r.2.1 := by
  unfold LoadStyleDocument at h
  dsimp only at h
  split at h
  · cases h; cases hok
  · exact loadNormalized_traced ct P w fuel sm _ out ds r hcache h hok

theorem BuildLocation_congr (lx lx1 : Lexer) (h : lx1.m_document = lx.m_document)
    (offset : Nat) : lx1.BuildLocation offset = lx.BuildLocation offset := by
  simp only [Lexer.BuildLocation, h]

theorem MakeToken_location (lx : Lexer) (t : TokenType) (s l : Nat) (x : WString) :
    (lx.MakeToken t s l x).location = lx.BuildLocation s := rfl

theorem LexPunctuation_location (lx : Lexer) (t : TokenType) (s l : Nat) :
    (lx.LexPunctuation t s l).location = lx.BuildLocation s := rfl

theorem LexNumber_location (ct : CType) (lx : Lexer) :
    (Lexer.LexNumber ct lx).1.location =
      (Lexer.LexNumber ct lx).2.BuildLocation (Lexer.LexNumber ct lx).1.startOffset := by
  have key : ∀ (c : Prop) [Decidable c] (a b : Token × Lexer),
      a.1.location = a.2.BuildLocation a.1.startOffset →
      b.1.location = b.2.BuildLocation b.1.startOffset →
      (if c then a else b).1.location =
        (if c then a else b).2.BuildLocation (if c then a else b).1.startOffset := by
    intro c _ a b ha hb
    split <;> assumption
  unfold Lexer.LexNumber
  refine key _ _ _ ?_ ?_
  · simp only [LexPunctuation_location, Lexer.LexPunctuation_startOffset]
  · simp only [MakeToken_location, Lexer.MakeToken_startOffset]

/-- The location of a token is the one that `BuildLocation` computes for its
`startOffset`. -/
theorem NextToken_location (ct : CType) (lx : Lexer) :
    (Lexer.NextToken ct lx).1.location =
      lx.BuildLocation (Lexer.NextToken ct lx).1.startOffset := by
  have hdoc := (Lexer.reach_NextToken ct lx).1
  rw [← BuildLocation_congr lx _ hdoc]
  simp only [Lexer.NextToken]
  split
  · rfl
  · split
    · rfl
    · split
      · exact LexNumber_location ct _
      · split <;> rfl

/-- A token other than `EndOfFile` starts at a character of the content. -/
theorem nthToken_startOffset_lt (ct : CType) (document : SourceDocument) (n : Nat)
    (h : (Lexer.nthToken ct n (Lexer.new document)).type ≠ TokenType.EndOfFile) :
    (Lexer.nthToken ct n (Lexer.new document)).startOffset < document.content.length := by
  have hr := Lexer.reach_afterCalls ct n (Lexer.new document)
  have hs := Lexer.reach_SkipWhitespaceAndComments ct (Lexer.afterCalls ct n (Lexer.new document))
  have hspec := Lexer.NextToken_spec ct (Lexer.afterCalls ct n (Lexer.new document))
  cases hend : (Lexer.SkipWhitespaceAndComments ct
      (Lexer.afterCalls ct n (Lexer.new document))).IsAtEnd with
  | true =>
    have := hspec.1 hend
    simp only [Lexer.nthToken, this] at h
    exact absurd rfl h
  | false =>
    have h1 := (hspec.2 hend).2.1
    have h2 := (Lexer.isAtEnd_false_iff _).1 hend
    have h3 : (Lexer.SkipWhitespaceAndComments ct
        (Lexer.afterCalls ct n (Lexer.new document))).m_length = document.content.length := by
      rw [hs.2.1, hr.2.1]
      rfl
    simp only [Lexer.nthToken]
    omega

theorem nthToken_location (ct : CType) (document : SourceDocument) (n : Nat) :
    (Lexer.nthToken ct n (Lexer.new document)).location =
      (Lexer.new document).BuildLocation
        (Lexer.nthToken ct n (Lexer.new document)).startOffset := by
  simp only [Lexer.nthToken]
  rw [NextToken_location]
  exact BuildLocation_congr _ _ (Lexer.reach_afterCalls ct n (Lexer.new document)).1 _

/-- After a load, with success or not, the cached documents are traced when they
were before: the hypothesis of `C1_token_location_is_origin` on the cache holds
again for the next load from the same disk. -/
theorem loadNormalized_cache_traced (ct : CType) (P : Platform) (w : World) (fuel : Nat)
    (sm : SourceManager) (normalized : WString) (out : SourceDocument) (ds : List Diagnostic)
    (r : Bool × SourceDocument × List Diagnostic × SourceManager)
    (hcache : ∀ entry ∈ sm.m_cache, Located P w entry.1 entry.2)
    (h : loadNormalized ct P w fuel sm normalized out ds = some r) :
    ∀ entry ∈ r.2.2.2.m_cache, Located P w entry.1 entry.2 := by
  unfold loadNormalized at h
  split at h
  · cases h
  · rename_i loaded hl
    cases h
    have hst : CacheAll (Located P w) ⟨sm, ⟨[]⟩, ds⟩ := hcache
    exact (LoadDocumentRecursive_traced ct P w fuel _ _ _ _ hst hl).1

theorem Load_cache_traced (ct : CType) (P : Platform) (w : World) (fuel : Nat)
    (sm : SourceManager) (entryFile : WString) (out : SourceDocument) (ds : List Diagnostic)
    (r : Bool × SourceDocument × List Diagnostic × SourceManager)
    (hcache : ∀ entry ∈ sm.m_cache, Located P w entry.1 entry.2)
    (h : LoadStructuredDocument ct P w fuel sm entryFile out ds = some r ∨
      LoadStyleDocument ct P w fuel sm entryFile out ds = some r) :
    ∀ entry ∈ r.2.2.2.m_cache, Located P w entry.1 entry.2 := by
  rcases h with h | h
  · unfold LoadStructuredDocument at h
    dsimp only at h
    split at h
    · cases h
      exact hcache
    · exact loadNormalized_cache_traced ct P w fuel sm _ out ds r hcache h
  · unfold LoadStyleDocument at h
    dsimp only at h
    split at h
    · cases h
      exact hcache
    · exact loadNormalized_cache_traced ct P w fuel sm _ out ds r hcache h

/-- C1 (round-trip offsets). Let a load through `LoadStructuredDocument` or
`LoadStyleDocument` succeed, with any nesting of includes, from a source manager
whose cached documents are traced: there is none in a new source manager, and
they are again after a load from the same disk (`Load_cache_traced`). Every token
other than `EndOfFile` that the lexer produces over the document returned starts
at a character of the flattened content; the origin of that character is a
character of a file of the disk, of which it is a copy (the same character, or
`\n` for a terminator that begins with `\r`); the file of the location of the
token is that file, and the line of the location is the line number of that
character in that file, counted from `1` by manual counting with lines ended by
`\n`, `\r\n` or a lone `\r` (`lineNumberAt`). The `EndOfFile` token starts after the
last character, so there is no character at its `startOffset`. -/
theorem C1_token_location_is_origin (ct : CType) (P : Platform) (w : World) (fuel : Nat)
    (sm : SourceManager) (entryFile : WString) (out : SourceDocument) (ds : List Diagnostic)
    (r : Bool × SourceDocument × List Diagnostic × SourceManager)
    (hcache : ∀ entry ∈ sm.m_cache, Located P w entry.1 entry.2)
    (h : LoadStructuredDocument ct P w fuel sm entryFile out ds = some r ∨
      LoadStyleDocument ct P w fuel sm entryFile out ds = some r)
    (hok : r.1 = true) (n : Nat)
    (htype : (Lexer.nthToken ct n (Lexer.new r.2.1)).type ≠ TokenType.EndOfFile) :
    (Lexer.nthToken ct n (Lexer.new r.2.1)).startOffset < r.2.1.content.length ∧
      ∃ text,
        readText P w
          (r.2.1.originAt (Lexer.nthToken ct n (Lexer.new r.2.1)).startOffset).file = some text ∧
        (r.2.1.originAt (Lexer.nthToken ct n (Lexer.new r.2.1)).startOffset).index
          < text.length ∧
        copiedFrom (r.2.1.content.getD (Lexer.nthToken ct n (Lexer.new r.2.1)).startOffset 0)
          (text.getD
            (r.2.1.originAt (Lexer.nthToken ct n (Lexer.new r.2.1)).startOffset).index 0) ∧
        (Lexer.nthToken ct n (Lexer.new r.2.1)).location.file =
          (r.2.1.originAt (Lexer.nthToken ct n (Lexer.new r.2.1)).startOffset).file ∧
        (Lexer.nthToken ct n (Lexer.new r.2.1)).location.line =
          lineNumberAt text
            (r.2.1.originAt (Lexer.nthToken ct n (Lexer.new r.2.1)).startOffset).index := by
  have htr : SegmentsOK r.2.1 ∧ Traced P w r.2.1 := by
    rcases h with h | h
    · exact LoadStructuredDocument_traced ct P w fuel sm entryFile out ds r hcache h hok
    · exact LoadStyleDocument_traced ct P w fuel sm entryFile out ds r hcache h hok
  have hlt := nthToken_startOffset_lt ct r.2.1 n htype
  refine ⟨hlt, ?_⟩
  obtain ⟨text, h1, h2, h3, h4, h5⟩ := htr.2.2.2 _ hlt
  rw [nthToken_location]
  exact ⟨text, h1, h2, h3, h4, h5⟩

/-- C1 on the disk of the examples: the fourth token of the document loaded from
`main.lsx`, the `#` of the file `part.lsx` that the second line includes. -/
theorem C1_token_location_is_origin_witness :
    ∃ r, LoadStructuredDocument CType.ascii Platform.plain exampleWorld 3 (SourceManager.new [])
        (wstr "main.lsx") SourceDocument.empty [] = some r ∧ r.1 = true ∧
      (Lexer.nthToken CType.ascii 3 (Lexer.new r.2.1)).type ≠ TokenType.EndOfFile ∧
      ∃ text,
        readText Platform.plain exampleWorld
          (r.2.1.originAt (Lexer.nthToken CType.ascii 3 (Lexer.new r.2.1)).startOffset).file
            = some text ∧
        (Lexer.nthToken CType.ascii 3 (Lexer.new r.2.1)).location.file =
          (r.2.1.originAt (Lexer.nthToken CType.ascii 3 (Lexer.new r.2.1)).startOffset).file ∧
        (Lexer.nthToken CType.ascii 3 (Lexer.new r.2.1)).location.line =
          lineNumberAt text
            (r.2.1.originAt (Lexer.nthToken CType.ascii 3 (Lexer.new r.2.1)).startOffset).index :=
  ⟨(LoadStructuredDocument CType.ascii Platform.plain exampleWorld 3 (SourceManager.new [])
      (wstr "main.lsx") SourceDocument.empty []).get (by decide),
    (Option.some_get _).symm, by decide, by decide,
    (C1_token_location_is_origin CType.ascii Platform.plain exampleWorld 3 (SourceManager.new [])
      (wstr "main.lsx") SourceDocument.empty [] _ (by simp [SourceManager.new])
      (Or.inl (Option.some_get _).symm) (by decide) 3 (by decide)).2.imp
      (fun _ h => ⟨h.1, h.2.2.2⟩)⟩

/-! ## C16: the parser only appends diagnostics, all of severity `Error` -/

theorem LoadStructure_diagnostics {ct : CType} {P : Platform} {w : World}
    {loadFuel parseFuel : Nat} {engine : ThemeEngineV2} {sourceManager : SourceManager}
    {r : HRESULT × ThemeEngineV2} (hs : engine.m_sourceManager = some sourceManager)
    (h : ThemeEngineV2.LoadStructure ct P w loadFuel parseFuel engine = some r) :
    ∃ loaded extra,
      LoadStructuredDocument ct P w loadFuel sourceManager engine.m_structureFile
        SourceDocument.empty [] = some loaded ∧
      r.2.m_diagnostics = loaded.2.2.1 ++ extra ∧
      ∀ d ∈ extra, d.severity = DiagnosticSeverity.Error := by
  simp only [ThemeEngineV2.LoadStructure, hs, ThemeEngineV2.ClearState] at h
  cases hl : LoadStructuredDocument ct P w loadFuel sourceManager engine.m_structureFile
      SourceDocument.empty [] with
  | none => simp [hl] at h
  | some loaded =>
    simp only [hl] at h
    refine ⟨loaded, ?_⟩
    split at h
    · simp only [Option.some.injEq] at h
      rw [← h]
      exact ⟨[], rfl, by simp, by simp⟩
    · cases hp : Parser.Parse ct parseFuel (Parser.new loaded.2.1 loaded.2.2.1) with
      | none => simp [hp] at h
      | some parsed =>
        simp only [hp, Option.some.injEq] at h
        obtain ⟨extra, he, hx⟩ := Parser.Parse_grows hp
        rw [← h]
        exact ⟨extra, rfl, he, hx⟩

/-- C16: `Parse` never removes or changes a diagnostic that is in the list when it
is called. For every state `p` of the parser (a new parser on a list of
diagnostics in particular), the list after `Parse` is the list before it
followed by zero or more new diagnostics, all of severity `Error`. In
`ThemeEngineV2::LoadStructure`, which hands the list that
`LoadStructuredDocument` has filled to the parser, the diagnostics of the
load come before those of the parse. -/
theorem C16_Parse_appends_Error_diagnostics (ct : CType) :
    (∀ (fuel : Nat) (p : Parser) (r : ThemeDocument × Parser),
      Parser.Parse ct fuel p = some r →
      ∃ extra, r.2.m_diagnostics = p.m_diagnostics ++ extra ∧
        ∀ d ∈ extra, d.severity = DiagnosticSeverity.Error) ∧
    (∀ (P : Platform) (w : World) (loadFuel parseFuel : Nat) (engine : ThemeEngineV2)
      (sourceManager : SourceManager) (r : HRESULT × ThemeEngineV2),
      engine.m_sourceManager = some sourceManager →
      ThemeEngineV2.LoadStructure ct P w loadFuel parseFuel engine = some r →
      ∃ loaded extra,
        LoadStructuredDocument ct P w loadFuel sourceManager engine.m_structureFile
          SourceDocument.empty [] = some loaded ∧
        r.2.m_diagnostics = loaded.2.2.1 ++ extra ∧
        ∀ d ∈ extra, d.severity = DiagnosticSeverity.Error) :=
  ⟨fun _ _ _ h => Parser.Parse_grows h, fun _ _ _ _ _ _ _ hs h => LoadStructure_diagnostics hs h⟩

/-- C16 on the document `= #A { 1 }` and a list that holds a warning: two errors
are appended to the warning. -/
theorem C16_Parse_appends_Error_diagnostics_witness :
    ∃ r, Parser.Parse CType.ascii 20
        (Parser.new (documentOf "= #A \x7b 1 \x7d")
          [⟨DiagnosticSeverity.Warning, wstr "earlier", SourceLocation.default⟩]) = some r ∧
      r.2.m_diagnostics.length = 3 ∧
      ∃ extra,
        r.2.m_diagnostics =
          [⟨DiagnosticSeverity.Warning, wstr "earlier", SourceLocation.default⟩] ++ extra ∧
        ∀ d ∈ extra, d.severity = DiagnosticSeverity.Error :=
  ⟨(Parser.Parse CType.ascii 20
      (Parser.new (documentOf "= #A \x7b 1 \x7d")
        [⟨DiagnosticSeverity.Warning, wstr "earlier", SourceLocation.default⟩])).get (by decide),
    (Option.some_get _).symm, by decide,
    (C16_Parse_appends_Error_diagnostics CType.ascii).1 20 _ _ (Option.some_get _).symm⟩

/-! ## More fuel does not change the result of a load -/

theorem LoadDocumentRecursive_fuel (ct : CType) (P : Platform) (w : World) {fuel fuel1 : Nat}
    (hle : fuel ≤ fuel1) (path : WString) (out : SourceDocument) (st : LoadState)
    (r : Bool × SourceDocument × LoadState)
    (h : LoadDocumentRecursive ct P w fuel path out st = some r) :
    LoadDocumentRecursive ct P w fuel1 path out st = some r := by
  induction hle with
  | refl => exact h
  | step _ ih => exact LoadDocumentRecursive_mono ct P w _ path out st r ih

theorem LoadStructuredDocument_fuel (ct : CType) (P : Platform) (w : World) {fuel fuel1 : Nat}
    (hle : fuel ≤ fuel1) (sm : SourceManager) (entryFile : WString) (out : SourceDocument)
    (diagnostics : List Diagnostic) (r : Bool × SourceDocument × List Diagnostic × SourceManager)
    (h : LoadStructuredDocument ct P w fuel sm entryFile out diagnostics = some r) :
    LoadStructuredDocument ct P w fuel1 sm entryFile out diagnostics = some r := by
  simp only [LoadStructuredDocument] at h ⊢
  split
  · rename_i hc
    rw [if_pos hc] at h
    exact h
  · rename_i hc
    rw [if_neg hc] at h
    simp only [loadNormalized] at h ⊢
    cases hl : LoadDocumentRecursive ct P w fuel (NormalizePath P (structuredEntryPath P sm entryFile))
        out ⟨sm, ⟨[]⟩, diagnostics⟩ with
    | none => simp [hl] at h
    | some loaded =>
      rw [LoadDocumentRecursive_fuel ct P w hle _ _ _ _ hl]
      simp only [hl] at h
      exact h

theorem LoadStructure_fuel (ct : CType) (P : Platform) (w : World)
    {loadFuel loadFuel1 parseFuel parseFuel1 : Nat} (hl : loadFuel ≤ loadFuel1)
    (hp : parseFuel ≤ parseFuel1) (engine : ThemeEngineV2) (r : HRESULT × ThemeEngineV2)
    (h : ThemeEngineV2.LoadStructure ct P w loadFuel parseFuel engine = some r) :
    ThemeEngineV2.LoadStructure ct P w loadFuel1 parseFuel1 engine = some r := by
  simp only [ThemeEngineV2.LoadStructure] at h ⊢
  cases hs : engine.m_sourceManager with
  | none =>
    simp only [hs] at h ⊢
    exact h
  | some sourceManager =>
    simp only [hs] at h ⊢
    cases hd : LoadStructuredDocument ct P w loadFuel sourceManager
        engine.ClearState.m_structureFile SourceDocument.empty [] with
    | none => simp [hd] at h
    | some loaded =>
      rw [LoadStructuredDocument_fuel ct P w hl _ _ _ _ _ hd]
      simp only [hd] at h ⊢
      split
      · rename_i hc
        rw [if_pos hc] at h
        exact h
      · rename_i hc
        rw [if_neg hc] at h
        cases hq : Parser.Parse ct parseFuel
            (Parser.new loaded.2.1 loaded.2.2.1) with
        | none => simp [hq] at h
        | some parsed =>
          have hq1 := Parser.Parse_mono hp _ _ hq
          simp only [hq] at h
          simp only [hq1]
          exact h

/-! ## The number that `wcstod` reads from a lexeme -/

theorem takeWhile_append_stop {α : Type} (p : α → Bool) (front back : List α)
    (hf : ∀ c ∈ front, p c = true) (hb : ∀ c ∈ back.head?, p c = false) :
    (front ++ back).takeWhile p = front ∧ (front ++ back).dropWhile p = back := by
  induction front with
  | nil =>
    cases back with
    | nil => simp
    | cons c rest =>
      have := hb c (by simp)
      simp [List.takeWhile, List.dropWhile, this]
  | cons c rest ih =>
    have hc := hf c (List.mem_cons_self _ _)
    have := ih (fun d hd => hf d (List.mem_cons_of_mem _ hd))
    simp [List.takeWhile, List.dropWhile, hc, this]

theorem exponentOf_of_no_digit (marker : Nat) (text : WString)
    (h : ∀ c ∈ text, ¬ (48 ≤ c ∧ c ≤ 57) ∧ c ≠ 43 ∧ c ≠ 45) : exponentOf marker text = 0 := by
  cases text with
  | nil => simp [exponentOf]
  | cons c rest =>
    cases rest with
    | nil => simp [exponentOf]
    | cons c1 rest1 =>
      have h1 := h c1 (by simp)
      have hsign : (c1 == 43 || c1 == 45) = false := by
        simp only [Bool.or_eq_false_iff, beq_eq_false_iff_ne]
        exact ⟨h1.2.1, h1.2.2⟩
      have hdg : (decide (48 ≤ c1) && decide (c1 ≤ 57)) = false := by
        simp only [Bool.and_eq_false_iff, decide_eq_false_iff_not]
        omega
      simp [exponentOf, hsign, List.takeWhile, hdg]

theorem decimalMagnitude_digits (digits suffix : WString) (hd : digits ≠ [])
    (hdig : ∀ c ∈ digits, 48 ≤ c ∧ c ≤ 57)
    (hs : ∀ c ∈ suffix, ¬ (48 ≤ c ∧ c ≤ 57) ∧ c ≠ 46 ∧ c ≠ 43 ∧ c ≠ 45) :
    decimalMagnitude (digits ++ suffix) = (digitsValue digits : Rat) := by
  have hdec := takeWhile_append_stop (fun c => decide (48 ≤ c) && decide (c ≤ 57)) digits suffix
    (fun c hc => by simpa using hdig c hc)
    (fun c hc => by
      have := (hs c (List.mem_of_mem_head? hc)).1
      simp only [Bool.and_eq_false_iff, decide_eq_false_iff_not]
      omega)
  have hdot : (suffix.head? == some 46) = false := by
    cases suffix with
    | nil => rfl
    | cons c rest =>
      have := (hs c (List.mem_cons_self _ _)).2.1
      simpa using this
  have hexp : exponentOf 101 suffix = 0 :=
    exponentOf_of_no_digit 101 suffix (fun c hc => ⟨(hs c hc).1, (hs c hc).2.2⟩)
  have he : digits.isEmpty = false := by
    cases digits with
    | nil => exact absurd rfl hd
    | cons _ _ => rfl
  simp only [decimalMagnitude, hdec.1, hdec.2, hdot, hexp, he, Bool.false_eq_true, if_false,
    Bool.false_and, scale]
  simp [digitsValue]

theorem hexMagnitude_digits (digits suffix : WString) (hd : digits ≠ [])
    (hdig : ∀ c ∈ digits, 48 ≤ c ∧ c ≤ 57)
    (hs : ∀ c ∈ suffix, ¬ (48 ≤ c ∧ c ≤ 57) ∧ c ≠ 46 ∧ c ≠ 43 ∧ c ≠ 45)
    (hhex : ¬ (digits = [48] ∧ (suffix.head? = some 120 ∨ suffix.head? = some 88) ∧
      (hexDigit (suffix.getD 1 0)).isSome = true)) :
    hexMagnitude (digits ++ suffix) = none := by
  obtain ⟨d, ds, rfl⟩ := List.exists_cons_of_ne_nil hd
  cases ds with
  | cons d1 ds1 =>
    have h1 := hdig d1 (by simp)
    have : (d1 == 120 || d1 == 88) = false := by
      simp only [Bool.or_eq_false_iff, beq_eq_false_iff_ne]
      omega
    simp [hexMagnitude, this]
  | nil =>
    cases suffix with
    | nil => simp [hexMagnitude]
    | cons c rest =>
      by_cases h48 : d = 48
      · by_cases hx : c = 120 ∨ c = 88
        · have hh : (hexDigit (rest.getD 0 0)).isSome = false := by
            cases hq : (hexDigit (rest.getD 0 0)).isSome with
            | false => rfl
            | true =>
              exfalso
              apply hhex
              refine ⟨by rw [h48], ?_, ?_⟩
              · rcases hx with hx | hx <;> simp [hx]
              · simpa using hq
          cases rest with
          | nil => simp [hexMagnitude]
          | cons c1 rest1 =>
            have h1 : (hexDigit c1).isSome = false := by simpa using hh
            have h2 := (hs c1 (by simp)).2.1
            simp [hexMagnitude, List.takeWhile, List.dropWhile, h1, h2]
        · have : (c == 120 || c == 88) = false := by
            simp only [Bool.or_eq_false_iff, beq_eq_false_iff_ne]
            exact ⟨fun h => hx (Or.inl h), fun h => hx (Or.inr h)⟩
          simp [hexMagnitude, this]
      · simp [hexMagnitude, h48]

/-- The magnitude that the model of `wcstod` reads from decimal digits followed by
letters and `%`: the value of the digits, unless the digits are `0` and the
letters begin with `x` or `X` and a hexadecimal digit; and the sign is not `-`. -/
theorem wcstodMagnitude_digits (digits suffix : WString) (hd : digits ≠ [])
    (hdig : ∀ c ∈ digits, 48 ≤ c ∧ c ≤ 57)
    (hsuf : ∀ c ∈ suffix, c = 37 ∨ CType.ascii.iswalpha c = true)
    (hhex : ¬ (digits = [48] ∧ (suffix.head? = some 120 ∨ suffix.head? = some 88) ∧
      (hexDigit (suffix.getD 1 0)).isSome = true)) :
    wcstodMagnitude (digits ++ suffix) = (digitsValue digits : Rat) ∧
      wcstodNegative (digits ++ suffix) = false := by
  have hs : ∀ c ∈ suffix, ¬ (48 ≤ c ∧ c ≤ 57) ∧ c ≠ 46 ∧ c ≠ 43 ∧ c ≠ 45 := by
    intro c hc
    rcases hsuf c hc with h | h
    · subst h
      decide
    · simp only [CType.ascii, Bool.or_eq_true, Bool.and_eq_true, decide_eq_true_eq] at h
      omega
  have h1 := decimalMagnitude_digits digits suffix hd hdig hs
  have h2 := hexMagnitude_digits digits suffix hd hdig hs hhex
  obtain ⟨d, ds, rfl⟩ := List.exists_cons_of_ne_nil hd
  have hd0 := hdig d (List.mem_cons_self _ _)
  have hsp : (d :: ds ++ suffix).dropWhile
      (fun c => c == 32 || (decide (9 ≤ c) && decide (c ≤ 13))) = d :: ds ++ suffix := by
    have : (d == 32 || (decide (9 ≤ d) && decide (d ≤ 13))) = false := by
      simp only [Bool.or_eq_false_iff, beq_eq_false_iff_ne, Bool.and_eq_false_iff,
        decide_eq_false_iff_not]
      omega
    simp [List.dropWhile, this]
  have hsign : ((d :: ds ++ suffix).head? == some 43 || (d :: ds ++ suffix).head? == some 45) =
      false := by
    simp only [List.cons_append, List.head?_cons, Bool.or_eq_false_iff, beq_eq_false_iff_ne, ne_eq,
      Option.some.injEq]
    omega
  have hneg : ((d :: ds ++ suffix).head? == some 45) = false := by
    simp only [List.cons_append, List.head?_cons, beq_eq_false_iff_ne, ne_eq, Option.some.injEq]
    omega
  constructor
  · rw [wcstodMagnitude]
    simp only [hsp]
    rw [hsign]
    simp only [Bool.false_eq_true, if_false, h1, h2, Option.getD_none]
  · rw [wcstodNegative]
    simp only [hsp]
    exact hneg

theorem roundHalfEven_natCast (n : Nat) : roundHalfEven (n : Rat) = n := by
  simp [roundHalfEven, Nat.mod_one]

theorem pow2_of_nonneg (k : Nat) : pow2 (k : Int) = ((2 ^ k : Nat) : Rat) := by
  simp [pow2]

/-- The number of binary digits of a positive number `n` is the `b` with
`2 ^ (b - 1) ≤ n < 2 ^ b`. -/
theorem bitLength_spec : ∀ (fuel n : Nat), n ≤ fuel → n ≠ 0 →
    2 ^ (bitLength fuel n - 1) ≤ n ∧ n < 2 ^ bitLength fuel n ∧ 1 ≤ bitLength fuel n
  | 0, n, h, h0 => absurd (Nat.le_zero.1 h) h0
  | fuel + 1, n, h, h0 => by
    rw [bitLength, if_neg h0]
    by_cases h2 : n / 2 = 0
    · have h1 : n = 1 := by omega
      subst h1
      have : bitLength fuel (1 / 2) = 0 := by
        cases fuel with
        | zero => rfl
        | succ f => rw [bitLength]; simp
      rw [this]
      simp
    · obtain ⟨a, b, c⟩ := bitLength_spec fuel (n / 2) (by omega) h2
      refine ⟨?_, ?_, by omega⟩
      · have : 2 ^ (bitLength fuel (n / 2) + 1 - 1) = 2 * 2 ^ (bitLength fuel (n / 2) - 1) := by
          rw [Nat.add_sub_cancel, ← Nat.pow_succ']
          congr 1
          omega
        rw [this]
        omega
      · rw [Nat.pow_succ]
        omega

theorem floorLog2_natCast (n : Nat) (h : n ≠ 0) :
    floorLog2 (n : Rat) = (bitLength n n : Int) - 1 := by
  obtain ⟨a, b, c⟩ := bitLength_spec n n (le_refl n) h
  have h1 : pow2 ((bitLength n n : Int) - 1) ≤ (n : Rat) := by
    rw [show (bitLength n n : Int) - 1 = ((bitLength n n - 1 : Nat) : Int) by omega, pow2_of_nonneg]
    exact_mod_cast a
  have hone : bitLength 1 1 = 1 := by decide
  simp only [floorLog2, Rat.num_natCast, Int.natAbs_ofNat, Rat.den_natCast, hone, Nat.cast_one, h1,
    if_true]

theorem pow2_natCast_gt (n k m : Nat) (h : n < 2 ^ k) (hk : k ≤ m) :
    ¬ pow2 (m : Int) ≤ (n : Rat) := by
  rw [pow2_of_nonneg]
  have hpow : (2 : Nat) ^ k ≤ 2 ^ m := Nat.pow_le_pow_right (by decide) hk
  have : n < 2 ^ m := lt_of_lt_of_le h hpow
  exact_mod_cast Nat.not_le.2 this

/-- A natural number below `2 ^ 53` is a `double`: the rounding returns it. -/
theorem round_natCast (negative : Bool) (n : Nat) (h : n < 2 ^ 53) :
    Double.round negative (n : Rat) = Double.finite negative (n : Rat) := by
  by_cases h0 : n = 0
  · subst h0
    simp [Double.round]
  have hn : ((n : Rat) = 0) = False := by simpa using h0
  obtain ⟨a, b, c⟩ := bitLength_spec n n (le_refl n) h0
  have hlog : bitLength n n ≤ 53 := by
    by_contra hc
    have : 2 ^ 53 ≤ 2 ^ (bitLength n n - 1) := Nat.pow_le_pow_right (by decide) (by omega)
    omega
  have hmax : max ((bitLength n n : Int) - 1) (-1022) = (bitLength n n : Int) - 1 := by omega
  have hulp : pow2 ((bitLength n n : Int) - 1 - 52) = 1 / ((2 ^ (53 - bitLength n n) : Nat) : Rat) := by
    by_cases h53 : bitLength n n = 53
    · rw [h53]
      simp [pow2]
    · have : ¬ (0 ≤ (bitLength n n : Int) - 1 - 52) := by omega
      simp only [pow2, if_neg this]
      congr 3
      omega
  have hscaled : (n : Rat) / (1 / ((2 ^ (53 - bitLength n n) : Nat) : Rat)) =
      ((n * 2 ^ (53 - bitLength n n) : Nat) : Rat) := by
    push_cast
    field_simp
  have hback : ((n * 2 ^ (53 - bitLength n n) : Nat) : Rat) *
      (1 / ((2 ^ (53 - bitLength n n) : Nat) : Rat)) = (n : Rat) := by
    push_cast
    field_simp
  have hsmall : ¬ pow2 1024 ≤ (n : Rat) := pow2_natCast_gt n 53 1024 h (by decide)
  simp only [Double.round, hn, if_false, floorLog2_natCast n h0, hmax, hulp, hscaled,
    roundHalfEven_natCast, hback, if_neg hsmall]

/-- The `double` that the model of `wcstod` returns for decimal digits followed by
letters and `%`, when the value of the digits is below `2 ^ 53`: this value,
unless the digits are `0` and the letters begin with `x` or `X` and a hexadecimal
digit. -/
theorem wcstodValue_digits (digits suffix : WString) (hd : digits ≠ [])
    (hdig : ∀ c ∈ digits, 48 ≤ c ∧ c ≤ 57)
    (hsuf : ∀ c ∈ suffix, c = 37 ∨ CType.ascii.iswalpha c = true)
    (hhex : ¬ (digits = [48] ∧ (suffix.head? = some 120 ∨ suffix.head? = some 88) ∧
      (hexDigit (suffix.getD 1 0)).isSome = true))
    (hsmall : digitsValue digits < 2 ^ 53) :
    wcstodValue (digits ++ suffix) = Double.finite false (digitsValue digits : Rat) := by
  obtain ⟨h1, h2⟩ := wcstodMagnitude_digits digits suffix hd hdig hsuf hhex
  rw [wcstodValue, h1, h2]
  exact round_natCast false _ hsmall

namespace Parser
/-! ## The parser on a known stream of tokens -/

theorem Ahead.zero {ct : CType} {p : Parser} (h : Valid ct p) : Ahead ct p 0 p :=
  ⟨h, rfl, rfl, rfl⟩

theorem Ahead.plus {ct : CType} {p q r : Parser} {k m : Nat} (h1 : Ahead ct p k q)
    (h2 : Ahead ct q m r) : Ahead ct p (k + m) r :=
  ⟨h2.1, h2.2.1.trans h1.2.1, by rw [h2.2.2.1, h1.2.2.1, Nat.add_assoc],
    h2.2.2.2.trans h1.2.2.2⟩

theorem Ahead.token_eq {ct : CType} {p q : Parser} {k : Nat} (h : Ahead ct p k q) (d : Nat) :
    token ct q d = token ct p (k + d) := by
  simp only [token, h.2.1, h.2.2.1, Nat.add_assoc]

theorem Ahead.sees {ct : CType} {p q : Parser} {k : Nat} (h : Ahead ct p k q)
    (type : TokenType) : Sees ct q type ↔ (token ct p k).type = type := by
  simp only [Sees, token, h.2.1, h.2.2.1]

theorem Ahead.same {ct : CType} {p q r : Parser} {k : Nat} (h : Ahead ct p k q)
    (hv : Valid ct r) (hd : r.m_document = q.m_document) (hc : r.m_cursor = q.m_cursor)
    (hg : r.m_diagnostics = q.m_diagnostics) : Ahead ct p k r :=
  ⟨hv, hd.trans h.2.1, hc.trans h.2.2.1, hg.trans h.2.2.2⟩

theorem LookAhead_ahead {ct : CType} {p q : Parser} {k : Nat} (h : Ahead ct p k q)
    (distance : Nat) :
    (LookAhead ct q distance).1 = token ct p (k + distance) ∧
      Ahead ct p k (LookAhead ct q distance).2 :=
  ⟨by rw [LookAhead_token h.1, ← h.token_eq]; rfl,
    h.same (LookAhead_valid h.1 distance) (by simp) (by simp) (by simp)⟩

theorem IsAtEnd_ahead {ct : CType} {p q : Parser} {k : Nat} (h : Ahead ct p k q) :
    ((IsAtEnd ct q).1 = true ↔ (token ct p k).type = TokenType.EndOfFile) ∧
      Ahead ct p k (IsAtEnd ct q).2 := by
  refine ⟨?_, h.same (IsAtEnd_valid h.1) (by simp) (by simp) (by simp)⟩
  rw [IsAtEnd_iff h.1, h.sees]

theorem Advance_ahead {ct : CType} {p q : Parser} {k : Nat} (h : Ahead ct p k q)
    (hne : (token ct p k).type ≠ TokenType.EndOfFile) : Ahead ct p (k + 1) (Advance ct q) := by
  have hs : ¬ Sees ct q TokenType.EndOfFile := by
    rw [h.sees]
    exact hne
  exact ⟨Advance_valid h.1, by simp [h.2.1],
    by rw [Advance_cursor h.1 hs, h.2.2.1, Nat.add_assoc], by simp [h.2.2.2]⟩

theorem Check_ahead {ct : CType} {p q : Parser} {k : Nat} (h : Ahead ct p k q)
    (type : TokenType) :
    ((Check ct q type).1 = true ↔
        (token ct p k).type ≠ TokenType.EndOfFile ∧ (token ct p k).type = type) ∧
      Ahead ct p k (Check ct q type).2 := by
  refine ⟨?_, h.same (Check_valid h.1 type) (by simp) (by simp) (by simp)⟩
  rw [Check_iff h.1, h.sees, h.sees]

theorem Match_ahead {ct : CType} {p q : Parser} {k : Nat} (h : Ahead ct p k q)
    {type : TokenType} (ht : (token ct p k).type = type) (hne : type ≠ TokenType.EndOfFile) :
    (Match ct q type).1 = true ∧ Ahead ct p (k + 1) (Match ct q type).2 := by
  have hc := Check_ahead h type
  have hc1 : (Check ct q type).1 = true := hc.1.2 ⟨by rw [ht]; exact hne, ht⟩
  simp only [Match, hc1, if_true, true_and]
  exact Advance_ahead hc.2 (by rw [ht]; exact hne)

theorem Match_ahead_false {ct : CType} {p q : Parser} {k : Nat} (h : Ahead ct p k q)
    {type : TokenType} (ht : (token ct p k).type ≠ type) :
    (Match ct q type).1 = false ∧ Ahead ct p k (Match ct q type).2 := by
  have hc := Check_ahead h type
  have hc1 : (Check ct q type).1 = false := by
    cases hb : (Check ct q type).1 with
    | false => rfl
    | true => exact absurd (hc.1.1 hb).2 ht
  simp only [Match, hc1, Bool.false_eq_true, if_false, true_and]
  exact hc.2

theorem Expect_ahead {ct : CType} {p q : Parser} {k : Nat} (h : Ahead ct p k q)
    {type : TokenType} (ht : (token ct p k).type = type) (hne : type ≠ TokenType.EndOfFile)
    (message : WString) :
    (Expect ct q type message).1 = true ∧ Ahead ct p (k + 1) (Expect ct q type message).2 := by
  have hm := Match_ahead h ht hne
  simp only [Expect, hm.1, if_true, true_and]
  exact hm.2

theorem skipComma_ahead {ct : CType} {p q : Parser} {k : Nat} (h : Ahead ct p k q)
    (ht : (token ct p k).type = TokenType.Comma) : Ahead ct p (k + 1) (skipComma ct q) := by
  have hc := Check_ahead h TokenType.Comma
  have hc1 : (Check ct q TokenType.Comma).1 = true := hc.1.2 ⟨by rw [ht]; decide, ht⟩
  simp only [skipComma, hc1, if_true]
  exact Advance_ahead hc.2 (by rw [ht]; decide)

theorem skipComma_ahead_false {ct : CType} {p q : Parser} {k : Nat} (h : Ahead ct p k q)
    (ht : (token ct p k).type ≠ TokenType.Comma) : Ahead ct p k (skipComma ct q) := by
  have hc := Check_ahead h TokenType.Comma
  have hc1 : (Check ct q TokenType.Comma).1 = false := by
    cases hb : (Check ct q TokenType.Comma).1 with
    | false => rfl
    | true => exact absurd (hc.1.1 hb).2 ht
  simp only [skipComma, hc1, Bool.false_eq_true, if_false]
  exact hc.2

theorem startsComponent_ahead {ct : CType} {p q : Parser} {k : Nat} (h : Ahead ct p k q) :
    (startsComponent ct q).1 =
        (decide ((token ct p (k + 1)).type = TokenType.Identifier) &&
          decide ((token ct p (k + 2)).type = TokenType.LBrace)) ∧
      Ahead ct p k (startsComponent ct q).2 := by
  have h1 := LookAhead_ahead h 1
  have h2 := LookAhead_ahead h1.2 2
  simp only [startsComponent]
  exact ⟨by rw [h1.1, h2.1], h2.2⟩

theorem ParseValue_number {ct : CType} {p q : Parser} {k : Nat} (h : Ahead ct p k q)
    (ht : (token ct p k).type = TokenType.Number) (fuel : Nat) :
    ∃ r, ParseValue ct (fuel + 1) q =
        some (Value.CreateNumber (token ct p k).lexeme (ct.wcstod (c_str (token ct p k).lexeme))
          (token ct p k).location, r) ∧
      Ahead ct p (k + 1) r := by
  have hl := LookAhead_ahead h 0
  have hs : ¬ (LookAhead ct q 0).1.type = TokenType.String := by
    rw [hl.1, Nat.add_zero, ht]
    decide
  have hn : (LookAhead ct q 0).1.type = TokenType.Number := by rw [hl.1, Nat.add_zero, ht]
  refine ⟨Advance ct (LookAhead ct q 0).2, ?_, Advance_ahead hl.2 (by rw [ht]; decide)⟩
  simp only [ParseValue, if_neg hs, if_pos hn]
  rw [hl.1, Nat.add_zero]

theorem c_str_of_no_nul (text : WString) (h : ∀ c ∈ text, c ≠ 0) : c_str text = text := by
  rw [c_str, List.takeWhile_eq_self_iff]
  intro c hc
  simpa using h c hc

/-- C20, amended: when the token at the cursor is a `Number`, `ParseValue` returns
a value of kind `Number` whose text is the lexeme of the token and whose
magnitude is the `double` that `wcstod` returns for the lexeme. With the `wcstod`
of C99, a lexeme made of decimal digits followed by `%` and letters has the
value of its digits when this value is below `2 ^ 53`, unless the digits are `0`
and are followed by `x` or `X` and a hexadecimal digit; `10dip` has the magnitude
`10`, and `50%` has `50`. A value of the digits from `2 ^ 53` on is rounded to
the nearest `double`: `9007199254740993` has the magnitude `9007199254740992`. -/
theorem C20_number_magnitude_is_wcstod_of_lexeme :
    (∀ (ct : CType) (fuel : Nat) (p : Parser), Valid ct p →
      (tokenAt ct p.m_document p.m_cursor).type = TokenType.Number →
      ∃ r, ParseValue ct (fuel + 1) p = some r ∧ r.1.kind = ValueKind.Number ∧
        r.1.text = (tokenAt ct p.m_document p.m_cursor).lexeme ∧
        r.1.numberValue = ct.wcstod (c_str (tokenAt ct p.m_document p.m_cursor).lexeme) ∧
        r.2.m_cursor = p.m_cursor + 1 ∧ r.2.m_diagnostics = p.m_diagnostics) ∧
    (∀ digits suffix : WString, digits ≠ [] → (∀ c ∈ digits, 48 ≤ c ∧ c ≤ 57) →
      (∀ c ∈ suffix, c = 37 ∨ CType.ascii.iswalpha c = true) →
      ¬ (digits = [48] ∧ (suffix.head? = some 120 ∨ suffix.head? = some 88) ∧
        (hexDigit (suffix.getD 1 0)).isSome = true) →
      digitsValue digits < 2 ^ 53 →
      CType.ascii.wcstod (c_str (digits ++ suffix)) =
        Double.finite false (digitsValue digits : Rat)) ∧
    CType.ascii.wcstod (c_str (wstr "10dip")) = Double.finite false 10 ∧
    CType.ascii.wcstod (c_str (wstr "50%")) = Double.finite false 50 ∧
    CType.ascii.wcstod (c_str (wstr "9007199254740993")) =
      Double.finite false 9007199254740992 := by
  refine ⟨?_, ?_, by decide!, by decide!, by decide!⟩
  · intro ct fuel p hv ht
    obtain ⟨r, hr, ha⟩ := ParseValue_number (Ahead.zero hv) (by simpa [token] using ht) fuel
    refine ⟨_, hr, rfl, ?_, ?_, ha.2.2.1, ha.2.2.2⟩
    · simp [Value.CreateNumber, token]
    · simp [Value.CreateNumber, token]
  · intro digits suffix hd hdig hsuf hhex hsmall
    rw [c_str_of_no_nul]
    · exact wcstodValue_digits digits suffix hd hdig hsuf hhex hsmall
    · intro c hc
      rcases List.mem_append.1 hc with h | h
      · have := hdig c h
        omega
      · rcases hsuf c h with h1 | h1
        · omega
        · intro h0
          rw [h0] at h1
          exact absurd h1 (by decide)

set_option maxRecDepth 100000 in
/-- C20 on the document `10dip`: the value has the kind `Number`, the text `10dip`
and the magnitude `10`. -/
theorem C20_number_magnitude_is_wcstod_of_lexeme_witness :
    ∃ r, ParseValue CType.ascii 1 (Parser.new (documentOf "10dip") []) = some r ∧
      r.1.kind = ValueKind.Number ∧ r.1.text = wstr "10dip" ∧
      r.1.numberValue = Double.finite false 10 :=
  have h := C20_number_magnitude_is_wcstod_of_lexeme.1 CType.ascii 0
    (Parser.new (documentOf "10dip") []) (valid_new _ _ _) (by decide)
  have hl : (tokenAt CType.ascii (Parser.new (documentOf "10dip") []).m_document
      (Parser.new (documentOf "10dip") []).m_cursor).lexeme = wstr "10dip" := by decide
  h.elim fun r hr =>
    ⟨r, hr.1, hr.2.1, hr.2.2.1.trans hl,
      hr.2.2.2.1.trans (by rw [hl]; exact C20_number_magnitude_is_wcstod_of_lexeme.2.2.1)⟩

set_option maxRecDepth 100000 in
/-- C20 as stated fails: the lexeme `0xabc` is what `LexNumber` returns for the input
`0xabc`, the digit `0` followed by letters; `ParseValue` returns for it a Number
with this text whose magnitude is `2748`, the hexadecimal number that `wcstod`
reads, while the value of its digits is `0`. -/
theorem C20_counterexample :
    (Lexer.NextToken CType.ascii (Lexer.new (documentOf "0xabc"))).1.type = TokenType.Number ∧
      (Lexer.NextToken CType.ascii (Lexer.new (documentOf "0xabc"))).1.lexeme =
        wstr "0" ++ wstr "xabc" ∧
      (ParseValue CType.ascii 1 (Parser.new (documentOf "0xabc") [])).map
        (fun r => (r.1.kind, r.1.text, r.1.numberValue)) =
        some (ValueKind.Number, wstr "0xabc", Double.finite false 2748) ∧
      digitsValue (wstr "0") = 0 ∧
      Double.finite false 2748 ≠ Double.finite false ((digitsValue (wstr "0") : Nat) : Rat) := by
  refine ⟨by decide, by decide, by decide!, by decide, by decide!⟩
end Parser

namespace Parser

/-! ## The loop of `ParseComponent` on a known stream of tokens -/

theorem IsAtEnd_ahead_false {ct : CType} {p q : Parser} {k : Nat} (h : Ahead ct p k q)
    (hne : (token ct p k).type ≠ TokenType.EndOfFile) : (IsAtEnd ct q).1 = false := by
  cases hb : (IsAtEnd ct q).1 with
  | false => rfl
  | true => exact absurd ((IsAtEnd_ahead h).1.1 hb) hne

/-- The turn of the loop of `ParseComponent` at `}`: the loop is left after the
token. -/
theorem componentStep_close {ct : CType} (pc : Sub ComponentNode) (pv : Sub Value) {p q : Parser}
    {k : Nat} (h : Ahead ct p k q) (hr : (token ct p k).type = TokenType.RBrace)
    (node : ComponentNode) :
    ∃ r, componentStep ct pc pv node q = some (LoopStep.leave node r) ∧ Ahead ct p (k + 1) r := by
  have a0 := IsAtEnd_ahead h
  have hend := IsAtEnd_ahead_false h (by rw [hr]; decide)
  have a1 := LookAhead_ahead a0.2 0
  have ht : (LookAhead ct (IsAtEnd ct q).2 0).1.type = TokenType.RBrace := by
    rw [a1.1, Nat.add_zero, hr]
  refine ⟨_, ?_, Advance_ahead a1.2 (by rw [hr]; decide)⟩
  rw [componentStep_eq]
  simp only [hend, Bool.false_eq_true, if_false, ht, if_true]

/-- The turn of the loop of `ParseComponent` at `#`, an identifier and `{`: the
component that starts here is parsed, and it is appended to the children. -/
theorem componentStep_child {ct : CType} (pc : Sub ComponentNode) (pv : Sub Value) {p q : Parser}
    {k : Nat} (h : Ahead ct p k q) (hh : (token ct p k).type = TokenType.Hash)
    (hi : (token ct p (k + 1)).type = TokenType.Identifier)
    (hl : (token ct p (k + 2)).type = TokenType.LBrace) (node : ComponentNode) :
    ∃ q1, Ahead ct p k q1 ∧
      componentStep ct pc pv node q =
        (pc q1).map fun r1 =>
          LoopStep.again { node with children := node.children ++ [r1.1] } r1.2 := by
  have a0 := IsAtEnd_ahead h
  have hend := IsAtEnd_ahead_false h (by rw [hh]; decide)
  have a1 := LookAhead_ahead a0.2 0
  have ht : (LookAhead ct (IsAtEnd ct q).2 0).1.type = TokenType.Hash := by
    rw [a1.1, Nat.add_zero, hh]
  have hnr : ¬ (LookAhead ct (IsAtEnd ct q).2 0).1.type = TokenType.RBrace := by
    rw [ht]
    decide
  have a2 := startsComponent_ahead a1.2
  have hs : (startsComponent ct (LookAhead ct (IsAtEnd ct q).2 0).2).1 = true := by
    rw [a2.1, hi, hl]
    rfl
  refine ⟨_, a2.2, ?_⟩
  rw [componentStep_eq]
  simp only [hend, Bool.false_eq_true, if_false, if_neg hnr, if_pos ht, if_true, hs]

/-- The start of `ParseComponent` at `#`, an identifier and `{`: the node has the
lexeme and the location of the identifier, and the loop starts after `{`. -/
theorem ParseComponent_open {ct : CType} (pv : Sub Value) {p q : Parser} {k : Nat}
    (h : Ahead ct p k q) (hh : (token ct p k).type = TokenType.Hash)
    (hi : (token ct p (k + 1)).type = TokenType.Identifier)
    (hl : (token ct p (k + 2)).type = TokenType.LBrace) (fuel : Nat) :
    ∃ q1, Ahead ct p (k + 3) q1 ∧
      ParseComponent ct pv (fuel + 1) q =
        runLoop (componentStep ct (ParseComponent ct pv fuel) pv) fuel
          { ComponentNode.empty with
            component := (token ct p (k + 1)).lexeme, location := (token ct p (k + 1)).location }
          q1 := by
  have a0 := Match_ahead h hh (by decide)
  have a1 := LookAhead_ahead a0.2 0
  have a2 := Expect_ahead a1.2 hi (by decide) (wstr "Expected component name after '#'.")
  have a3 := Expect_ahead a2.2 hl (by decide) (wstr "Expected '\x7b' to start component body.")
  refine ⟨_, a3.2, ?_⟩
  simp only [ParseComponent, a2.1, a3.1, Bool.true_eq_false, if_false, a1.1, Nat.add_zero]

theorem ParseComponent_empty {ct : CType} (pv : Sub Value) {p q : Parser} {k : Nat}
    (h : Ahead ct p k q) (hh : (token ct p k).type = TokenType.Hash)
    (hi : (token ct p (k + 1)).type = TokenType.Identifier)
    (hl : (token ct p (k + 2)).type = TokenType.LBrace)
    (hr : (token ct p (k + 3)).type = TokenType.RBrace) (fuel : Nat) :
    ∃ r, ParseComponent ct pv (fuel + 2) q =
        some ({ ComponentNode.empty with
          component := (token ct p (k + 1)).lexeme, location := (token ct p (k + 1)).location }, r) ∧
      Ahead ct p (k + 4) r := by
  obtain ⟨q1, hq1, he⟩ := ParseComponent_open pv h hh hi hl (fuel + 1)
  obtain ⟨r, hs, hr1⟩ := componentStep_close (ParseComponent ct pv (fuel + 1)) pv
    hq1 hr
    { ComponentNode.empty with
      component := (token ct p (k + 1)).lexeme, location := (token ct p (k + 1)).location }
  refine ⟨r, ?_, hr1⟩
  rw [he, runLoop, hs]

/-- The loop of `ParseComponent` on components with empty bodies followed by `}`:
one child is appended for every component, in order. -/
theorem runLoop_empty_children {ct : CType} (pv : Sub Value) {p : Parser} (depth : Nat) :
    ∀ (names : List WString) (k : Nat) (q : Parser) (node : ComponentNode) (fuel : Nat),
      Ahead ct p k q → emptyComponentsAt ct p k names →
      (token ct p (k + 4 * names.length)).type = TokenType.RBrace → names.length < fuel →
      ∃ r children,
        runLoop (componentStep ct (ParseComponent ct pv (depth + 2)) pv) fuel node q =
          some ({ node with children := node.children ++ children }, r) ∧
        children.map (fun child => child.component) = names ∧
        (∀ child ∈ children, child.children = [] ∧ child.attributes = []) ∧
        Ahead ct p (k + 4 * names.length + 1) r := by
  intro names
  induction names with
  | nil =>
    intro k q node fuel h _ hclose hf
    obtain ⟨fuel, rfl⟩ := Nat.exists_eq_succ_of_ne_zero (Nat.ne_of_gt hf)
    obtain ⟨r, hs, hr⟩ := componentStep_close (ParseComponent ct pv (depth + 2)) pv
      h (by simpa using hclose) node
    refine ⟨r, [], ?_, rfl, by simp, by simpa using hr⟩
    rw [runLoop, hs]
    cases node
    simp
  | cons name rest ih =>
    intro k q node fuel h hbody hclose hf
    obtain ⟨fuel, rfl⟩ := Nat.exists_eq_succ_of_ne_zero (Nat.ne_of_gt (Nat.lt_of_le_of_lt
      (Nat.zero_le _) hf))
    obtain ⟨hh, hi, hname, hl, hr, hrest⟩ := hbody
    obtain ⟨q1, hq1, hs⟩ := componentStep_child (ParseComponent ct pv (depth + 2))
      pv h hh hi hl node
    obtain ⟨r1, hc, hr1⟩ := ParseComponent_empty pv hq1 hh hi hl hr depth
    have hclose1 : (token ct p (k + 4 + 4 * rest.length)).type = TokenType.RBrace := by
      have : k + 4 + 4 * rest.length = k + 4 * (name :: rest).length := by
        simp only [List.length_cons]
        omega
      rw [this]
      exact hclose
    obtain ⟨r, children, hloop, hmap, hempty, hr2⟩ := ih (k + 4) r1
      { node with children := node.children ++
        [{ ComponentNode.empty with
          component := (token ct p (k + 1)).lexeme, location := (token ct p (k + 1)).location }] }
      fuel hr1 hrest hclose1 (by simpa using hf)
    refine ⟨r,
      { ComponentNode.empty with
        component := (token ct p (k + 1)).lexeme, location := (token ct p (k + 1)).location } ::
        children, ?_, ?_, ?_, ?_⟩
    · rw [runLoop, hs, hc]
      simp only [Option.map_some']
      rw [hloop]
      simp
    · simp only [List.map_cons, hmap, hname]
    · intro child hchild
      rcases List.mem_cons.1 hchild with rfl | hchild
      · exact ⟨rfl, rfl⟩
      · exact hempty child hchild
    · have : k + 4 + 4 * rest.length + 1 = k + 4 * (name :: rest).length + 1 := by
        simp only [List.length_cons]
        omega
      rw [← this]
      exact hr2

end Parser

/-! ## C18: directives -/

/-- An `EndOfFile` token starts at the end of the content. -/
theorem nthToken_EndOfFile_startOffset (ct : CType) (document : SourceDocument) (n : Nat)
    (h : (Lexer.nthToken ct n (Lexer.new document)).type = TokenType.EndOfFile) :
    (Lexer.nthToken ct n (Lexer.new document)).startOffset = document.content.length := by
  obtain ⟨hend, htok⟩ := Lexer.NextToken_EndOfFile ct (Lexer.afterCalls ct n (Lexer.new document)) h
  rw [← Lexer.afterCalls_succ] at hend htok
  have hreach := Lexer.reach_afterCalls ct (n + 1) (Lexer.new document)
  have h1 := (Lexer.isAtEnd_true_iff _).1 hend
  have h2 : _ ≤ document.content.length := hreach.2.2.2 (Nat.zero_le _)
  have h3 : _ = document.content.length := hreach.2.1
  show (Lexer.NextToken ct (Lexer.afterCalls ct n (Lexer.new document))).1.startOffset = _
  rw [htok]
  simp only [Lexer.MakeToken_startOffset]
  omega

theorem findLineEnd_le (content : WString) (startOffset : Nat) :
    findLineEnd content startOffset ≤ content.length := by
  simp only [findLineEnd]
  split
  · rename_i h
    rw [List.length_drop] at h
    omega
  · exact le_refl _

namespace Parser

/-- The loop of `ParseDirective` stops at the first token from its start on that is
`EndOfFile` or that starts at `lineEnd` or after it. -/
theorem runLoop_directive {ct : CType} {p : Parser} (lineEnd : Nat) :
    ∀ (fuel k : Nat) (q : Parser) (r : Unit × Parser), Ahead ct p k q →
      runLoop (directiveStep ct lineEnd) fuel () q = some r →
      ∃ j, k ≤ j ∧ Ahead ct p j r.2 ∧
        (∀ i, k ≤ i → i < j →
          (token ct p i).type ≠ TokenType.EndOfFile ∧ (token ct p i).startOffset < lineEnd) ∧
        ((token ct p j).type = TokenType.EndOfFile ∨ lineEnd ≤ (token ct p j).startOffset) := by
  intro fuel
  induction fuel with
  | zero =>
    intro k q r _ h
    simp [runLoop] at h
  | succ fuel ih =>
    intro k q r hq h
    have a0 := IsAtEnd_ahead hq
    have a1 := LookAhead_ahead a0.2 0
    rw [runLoop] at h
    cases hend : (IsAtEnd ct q).1 with
    | true =>
      simp only [directiveStep, hend, if_true, Option.some.injEq] at h
      rw [← h]
      exact ⟨k, le_refl _, a0.2, fun i h1 h2 => absurd h2 (Nat.not_lt.2 h1),
        Or.inl (a0.1.1 hend)⟩
    | false =>
      have hne : (token ct p k).type ≠ TokenType.EndOfFile := by
        intro he
        have := a0.1.2 he
        rw [hend] at this
        exact absurd this (by decide)
      by_cases hlt : (LookAhead ct (IsAtEnd ct q).2 0).1.startOffset < lineEnd
      · simp only [directiveStep, hend, Bool.false_eq_true, if_false, if_pos hlt] at h
        obtain ⟨j, hj, hr, hbefore, hat⟩ := ih (k + 1) _ r (Advance_ahead a1.2 hne) h
        refine ⟨j, by omega, hr, ?_, hat⟩
        intro i h1 h2
        by_cases hik : i = k
        · rw [hik]
          rw [a1.1, Nat.add_zero] at hlt
          exact ⟨hne, hlt⟩
        · exact hbefore i (by omega) h2
      · simp only [directiveStep, hend, Bool.false_eq_true, if_false, if_neg hlt,
          Option.some.injEq] at h
        rw [← h]
        rw [a1.1, Nat.add_zero] at hlt
        exact ⟨k, le_refl _, a1.2, fun i h1 h2 => absurd h2 (Nat.not_lt.2 h1),
          Or.inr (Nat.le_of_not_lt hlt)⟩

theorem Trim_nil (ct : CType) : Trim ct [] = [] := by
  simp [Trim, TrimLeft, TrimRight, List.rdropWhile]

/-- `ParseDirective` at `#` and an identifier: the directive, and the state after
the loop. -/
theorem ParseDirective_at {ct : CType} {p q : Parser} {k : Nat} (h : Ahead ct p k q)
    (hh : (token ct p k).type = TokenType.Hash)
    (hi : (token ct p (k + 1)).type = TokenType.Identifier) (fuel : Nat) :
    ∃ q1, Ahead ct p (k + 2) q1 ∧
      ParseDirective ct fuel q =
        (runLoop
          (directiveStep ct (findLineEnd p.m_document.content (token ct p k).startOffset))
          fuel () q1).map fun r =>
            ({ name := (token ct p (k + 1)).lexeme
               location := (token ct p k).location
               argument :=
                 Trim ct (Lexer.substr p.m_document.content
                   ((token ct p (k + 1)).startOffset + (token ct p (k + 1)).length)
                   (findLineEnd p.m_document.content (token ct p k).startOffset -
                     ((token ct p (k + 1)).startOffset + (token ct p (k + 1)).length))) },
              r.2) := by
  have a0 := LookAhead_ahead h 0
  have a1 := Match_ahead a0.2 hh (by decide)
  have a2 := LookAhead_ahead a1.2 0
  have a3 := Expect_ahead a2.2 hi (by decide) (wstr "Expected directive identifier.")
  have hq : Ahead ct p (k + 2)
      (Expect ct (LookAhead ct (Match ct (LookAhead ct q 0).2 TokenType.Hash).2 0).2
        TokenType.Identifier (wstr "Expected directive identifier.")).2 := a3.2
  have hdoc := a3.2.2.1
  have harg : ∀ (content : WString) (start stop : Nat),
      (if start ≥ stop then [] else Trim ct (Lexer.substr content start (stop - start))) =
        Trim ct (Lexer.substr content start (stop - start)) := by
    intro content start stop
    split
    · rename_i hge
      have : stop - start = 0 := by omega
      rw [this]
      simp [Lexer.substr, Trim_nil]
    · rfl
  refine Exists.intro _ (And.intro hq ?_)
  simp only [ParseDirective, a3.1, Bool.true_eq_false, if_false, a0.1, a2.1, Nat.add_zero, hdoc,
    ExtractDirectiveArgument, harg]

end Parser
namespace Parser

/-- C18, amended: at top level, when the tokens at the cursor are `#` and an
identifier and the token after them is not `{`, the turn of the loop of `Parse`
appends one directive: its name is the lexeme of the identifier, its location
is the one of `#`, and its argument is the text of the content from the end of
the identifier to `lineEnd`, the first `\n` at or after `#` or else the end of the
content, trimmed (the empty text when the identifier ends at `lineEnd` or after
it). The turn ends `j` tokens after `#`, at the first token after the
identifier that starts at `lineEnd` or after it; the `EndOfFile` token, which
starts at the end of the content, is such a token. No diagnostic is appended. -/
theorem C18_directive_runs_to_the_line_end (ct : CType) (fuel : Nat) (document : ThemeDocument)
    (p : Parser) (hv : Valid ct p) (h0 : (token ct p 0).type = TokenType.Hash)
    (h1 : (token ct p 1).type = TokenType.Identifier)
    (h2 : (token ct p 2).type ≠ TokenType.LBrace)
    (hfuel : p.m_document.content.length + 2 ≤ fuel) :
    ∃ directive q j,
      parseStep ct fuel document p =
        some (LoopStep.again
          { document with directives := document.directives ++ [directive] } q) ∧
      directive.name = (token ct p 1).lexeme ∧
      directive.location = (token ct p 0).location ∧
      directive.argument =
        Trim ct (Lexer.substr p.m_document.content
          ((token ct p 1).startOffset + (token ct p 1).length)
          (findLineEnd p.m_document.content (token ct p 0).startOffset -
            ((token ct p 1).startOffset + (token ct p 1).length))) ∧
      2 ≤ j ∧ Ahead ct p j q ∧
      (∀ i, 2 ≤ i → i < j →
        (token ct p i).startOffset <
          findLineEnd p.m_document.content (token ct p 0).startOffset) ∧
      findLineEnd p.m_document.content (token ct p 0).startOffset ≤
        (token ct p j).startOffset := by
  have a0 := IsAtEnd_ahead (Ahead.zero hv)
  have hend := IsAtEnd_ahead_false (Ahead.zero hv) (by rw [h0]; decide)
  have a1 := LookAhead_ahead a0.2 0
  have ht : (LookAhead ct (IsAtEnd ct p).2 0).1.type = TokenType.Hash := by
    rw [a1.1, Nat.add_zero, h0]
  have a2 := startsComponent_ahead a1.2
  have hs : (startsComponent ct (LookAhead ct (IsAtEnd ct p).2 0).2).1 = false := by
    rw [a2.1]
    simp [h2]
  obtain ⟨q1, hq1, he⟩ := ParseDirective_at a2.2 h0 h1 fuel
  simp only [Nat.zero_add] at he hq1
  have hrem : remaining (startsComponent ct (LookAhead ct (IsAtEnd ct p).2 0).2).2 < fuel := by
    have : (startsComponent ct (LookAhead ct (IsAtEnd ct p).2 0).2).2.m_document =
        p.m_document := a2.2.2.1
    simp only [remaining, this]
    omega
  obtain ⟨r, hr⟩ := ParseDirective_total fuel a2.2.1 hrem
  rw [he, Option.map_eq_some'] at hr
  obtain ⟨r0, hloop, _⟩ := hr
  obtain ⟨j, hj, hahead, hbefore, hat⟩ := runLoop_directive _ fuel 2 q1 r0 hq1 hloop
  have hstep : parseStep ct fuel document p =
      some (LoopStep.again
        { document with
          directives := document.directives ++
            [{ name := (token ct p 1).lexeme
               location := (token ct p 0).location
               argument :=
                 Trim ct (Lexer.substr p.m_document.content
                   ((token ct p 1).startOffset + (token ct p 1).length)
                   (findLineEnd p.m_document.content (token ct p 0).startOffset -
                     ((token ct p 1).startOffset + (token ct p 1).length))) }] }
        r0.2) := by
    simp only [parseStep, hend, Bool.false_eq_true, if_false, if_pos ht, hs, he, hloop,
      Option.map_some']
  refine ⟨_, r0.2, j, hstep, rfl, rfl, rfl, hj, hahead, ?_, ?_⟩
  · intro i hi hij
    exact (hbefore i hi hij).2
  · rcases hat with heof | hle
    · have hd : (token ct p j).startOffset = p.m_document.content.length :=
        nthToken_EndOfFile_startOffset ct p.m_document (p.m_cursor + j) heof
      have hl := findLineEnd_le p.m_document.content (token ct p 0).startOffset
      omega
    · exact hle

set_option maxRecDepth 100000 in
/-- C18 on the document of the lines `#define x y // c` and `#A {}`: the directive
`define` has the argument `x y // c`, and the parser goes on at token number
`4`, the `#` of the second line. -/
theorem C18_directive_runs_to_the_line_end_witness :
    (∃ directive q j,
      parseStep CType.ascii 30 ThemeDocument.empty
          (Parser.new (documentOf "#define x y // c\n#A \x7b\x7d") []) =
        some (LoopStep.again
          { ThemeDocument.empty with
            directives := ThemeDocument.empty.directives ++ [directive] } q) ∧
      directive.name =
        (token CType.ascii (Parser.new (documentOf "#define x y // c\n#A \x7b\x7d") []) 1).lexeme ∧
      directive.location =
        (token CType.ascii (Parser.new (documentOf "#define x y // c\n#A \x7b\x7d") []) 0).location ∧
      directive.argument =
        Trim CType.ascii (Lexer.substr
          (Parser.new (documentOf "#define x y // c\n#A \x7b\x7d") []).m_document.content
          ((token CType.ascii
              (Parser.new (documentOf "#define x y // c\n#A \x7b\x7d") []) 1).startOffset +
            (token CType.ascii (Parser.new (documentOf "#define x y // c\n#A \x7b\x7d") []) 1).length)
          (findLineEnd (Parser.new (documentOf "#define x y // c\n#A \x7b\x7d") []).m_document.content
              (token CType.ascii
                (Parser.new (documentOf "#define x y // c\n#A \x7b\x7d") []) 0).startOffset -
            ((token CType.ascii
                (Parser.new (documentOf "#define x y // c\n#A \x7b\x7d") []) 1).startOffset +
              (token CType.ascii
                (Parser.new (documentOf "#define x y // c\n#A \x7b\x7d") []) 1).length))) ∧
      2 ≤ j ∧ Ahead CType.ascii (Parser.new (documentOf "#define x y // c\n#A \x7b\x7d") []) j q ∧
      (∀ i, 2 ≤ i → i < j →
        (token CType.ascii
            (Parser.new (documentOf "#define x y // c\n#A \x7b\x7d") []) i).startOffset <
          findLineEnd (Parser.new (documentOf "#define x y // c\n#A \x7b\x7d") []).m_document.content
            (token CType.ascii
              (Parser.new (documentOf "#define x y // c\n#A \x7b\x7d") []) 0).startOffset) ∧
      findLineEnd (Parser.new (documentOf "#define x y // c\n#A \x7b\x7d") []).m_document.content
          (token CType.ascii
            (Parser.new (documentOf "#define x y // c\n#A \x7b\x7d") []) 0).startOffset ≤
        (token CType.ascii
          (Parser.new (documentOf "#define x y // c\n#A \x7b\x7d") []) j).startOffset) ∧
    ∃ s, parseStep CType.ascii 30 ThemeDocument.empty
        (Parser.new (documentOf "#define x y // c\n#A \x7b\x7d") []) = some s ∧
      s.acc.directives.map (fun directive => (directive.name, directive.argument)) =
        [(wstr "define", wstr "x y // c")] ∧
      s.parser.m_cursor = 4 ∧ s.parser.m_diagnostics = [] :=
  ⟨C18_directive_runs_to_the_line_end CType.ascii 30 ThemeDocument.empty
      (Parser.new (documentOf "#define x y // c\n#A \x7b\x7d") []) (valid_new _ _ _)
      (by decide) (by decide) (by decide) (by decide),
    (parseStep CType.ascii 30 ThemeDocument.empty
      (Parser.new (documentOf "#define x y // c\n#A \x7b\x7d") [])).get (by decide),
    (Option.some_get _).symm, by decide, by decide, by decide⟩

set_option maxRecDepth 100000 in
/-- C18 as stated fails: in the document of the lines `#` and `foo bar` the `#` is
followed by the identifier `foo`, which is not followed by `{`. The line of `#`
ends at offset `1`, and the first token that starts at this offset or after it
is `foo`, token number `1`, at offset `2`; the parser takes `foo` for the name
of the directive and goes on at token number `2`, `bar`. -/
theorem C18_counterexample :
    ∃ s, parseStep CType.ascii 20 ThemeDocument.empty
        (Parser.new (documentOf "#\nfoo bar") []) = some s ∧
      (token CType.ascii (Parser.new (documentOf "#\nfoo bar") []) 0).type = TokenType.Hash ∧
      (token CType.ascii (Parser.new (documentOf "#\nfoo bar") []) 1).type =
        TokenType.Identifier ∧
      (token CType.ascii (Parser.new (documentOf "#\nfoo bar") []) 2).type ≠ TokenType.LBrace ∧
      s.acc.directives.map (fun directive => (directive.name, directive.argument)) =
        [(wstr "foo", [])] ∧
      findLineEnd (documentOf "#\nfoo bar").content
        (token CType.ascii (Parser.new (documentOf "#\nfoo bar") []) 0).startOffset = 1 ∧
      (token CType.ascii (Parser.new (documentOf "#\nfoo bar") []) 0).startOffset = 0 ∧
      (token CType.ascii (Parser.new (documentOf "#\nfoo bar") []) 1).startOffset = 2 ∧
      s.parser.m_cursor = 2 ∧
      (token CType.ascii (Parser.new (documentOf "#\nfoo bar") []) 2).lexeme = wstr "bar" :=
  ⟨(parseStep CType.ascii 20 ThemeDocument.empty
      (Parser.new (documentOf "#\nfoo bar") [])).get (by decide),
    (Option.some_get _).symm, by decide, by decide, by decide, by decide, by decide, by decide,
    by decide, by decide, by decide⟩

end Parser

/-! ## C23: a load reports its outcome once -/

/-- What `loadNormalized` does to the diagnostics and to the output document: nothing
is appended on success; on failure one `Error` is appended and the output
document is untouched. -/
theorem loadNormalized_reports (ct : CType) (P : Platform) (w : World) (fuel : Nat)
    (sm : SourceManager) (normalized : WString) (out : SourceDocument) (ds : List Diagnostic)
    (r : Bool × SourceDocument × List Diagnostic × SourceManager) (hn : normalized ≠ [])
    (h : loadNormalized ct P w fuel sm normalized out ds = some r) :
    (r.1 = true → r.2.2.1 = ds) ∧
      (r.1 = false → r.2.1 = out ∧ ∃ d, r.2.2.1 = ds ++ [d] ∧
        d.severity = DiagnosticSeverity.Error ∧ d.location.file ≠ []) := by
  unfold loadNormalized at h
  split at h
  · cases h
  · rename_i loaded hl
    cases h
    have hf := LoadDocumentRecursive_frame ct P w fuel normalized out ⟨sm, ⟨[]⟩, ds⟩ loaded hn hl
    refine ⟨fun hok => hf.2.2.2.2.1 hok, fun hko => ⟨?_, hf.2.2.2.2.2 hko⟩⟩
    have hko1 : loaded.1 = false := hko
    simp only [hko1, Bool.false_eq_true, if_false]
    exact LoadDocumentRecursive_failure_document ct P w fuel normalized out _ loaded hl hko1

/-- With fuel above the number of files of the disk, `loadNormalized` returns. -/
theorem loadNormalized_total (ct : CType) (P : Platform) (w : World)
    (files : Finset WString) (hfiles : ∀ p, (w p).isSome = true → ToLookupKey ct p ∈ files)
    (fuel : Nat) (hfuel : files.card + 1 ≤ fuel)
    (sm : SourceManager) (normalized : WString) (out : SourceDocument) (ds : List Diagnostic) :
    ∃ r, loadNormalized ct P w fuel sm normalized out ds = some r := by
  obtain ⟨r, hr⟩ := LoadDocumentRecursive_total ct P w files hfiles fuel normalized out
    ⟨sm, ⟨[]⟩, ds⟩ (by rw [idleFiles_nil]; exact hfuel)
  unfold loadNormalized
  rw [hr]
  exact ⟨_, rfl⟩

/-- C23. A call of `LoadStructuredDocument` reports its outcome once. Whenever it
returns, with whatever fuel: on success the diagnostics are those passed in,
none appended; on failure they are those passed in followed by exactly one
diagnostic, an `Error`, and the output document is the one passed in (the first
failure ends the load). And the call does return: when every file that can be
opened has its key in the finite set `files`, it returns for every fuel above
the number of `files`. -/
theorem C23_load_reports_its_outcome_once (ct : CType) (P : Platform) (w : World)
    (sm : SourceManager) (entryFile : WString) (out : SourceDocument) (ds : List Diagnostic) :
    (∀ fuel r, LoadStructuredDocument ct P w fuel sm entryFile out ds = some r →
      (r.1 = true → r.2.2.1 = ds) ∧
      (r.1 = false → r.2.1 = out ∧
        ∃ d, r.2.2.1 = ds ++ [d] ∧ d.severity = DiagnosticSeverity.Error)) ∧
    ∀ files : Finset WString, (∀ p, (w p).isSome = true → ToLookupKey ct p ∈ files) →
      ∀ fuel, files.card + 1 ≤ fuel →
        ∃ r, LoadStructuredDocument ct P w fuel sm entryFile out ds = some r := by
  constructor
  · intro fuel r h
    unfold LoadStructuredDocument at h
    dsimp only at h
    split at h
    · cases h
      exact ⟨fun h => by simp at h, fun _ => ⟨rfl, _, rfl, rfl⟩⟩
    · rename_i hn
      have hne : NormalizePath P (structuredEntryPath P sm entryFile) ≠ [] :=
        NormalizePath_ne_nil (by simpa using hn)
      have := loadNormalized_reports ct P w fuel sm _ out ds r hne h
      refine ⟨this.1, fun hko => ?_⟩
      obtain ⟨h1, d, h2, h3, _⟩ := this.2 hko
      exact ⟨h1, d, h2, h3⟩
  · intro files hfiles fuel hfuel
    unfold LoadStructuredDocument
    dsimp only
    split
    · exact ⟨_, rfl⟩
    · exact loadNormalized_total ct P w files hfiles fuel hfuel sm _ out ds

/-- A file of a disk given by a list is in the list, so its key is one of the keys
of the list. -/
theorem World.ofFiles_keys (ct : CType) (files : List (String × String)) (p : WString)
    (h : (World.ofFiles files p).isSome = true) :
    ToLookupKey ct p ∈ (files.map (fun f => ToLookupKey ct (wstr f.1))).toFinset := by
  unfold World.ofFiles at h
  rw [Option.isSome_map', List.find?_isSome] at h
  obtain ⟨f, hf, he⟩ := h
  have hp : wstr f.1 = p := by simpa using he
  rw [List.mem_toFinset, List.mem_map]
  exact ⟨f, hf, by rw [hp]⟩

/-- C23 on the disk of the examples, with fuel `8` for its seven files: the load of
`main.lsx` returns success and appends no diagnostic, and the load of `self.lsx`,
which includes itself, returns failure and appends one diagnostic. -/
theorem C23_load_reports_its_outcome_once_witness :
    (∃ r, LoadStructuredDocument CType.ascii Platform.plain exampleWorld 8 (SourceManager.new [])
        (wstr "main.lsx") SourceDocument.empty [] = some r) ∧
    (∃ r, LoadStructuredDocument CType.ascii Platform.plain exampleWorld 8 (SourceManager.new [])
        (wstr "main.lsx") SourceDocument.empty [] = some r ∧ r.1 = true ∧ r.2.2.1 = []) ∧
    ∃ r, LoadStructuredDocument CType.ascii Platform.plain exampleWorld 8 (SourceManager.new [])
        (wstr "self.lsx") SourceDocument.empty [] = some r ∧ r.1 = false ∧
      r.2.1 = SourceDocument.empty ∧
      ∃ d, r.2.2.1 = [] ++ [d] ∧ d.severity = DiagnosticSeverity.Error :=
  ⟨(C23_load_reports_its_outcome_once CType.ascii Platform.plain exampleWorld
      (SourceManager.new []) (wstr "main.lsx") SourceDocument.empty []).2 _
      (World.ofFiles_keys CType.ascii _) 8 (by decide),
    ⟨(LoadStructuredDocument CType.ascii Platform.plain exampleWorld 8 (SourceManager.new [])
        (wstr "main.lsx") SourceDocument.empty []).get (by decide),
      (Option.some_get _).symm, by decide,
      ((C23_load_reports_its_outcome_once CType.ascii Platform.plain exampleWorld
        (SourceManager.new []) (wstr "main.lsx") SourceDocument.empty []).1 8 _
        (Option.some_get _).symm).1 (by decide)⟩,
    (LoadStructuredDocument CType.ascii Platform.plain exampleWorld 8 (SourceManager.new [])
      (wstr "self.lsx") SourceDocument.empty []).get (by decide),
    (Option.some_get _).symm, by decide,
    ((C23_load_reports_its_outcome_once CType.ascii Platform.plain exampleWorld
      (SourceManager.new []) (wstr "self.lsx") SourceDocument.empty []).1 8 _
      (Option.some_get _).symm).2 (by decide)⟩

/-! ## C24: the splice of an included document -/

/-- C24. Let a call of `AppendInclude` return success. Then the loader was called on
the normalized include path with an empty document and returned success with a
document `included`, and the output document is the one passed in with the
content of `included` appended unchanged to its content, and with the segments
of `included` appended to its segments in their order, each with the same
`filePath` and `lineStart` and with `startOffset` increased by the length that
the content had before the call. The content and the segments that were there
are a prefix of the new ones, and `primaryFile` is unchanged. -/
theorem C24_AppendInclude_splices_the_included_document (load : Loader) (ct : CType)
    (P : Platform) (requestingPath includeToken : WString) (outDocument : SourceDocument)
    (st : LoadState) (r : Bool × SourceDocument × LoadState)
    (h : AppendInclude load ct P requestingPath includeToken outDocument st = some r)
    (hok : r.1 = true) :
    ∃ included,
      load (NormalizePath P (resolveInclude P requestingPath (includePathOf ct P includeToken)))
        SourceDocument.empty st = some (true, included, r.2.2) ∧
      r.2.1.content = outDocument.content ++ included.content ∧
      r.2.1.segments = outDocument.segments ++ included.segments.map
        (fun segment => ⟨segment.filePath, segment.startOffset + outDocument.content.length,
          segment.lineStart⟩) ∧
      r.2.1.primaryFile = outDocument.primaryFile ∧
      r.2.1.content.take outDocument.content.length = outDocument.content ∧
      r.2.1.segments.take outDocument.segments.length = outDocument.segments := by
  unfold AppendInclude at h
  dsimp only at h
  split at h
  · cases h; cases hok
  · split at h
    · cases h; cases hok
    · split at h
      · cases h
      · rename_i loaded hl
        split at h
        · cases h; cases hok
        · rename_i hc
          cases h
          have h1 : loaded.1 = true := by simpa using hc
          refine ⟨loaded.2.1, ?_, rfl, rfl, rfl, ?_, ?_⟩
          · rw [hl, ← h1]
          · simp
          · simp

/-- C24 on the disk of the examples: the include of `part.lsx` after the content
`ab` in one segment appends the text of `part.lsx` and its segment, moved by
two characters. -/
theorem C24_AppendInclude_splices_the_included_document_witness :
    ∃ r, AppendInclude (LoadDocumentRecursive CType.ascii Platform.plain exampleWorld 2)
        CType.ascii Platform.plain (wstr "main.lsx") (wstr " part.lsx")
        ⟨wstr "main.lsx", wstr "ab", [⟨wstr "main.lsx", 0, 1⟩], []⟩
        ⟨SourceManager.new [], ⟨[]⟩, []⟩ = some r ∧ r.1 = true ∧
      r.2.1.content = wstr "ab#Child \x7b\x7d\n // c" ∧
      r.2.1.segments = [⟨wstr "main.lsx", 0, 1⟩, ⟨wstr "part.lsx", 2, 1⟩] ∧
      ∃ included : SourceDocument,
        r.2.1.content = wstr "ab" ++ included.content ∧
        r.2.1.segments = [⟨wstr "main.lsx", 0, 1⟩] ++ included.segments.map
          (fun segment => ⟨segment.filePath, segment.startOffset + 2, segment.lineStart⟩) :=
  ⟨(AppendInclude (LoadDocumentRecursive CType.ascii Platform.plain exampleWorld 2)
        CType.ascii Platform.plain (wstr "main.lsx") (wstr " part.lsx")
        ⟨wstr "main.lsx", wstr "ab", [⟨wstr "main.lsx", 0, 1⟩], []⟩
        ⟨SourceManager.new [], ⟨[]⟩, []⟩).get (by decide),
    (Option.some_get _).symm, by decide, by decide, by decide,
    (C24_AppendInclude_splices_the_included_document
      (LoadDocumentRecursive CType.ascii Platform.plain exampleWorld 2) CType.ascii Platform.plain
      (wstr "main.lsx") (wstr " part.lsx")
      ⟨wstr "main.lsx", wstr "ab", [⟨wstr "main.lsx", 0, 1⟩], []⟩
      ⟨SourceManager.new [], ⟨[]⟩, []⟩ _ (Option.some_get _).symm (by decide)).imp
      (fun _ h => ⟨h.2.1, h.2.2.1⟩)⟩

/-! ## C25: an empty file, and no empty segment list -/

/-- The read of an empty file succeeds with no text. -/
theorem LoadDocumentFromDisk_empty (P : Platform) (w : World) (path : WString)
    (h : w path = some (FileHandle.ofBytes [])) :
    LoadDocumentFromDisk P w path [] = (true, [], []) := by
  unfold LoadDocumentFromDisk
  rw [h]
  simp [FileHandle.ofBytes]

theorem scanLines_nil_text (fuel index : Nat) : scanLines [] fuel index = [] := by
  cases fuel <;> simp [scanLines]

/-- C25. On a source manager whose cached documents have their segment lists in
order (a new source manager has none), no successful load through
`LoadStructuredDocument` or `LoadStyleDocument` returns a document with an empty
segment list. And the load of an empty file succeeds with empty content and
exactly one segment, of that file, at offset `0` and line `1`: when the entry
path has the full path `normalized`, whose canonical form `canonical` is not
empty, the file `canonical` of the disk is empty and no document is cached for
it, `LoadStructuredDocument` returns success with a document whose `primaryFile`
is `normalized`, whose content is empty and whose segment list is the one
segment `{ canonical, 0, 1 }`, and appends no diagnostic. -/
theorem C25_empty_file_has_one_segment (ct : CType) (P : Platform) (w : World)
    (sm : SourceManager) (hcache : ∀ entry ∈ sm.m_cache, SegmentsOK entry.2) :
    (∀ fuel entryFile out ds r,
      (LoadStructuredDocument ct P w fuel sm entryFile out ds = some r ∨
        LoadStyleDocument ct P w fuel sm entryFile out ds = some r) →
      r.1 = true → r.2.1.segments ≠ []) ∧
    ∀ fuel entryFile out ds,
      NormalizePath P (NormalizePath P (structuredEntryPath P sm entryFile)) ≠ [] →
      cacheFind sm.m_cache (ToLookupKey ct
        (NormalizePath P (NormalizePath P (structuredEntryPath P sm entryFile)))) = none →
      w (NormalizePath P (NormalizePath P (structuredEntryPath P sm entryFile))) =
        some (FileHandle.ofBytes []) →
      ∃ r, LoadStructuredDocument ct P w (fuel + 1) sm entryFile out ds = some r ∧
        r.1 = true ∧ r.2.1.primaryFile = NormalizePath P (structuredEntryPath P sm entryFile) ∧
        r.2.1.content = [] ∧
        r.2.1.segments =
          [⟨NormalizePath P (NormalizePath P (structuredEntryPath P sm entryFile)), 0, 1⟩] ∧
        r.2.2.1 = ds := by
  refine ⟨?_, ?_⟩
  · intro fuel entryFile out ds r h hok
    rcases h with h | h
    · exact (LoadStructuredDocument_segments ct P w fuel sm entryFile out ds r hcache h hok).1
    · exact (LoadStyleDocument_segments ct P w fuel sm entryFile out ds r hcache h hok).1
  · intro fuel entryFile out ds hcanon hnone hfile
    have hn : NormalizePath P (structuredEntryPath P sm entryFile) ≠ [] := by
      intro e
      rw [e] at hcanon
      exact hcanon (by simp [NormalizePath])
    obtain ⟨document, hl, hc, hs⟩ := LoadDocumentRecursive_plain ct P w fuel
      (NormalizePath P (structuredEntryPath P sm entryFile)) out ⟨sm, ⟨[]⟩, ds⟩ []
      hcanon hnone (by simp) (LoadDocumentFromDisk_empty P w _ hfile)
      (by simp [scanLines_nil_text])
    unfold LoadStructuredDocument
    dsimp only
    rw [isEmpty_false_of_ne_nil hn]
    simp only [Bool.false_eq_true, if_false]
    unfold loadNormalized
    rw [hl]
    have hc1 : document.content = [] := by rw [hc]; rfl
    exact ⟨_, rfl, rfl, rfl, hc1, hs, rfl⟩

/-- C25 on the disk of the examples, with a new source manager: the load of
`empty.lsx` succeeds with empty content and the one segment of `empty.lsx` at
offset `0` and line `1`, and the successful load of `main.lsx` returns a segment
list that is not empty. -/
theorem C25_empty_file_has_one_segment_witness :
    (∃ r, LoadStructuredDocument CType.ascii Platform.plain exampleWorld 1 (SourceManager.new [])
        (wstr "empty.lsx") SourceDocument.empty [] = some r ∧
      r.1 = true ∧ r.2.1.primaryFile = wstr "empty.lsx" ∧ r.2.1.content = [] ∧
      r.2.1.segments = [⟨wstr "empty.lsx", 0, 1⟩] ∧ r.2.2.1 = []) ∧
    ∃ r, LoadStructuredDocument CType.ascii Platform.plain exampleWorld 3 (SourceManager.new [])
        (wstr "main.lsx") SourceDocument.empty [] = some r ∧ r.1 = true ∧
      r.2.1.segments ≠ [] :=
  ⟨(C25_empty_file_has_one_segment CType.ascii Platform.plain exampleWorld (SourceManager.new [])
      (by simp [SourceManager.new])).2 0 (wstr "empty.lsx") SourceDocument.empty []
      (by decide) (by decide) (by decide),
    (LoadStructuredDocument CType.ascii Platform.plain exampleWorld 3 (SourceManager.new [])
      (wstr "main.lsx") SourceDocument.empty []).get (by decide),
    (Option.some_get _).symm, by decide,
    (C25_empty_file_has_one_segment CType.ascii Platform.plain exampleWorld (SourceManager.new [])
      (by simp [SourceManager.new])).1 3 (wstr "main.lsx") SourceDocument.empty [] _
      (Or.inl (Option.some_get _).symm) (by decide)⟩

/-! ## C21: the two entry points -/

theorem styleEntryPath_eq (P : Platform) (sm : SourceManager) (entryFile : WString)
    (hname : entryFile ≠ []) :
    styleEntryPath P sm entryFile = structuredEntryPath P sm entryFile := by
  unfold styleEntryPath structuredEntryPath
  simp only [isEmpty_false_of_ne_nil hname, Bool.false_eq_true, if_false]

/-- C21, amended. For an entry file name that is not empty, `LoadStructuredDocument`
and `LoadStyleDocument` compute the same entry path. When that path has a full
path, the two calls are equal: the same success flag, document, diagnostics and
source manager, or both out of fuel. When it has none, both return failure with
the output document and the source manager untouched and one `Error` appended,
but the diagnostics differ: `Unable to resolve theme entry file path.` at the
entry path for the one, `Unable to resolve style file path.` at the name as
given for the other. In every case the success flags, the documents, the
severities of the diagnostics and the source managers are the same. -/
theorem C21_entry_points_agree_for_a_given_name (ct : CType) (P : Platform) (w : World)
    (fuel : Nat) (sm : SourceManager) (entryFile : WString) (out : SourceDocument)
    (ds : List Diagnostic) (hname : entryFile ≠ []) :
    (NormalizePath P (structuredEntryPath P sm entryFile) ≠ [] →
      LoadStyleDocument ct P w fuel sm entryFile out ds =
        LoadStructuredDocument ct P w fuel sm entryFile out ds) ∧
    (NormalizePath P (structuredEntryPath P sm entryFile) = [] →
      LoadStructuredDocument ct P w fuel sm entryFile out ds =
          some (false, out,
            ds ++ [⟨DiagnosticSeverity.Error, wstr "Unable to resolve theme entry file path.",
              ⟨structuredEntryPath P sm entryFile, 0, 0⟩⟩], sm) ∧
        LoadStyleDocument ct P w fuel sm entryFile out ds =
          some (false, out,
            ds ++ [⟨DiagnosticSeverity.Error, wstr "Unable to resolve style file path.",
              ⟨entryFile, 0, 0⟩⟩], sm)) ∧
    (LoadStyleDocument ct P w fuel sm entryFile out ds).map
        (fun r => (r.1, r.2.1, r.2.2.1.map (fun d => d.severity), r.2.2.2)) =
      (LoadStructuredDocument ct P w fuel sm entryFile out ds).map
        (fun r => (r.1, r.2.1, r.2.2.1.map (fun d => d.severity), r.2.2.2)) := by
  have hpath := styleEntryPath_eq P sm entryFile hname
  have hyes : NormalizePath P (structuredEntryPath P sm entryFile) ≠ [] →
      LoadStyleDocument ct P w fuel sm entryFile out ds =
        LoadStructuredDocument ct P w fuel sm entryFile out ds := by
    intro hn
    unfold LoadStyleDocument LoadStructuredDocument
    dsimp only
    rw [hpath, isEmpty_false_of_ne_nil hn]
    simp only [Bool.false_eq_true, if_false]
  have hno : NormalizePath P (structuredEntryPath P sm entryFile) = [] →
      LoadStructuredDocument ct P w fuel sm entryFile out ds =
          some (false, out,
            ds ++ [⟨DiagnosticSeverity.Error, wstr "Unable to resolve theme entry file path.",
              ⟨structuredEntryPath P sm entryFile, 0, 0⟩⟩], sm) ∧
        LoadStyleDocument ct P w fuel sm entryFile out ds =
          some (false, out,
            ds ++ [⟨DiagnosticSeverity.Error, wstr "Unable to resolve style file path.",
              ⟨entryFile, 0, 0⟩⟩], sm) := by
    intro hn
    unfold LoadStyleDocument LoadStructuredDocument
    dsimp only
    rw [hpath, hn]
    simp only [List.isEmpty_nil, if_true, AppendDiagnostic, and_self]
  refine ⟨hyes, hno, ?_⟩
  by_cases hn : NormalizePath P (structuredEntryPath P sm entryFile) = []
  · rw [(hno hn).1, (hno hn).2]
    simp
  · rw [hyes hn]

/-- C21 at a concrete input: for the name `main.lsx` on the disk of the examples the
two calls are equal, and they succeed. -/
theorem C21_entry_points_agree_for_a_given_name_witness :
    LoadStyleDocument CType.ascii Platform.plain exampleWorld 3 (SourceManager.new [])
        (wstr "main.lsx") SourceDocument.empty [] =
      LoadStructuredDocument CType.ascii Platform.plain exampleWorld 3 (SourceManager.new [])
        (wstr "main.lsx") SourceDocument.empty [] ∧
    (LoadStructuredDocument CType.ascii Platform.plain exampleWorld 3 (SourceManager.new [])
        (wstr "main.lsx") SourceDocument.empty []).map (fun r => r.1) = some true :=
  ⟨(C21_entry_points_agree_for_a_given_name CType.ascii Platform.plain exampleWorld 3
      (SourceManager.new []) (wstr "main.lsx") SourceDocument.empty [] (by decide)).1 (by decide),
    by decide⟩

/-- The claim C21 as stated fails for the empty name: on a disk that holds
`theme.lsx`, `LoadStructuredDocument` loads that file, with success and no
diagnostic, and `LoadStyleDocument` fails with the diagnostic
`Unable to resolve style file path.` for an empty file name. -/
theorem C21_counterexample :
    (LoadStructuredDocument CType.ascii Platform.plain
        (World.ofFiles [("theme.lsx", "#A \x7b\x7d")]) 1 (SourceManager.new [])
        [] SourceDocument.empty []).map (fun r => (r.1, r.2.1.content, r.2.2.1))
      = some (true, wstr "#A \x7b\x7d", []) ∧
    (LoadStyleDocument CType.ascii Platform.plain
        (World.ofFiles [("theme.lsx", "#A \x7b\x7d")]) 1 (SourceManager.new [])
        [] SourceDocument.empty []).map (fun r => (r.1, r.2.1.content, r.2.2.1))
      = some (false, [],
          [⟨DiagnosticSeverity.Error, wstr "Unable to resolve style file path.", ⟨[], 0, 0⟩⟩]) := by
  decide

/-! ## C30: the location of a token from its segment -/

/-- The search of `BuildLocation` over a list that splits at `segment` into segments at
most `offset` and segments beyond `offset` returns `segment`. -/
theorem pickSegment_split (offset : Nat) (before : List SourceDocumentSegment)
    (segment : SourceDocumentSegment) (after : List SourceDocumentSegment)
    (front : SourceDocumentSegment)
    (hb : ∀ x ∈ before, x.startOffset ≤ offset) (hs : segment.startOffset ≤ offset)
    (ha : ∀ x ∈ after, offset < x.startOffset) :
    Lexer.pickSegment offset front (before ++ segment :: after) = segment := by
  induction before generalizing front with
  | nil =>
    simp only [List.nil_append, Lexer.pickSegment, if_pos hs]
    cases after with
    | nil => rfl
    | cons a rest =>
      have := ha a (List.mem_cons_self _ _)
      simp only [Lexer.pickSegment]
      rw [if_neg (by omega)]
  | cons b rest ih =>
    simp only [List.cons_append, Lexer.pickSegment, if_pos (hb b (List.mem_cons_self _ _))]
    exact ih b (fun x hx => hb x (List.mem_cons_of_mem _ hx))

/-- In a list in ascending order, the segments before one that is at most `offset`
are at most `offset`. -/
theorem Ascending.before_le {before after : List SourceDocumentSegment}
    {segment : SourceDocumentSegment} {offset : Nat}
    (h : Ascending (before ++ segment :: after)) (hs : segment.startOffset ≤ offset) :
    ∀ x ∈ before, x.startOffset ≤ offset := by
  intro x hx
  have := (List.pairwise_append.1 h).2.2 x hx segment (List.mem_cons_self _ _)
  omega

/-- Over a list that holds an element where `p` fails, `takeWhile` does not see what
is appended. -/
theorem takeWhile_append_of_stop {α : Type} (p : α → Bool) (front back : List α)
    (h : ∃ c ∈ front, p c = false) : (front ++ back).takeWhile p = front.takeWhile p := by
  induction front with
  | nil => simp at h
  | cons a rest ih =>
    cases ha : p a with
    | false => simp [List.takeWhile, ha]
    | true =>
      obtain ⟨c, hc, hpc⟩ := h
      rcases List.mem_cons.1 hc with rfl | hc
      · rw [ha] at hpc; cases hpc
      · simp [List.takeWhile, ha, ih ⟨c, hc, hpc⟩]

theorem length_takeWhile_le_length {α : Type} (p : α → Bool) (l : List α) :
    (l.takeWhile p).length ≤ l.length := by
  induction l with
  | nil => simp
  | cons a rest ih =>
    simp only [List.takeWhile]
    split
    · simp only [List.length_cons]; omega
    · simp

/-- The second result of the counting loop of `BuildLocation`: the index after the
last `\n` among the `count` characters from `index`, and `lastLineStart` when
there is none. -/
theorem countLines_snd (content : WString) (count index line lastLineStart : Nat)
    (h : index + count ≤ content.length) :
    (Lexer.countLines content count index line lastLineStart).2 =
      if 10 ∈ (content.drop index).take count then
        index + count -
          (((content.drop index).take count).reverse.takeWhile (fun c => c != 10)).length
      else lastLineStart := by
  induction count generalizing index line lastLineStart with
  | zero => simp [Lexer.countLines]
  | succ n ih =>
    rw [Lexer.countLines]
    have hi : index < content.length := by omega
    obtain ⟨c, rest, hc⟩ : ∃ c rest, content.drop index = c :: rest := by
      cases hd : content.drop index with
      | nil =>
        have := congrArg List.length hd
        simp at this
        omega
      | cons c rest => exact ⟨c, rest, rfl⟩
    have hrest : content.drop (index + 1) = rest := by
      rw [← List.drop_drop, hc]
      rfl
    have hlen : (rest.take n).length = n := by
      rw [List.length_take, ← hrest, List.length_drop]
      omega
    have hget : content.getD index 0 = c := by
      have := getD_eq_head_drop content index hi
      rw [hc] at this
      exact (List.cons.inj this).1.symm
    rw [hget, hc]
    simp only [List.take_succ_cons, List.reverse_cons]
    split
    · rename_i h10
      subst h10
      rw [ih (index + 1) (line + 1) (index + 1) (by omega), hrest]
      simp only [List.mem_cons, true_or, if_true]
      by_cases hm : 10 ∈ rest.take n
      · rw [if_pos hm]
        have : ((rest.take n).reverse ++ [10]).takeWhile (fun c => c != 10) =
            (rest.take n).reverse.takeWhile (fun c => c != 10) := by
          exact takeWhile_append_of_stop _ _ _ ⟨10, by simpa using hm, by simp⟩
        rw [this]
        have hle := length_takeWhile_le_length (fun c => c != 10) (rest.take n).reverse
        rw [List.length_reverse, hlen] at hle
        omega
      · rw [if_neg hm]
        have : ((rest.take n).reverse ++ [10]).takeWhile (fun c => c != 10) =
            (rest.take n).reverse := by
          rw [List.takeWhile_append_of_pos]
          · simp
          · intro x hx
            have hx1 : x ∈ rest.take n := by simpa using hx
            have : x ≠ 10 := fun e => hm (e ▸ hx1)
            simpa using this
        rw [this, List.length_reverse, hlen]
        omega
    · rename_i h10
      rw [ih (index + 1) line lastLineStart (by omega), hrest]
      have hmem : (10 ∈ c :: rest.take n) ↔ 10 ∈ rest.take n := by
        simp only [List.mem_cons, or_iff_right_iff_imp]
        intro e
        exact absurd e.symm h10
      by_cases hm : 10 ∈ rest.take n
      · rw [if_pos hm, if_pos (hmem.2 hm)]
        have : ((rest.take n).reverse ++ [c]).takeWhile (fun c => c != 10) =
            (rest.take n).reverse.takeWhile (fun c => c != 10) := by
          exact takeWhile_append_of_stop _ _ _ ⟨10, by simpa using hm, by simp⟩
        rw [this]
        have hle := length_takeWhile_le_length (fun c => c != 10) (rest.take n).reverse
        rw [List.length_reverse, hlen] at hle
        omega
      · rw [if_neg hm, if_neg (fun e => hm (hmem.1 e))]
/-- A token starts within the content or at its end. -/
theorem nthToken_startOffset_le (ct : CType) (document : SourceDocument) (n : Nat) :
    (Lexer.nthToken ct n (Lexer.new document)).startOffset ≤ document.content.length := by
  by_cases h : (Lexer.nthToken ct n (Lexer.new document)).type = TokenType.EndOfFile
  · rw [nthToken_EndOfFile_startOffset ct document n h]
  · exact Nat.le_of_lt (nthToken_startOffset_lt ct document n h)

/-- The location that `BuildLocation` computes for an offset of the content, when the
segment list splits at `segment` into segments at most the offset and segments
beyond it. -/
theorem BuildLocation_of_split (document : SourceDocument) (offset : Nat)
    (before : List SourceDocumentSegment) (segment : SourceDocumentSegment)
    (after : List SourceDocumentSegment)
    (hsplit : document.segments = before ++ segment :: after)
    (hb : ∀ x ∈ before, x.startOffset ≤ offset) (hs : segment.startOffset ≤ offset)
    (ha : ∀ x ∈ after, offset < x.startOffset) (ho : offset ≤ document.content.length) :
    (Lexer.new document).BuildLocation offset =
      ⟨if segment.filePath.isEmpty then document.primaryFile else segment.filePath,
        segment.lineStart +
          ((document.content.drop segment.startOffset).take
            (offset - segment.startOffset)).count 10,
        1 + (((document.content.drop segment.startOffset).take
            (offset - segment.startOffset)).reverse.takeWhile (fun c => c != 10)).length⟩ := by
  have hlim : (if offset < document.content.length then offset else document.content.length)
      = offset := by
    split
    · rfl
    · omega
  have hlen : ((document.content.drop segment.startOffset).take
      (offset - segment.startOffset)).length = offset - segment.startOffset := by
    rw [List.length_take, List.length_drop]
    omega
  have hle := length_takeWhile_le_length (fun c => c != 10)
    ((document.content.drop segment.startOffset).take (offset - segment.startOffset)).reverse
  rw [List.length_reverse, hlen] at hle
  cases hseg : document.segments with
  | nil =>
    rw [hsplit] at hseg
    simp at hseg
  | cons front rest =>
    have hpick : Lexer.pickSegment offset front (front :: rest) = segment := by
      rw [← hseg, hsplit]
      exact pickSegment_split offset before segment after front hb hs ha
    simp only [Lexer.BuildLocation, Lexer.new, hseg, hpick, hlim]
    rw [countLines_fst, countLines_snd _ _ _ _ _ (by omega)]
    congr 1
    split
    · rename_i hm
      rw [if_pos (by omega)]
      omega
    · rename_i hm
      have hall : ((document.content.drop segment.startOffset).take
          (offset - segment.startOffset)).reverse.takeWhile (fun c => c != 10) =
          ((document.content.drop segment.startOffset).take
            (offset - segment.startOffset)).reverse := by
        rw [List.takeWhile_eq_self_iff]
        intro x hx
        have hx1 : x ∈ (document.content.drop segment.startOffset).take
            (offset - segment.startOffset) := by simpa using hx
        have : x ≠ 10 := fun e => hm (e ▸ hx1)
        simpa using this
      rw [hall, List.length_reverse, hlen]
      omega

/-- C30. Let the segment list of a document be in ascending order of `startOffset`,
as the Source Manager keeps it, and let `segment` be the last segment of the
list whose `startOffset` is at most the `startOffset` of token number `n` of the
lexer over the document: the list splits at `segment` and every segment after it
starts beyond the token. Then the location of the token has, for `file`, the
`filePath` of the segment, or `primaryFile` when that is empty; for `line`, the
`lineStart` of the segment plus the number of `\n` among the characters of the
content from the `startOffset` of the segment up to the token; and for `column`,
`1` plus the number of characters between the last such `\n` and the token, which
is the number of all those characters when none is `\n`. -/
theorem C30_token_location_from_last_segment (ct : CType) (document : SourceDocument)
    (n : Nat) (before : List SourceDocumentSegment) (segment : SourceDocumentSegment)
    (after : List SourceDocumentSegment)
    (hasc : Ascending document.segments)
    (hsplit : document.segments = before ++ segment :: after)
    (hs : segment.startOffset ≤ (Lexer.nthToken ct n (Lexer.new document)).startOffset)
    (ha : ∀ x ∈ after, (Lexer.nthToken ct n (Lexer.new document)).startOffset < x.startOffset) :
    (Lexer.nthToken ct n (Lexer.new document)).location.file =
        (if segment.filePath.isEmpty then document.primaryFile else segment.filePath) ∧
      (Lexer.nthToken ct n (Lexer.new document)).location.line =
        segment.lineStart +
          ((document.content.drop segment.startOffset).take
            ((Lexer.nthToken ct n (Lexer.new document)).startOffset
              - segment.startOffset)).count 10 ∧
      (Lexer.nthToken ct n (Lexer.new document)).location.column =
        1 + (((document.content.drop segment.startOffset).take
            ((Lexer.nthToken ct n (Lexer.new document)).startOffset
              - segment.startOffset)).reverse.takeWhile (fun c => c != 10)).length := by
  rw [hsplit] at hasc
  rw [nthToken_location,
    BuildLocation_of_split document _ before segment after hsplit (hasc.before_le hs) hs ha
      (nthToken_startOffset_le ct document n)]
  exact ⟨rfl, rfl, rfl⟩

/-- C30 at a concrete input: a document of two segments, `ab\ncd` of `one.lsx` from line
`1` and `e\n  f` of `two.lsx` from line `7`. Its fourth token `f` starts at
offset `10`; the last segment at most `10` starts at `6`, and the location of the
token is line `8`, column `3` of `two.lsx`. -/
theorem C30_token_location_from_last_segment_witness :
    (Lexer.nthToken CType.ascii 3 (Lexer.new
        ⟨wstr "one.lsx", wstr "ab\ncd\ne\n  f",
          [⟨wstr "one.lsx", 0, 1⟩, ⟨wstr "two.lsx", 6, 7⟩], []⟩)).startOffset = 10 ∧
      (Lexer.nthToken CType.ascii 3 (Lexer.new
        ⟨wstr "one.lsx", wstr "ab\ncd\ne\n  f",
          [⟨wstr "one.lsx", 0, 1⟩, ⟨wstr "two.lsx", 6, 7⟩], []⟩)).location =
        ⟨wstr "two.lsx", 8, 3⟩ ∧
      (Lexer.nthToken CType.ascii 3 (Lexer.new
        ⟨wstr "one.lsx", wstr "ab\ncd\ne\n  f",
          [⟨wstr "one.lsx", 0, 1⟩, ⟨wstr "two.lsx", 6, 7⟩], []⟩)).location.line =
        7 + (((wstr "ab\ncd\ne\n  f").drop 6).take
          ((Lexer.nthToken CType.ascii 3 (Lexer.new
            ⟨wstr "one.lsx", wstr "ab\ncd\ne\n  f",
              [⟨wstr "one.lsx", 0, 1⟩, ⟨wstr "two.lsx", 6, 7⟩], []⟩)).startOffset - 6)).count 10 :=
  ⟨by decide, by decide,
    (C30_token_location_from_last_segment CType.ascii
      ⟨wstr "one.lsx", wstr "ab\ncd\ne\n  f",
        [⟨wstr "one.lsx", 0, 1⟩, ⟨wstr "two.lsx", 6, 7⟩], []⟩ 3
      [⟨wstr "one.lsx", 0, 1⟩] ⟨wstr "two.lsx", 6, 7⟩ [] (by simp [Ascending]) rfl (by decide)
      (by simp)).2.1⟩

/-! ## C22: the result of a load with `Error` diagnostics -/

/-- C22, amended. Let the engine be enabled and have a source manager, let the load of
the structure file succeed, and let the diagnostics after the parse hold at
least one `Error`. Then `LoadStructure` and `Reload` return `S_FALSE`, which is not
`S_OK` and is not a failure either: `FAILED` is false and `SUCCEEDED` is true for
it, and `Reload` logs that the reload completed, not that it failed. The engine
keeps the document that the parser returned as its current document, with the
merged diagnostics. -/
theorem C22_errors_give_S_FALSE_and_keep_the_document (ct : CType) (P : Platform) (w : World)
    (loadFuel parseFuel : Nat) (engine : ThemeEngineV2) (sourceManager : SourceManager)
    (loaded : Bool × SourceDocument × List Diagnostic × SourceManager)
    (parsed : ThemeDocument × Parser)
    (he : engine.m_enabled = true)
    (hs : engine.m_sourceManager = some sourceManager)
    (hl : LoadStructuredDocument ct P w loadFuel sourceManager engine.m_structureFile
      SourceDocument.empty [] = some loaded)
    (hok : loaded.1 = true)
    (hp : Parser.Parse ct parseFuel (Parser.new loaded.2.1 loaded.2.2.1) = some parsed)
    (herr : ∃ d ∈ parsed.2.m_diagnostics, d.severity = DiagnosticSeverity.Error) :
    ∃ engine1,
      engine.LoadStructure ct P w loadFuel parseFuel = some (HRESULT.S_FALSE, engine1) ∧
      engine.Reload ct P w loadFuel parseFuel =
        some (HRESULT.S_FALSE,
          ReloadLog.completed parsed.1.rootNodes.length parsed.1.directives.length, engine1) ∧
      FAILED HRESULT.S_FALSE = false ∧ SUCCEEDED HRESULT.S_FALSE = true ∧
      engine1.m_document = parsed.1 ∧ engine1.m_diagnostics = parsed.2.m_diagnostics ∧
      engine1.m_structureSource = loaded.2.1 := by
  have hany : parsed.2.m_diagnostics.any
      (fun diagnostic => diagnostic.severity == DiagnosticSeverity.Error) = true := by
    obtain ⟨d, hd, hsev⟩ := herr
    rw [List.any_eq_true]
    exact ⟨d, hd, by simp [hsev]⟩
  have hload : engine.LoadStructure ct P w loadFuel parseFuel =
      some (HRESULT.S_FALSE,
        { engine.ClearState with
          m_sourceManager := some loaded.2.2.2
          m_diagnostics := parsed.2.m_diagnostics
          m_structureSource := loaded.2.1
          m_document := parsed.1 }) := by
    simp only [ThemeEngineV2.LoadStructure, hs]
    have hl1 : LoadStructuredDocument ct P w loadFuel sourceManager
        engine.ClearState.m_structureFile SourceDocument.empty [] = some loaded := hl
    simp only [hl1, hok, Bool.not_true, Bool.false_eq_true, if_false, hp, hany, if_true]
  refine ⟨_, hload, ?_, by decide, by decide, rfl, rfl, rfl⟩
  simp only [ThemeEngineV2.Reload, he, Bool.not_true, Bool.false_eq_true, if_false, hload]
  simp [FAILED, HRESULT.value]

/-- C22 at a concrete input: the structure file `theme.lsx` is `x #A {}`, whose first
token is unexpected at top level. The load succeeds, the parse reports an
`Error`, `LoadStructure` returns `S_FALSE` and the engine holds the document of the
parser. -/
theorem C22_errors_give_S_FALSE_and_keep_the_document_witness :
    ∃ loaded parsed,
      LoadStructuredDocument CType.ascii Platform.rooted
        (World.ofFiles [("C:\\theme\\theme.lsx", "x #A \x7b\x7d")]) 1
        (SourceManager.new (wstr "C:\\theme")) (wstr "theme.lsx") SourceDocument.empty []
          = some loaded ∧
      Parser.Parse CType.ascii 9 (Parser.new loaded.2.1 loaded.2.2.1) = some parsed ∧
      ∃ engine1,
        (ThemeEngineV2.ready (wstr "C:\\theme") (wstr "theme.lsx")).LoadStructure CType.ascii
            Platform.rooted (World.ofFiles [("C:\\theme\\theme.lsx", "x #A \x7b\x7d")]) 1 9 =
          some (HRESULT.S_FALSE, engine1) ∧
        engine1.m_document = parsed.1 :=
  ⟨(LoadStructuredDocument CType.ascii Platform.rooted
      (World.ofFiles [("C:\\theme\\theme.lsx", "x #A \x7b\x7d")]) 1
      (SourceManager.new (wstr "C:\\theme")) (wstr "theme.lsx") SourceDocument.empty []).get
        (by decide),
    (Parser.Parse CType.ascii 9 (Parser.new
      ((LoadStructuredDocument CType.ascii Platform.rooted
        (World.ofFiles [("C:\\theme\\theme.lsx", "x #A \x7b\x7d")]) 1
        (SourceManager.new (wstr "C:\\theme")) (wstr "theme.lsx") SourceDocument.empty []).get
          (by decide)).2.1
      ((LoadStructuredDocument CType.ascii Platform.rooted
        (World.ofFiles [("C:\\theme\\theme.lsx", "x #A \x7b\x7d")]) 1
        (SourceManager.new (wstr "C:\\theme")) (wstr "theme.lsx") SourceDocument.empty []).get
          (by decide)).2.2.1)).get (by decide),
    (Option.some_get _).symm, (Option.some_get _).symm,
    (C22_errors_give_S_FALSE_and_keep_the_document CType.ascii Platform.rooted
      (World.ofFiles [("C:\\theme\\theme.lsx", "x #A \x7b\x7d")]) 1 9
      (ThemeEngineV2.ready (wstr "C:\\theme") (wstr "theme.lsx"))
      (SourceManager.new (wstr "C:\\theme")) _ _
      rfl rfl (Option.some_get _).symm (by decide) (Option.some_get _).symm (by decide)).imp
      (fun _ h => ⟨h.1, h.2.2.2.2.1⟩)⟩

/-- The claim C22 as stated fails: with the structure file `x #A {}` the load
succeeds and the diagnostics hold an `Error`, yet the result of `LoadStructure`
and of `Reload` is not a failing one: `FAILED` is false for it, and `Reload` logs
that the reload completed. -/
theorem C22_counterexample :
    ((ThemeEngineV2.ready (wstr "C:\\theme") (wstr "theme.lsx")).LoadStructure CType.ascii
        Platform.rooted (World.ofFiles [("C:\\theme\\theme.lsx", "x #A \x7b\x7d")]) 1 9).map
      (fun r => (r.1, FAILED r.1, r.2.m_diagnostics.map (fun d => d.severity)))
      = some (HRESULT.S_FALSE, false, [DiagnosticSeverity.Error]) ∧
    ((ThemeEngineV2.ready (wstr "C:\\theme") (wstr "theme.lsx")).Reload CType.ascii
        Platform.rooted (World.ofFiles [("C:\\theme\\theme.lsx", "x #A \x7b\x7d")]) 1 9).map
      (fun r => (r.1, FAILED r.1, r.2.1))
      = some (HRESULT.S_FALSE, false, ReloadLog.completed 1 0) := by
  decide

namespace Parser

/-! ## Unexpected tokens at top level and in a component body, on token values -/

theorem Reported.none {ct : CType} {p : Parser} (message : WString) (h : Valid ct p) :
    Reported ct message p 0 p :=
  ⟨h, rfl, rfl, by simp⟩

theorem Reported.more {ct : CType} {message : WString} {p q r : Parser} {k m : Nat}
    (h1 : Reported ct message p k q) (h2 : Reported ct message q m r) :
    Reported ct message p (k + m) r := by
  refine ⟨h2.1, h2.2.1.trans h1.2.1, by rw [h2.2.2.1, h1.2.2.1, Nat.add_assoc], ?_⟩
  rw [h2.2.2.2, h1.2.2.2, List.append_assoc, List.range_add, List.map_append, List.map_map]
  congr 2
  apply List.map_congr_left
  intro i _
  simp only [Function.comp, token, h1.2.1, h1.2.2.1, Nat.add_assoc]

/-- The call `ReportError(token, message)` at the token at the cursor followed by
`Advance()`: one diagnostic more and the cursor one token further. -/
theorem report_and_advance {ct : CType} {p q : Parser} (h : Ahead ct p 0 q)
    (hne : (token ct p 0).type ≠ TokenType.EndOfFile) (message : WString) :
    Reported ct message p 1 (Advance ct (ReportError q (token ct p 0) message)) := by
  have hv : Valid ct (ReportError q (token ct p 0) message) := ReportError_valid h.1 _ _
  have hs : ¬ Sees ct (ReportError q (token ct p 0) message) TokenType.EndOfFile := by
    have := (h.sees TokenType.EndOfFile).not.2 hne
    exact this
  refine ⟨Advance_valid hv, ?_, ?_, ?_⟩
  · simp only [Advance_document]
    exact h.2.1
  · rw [Advance_cursor hv hs]
    show q.m_cursor + 1 = p.m_cursor + 1
    rw [h.2.2.1, Nat.add_zero]
  · rw [Advance_diagnostics]
    show q.m_diagnostics ++ _ = _
    rw [h.2.2.2]
    rfl

theorem Reported.token_at {ct : CType} {message : WString} {p q : Parser} {n : Nat}
    (h : Reported ct message p n q) (k : Nat) : token ct q k = token ct p (n + k) := by
  simp only [token, h.2.1, h.2.2.1, Nat.add_assoc]

theorem strayAtTopLevel_shift {ct : CType} {message : WString} (p q : Parser)
    (h : Reported ct message p 1 q) (k : Nat) (hs : strayAtTopLevel ct p (k + 1)) :
    strayAtTopLevel ct q k := by
  unfold strayAtTopLevel at hs ⊢
  rw [h.token_at, Nat.add_comm 1 k]
  exact hs

/-! ## C27: where an array literal ends -/

/-- A loop that returns was left by a turn, in a state that is later than the one it
was entered in. -/
theorem runLoop_left {α : Type} {ct : CType} {body : α → Parser → Option (LoopStep α)}
    (hbody : ∀ acc p s, Valid ct p → body acc p = some s → Turn ct p s) :
    ∀ fuel acc p r, Valid ct p → runLoop body fuel acc p = some r →
      ∃ acc0 p0, Later ct p p0 ∧ body acc0 p0 = some (LoopStep.leave r.1 r.2) := by
  intro fuel
  induction fuel with
  | zero =>
    intro acc p r _ h
    simp [runLoop] at h
  | succ fuel ih =>
    intro acc p r hv h
    rw [runLoop] at h
    cases hb : body acc p with
    | none => simp [hb] at h
    | some s =>
      have ht := hbody acc p s hv hb
      cases s with
      | leave a q =>
        simp only [hb, Option.some.injEq] at h
        rw [← h]
        exact ⟨acc, p, Later.here hv, hb⟩
      | again a q =>
        simp only [hb] at h
        have hq : Further ct p q := ht
        obtain ⟨acc0, p0, hl, hb0⟩ := ih a q r hq.1 h
        exact ⟨acc0, p0, hq.later.andThen hl, hb0⟩

/-- The turn that leaves the loop of `ParseArrayLiteral`: at the `EndOfFile` token, where
it stays, or at a `]`, which it consumes. -/
theorem arrayStep_leave {ct : CType} {pv : Sub Value} {array a : Value} {p q : Parser}
    (hv : Valid ct p) (h : arrayStep ct pv array p = some (LoopStep.leave a q)) :
    a = array ∧ q.m_document = p.m_document ∧
      ((Sees ct p TokenType.EndOfFile ∧ q.m_cursor = p.m_cursor) ∨
        (Sees ct p TokenType.RBracket ∧ q.m_cursor = p.m_cursor + 1)) := by
  have h1 := IsAtEnd_valid hv
  simp only [arrayStep] at h
  split at h
  · rename_i hend
    simp only [Option.some.injEq, LoopStep.leave.injEq] at h
    obtain ⟨rfl, rfl⟩ := h
    exact ⟨rfl, by simp, Or.inl ⟨(IsAtEnd_iff hv).1 hend, by simp⟩⟩
  · split at h
    · rename_i hc
      simp only [Option.some.injEq, LoopStep.leave.injEq] at h
      obtain ⟨rfl, rfl⟩ := h
      have hs := (Check_iff h1 TokenType.RBracket).1 hc
      have hne : ¬ Sees ct (Check ct (IsAtEnd ct p).2 TokenType.RBracket).2
          TokenType.EndOfFile :=
        fun hs1 => hs.1 ((Sees.congr (by simp) (by simp) _).1 hs1)
      refine ⟨rfl, by simp, Or.inr ⟨(Sees.congr (by simp) (by simp) _).1 hs.2, ?_⟩⟩
      rw [Advance_cursor (Check_valid h1 _) hne]
      simp
    · simp only [Option.map_eq_some'] at h
      obtain ⟨r1, _, hr⟩ := h
      cases hr

/-- A call of `ParseValue` at a token that starts no value and is not `EndOfFile`: the
value is `Null`, the token is reported with `Unexpected token in value expression.`
and skipped. -/
theorem ParseValue_stray {ct : CType} {p : Parser} (hv : Valid ct p) (fuel : Nat)
    (h1 : (token ct p 0).type ≠ TokenType.String) (h2 : (token ct p 0).type ≠ TokenType.Number)
    (h3 : (token ct p 0).type ≠ TokenType.Identifier)
    (h4 : (token ct p 0).type ≠ TokenType.LBrace) (h5 : (token ct p 0).type ≠ TokenType.LBracket)
    (h6 : (token ct p 0).type ≠ TokenType.At) (h7 : (token ct p 0).type ≠ TokenType.EndOfFile) :
    ∃ q, ParseValue ct (fuel + 1) p = some (Value.null, q) ∧
      Reported ct (wstr "Unexpected token in value expression.") p 1 q := by
  have a1 := LookAhead_ahead (Ahead.zero hv) 0
  have e1 : (LookAhead ct p 0).1 = token ct p 0 := a1.1
  refine ⟨_, ?_, report_and_advance a1.2 h7 _⟩
  simp only [ParseValue, e1, if_neg h1, if_neg h2, if_neg h3, if_neg h4, if_neg h5, if_neg h6]

/-- C27, amended. A call of `ParseArrayLiteral` that returns ends at the `EndOfFile`
token or just after a `]` that is at or after the token it was entered at: no
other token ends the array, `#` and `}` included. The loop calls `ParseValue` for
its elements, and at a `}` or a `#` a call of `ParseValue` returns a `Null` value,
appends the diagnostic `Unexpected token in value expression.` at the token and
advances past it. -/
theorem C27_array_ends_at_bracket_or_end_of_input (ct : CType) (fuel : Nat) (p : Parser)
    (hv : Valid ct p) :
    (∀ r, ParseArrayLiteral ct (ParseValue ct fuel) fuel p = some r →
      Valid ct r.2 ∧ r.2.m_document = p.m_document ∧
      (Sees ct r.2 TokenType.EndOfFile ∨
        (p.m_cursor < r.2.m_cursor ∧
          (tokenAt ct p.m_document (r.2.m_cursor - 1)).type = TokenType.RBracket))) ∧
    ((token ct p 0).type = TokenType.RBrace ∨ (token ct p 0).type = TokenType.Hash →
      ∃ q, ParseValue ct (fuel + 1) p = some (Value.null, q) ∧
        Reported ct (wstr "Unexpected token in value expression.") p 1 q) := by
  constructor
  · intro r h
    have hl0 := LookAhead_later hv 0
    have hm := Match_later hl0.1 TokenType.LBracket
    have hstart := hl0.andThen hm
    simp only [ParseArrayLiteral] at h
    have hturn : ∀ (acc : Value) (p : Parser) (s : LoopStep Value), Valid ct p →
        arrayStep ct (ParseValue ct fuel) acc p = some s → Turn ct p s :=
      fun _ _ _ hv h => arrayStep_turn (ParseValue_consumes ct fuel) hv h
    have hlater := runLoop_later hturn fuel _ _ r hm.1 h
    obtain ⟨acc0, p0, hp0, hb⟩ := runLoop_left hturn fuel _ _ r hm.1 h
    obtain ⟨_, hd, hcase⟩ := arrayStep_leave hp0.1 hb
    have hdoc : r.2.m_document = p.m_document := by
      rw [hlater.2.1, hstart.2.1]
    refine ⟨hlater.1, hdoc, ?_⟩
    have hdoc0 : p0.m_document = p.m_document := by rw [hp0.2.1, hstart.2.1]
    rcases hcase with ⟨hs, hc⟩ | ⟨hs, hc⟩
    · exact Or.inl ((Sees.congr hd hc _).2 hs)
    · refine Or.inr ⟨?_, ?_⟩
      · have := hp0.2.2
        have := hstart.2.2
        omega
      · rw [hc, Nat.add_sub_cancel, ← hdoc0]
        exact hs
  · intro ht
    rcases ht with ht | ht
    · exact ParseValue_stray hv fuel (by rw [ht]; decide) (by rw [ht]; decide)
        (by rw [ht]; decide) (by rw [ht]; decide) (by rw [ht]; decide) (by rw [ht]; decide)
        (by rw [ht]; decide)
    · exact ParseValue_stray hv fuel (by rw [ht]; decide) (by rw [ht]; decide)
        (by rw [ht]; decide) (by rw [ht]; decide) (by rw [ht]; decide) (by rw [ht]; decide)
        (by rw [ht]; decide)

/-- C27 at a concrete input: on `[1 2 } #B { }` the call of `ParseArrayLiteral` returns, at
the `EndOfFile` token, with six elements. -/
theorem C27_array_ends_at_bracket_or_end_of_input_witness :
    ∃ r, ParseArrayLiteral CType.ascii (ParseValue CType.ascii 9) 9
        (Parser.new (documentOf "[1 2 \x7d #B \x7b \x7d") []) = some r ∧
      r.1.arrayValues.length = 6 ∧ Sees CType.ascii r.2 TokenType.EndOfFile :=
  ⟨(ParseArrayLiteral CType.ascii (ParseValue CType.ascii 9) 9
      (Parser.new (documentOf "[1 2 \x7d #B \x7b \x7d") [])).get (by decide),
    (Option.some_get _).symm, by decide,
    ((C27_array_ends_at_bracket_or_end_of_input CType.ascii 9
      (Parser.new (documentOf "[1 2 \x7d #B \x7b \x7d") []) (valid_new _ _ _)).1 _
      (Option.some_get _).symm).2.2.resolve_right (by decide)⟩

/-- The claim C27 as stated fails on its own input. In `#A { x=[1 2 } #B { }` the array
of `x` does not stop at `}`: the loop of `ParseArrayLiteral` ends only at `]` or at the end
of the input, so the array takes every token to the end. It has six elements:
the numbers `1` and `2`, a `Null` for `}` and one for `#`, each with the diagnostic
`Unexpected token in value expression.` (columns `13` and `15`), the identifier
`B`, and the object `{ }`. The node `A` is the only root node, and `B` is not
parsed as a node. With the `]` in place, `#A { x=[1 2 ] } #B { }` has the array
of two elements and the two root nodes. -/
theorem C27_counterexample :
    (Parse CType.ascii 20
        (Parser.new (documentOf "#A \x7b x=[1 2 \x7d #B \x7b \x7d") [])).map
      (fun r => r.1.rootNodes.map (fun node => (node.component,
        node.attributes.map (fun a => (a.name, a.value.kind))))) =
      some [(wstr "A", [(wstr "x", ValueKind.Array)])] ∧
    (Parse CType.ascii 20
        (Parser.new (documentOf "#A \x7b x=[1 2 \x7d #B \x7b \x7d") [])).map
      (fun r => r.1.rootNodes.map (fun node =>
        node.attributes.map (fun a => a.value.arrayValues.map (fun v => (v.kind, v.text))))) =
      some [[[(ValueKind.Number, wstr "1"), (ValueKind.Number, wstr "2"),
        (ValueKind.Null, []), (ValueKind.Null, []), (ValueKind.Identifier, wstr "B"),
        (ValueKind.Object, [])]]] ∧
    (Parse CType.ascii 20
        (Parser.new (documentOf "#A \x7b x=[1 2 \x7d #B \x7b \x7d") [])).map
      (fun r => r.2.m_diagnostics.map (fun d => (d.message, d.location.line, d.location.column))) =
      some [(wstr "Unexpected token in value expression.", 1, 13),
        (wstr "Unexpected token in value expression.", 1, 15)] ∧
    (Parse CType.ascii 20
        (Parser.new (documentOf "#A \x7b x=[1 2 ] \x7d #B \x7b \x7d") [])).map
      (fun r => (r.1.rootNodes.map (fun node => node.component), r.2.m_diagnostics.length)) =
      some ([wstr "A", wstr "B"], 0) ∧
    (Parse CType.ascii 20
        (Parser.new (documentOf "#A \x7b x=[1 2 ] \x7d #B \x7b \x7d") [])).map
      (fun r => r.1.rootNodes.map (fun node =>
        node.attributes.map (fun a => a.value.arrayValues.map (fun v => (v.kind, v.text))))) =
      some [[[(ValueKind.Number, wstr "1"), (ValueKind.Number, wstr "2")]], []] := by
  refine ⟨by decide, by decide, by decide, by decide, by decide⟩

/-! ## C29: the argument text of a directive -/

/-- C29 fails. The three inputs are the line `#define x ...` followed by the line
`#A { }` and differ only in the argument text of the directive, which holds no
newline. With the argument `x abc` the node `A` is parsed. With `x "abc`, whose `"`
has no partner, and with `x img/*.png`, which holds `/*`, the parser returns no
root node and no diagnostic: `LookAhead` lets the lexer scan the directive line,
and the string or the comment that begins there runs over the next line to the
end of the input. -/
theorem C29_directive_argument_is_token_scanned :
    (Parse CType.ascii 20 (Parser.new (documentOf "#define x abc\n#A \x7b \x7d") [])).map
      (fun r => (r.1.directives.map (fun d => (d.name, d.argument)),
        r.1.rootNodes.map (fun node => node.component), r.2.m_diagnostics.length)) =
      some ([(wstr "define", wstr "x abc")], [wstr "A"], 0) ∧
    (Parse CType.ascii 20 (Parser.new (documentOf "#define x \x22abc\n#A \x7b \x7d") [])).map
      (fun r => (r.1.directives.map (fun d => (d.name, d.argument)),
        r.1.rootNodes.map (fun node => node.component), r.2.m_diagnostics.length)) =
      some ([(wstr "define", wstr "x \x22abc")], [], 0) ∧
    (Parse CType.ascii 20 (Parser.new (documentOf "#define x img/*.png\n#A \x7b \x7d") [])).map
      (fun r => (r.1.directives.map (fun d => (d.name, d.argument)),
        r.1.rootNodes.map (fun node => node.component), r.2.m_diagnostics.length)) =
      some ([(wstr "define", wstr "x img/*.png")], [], 0) := by
  refine ⟨by decide, by decide, by decide⟩

end Parser

namespace Lexer

/-! ## The lexer as a reader of the list of the characters left -/

theorem WellFormed.ofNew (document : SourceDocument) : WellFormed (Lexer.new document) :=
  ⟨rfl, Nat.zero_le _⟩

theorem WellFormed.of_reach {a b : Lexer} (ha : WellFormed a) (h : Reach a b) : WellFormed b :=
  ⟨by rw [h.2.1, ha.1, h.1], by rw [h.2.1]; exact h.2.2.2 ha.2⟩

theorem rest_length {lx : Lexer} (hw : WellFormed lx) : lx.rest.length = lx.remaining := by
  simp only [rest, List.length_drop, remaining, hw.1]

theorem rest_eq_nil_iff {lx : Lexer} (hw : WellFormed lx) : lx.rest = [] ↔ lx.IsAtEnd = true := by
  rw [← List.length_eq_zero, rest_length hw, remaining_eq_zero_iff]

theorem Peek_eq {lx : Lexer} (hw : WellFormed lx) : lx.Peek = lx.rest.headD 0 := by
  unfold Peek
  split
  · rename_i h
    rw [(rest_eq_nil_iff hw).2 h]
    rfl
  · rename_i h
    have hlt := (isAtEnd_false_iff lx).1 (by simpa using h)
    rw [hw.1] at hlt
    simp only [rest]
    rw [getD_eq_head_drop _ _ hlt]
    rfl

theorem PeekAhead_eq {lx : Lexer} (hw : WellFormed lx) (distance : Nat) :
    lx.PeekAhead distance = lx.rest.getD distance 0 := by
  unfold PeekAhead
  dsimp only
  simp only [rest]
  split
  · rename_i h
    rw [hw.1] at h
    rw [List.getD_eq_default]
    rw [List.length_drop]
    omega
  · rename_i h
    rw [hw.1] at h
    rw [List.getD_eq_getElem?_getD, List.getD_eq_getElem?_getD, List.getElem?_drop]

theorem Consumed.noText (lx : Lexer) : Consumed lx lx [] :=
  ⟨rfl, rfl, rfl, rfl⟩

theorem Consumed.append {a b c : Lexer} {s t : WString} (h1 : Consumed a b s)
    (h2 : Consumed b c t) : Consumed a c (s ++ t) :=
  ⟨h2.1.trans h1.1, h2.2.1.trans h1.2.1,
    by rw [h2.2.2.1, h1.2.2.1, List.length_append, Nat.add_assoc],
    by rw [h1.2.2.2, h2.2.2.2, List.append_assoc]⟩

theorem Consumed.reach {a b : Lexer} {s : WString} (ha : WellFormed a) (h : Consumed a b s) :
    Reach a b := by
  refine ⟨h.1, h.2.1, by rw [h.2.2.1]; exact Nat.le_add_right _ _, fun _ => ?_⟩
  have h1 := congrArg List.length h.2.2.2
  rw [List.length_append, rest_length ha] at h1
  have h2 := h.2.2.1
  simp only [remaining] at h1
  have := ha.2
  omega

theorem Consumed.wellFormed {a b : Lexer} {s : WString} (ha : WellFormed a) (h : Consumed a b s) :
    WellFormed b := ha.of_reach (h.reach ha)

/-- The text consumed is the part of the content from the first cursor to the
second. -/
theorem Consumed.substr_eq {a b : Lexer} {s : WString} (h : Consumed a b s) :
    substr a.m_document.content a.m_offset (b.m_offset - a.m_offset) = s := by
  have h1 := h.2.2.2
  simp only [rest] at h1
  simp only [substr, h1, h.2.2.1, Nat.add_sub_cancel_left, List.take_left']

/-- One call of `Advance` before the end of the input consumes the character at the
cursor. -/
theorem Advance_consumed {lx : Lexer} (hw : WellFormed lx) (h : lx.IsAtEnd = false) :
    lx.Advance.1 = lx.Peek ∧ Consumed lx lx.Advance.2 [lx.Peek] := by
  have hlt := (isAtEnd_false_iff lx).1 h
  have hlt1 : lx.m_offset < lx.m_document.content.length := by rw [← hw.1]; exact hlt
  have hp : lx.Peek = lx.m_document.content.getD lx.m_offset 0 := by simp [Peek, h]
  refine ⟨by simp [Advance, h, hp], ?_⟩
  rw [Advance_of_not_atEnd lx h, hp]
  exact ⟨rfl, rfl, rfl, getD_eq_head_drop _ _ hlt1⟩

/-- The loop `while (!IsAtEnd() && p(Peek())) Advance();` consumes the longest run of
characters that satisfy `p`. -/
theorem advanceWhile_consumed (p : Nat → Bool) (fuel : Nat) (lx : Lexer) (hw : WellFormed lx)
    (hfuel : lx.remaining ≤ fuel) :
    Consumed lx (advanceWhile p fuel lx) (lx.rest.takeWhile p) ∧
      (advanceWhile p fuel lx).rest = lx.rest.dropWhile p := by
  induction fuel generalizing lx with
  | zero =>
    have hend : lx.IsAtEnd = true := (remaining_eq_zero_iff lx).1 (Nat.le_zero.1 hfuel)
    have hr := (rest_eq_nil_iff hw).2 hend
    simp only [advanceWhile, hr, List.takeWhile_nil, List.dropWhile_nil]
    exact ⟨⟨rfl, rfl, rfl, by simp [hr]⟩, trivial⟩
  | succ n ih =>
    unfold advanceWhile
    cases hend : lx.IsAtEnd with
    | true =>
      have hr := (rest_eq_nil_iff hw).2 hend
      simp only [Bool.not_true, Bool.false_and, Bool.false_eq_true, if_false, hr,
        List.takeWhile_nil, List.dropWhile_nil]
      exact ⟨⟨rfl, rfl, rfl, by simp [hr]⟩, trivial⟩
    | false =>
      have ha := Advance_consumed hw hend
      have hpk := Peek_eq hw
      cases hr : lx.rest with
      | nil => exact absurd ((rest_eq_nil_iff hw).1 hr) (by simp [hend])
      | cons c tail =>
        rw [hr] at hpk
        simp only [List.headD_cons] at hpk
        have htail : lx.Advance.2.rest = tail := by
          have := ha.2.2.2.2
          rw [hr, hpk] at this
          exact (List.cons.inj this).2.symm
        cases hp : p c with
        | false =>
          simp only [Bool.not_false, Bool.true_and, hpk, hp, Bool.false_eq_true, if_false,
            List.takeWhile_cons, List.dropWhile_cons]
          exact ⟨⟨rfl, rfl, rfl, by simp [hr]⟩, hr⟩
        | true =>
          simp only [Bool.not_false, Bool.true_and, hpk, hp, if_true, List.takeWhile_cons,
            List.dropWhile_cons]
          have hw1 := ha.2.wellFormed hw
          have hrem := remaining_Advance lx hend
          obtain ⟨h1, h2⟩ := ih lx.Advance.2 hw1 (by omega)
          rw [htail] at h1 h2
          refine ⟨?_, h2⟩
          have := ha.2.append h1
          rw [hpk] at this
          exact this

/-- The loop `while (p(Peek())) Advance();`, for a `p` that is false of `0`, consumes the
longest run of characters that satisfy `p`. -/
theorem advanceWhilePeek_consumed (p : Nat → Bool) (hp0 : p 0 = false) (fuel : Nat) (lx : Lexer)
    (hw : WellFormed lx) (hfuel : lx.remaining ≤ fuel) :
    Consumed lx (advanceWhilePeek p fuel lx) (lx.rest.takeWhile p) ∧
      (advanceWhilePeek p fuel lx).rest = lx.rest.dropWhile p := by
  induction fuel generalizing lx with
  | zero =>
    have hend : lx.IsAtEnd = true := (remaining_eq_zero_iff lx).1 (Nat.le_zero.1 hfuel)
    have hr := (rest_eq_nil_iff hw).2 hend
    simp only [advanceWhilePeek, hr, List.takeWhile_nil, List.dropWhile_nil]
    exact ⟨⟨rfl, rfl, rfl, by simp [hr]⟩, trivial⟩
  | succ n ih =>
    unfold advanceWhilePeek
    cases hend : lx.IsAtEnd with
    | true =>
      have hr := (rest_eq_nil_iff hw).2 hend
      simp only [Peek_of_atEnd lx hend, hp0, Bool.false_eq_true, if_false, hr,
        List.takeWhile_nil, List.dropWhile_nil]
      exact ⟨⟨rfl, rfl, rfl, by simp [hr]⟩, trivial⟩
    | false =>
      have ha := Advance_consumed hw hend
      have hpk := Peek_eq hw
      cases hr : lx.rest with
      | nil => exact absurd ((rest_eq_nil_iff hw).1 hr) (by simp [hend])
      | cons c tail =>
        rw [hr] at hpk
        simp only [List.headD_cons] at hpk
        have htail : lx.Advance.2.rest = tail := by
          have := ha.2.2.2.2
          rw [hr, hpk] at this
          exact (List.cons.inj this).2.symm
        cases hp : p c with
        | false =>
          simp only [hpk, hp, Bool.false_eq_true, if_false, List.takeWhile_cons,
            List.dropWhile_cons]
          exact ⟨⟨rfl, rfl, rfl, by simp [hr]⟩, hr⟩
        | true =>
          simp only [hpk, hp, if_true, List.takeWhile_cons, List.dropWhile_cons]
          have hw1 := ha.2.wellFormed hw
          have hrem := remaining_Advance lx hend
          obtain ⟨h1, h2⟩ := ih lx.Advance.2 hw1 (by omega)
          rw [htail] at h1 h2
          refine ⟨?_, h2⟩
          have := ha.2.append h1
          rw [hpk] at this
          exact this

end Lexer
namespace Lexer

/-! ## The scan of `LexNumber` -/

theorem headD_dropWhile (p : Nat → Bool) (hp0 : p 0 = false) (l : WString) :
    p ((l.dropWhile p).headD 0) = false := by
  induction l with
  | nil => simpa using hp0
  | cons c rest ih =>
    simp only [List.dropWhile_cons]
    split
    · exact ih
    · rename_i h
      simpa using h

theorem mem_takeWhile_imp (p : Nat → Bool) (l : WString) : ∀ c ∈ l.takeWhile p, p c = true := by
  intro c hc
  exact List.mem_takeWhile_imp hc

theorem not_atEnd_of_peek {lx : Lexer} (h : lx.Peek ≠ 0) : lx.IsAtEnd = false := by
  cases hend : lx.IsAtEnd with
  | false => rfl
  | true => exact absurd (Peek_of_atEnd lx hend) h

/-- The state after the optional sign of `LexNumber`. -/
theorem sign_consumed {lx : Lexer} (hw : WellFormed lx) :
    Consumed lx (if lx.Peek = 43 ∨ lx.Peek = 45 then lx.Advance.2 else lx)
      (if lx.Peek = 43 ∨ lx.Peek = 45 then [lx.Peek] else []) := by
  split
  · rename_i h
    have hend : lx.IsAtEnd = false := not_atEnd_of_peek (by rcases h with h | h <;> omega)
    exact (Advance_consumed hw hend).2
  · exact Consumed.noText lx

/-- The state after the optional fraction of `LexNumber`, from the state `lx2` after the
digits before it. -/
theorem fraction_consumed (ct : CType) {lx2 : Lexer} (hw : WellFormed lx2) :
    Consumed lx2
        (if (lx2.Peek = 46 && ct.iswdigit lx2.PeekNext) = true then
          advanceWhilePeek ct.iswdigit
            (if (lx2.Peek = 46 && ct.iswdigit lx2.PeekNext) = true then lx2.Advance.2
              else lx2).remaining
            (if (lx2.Peek = 46 && ct.iswdigit lx2.PeekNext) = true then lx2.Advance.2 else lx2)
        else lx2)
        (if (lx2.Peek = 46 && ct.iswdigit lx2.PeekNext) = true then
          46 :: (lx2.rest.drop 1).takeWhile ct.iswdigit
        else []) ∧
      ((lx2.Peek = 46 && ct.iswdigit lx2.PeekNext) = true →
        (lx2.rest.drop 1).takeWhile ct.iswdigit ≠ [] ∧
        Consumed lx2.Advance.2
          (advanceWhilePeek ct.iswdigit lx2.Advance.2.remaining lx2.Advance.2)
          ((lx2.rest.drop 1).takeWhile ct.iswdigit)) := by
  by_cases hc : (lx2.Peek = 46 && ct.iswdigit lx2.PeekNext) = true
  · have hc1 : lx2.Peek = 46 ∧ ct.iswdigit lx2.PeekNext = true := by
      simpa using hc
    have hend : lx2.IsAtEnd = false := not_atEnd_of_peek (by omega)
    have ha := (Advance_consumed hw hend).2
    have hw3 := ha.wellFormed hw
    have hrest : lx2.Advance.2.rest = lx2.rest.drop 1 := by
      have := ha.2.2.2
      rw [this]
      rfl
    have h4 := (advanceWhilePeek_consumed ct.iswdigit ct.iswdigit_zero lx2.Advance.2.remaining
      lx2.Advance.2 hw3 (le_refl _)).1
    rw [hrest] at h4
    have hne : (lx2.rest.drop 1).takeWhile ct.iswdigit ≠ [] := by
      have hn : lx2.PeekNext = (lx2.rest.drop 1).headD 0 := by
        rw [PeekNext, PeekAhead_eq hw]
        cases lx2.rest with
        | nil => rfl
        | cons a t => cases t <;> rfl
      rw [hn] at hc1
      cases hd : lx2.rest.drop 1 with
      | nil =>
        rw [hd] at hc1
        have := hc1.2
        simp only [List.headD_nil, ct.iswdigit_zero] at this
        cases this
      | cons a t =>
        rw [hd] at hc1
        simp only [List.headD_cons] at hc1
        simp [List.takeWhile_cons, hc1.2]
    simp only [if_pos hc]
    refine ⟨?_, fun _ => ⟨hne, h4⟩⟩
    have := ha.append h4
    rw [hc1.1] at this
    exact this
  · simp only [if_neg hc]
    exact ⟨Consumed.noText lx2, fun h => absurd h hc⟩

end Lexer
namespace Lexer

/-- The scan of `LexNumber` from a state `lx`: the texts of the sign, of the digits, of the
fraction, of the `%` and of the letters that it goes over, one after the other,
and the token that it returns, which is the fallback token `Unknown` when there is
no digit and otherwise the `Number` token whose lexeme is the five texts. -/
theorem LexNumber_scan (ct : CType) (lx : Lexer) (hw : WellFormed lx) :
    ∃ (sign digits frac percent letters : WString) (lx6 : Lexer),
      sign = (if lx.Peek = 43 ∨ lx.Peek = 45 then [lx.Peek] else []) ∧
      digits = (lx.rest.drop sign.length).takeWhile ct.iswdigit ∧
      (frac = [] ∨ ∃ fd, frac = 46 :: fd ∧ fd ≠ [] ∧ ∀ c ∈ fd, ct.iswdigit c = true) ∧
      (frac = [] →
        ¬ ((lx.rest.drop (sign ++ digits).length).headD 0 = 46 ∧
          ct.iswdigit ((lx.rest.drop (sign ++ digits).length).getD 1 0) = true)) ∧
      (percent = [] ∨ percent = [37]) ∧
      (∀ c ∈ letters, ct.iswalpha c = true) ∧
      Consumed lx lx6 (sign ++ digits ++ frac ++ percent ++ letters) ∧
      ct.iswalpha lx6.Peek = false ∧
      (digits = [] ∧ frac = [] →
        (LexNumber ct lx).1.type = TokenType.Unknown ∧ (LexNumber ct lx).1.length = 1 ∧
        (LexNumber ct lx).1.startOffset = lx.m_offset ∧
        (lx.IsAtEnd = false → (LexNumber ct lx).2.m_offset = lx.m_offset + 1 ∧
          (LexNumber ct lx).1.lexeme = substr lx.m_document.content lx.m_offset 1)) ∧
      (¬ (digits = [] ∧ frac = []) →
        LexNumber ct lx =
          (lx6.MakeToken TokenType.Number lx.m_offset
            (sign ++ digits ++ frac ++ percent ++ letters).length
            (sign ++ digits ++ frac ++ percent ++ letters), lx6)) := by
  -- the states of the scan, in order
  have c1 := sign_consumed hw
  generalize hlx1 : (if lx.Peek = 43 ∨ lx.Peek = 45 then lx.Advance.2 else lx) = lx1 at c1
  generalize hsign : (if lx.Peek = 43 ∨ lx.Peek = 45 then [lx.Peek] else []) = sign at c1
  have hw1 := c1.wellFormed hw
  have hrest1 : lx1.rest = lx.rest.drop sign.length := by
    rw [c1.2.2.2, List.drop_left]
  have c2 := advanceWhilePeek_consumed ct.iswdigit ct.iswdigit_zero lx1.remaining lx1 hw1
    (le_refl _)
  generalize hlx2 : advanceWhilePeek ct.iswdigit lx1.remaining lx1 = lx2 at c2
  rw [hrest1] at c2
  generalize hdigits : (lx.rest.drop sign.length).takeWhile ct.iswdigit = digits at c2
  have hw2 := c2.1.wellFormed hw1
  have c34 := fraction_consumed ct hw2
  generalize hlx4 : (if (lx2.Peek = 46 && ct.iswdigit lx2.PeekNext) = true then
      advanceWhilePeek ct.iswdigit
        (if (lx2.Peek = 46 && ct.iswdigit lx2.PeekNext) = true then lx2.Advance.2
          else lx2).remaining
        (if (lx2.Peek = 46 && ct.iswdigit lx2.PeekNext) = true then lx2.Advance.2 else lx2)
      else lx2) = lx4 at c34
  generalize hfrac : (if (lx2.Peek = 46 && ct.iswdigit lx2.PeekNext) = true then
      46 :: (lx2.rest.drop 1).takeWhile ct.iswdigit else []) = frac at c34
  have hw4 := c34.1.wellFormed hw2
  have c5 : Consumed lx4 (if lx4.Peek = 37 then lx4.Advance.2 else lx4)
      (if lx4.Peek = 37 then [37] else []) := by
    split
    · rename_i h
      have := (Advance_consumed hw4 (not_atEnd_of_peek (by omega))).2
      rw [h] at this
      exact this
    · exact Consumed.noText lx4
  generalize hlx5 : (if lx4.Peek = 37 then lx4.Advance.2 else lx4) = lx5 at c5
  generalize hpercent : (if lx4.Peek = 37 then [37] else []) = percent at c5
  have hw5 := c5.wellFormed hw4
  have c6 := advanceWhilePeek_consumed ct.iswalpha ct.iswalpha_zero lx5.remaining lx5 hw5
    (le_refl _)
  generalize hlx6 : advanceWhilePeek ct.iswalpha lx5.remaining lx5 = lx6 at c6
  generalize hletters : lx5.rest.takeWhile ct.iswalpha = letters at c6
  have hw6 := c6.1.wellFormed hw5
  have call : Consumed lx lx6 (sign ++ digits ++ frac ++ percent ++ letters) :=
    (((c1.append c2.1).append c34.1).append c5).append c6.1
  have hfracShape : frac = [] ∨ ∃ fd, frac = 46 :: fd ∧ fd ≠ [] ∧
      ∀ c ∈ fd, ct.iswdigit c = true := by
    rw [← hfrac]
    split
    · rename_i hc
      exact Or.inr ⟨_, rfl, (c34.2 hc).1, mem_takeWhile_imp _ _⟩
    · exact Or.inl rfl
  have hstop : ct.iswalpha lx6.Peek = false := by
    rw [Peek_eq hw6, c6.2]
    exact headD_dropWhile _ ct.iswalpha_zero _
  -- the flags
  have hbefore : decide (lx2.m_offset ≠ lx1.m_offset) = !decide (digits = []) := by
    have := c2.1.2.2.1
    cases digits with
    | nil => simp at this ⊢; exact this
    | cons a t => simp at this ⊢; omega
  have hafter : decide (lx4.m_offset ≠
      (if (lx2.Peek = 46 && ct.iswdigit lx2.PeekNext) = true then lx2.Advance.2 else lx2).m_offset)
      = !decide (frac = []) := by
    by_cases hc : (lx2.Peek = 46 && ct.iswdigit lx2.PeekNext) = true
    · have h3 := (c34.2 hc)
      simp only [if_pos hc] at hlx4 hfrac ⊢
      rw [← hfrac, ← hlx4]
      have := h3.2.2.2.1
      have hne := h3.1
      have hpos : 0 < ((lx2.rest.drop 1).takeWhile ct.iswdigit).length :=
        List.length_pos.2 hne
      simp only [ne_eq, List.cons_ne_nil, not_false_eq_true, decide_True, decide_False,
        Bool.not_false, decide_eq_true_eq, reduceCtorEq]
      omega
    · simp only [if_neg hc] at hlx4 hfrac ⊢
      rw [← hfrac, ← hlx4]
      simp
  have hdef : LexNumber ct lx =
      if (!decide (lx2.m_offset ≠ lx1.m_offset) && !decide (lx4.m_offset ≠
          (if (lx2.Peek = 46 && ct.iswdigit lx2.PeekNext) = true then lx2.Advance.2
            else lx2).m_offset)) = true then
        ((({ lx4 with m_offset := lx.m_offset } : Lexer).Advance.2).LexPunctuation
            TokenType.Unknown lx.m_offset 1,
          ({ lx4 with m_offset := lx.m_offset } : Lexer).Advance.2)
      else
        (lx6.MakeToken TokenType.Number lx.m_offset (lx6.m_offset - lx.m_offset)
            (substr lx6.m_document.content lx.m_offset (lx6.m_offset - lx.m_offset)), lx6) := by
    subst hlx1 hlx2 hlx4 hlx5 hlx6
    rfl
  have hfracAll : frac = [] →
      ¬ ((lx.rest.drop (sign ++ digits).length).headD 0 = 46 ∧
        ct.iswdigit ((lx.rest.drop (sign ++ digits).length).getD 1 0) = true) := by
    intro hf hcon
    have hrest2 : lx2.rest = lx.rest.drop (sign ++ digits).length := by
      rw [(c1.append c2.1).2.2.2, List.drop_left]
    rw [← hrest2, ← Peek_eq hw2, ← PeekAhead_eq hw2] at hcon
    have hc : (lx2.Peek = 46 && ct.iswdigit lx2.PeekNext) = true := by
      simp only [PeekNext, hcon.1, hcon.2, decide_True, Bool.and_self]
    rw [if_pos hc] at hfrac
    rw [← hfrac] at hf
    cases hf
  refine ⟨sign, digits, frac, percent, letters, lx6, rfl, hdigits.symm, hfracShape, hfracAll,
    ?_, ?_, call, hstop, ?_, ?_⟩
  · rw [← hpercent]
    split
    · exact Or.inr rfl
    · exact Or.inl rfl
  · rw [← hletters]
    exact mem_takeWhile_imp _ _
  · rintro ⟨hd, hf⟩
    have hcond : (!decide (lx2.m_offset ≠ lx1.m_offset) && !decide (lx4.m_offset ≠
          (if (lx2.Peek = 46 && ct.iswdigit lx2.PeekNext) = true then lx2.Advance.2
            else lx2).m_offset)) = true := by
      rw [hbefore, hafter, hd, hf]
      rfl
    rw [hdef, if_pos hcond]
    refine ⟨rfl, rfl, rfl, fun hend => ?_⟩
    have hlt := (isAtEnd_false_iff lx).1 hend
    have h04 : lx4.m_length = lx.m_length :=
      (c34.1.2.1.trans c2.1.2.1).trans c1.2.1
    have hd4 : lx4.m_document = lx.m_document :=
      (c34.1.1.trans c2.1.1).trans c1.1
    have hend1 : ({ lx4 with m_offset := lx.m_offset } : Lexer).IsAtEnd = false := by
      rw [isAtEnd_false_iff]
      simpa [h04] using hlt
    rw [Advance_of_not_atEnd _ hend1]
    refine ⟨rfl, ?_⟩
    have hlen : lx.m_offset + 1 ≤ lx.m_document.content.length := by
      rw [← hw.1]
      exact hlt
    simp only [LexPunctuation, MakeToken_lexeme, hd4, if_pos hlen]
  · intro hne
    have hcond : ¬ (!decide (lx2.m_offset ≠ lx1.m_offset) && !decide (lx4.m_offset ≠
          (if (lx2.Peek = 46 && ct.iswdigit lx2.PeekNext) = true then lx2.Advance.2
            else lx2).m_offset)) = true := by
      rw [hbefore, hafter]
      intro h
      simp only [Bool.not_not, Bool.and_eq_true, decide_eq_true_eq] at h
      exact hne h
    rw [hdef, if_neg hcond]
    have hlen : lx6.m_offset - lx.m_offset =
        (sign ++ digits ++ frac ++ percent ++ letters).length := by
      rw [call.2.2.1, Nat.add_sub_cancel_left]
    have hsub := call.substr_eq
    rw [← call.1] at hsub
    rw [hsub, hlen]

end Lexer
namespace Lexer

/-! ## C40: `NextToken` calls `LexNumber` only where a number starts -/

theorem isDigit_iff (ct : CType) (c : Nat) : isDigit ct c = true ↔ ct.iswdigit c = true := by
  unfold isDigit
  constructor
  · intro h
    simp only [Bool.and_eq_true] at h
    exact h.2
  · intro h
    have : c ≠ 0 := by
      rintro rfl
      rw [ct.iswdigit_zero] at h
      cases h
    simp [h, this]

/-- The test `numberStart`, on the characters at the cursor. -/
theorem numberStart_iff (ct : CType) {lx : Lexer} (hw : WellFormed lx) :
    numberStart ct lx = true ↔
      ct.iswdigit (lx.rest.headD 0) = true ∨
      (lx.rest.headD 0 = 46 ∧ ct.iswdigit (lx.rest.getD 1 0) = true) ∨
      ((lx.rest.headD 0 = 43 ∨ lx.rest.headD 0 = 45) ∧
        (ct.iswdigit (lx.rest.getD 1 0) = true ∨
          (lx.rest.getD 1 0 = 46 ∧ ct.iswdigit (lx.rest.getD 2 0) = true))) := by
  unfold numberStart
  simp only [Peek_eq hw, PeekAhead_eq hw]
  split
  · rename_i h
    simp only [Bool.or_eq_true, Bool.and_eq_true, beq_iff_eq, isDigit_iff] at h
    simp only [true_iff]
    rcases h with h | h
    · exact Or.inl h
    · exact Or.inr (Or.inl h)
  · rename_i h
    simp only [Bool.or_eq_true, Bool.and_eq_true, beq_iff_eq, isDigit_iff, not_or, not_and] at h
    split
    · rename_i h2
      simp only [Bool.or_eq_true, beq_iff_eq] at h2
      simp only [Bool.or_eq_true, Bool.and_eq_true, beq_iff_eq, isDigit_iff]
      constructor
      · intro h3
        exact Or.inr (Or.inr ⟨h2, h3⟩)
      · intro h3
        rcases h3 with h3 | h3 | h3
        · exact absurd h3 h.1
        · exact absurd h3.2 (h.2 h3.1)
        · exact h3.2
    · rename_i h2
      simp only [Bool.or_eq_true, beq_iff_eq, not_or] at h2
      simp only [Bool.false_eq_true, false_iff, not_or, not_and]
      exact ⟨h.1, h.2, fun h3 => absurd h3 (by omega)⟩

/-- Where `numberStart` holds, the scan of `LexNumber` meets a digit: the fallback is not
taken. -/
theorem LexNumber_of_numberStart (ct : CType) (hs : ct.Standard) {lx : Lexer}
    (hw : WellFormed lx) (hn : numberStart ct lx = true) :
    (LexNumber ct lx).1.type = TokenType.Number ∧
      ∃ c ∈ (LexNumber ct lx).1.lexeme, ct.iswdigit c = true := by
  obtain ⟨sign, digits, frac, percent, letters, lx6, hsign, hdigits, hfrac, hfracAll, _, _, _, _,
    _, hnum⟩ := LexNumber_scan ct lx hw
  have h43 := (hs.2.2 43 (by simp)).2
  have h45 := (hs.2.2 45 (by simp)).2
  have h46 := (hs.2.2 46 (by simp)).2
  have hpk := Peek_eq hw
  have key : digits ≠ [] ∨ frac ≠ [] := by
    rcases (numberStart_iff ct hw).1 hn with h | h | h
    · -- a digit at the cursor
      left
      have hns : ¬ (lx.Peek = 43 ∨ lx.Peek = 45) := by
        rw [hpk]
        rintro (e | e) <;> rw [e] at h
        · rw [h43] at h; cases h
        · rw [h45] at h; cases h
      rw [if_neg hns] at hsign
      rw [hdigits, hsign]
      cases hr : lx.rest with
      | nil =>
        rw [hr] at h
        simp only [List.headD_nil, ct.iswdigit_zero] at h
        cases h
      | cons a t =>
        rw [hr] at h
        simp only [List.headD_cons] at h
        simp [List.takeWhile_cons, h]
    · -- `.` and a digit
      have hns : ¬ (lx.Peek = 43 ∨ lx.Peek = 45) := by
        rw [hpk, h.1]
        omega
      rw [if_neg hns] at hsign
      by_cases hd : digits = []
      · right
        intro hf
        apply hfracAll hf
        rw [hsign, hd]
        exact h
      · exact Or.inl hd
    · -- a sign, then a digit or `.` and a digit
      have hys : lx.Peek = 43 ∨ lx.Peek = 45 := by rw [hpk]; exact h.1
      rw [if_pos hys] at hsign
      have hd1 : ∀ k, (lx.rest.drop 1).getD k 0 = lx.rest.getD (1 + k) 0 := by
        intro k
        rw [List.getD_eq_getElem?_getD, List.getD_eq_getElem?_getD, List.getElem?_drop]
      rcases h.2 with h2 | h2
      · left
        rw [hdigits, hsign]
        simp only [List.length_singleton]
        cases hr : lx.rest.drop 1 with
        | nil =>
          have := hd1 0
          rw [hr] at this
          simp only [List.getD_nil, Nat.add_zero] at this
          rw [← this, ct.iswdigit_zero] at h2
          cases h2
        | cons a t =>
          have := hd1 0
          rw [hr] at this
          simp only [List.getD_cons_zero, Nat.add_zero] at this
          rw [← this] at h2
          simp [List.takeWhile_cons, h2]
      · by_cases hd : digits = []
        · right
          intro hf
          apply hfracAll hf
          rw [hsign, hd]
          simp only [List.append_nil, List.length_singleton]
          constructor
          · have := hd1 0
            rw [Nat.add_zero] at this
            rw [← h2.1, ← this]
            cases lx.rest.drop 1 <;> rfl
          · rw [hd1 1]
            exact h2.2
        · exact Or.inl hd
  have hne : ¬ (digits = [] ∧ frac = []) := by
    rintro ⟨h1, h2⟩
    rcases key with k | k
    · exact k h1
    · exact k h2
  rw [hnum hne]
  refine ⟨rfl, ?_⟩
  simp only [MakeToken_lexeme]
  rcases key with k | k
  · obtain ⟨c, t, hc⟩ := List.exists_cons_of_ne_nil k
    refine ⟨c, by simp [hc], ?_⟩
    have : c ∈ (lx.rest.drop sign.length).takeWhile ct.iswdigit := by
      rw [← hdigits, hc]
      exact List.mem_cons_self _ _
    exact mem_takeWhile_imp _ _ c this
  · rcases hfrac with hf | ⟨fd, hf, hfd, hall⟩
    · exact absurd hf k
    · obtain ⟨c, t, hc⟩ := List.exists_cons_of_ne_nil hfd
      exact ⟨c, by simp [hf, hc], hall c (by simp [hc])⟩

end Lexer
theorem CType.ascii_standard : CType.ascii.Standard := by
  refine ⟨?_, ?_, ?_⟩
  · intro c
    simp only [CType.ascii]
    cases decide (48 ≤ c) && decide (c ≤ 57) <;>
      cases decide (65 ≤ c) && decide (c ≤ 90) <;>
      cases decide (97 ≤ c) && decide (c ≤ 122) <;> rfl
  · intro c h
    simp only [CType.ascii, Bool.or_eq_true, Bool.and_eq_true, decide_eq_true_eq] at h
    simp only [CType.ascii, Bool.and_eq_false_iff, decide_eq_false_iff_not]
    omega
  · intro c h
    rcases h with rfl | rfl | rfl | rfl | rfl | rfl <;> exact ⟨by decide, by decide⟩

namespace Lexer

/-- The cases of `NextToken` before the end of the input, by the character at the
cursor after the whitespace and the comments are skipped. -/
theorem NextToken_dispatch (ct : CType) (lx : Lexer)
    (hend : (SkipWhitespaceAndComments ct lx).IsAtEnd = false) :
    ((SkipWhitespaceAndComments ct lx).Peek = 34 →
      NextToken ct lx = LexString (SkipWhitespaceAndComments ct lx)) ∧
    ((SkipWhitespaceAndComments ct lx).Peek ≠ 34 →
      (numberStart ct (SkipWhitespaceAndComments ct lx) = true →
        NextToken ct lx = LexNumber ct (SkipWhitespaceAndComments ct lx)) ∧
      (numberStart ct (SkipWhitespaceAndComments ct lx) = false →
        ((ct.iswalpha (SkipWhitespaceAndComments ct lx).Peek ||
            (SkipWhitespaceAndComments ct lx).Peek == 95) = true →
          NextToken ct lx = LexIdentifier ct (SkipWhitespaceAndComments ct lx)) ∧
        ((ct.iswalpha (SkipWhitespaceAndComments ct lx).Peek ||
            (SkipWhitespaceAndComments ct lx).Peek == 95) = false →
          NextToken ct lx =
            ((SkipWhitespaceAndComments ct lx).Advance.2.LexPunctuation
              (punctuationType (SkipWhitespaceAndComments ct lx).Peek)
              (SkipWhitespaceAndComments ct lx).m_offset 1,
              (SkipWhitespaceAndComments ct lx).Advance.2)))) := by
  refine ⟨fun h => ?_, fun h => ⟨fun hn => ?_, fun hn => ⟨fun hi => ?_, fun hi => ?_⟩⟩⟩
  · simp only [NextToken, hend, Bool.false_eq_true, if_false, if_pos h]
  · simp only [NextToken, hend, Bool.false_eq_true, if_false, if_neg h, hn, if_true]
  · simp only [NextToken, hend, Bool.false_eq_true, if_false, if_neg h, hn, hi, if_true]
  · simp only [NextToken, hend, Bool.false_eq_true, if_false, if_neg h, hn, hi]

theorem numberStart_not_atEnd (ct : CType) {lx : Lexer} (hw : WellFormed lx)
    (hn : numberStart ct lx = true) : lx.IsAtEnd = false := by
  cases hend : lx.IsAtEnd with
  | false => rfl
  | true =>
    have hr := (rest_eq_nil_iff hw).2 hend
    have := (numberStart_iff ct hw).1 hn
    rw [hr] at this
    simp only [List.headD_nil, ct.iswdigit_zero, List.getD_nil] at this
    rcases this with h | h | h
    · cases h
    · omega
    · omega

/-- C40. With the classification functions of the C library (`CType.Standard`), let
`NextToken` be called in a state of the lexer over its document. When the test
`numberStart` holds after the whitespace and the comments are skipped, which is
the one case in which `NextToken` calls `LexNumber`, the call returns a `Number`
token whose lexeme holds a digit: the fallback of `LexNumber`, which returns
`Unknown`, is not taken. When the test fails and the character at the cursor
is `+`, `-` or `.`, the token is `Plus`, `Minus` or `Dot`. -/
theorem C40_LexNumber_fallback_is_unreachable (ct : CType) (hs : ct.Standard) (lx : Lexer)
    (hw : WellFormed lx) :
    (numberStart ct (SkipWhitespaceAndComments ct lx) = true →
      NextToken ct lx = LexNumber ct (SkipWhitespaceAndComments ct lx) ∧
      (LexNumber ct (SkipWhitespaceAndComments ct lx)).1.type = TokenType.Number ∧
      ∃ c ∈ (LexNumber ct (SkipWhitespaceAndComments ct lx)).1.lexeme, ct.iswdigit c = true) ∧
    (numberStart ct (SkipWhitespaceAndComments ct lx) = false →
      ((SkipWhitespaceAndComments ct lx).Peek = 43 →
        (NextToken ct lx).1.type = TokenType.Plus) ∧
      ((SkipWhitespaceAndComments ct lx).Peek = 45 →
        (NextToken ct lx).1.type = TokenType.Minus) ∧
      ((SkipWhitespaceAndComments ct lx).Peek = 46 →
        (NextToken ct lx).1.type = TokenType.Dot)) := by
  have hw0 : WellFormed (SkipWhitespaceAndComments ct lx) :=
    hw.of_reach (reach_SkipWhitespaceAndComments ct lx)
  have h34 := hs.2.2 34 (by simp)
  have h43 := hs.2.2 43 (by simp)
  have h45 := hs.2.2 45 (by simp)
  have h46 := hs.2.2 46 (by simp)
  constructor
  · intro hn
    have hend := numberStart_not_atEnd ct hw0 hn
    have hne : (SkipWhitespaceAndComments ct lx).Peek ≠ 34 := by
      intro e
      have := (numberStart_iff ct hw0).1 hn
      rw [← Peek_eq hw0, e, h34.2] at this
      rcases this with h | h | h
      · cases h
      · omega
      · omega
    exact ⟨((NextToken_dispatch ct lx hend).2 hne).1 hn, LexNumber_of_numberStart ct hs hw0 hn⟩
  · intro hn
    have key : ∀ c, (c = 43 ∨ c = 45 ∨ c = 46) → (SkipWhitespaceAndComments ct lx).Peek = c →
        (NextToken ct lx).1.type = punctuationType c := by
      intro c hc hp
      have hend : (SkipWhitespaceAndComments ct lx).IsAtEnd = false :=
        not_atEnd_of_peek (by omega)
      have hne : (SkipWhitespaceAndComments ct lx).Peek ≠ 34 := by omega
      have hal : (ct.iswalpha (SkipWhitespaceAndComments ct lx).Peek ||
          (SkipWhitespaceAndComments ct lx).Peek == 95) = false := by
        rw [hp]
        have := (hs.2.2 c (by omega)).1
        rw [this]
        simp only [Bool.false_or, beq_eq_false_iff_ne, ne_eq]
        omega
      rw [(((NextToken_dispatch ct lx hend).2 hne).2 hn).2 hal, hp]
      rfl
    exact ⟨fun h => key 43 (by simp) h, fun h => key 45 (by simp) h, fun h => key 46 (by simp) h⟩

end Lexer

namespace Lexer

/-- C40 at concrete inputs: in `+.5` the test holds at `+` and the token is the `Number`
`+.5`; in `+ .` the test fails at `+`, and the token is `Plus`. -/
theorem C40_LexNumber_fallback_is_unreachable_witness :
    ((NextToken CType.ascii (Lexer.new (documentOf "+.5"))).1.type = TokenType.Number ∧
      (NextToken CType.ascii (Lexer.new (documentOf "+.5"))).1.lexeme = wstr "+.5") ∧
    (NextToken CType.ascii (Lexer.new (documentOf "+ ."))).1.type = TokenType.Plus :=
  ⟨⟨((C40_LexNumber_fallback_is_unreachable CType.ascii CType.ascii_standard
        (Lexer.new (documentOf "+.5")) (WellFormed.ofNew _)).1 (by decide)).1 ▸
      ((C40_LexNumber_fallback_is_unreachable CType.ascii CType.ascii_standard
        (Lexer.new (documentOf "+.5")) (WellFormed.ofNew _)).1 (by decide)).2.1, by decide⟩,
    ((C40_LexNumber_fallback_is_unreachable CType.ascii CType.ascii_standard
      (Lexer.new (documentOf "+ .")) (WellFormed.ofNew _)).2 (by decide)).1 (by decide)⟩

end Lexer

namespace Lexer

/-! ## C32: the shape of a `Number` token -/

theorem split_unique {x : Nat} {front back before after : WString} (hf : x ∉ front)
    (hb : x ∉ back) (h : front ++ x :: back = before ++ x :: after) :
    before = front ∧ after = back := by
  induction front generalizing before with
  | nil =>
    cases before with
    | nil =>
      simp only [List.nil_append, List.cons.injEq, true_and] at h
      exact ⟨rfl, h.symm⟩
    | cons b rest =>
      simp only [List.nil_append, List.cons_append, List.cons.injEq] at h
      exact absurd (h.2 ▸ List.mem_append_right rest (List.mem_cons_self x after)) hb
  | cons a rest ih =>
    cases before with
    | nil =>
      simp only [List.cons_append, List.nil_append, List.cons.injEq] at h
      exact absurd (h.1 ▸ List.mem_cons_self a rest) hf
    | cons b rest1 =>
      simp only [List.cons_append, List.cons.injEq] at h
      obtain ⟨h1, h2⟩ := ih (fun hx => hf (List.mem_cons_of_mem _ hx)) h.2
      exact ⟨by rw [h.1, h1], h2⟩

theorem punctuationType_ne_Number (c : Nat) : punctuationType c ≠ TokenType.Number := by
  unfold punctuationType
  repeat' apply ite_ne_of
  all_goals decide

theorem headD_drop (l : WString) (n : Nat) : (l.drop n).headD 0 = l.getD n 0 := by
  rw [List.getD_eq_getElem?_getD, ← List.head?_drop]
  cases l.drop n <;> rfl

/-- A `Number` token of `NextToken` is the token of the scan of `LexNumber` that met a
digit. -/
theorem NextToken_number (ct : CType) (lx : Lexer)
    (ht : (NextToken ct lx).1.type = TokenType.Number) :
    NextToken ct lx = LexNumber ct (SkipWhitespaceAndComments ct lx) := by
  have hspec := NextToken_spec ct lx
  cases hend : (SkipWhitespaceAndComments ct lx).IsAtEnd with
  | true =>
    rw [hspec.1 hend] at ht
    cases ht
  | false =>
    have hd := NextToken_dispatch ct lx hend
    by_cases h34 : (SkipWhitespaceAndComments ct lx).Peek = 34
    · rw [hd.1 h34] at ht
      cases ht
    · cases hn : numberStart ct (SkipWhitespaceAndComments ct lx) with
      | true => exact ((hd.2 h34).1 hn)
      | false =>
        cases hi : (ct.iswalpha (SkipWhitespaceAndComments ct lx).Peek ||
            (SkipWhitespaceAndComments ct lx).Peek == 95) with
        | true =>
          rw [(((hd.2 h34).2 hn).1 hi)] at ht
          cases ht
        | false =>
          rw [(((hd.2 h34).2 hn).2 hi)] at ht
          exact absurd ht (punctuationType_ne_Number _)

/-- C32. Let `NextToken`, called in a state of the lexer over its document, return a
`Number` token. Its lexeme is the part of the content from `startOffset` of the
length `length`, and it is made of five texts in this order: a sign, which is
empty, `+` or `-`; digits; a fraction, which is empty or `.` followed by one digit
or more; a percent part, which is empty or one `%`; and letters. There is a digit:
the digits or the fraction are not empty. The run of letters is the longest: the
character of the content after the token is not a letter (it is `0` at the end of
the content). And with the classification functions of the C library
(`CType.Standard`), a `.` of the lexeme is followed in the lexeme by a digit: a `.`
that no digit follows is not taken into the number. -/
theorem C32_number_lexeme_shape (ct : CType) (lx : Lexer) (hw : WellFormed lx)
    (ht : (NextToken ct lx).1.type = TokenType.Number) :
    (NextToken ct lx).1.lexeme =
        substr lx.m_document.content (NextToken ct lx).1.startOffset (NextToken ct lx).1.length ∧
      (∃ sign digits frac percent letters : WString,
        (NextToken ct lx).1.lexeme = sign ++ digits ++ frac ++ percent ++ letters ∧
        (sign = [] ∨ sign = [43] ∨ sign = [45]) ∧
        (∀ c ∈ digits, ct.iswdigit c = true) ∧
        (frac = [] ∨ ∃ fd, frac = 46 :: fd ∧ fd ≠ [] ∧ ∀ c ∈ fd, ct.iswdigit c = true) ∧
        (digits ≠ [] ∨ frac ≠ []) ∧
        (percent = [] ∨ percent = [37]) ∧
        (∀ c ∈ letters, ct.iswalpha c = true)) ∧
      ct.iswalpha (lx.m_document.content.getD
        ((NextToken ct lx).1.startOffset + (NextToken ct lx).1.length) 0) = false ∧
      (ct.Standard → ∀ before after, (NextToken ct lx).1.lexeme = before ++ 46 :: after →
        ∃ d rest, after = d :: rest ∧ ct.iswdigit d = true) := by
  have hr0 := reach_SkipWhitespaceAndComments ct lx
  have hw0 : WellFormed (SkipWhitespaceAndComments ct lx) := hw.of_reach hr0
  have hnt := NextToken_number ct lx ht
  rw [hnt] at ht ⊢
  generalize SkipWhitespaceAndComments ct lx = lx0 at hr0 hw0 ht ⊢
  obtain ⟨sign, digits, frac, percent, letters, lx6, hsign, hdigits, hfrac, _, hpercent, hletters,
    call, hstop, hfall, hnum⟩ := LexNumber_scan ct lx0 hw0
  have hne : ¬ (digits = [] ∧ frac = []) := by
    intro h
    rw [(hfall h).1] at ht
    cases ht
  have hdig : ∀ c ∈ digits, ct.iswdigit c = true := by
    rw [hdigits]
    exact mem_takeWhile_imp _ _
  have hsg : sign = [] ∨ sign = [43] ∨ sign = [45] := by
    rw [hsign]
    split
    · rename_i h
      rcases h with h | h <;> rw [h] <;> simp
    · exact Or.inl rfl
  rw [hnum hne]
  simp only [MakeToken_lexeme, MakeToken_startOffset, MakeToken_length]
  have hsub := call.substr_eq
  rw [call.2.2.1, Nat.add_sub_cancel_left, hr0.1] at hsub
  have hw6 := call.wellFormed hw0
  refine ⟨hsub.symm, ⟨sign, digits, frac, percent, letters, rfl, hsg, hdig, hfrac, ?_, hpercent,
    hletters⟩, ?_, ?_⟩
  · by_cases hd : digits = []
    · exact Or.inr (fun hf => hne ⟨hd, hf⟩)
    · exact Or.inl hd
  · rw [← call.2.2.1, ← hr0.1, ← call.1, ← headD_drop]
    have := Peek_eq hw6
    simp only [rest] at this
    rw [← this]
    exact hstop
  · intro hs before after hsplit
    have n46 : ∀ l : WString, (∀ c ∈ l, ct.iswdigit c = true ∨ ct.iswalpha c = true ∨
        c = 43 ∨ c = 45 ∨ c = 37) → 46 ∉ l := by
      intro l hl hmem
      have h46 := hs.2.2 46 (by simp)
      rcases hl 46 hmem with h | h | h | h | h
      · rw [h46.2] at h; cases h
      · rw [h46.1] at h; cases h
      · omega
      · omega
      · omega
    have hfront : (46 : Nat) ∉ sign ++ digits := by
      apply n46
      intro c hc
      rcases List.mem_append.1 hc with h | h
      · rcases hsg with e | e | e <;> rw [e] at h <;> simp at h <;> omega
      · exact Or.inl (hdig c h)
    have hback : ∀ fd : WString, (∀ c ∈ fd, ct.iswdigit c = true) →
        (46 : Nat) ∉ fd ++ percent ++ letters := by
      intro fd hfd
      apply n46
      intro c hc
      rcases List.mem_append.1 hc with h | h
      · rcases List.mem_append.1 h with h | h
        · exact Or.inl (hfd c h)
        · rcases hpercent with e | e <;> rw [e] at h <;> simp at h
          omega
      · exact Or.inr (Or.inl (hletters c h))
    rcases hfrac with hf | ⟨fd, hf, hfd, hall⟩
    · exfalso
      have hnone : (46 : Nat) ∉ sign ++ digits ++ frac ++ percent ++ letters := by
        rw [hf, List.append_nil, List.append_assoc]
        intro hm
        rcases List.mem_append.1 hm with h | h
        · exact hfront h
        · exact hback [] (by simp) (by simpa using h)
      apply hnone
      rw [hsplit]
      simp
    · have heq : (sign ++ digits) ++ 46 :: (fd ++ percent ++ letters) = before ++ 46 :: after := by
        rw [← hsplit, hf]
        simp only [List.append_assoc, List.cons_append]
      obtain ⟨_, hafter⟩ := split_unique hfront (hback fd hall) heq
      obtain ⟨d, rest, hd⟩ := List.exists_cons_of_ne_nil hfd
      exact ⟨d, rest ++ percent ++ letters, by rw [hafter, hd]; simp, hall d (by simp [hd])⟩

/-- C32 at a concrete input: the first token of `-1.5%dip;` is the `Number` token `-1.5%dip`,
of length `8`, and the character after it is not a letter. -/
theorem C32_number_lexeme_shape_witness :
    (NextToken CType.ascii (Lexer.new (documentOf "-1.5%dip;"))).1.lexeme = wstr "-1.5%dip" ∧
      (NextToken CType.ascii (Lexer.new (documentOf "-1.5%dip;"))).1.lexeme =
        substr (wstr "-1.5%dip;") 0 8 ∧
      CType.ascii.iswalpha ((wstr "-1.5%dip;").getD 8 0) = false :=
  ⟨by decide,
    (C32_number_lexeme_shape CType.ascii (Lexer.new (documentOf "-1.5%dip;"))
      (WellFormed.ofNew _) (by decide)).1,
    (C32_number_lexeme_shape CType.ascii (Lexer.new (documentOf "-1.5%dip;"))
      (WellFormed.ofNew _) (by decide)).2.2.1⟩

end Lexer
namespace Lexer

/-! ## C38: the extents of the tokens -/

/-- The extent of the token of one call of `NextToken` that is not `EndOfFile`: the
token ends where the lexer is after the call, and, unless it is a `String` token, its
lexeme is the text of its extent. -/
theorem NextToken_extent (ct : CType) (lx : Lexer) (hw : WellFormed lx)
    (hend : (SkipWhitespaceAndComments ct lx).IsAtEnd = false) :
    (NextToken ct lx).1.startOffset + (NextToken ct lx).1.length = (NextToken ct lx).2.m_offset ∧
      ((NextToken ct lx).1.type ≠ TokenType.String →
        (NextToken ct lx).1.lexeme = substr lx.m_document.content
          (NextToken ct lx).1.startOffset (NextToken ct lx).1.length) := by
  have hr0 := reach_SkipWhitespaceAndComments ct lx
  have hw0 : WellFormed (SkipWhitespaceAndComments ct lx) := hw.of_reach hr0
  have hd := NextToken_dispatch ct lx hend
  rw [← hr0.1]
  generalize SkipWhitespaceAndComments ct lx = lx0 at hr0 hw0 hd hend
  have hlt := (isAtEnd_false_iff lx0).1 hend
  by_cases h34 : lx0.Peek = 34
  · rw [hd.1 h34]
    have hs := (LexString_spec lx0 hend).2.2.2
    simp only [LexString] at hs ⊢
    simp only [MakeToken_startOffset, MakeToken_length, MakeToken_type]
    exact ⟨by omega, fun h => absurd rfl h⟩
  · cases hn : numberStart ct lx0 with
    | true =>
      rw [(hd.2 h34).1 hn]
      obtain ⟨sign, digits, frac, percent, letters, lx6, _, _, _, _, _, _, call, _, hfall, hnum⟩ :=
        LexNumber_scan ct lx0 hw0
      by_cases hne : digits = [] ∧ frac = []
      · obtain ⟨_, h2, h3, h4⟩ := hfall hne
        obtain ⟨h5, h6⟩ := h4 hend
        rw [h2, h3, h5, h6]
        exact ⟨rfl, fun _ => rfl⟩
      · rw [hnum hne]
        simp only [MakeToken_startOffset, MakeToken_length, MakeToken_lexeme]
        refine ⟨call.2.2.1.symm, fun _ => ?_⟩
        have hsub := call.substr_eq
        rw [call.2.2.1, Nat.add_sub_cancel_left] at hsub
        exact hsub.symm
    | false =>
      cases hi : (ct.iswalpha lx0.Peek || lx0.Peek == 95) with
      | true =>
        rw [((hd.2 h34).2 hn).1 hi]
        have hs := LexIdentifier_spec ct lx0 hend hi
        have hlt2 := hs.2.2.2
        have hdoc := hs.2.2.1.1
        simp only [LexIdentifier] at hlt2 hdoc ⊢
        simp only [MakeToken_startOffset, MakeToken_length, MakeToken_lexeme]
        rw [hdoc]
        exact ⟨by omega, fun _ => rfl⟩
      | false =>
        rw [((hd.2 h34).2 hn).2 hi]
        have h1 := Advance_offset lx0 hend
        have hdoc := (reach_Advance lx0).1
        have hlen := hw0.1
        simp only [LexPunctuation, MakeToken_startOffset, MakeToken_length, MakeToken_lexeme]
        rw [hdoc, if_pos (by omega)]
        exact ⟨h1.symm, fun _ => rfl⟩

/-- The cursor after `n` calls is not before the cursor after `m` calls, for `m ≤ n`. -/
theorem afterCalls_mono (ct : CType) (lx : Lexer) {m n : Nat} (h : m ≤ n) :
    (afterCalls ct m lx).m_offset ≤ (afterCalls ct n lx).m_offset := by
  obtain ⟨k, rfl⟩ := Nat.exists_eq_add_of_le h
  rw [afterCalls_add]
  exact (reach_afterCalls ct k _).2.2.1

/-- A token does not start before the cursor of the call that returns it. -/
theorem NextToken_startOffset_ge (ct : CType) (lx : Lexer) :
    lx.m_offset ≤ (NextToken ct lx).1.startOffset := by
  have hr0 := (reach_SkipWhitespaceAndComments ct lx).2.2.1
  cases hend : (SkipWhitespaceAndComments ct lx).IsAtEnd with
  | true =>
    rw [(NextToken_spec ct lx).1 hend]
    exact hr0
  | false =>
    rw [((NextToken_spec ct lx).2 hend).2.1]
    exact hr0

/-- A token of the stream that is not `EndOfFile` ends where the lexer is after the
call that returns it. -/
theorem nthToken_extent (ct : CType) (document : SourceDocument) (m : Nat)
    (h : (nthToken ct m (Lexer.new document)).type ≠ TokenType.EndOfFile) :
    (nthToken ct m (Lexer.new document)).startOffset +
        (nthToken ct m (Lexer.new document)).length =
      (afterCalls ct (m + 1) (Lexer.new document)).m_offset := by
  have hw : WellFormed (afterCalls ct m (Lexer.new document)) :=
    (WellFormed.ofNew document).of_reach (reach_afterCalls ct m (Lexer.new document))
  have hend : (SkipWhitespaceAndComments ct (afterCalls ct m (Lexer.new document))).IsAtEnd
      = false := by
    cases hend : (SkipWhitespaceAndComments ct (afterCalls ct m (Lexer.new document))).IsAtEnd with
    | true =>
      simp only [nthToken, (NextToken_spec ct _).1 hend] at h
      exact absurd rfl h
    | false => rfl
  rw [afterCalls_succ]
  exact (NextToken_extent ct _ hw hend).1

/-- C38. Take the tokens that the successive calls of `NextToken` on a new lexer
return, and one of them, of number `m`, that is not `EndOfFile`. It has a length of
one character or more and it ends within the content (`startOffset + length` is at
most the length of the content). Every later token, of number `n > m`, starts at the
end of this one or after it, so strictly after its start: the tokens have strictly
increasing start offsets and do not overlap. And unless the token is a `String`
token its lexeme is the part of the content from `startOffset` of the length
`length`. -/
theorem C38_tokens_do_not_overlap (ct : CType) (document : SourceDocument) (m : Nat)
    (h : (nthToken ct m (Lexer.new document)).type ≠ TokenType.EndOfFile) :
    1 ≤ (nthToken ct m (Lexer.new document)).length ∧
      (nthToken ct m (Lexer.new document)).startOffset +
        (nthToken ct m (Lexer.new document)).length ≤ document.content.length ∧
      (∀ n, m < n →
        (nthToken ct m (Lexer.new document)).startOffset +
            (nthToken ct m (Lexer.new document)).length ≤
          (nthToken ct n (Lexer.new document)).startOffset ∧
        (nthToken ct m (Lexer.new document)).startOffset <
          (nthToken ct n (Lexer.new document)).startOffset) ∧
      ((nthToken ct m (Lexer.new document)).type ≠ TokenType.String →
        (nthToken ct m (Lexer.new document)).lexeme = substr document.content
          (nthToken ct m (Lexer.new document)).startOffset
          (nthToken ct m (Lexer.new document)).length) := by
  have hr := reach_afterCalls ct m (Lexer.new document)
  have hw : WellFormed (afterCalls ct m (Lexer.new document)) :=
    (WellFormed.ofNew document).of_reach hr
  have hend : (SkipWhitespaceAndComments ct (afterCalls ct m (Lexer.new document))).IsAtEnd
      = false := by
    cases hend : (SkipWhitespaceAndComments ct (afterCalls ct m (Lexer.new document))).IsAtEnd with
    | true =>
      simp only [nthToken, (NextToken_spec ct _).1 hend] at h
      exact absurd rfl h
    | false => rfl
  have hext := NextToken_extent ct _ hw hend
  have hspec := (NextToken_spec ct (afterCalls ct m (Lexer.new document))).2 hend
  have hw1 : WellFormed (NextToken ct (afterCalls ct m (Lexer.new document))).2 :=
    hw.of_reach (reach_NextToken ct _)
  have hlen : (NextToken ct (afterCalls ct m (Lexer.new document))).2.m_length =
      document.content.length := by
    rw [hw1.1, (reach_NextToken ct _).1, hr.1]
    rfl
  have hdoc : (afterCalls ct m (Lexer.new document)).m_document.content = document.content := by
    rw [hr.1]
    rfl
  have h2 := hw1.2
  have h3 := hspec.2.2.2
  have h4 := hspec.2.1
  have h7 := hext.1
  have h8 := hext.2
  rw [hdoc] at h8
  simp only [nthToken]
  refine ⟨by omega, by omega, fun n hn => ?_, h8⟩
  have h5 := afterCalls_mono ct (Lexer.new document) (Nat.succ_le_of_lt hn)
  rw [afterCalls_succ] at h5
  have h6 := NextToken_startOffset_ge ct (afterCalls ct n (Lexer.new document))
  constructor <;> omega

/-- C38 at a concrete input: in `ab "c" 1.5;` the token of number `1` is the `String`
token of `"c"`, from offset `3` and of length `3`, and the token of number `2`, the
`Number` token `1.5`, starts at offset `7`. -/
theorem C38_tokens_do_not_overlap_witness :
    (nthToken CType.ascii 1 (Lexer.new (documentOf "ab \"c\" 1.5;"))).startOffset = 3 ∧
      (nthToken CType.ascii 1 (Lexer.new (documentOf "ab \"c\" 1.5;"))).length = 3 ∧
      (nthToken CType.ascii 2 (Lexer.new (documentOf "ab \"c\" 1.5;"))).startOffset = 7 ∧
      (nthToken CType.ascii 1 (Lexer.new (documentOf "ab \"c\" 1.5;"))).startOffset +
          (nthToken CType.ascii 1 (Lexer.new (documentOf "ab \"c\" 1.5;"))).length ≤
        (nthToken CType.ascii 2 (Lexer.new (documentOf "ab \"c\" 1.5;"))).startOffset :=
  ⟨by decide, by decide, by decide,
    ((C38_tokens_do_not_overlap CType.ascii (documentOf "ab \"c\" 1.5;") 1 (by decide)).2.2.1
      2 (by decide)).1⟩

end Lexer
namespace Lexer

/-! ## C34: identifiers -/

/-- With the classification functions of the C library, a letter or `_` at the cursor
does not start a string literal or a number. -/
theorem numberStart_of_letter (ct : CType) (hs : ct.Standard) (lx : Lexer)
    (hc : (ct.iswalpha lx.Peek || lx.Peek == 95) = true) :
    lx.Peek ≠ 34 ∧ lx.Peek ≠ 0 ∧ numberStart ct lx = false := by
  have h34 := (hs.2.2 34 (by simp)).1
  have h43 := (hs.2.2 43 (by simp)).1
  have h45 := (hs.2.2 45 (by simp)).1
  have h46 := (hs.2.2 46 (by simp)).1
  have h95 := (hs.2.2 95 (by simp)).2
  have hdig : ct.iswdigit lx.Peek = false := by
    rcases Bool.or_eq_true_iff.1 hc with h | h
    · exact hs.2.1 _ h
    · rw [beq_iff_eq] at h
      rw [h]
      exact h95
  have hne : ∀ c, ct.iswalpha c = false → c ≠ 95 → lx.Peek ≠ c := by
    intro c hca hc95 e
    rcases Bool.or_eq_true_iff.1 hc with h | h
    · rw [e, hca] at h
      cases h
    · rw [beq_iff_eq] at h
      exact hc95 (e ▸ h)
  have n34 := hne 34 h34 (by decide)
  have n43 := hne 43 h43 (by decide)
  have n45 := hne 45 h45 (by decide)
  have n46 := hne 46 h46 (by decide)
  have n0 := hne 0 ct.iswalpha_zero (by decide)
  refine ⟨n34, n0, ?_⟩
  simp [numberStart, isDigit, hdig, n43, n45, n46]

/-- C34. With the classification functions of the C library (`CType.Standard`), let
the first character that `NextToken` does not skip be a letter or `_`. Then the
token returned is an `Identifier` token that starts at this character, its lexeme
is the longest run of letters, digits, `_`, `-` and `:` that starts there, its
length is the length of this run, and the character of the content after the token
is not one of these (it is `0` at the end of the content). -/
theorem C34_identifier_is_the_longest_run (ct : CType) (hs : ct.Standard) (lx : Lexer)
    (hw : WellFormed lx)
    (hc : (ct.iswalpha (SkipWhitespaceAndComments ct lx).Peek ||
      (SkipWhitespaceAndComments ct lx).Peek == 95) = true) :
    (NextToken ct lx).1.type = TokenType.Identifier ∧
      (NextToken ct lx).1.startOffset = (SkipWhitespaceAndComments ct lx).m_offset ∧
      (NextToken ct lx).1.lexeme = (SkipWhitespaceAndComments ct lx).rest.takeWhile
        (fun c => ct.iswalpha c || ct.iswdigit c || c == 95 || c == 45 || c == 58) ∧
      (NextToken ct lx).1.length = (NextToken ct lx).1.lexeme.length ∧
      (fun c => ct.iswalpha c || ct.iswdigit c || c == 95 || c == 45 || c == 58)
        (lx.m_document.content.getD
          ((NextToken ct lx).1.startOffset + (NextToken ct lx).1.length) 0) = false := by
  have hr0 := reach_SkipWhitespaceAndComments ct lx
  have hw0 : WellFormed (SkipWhitespaceAndComments ct lx) := hw.of_reach hr0
  obtain ⟨n34, n0, hn⟩ := numberStart_of_letter ct hs _ hc
  have hend := not_atEnd_of_peek n0
  have hnt := (((NextToken_dispatch ct lx hend).2 n34).2 hn).1 hc
  rw [hnt, ← hr0.1]
  generalize SkipWhitespaceAndComments ct lx = lx0 at hr0 hw0 hend
  have hp : (fun c => ct.iswalpha c || ct.iswdigit c || c == 95 || c == 45 || c == 58) =
      (fun ch => ct.iswalnum ch || ch == 95 || ch == 45 || ch == 58) := by
    funext c
    rw [hs.1 c]
  have hp0 : (fun ch => ct.iswalnum ch || ch == 95 || ch == 45 || ch == 58) 0 = false := by
    simp [hs.1 0, ct.iswalpha_zero, ct.iswdigit_zero]
  rw [hp]
  obtain ⟨call, hrest⟩ := advanceWhile_consumed
    (fun ch => ct.iswalnum ch || ch == 95 || ch == 45 || ch == 58) lx0.remaining lx0 hw0
    (le_refl _)
  have hsub := call.substr_eq
  have hw1 := call.wellFormed hw0
  have hstop := headD_dropWhile
    (fun ch => ct.iswalnum ch || ch == 95 || ch == 45 || ch == 58) hp0 lx0.rest
  rw [← hrest, ← Peek_eq hw1] at hstop
  have hpk := Peek_eq hw1
  simp only [rest] at hpk
  rw [headD_drop] at hpk
  simp only [LexIdentifier, MakeToken_type, MakeToken_startOffset, MakeToken_length,
    MakeToken_lexeme]
  rw [call.1, hsub]
  refine ⟨trivial, trivial, rfl, ?_, ?_⟩
  · rw [call.2.2.1, Nat.add_sub_cancel_left]
  · have hle : lx0.m_offset ≤ (advanceWhile
        (fun ch => ct.iswalnum ch || ch == 95 || ch == 45 || ch == 58) lx0.remaining lx0).m_offset := by
      rw [call.2.2.1]
      exact Nat.le_add_right _ _
    rw [Nat.add_sub_cancel' hle, ← call.1, ← hpk]
    exact hstop

/-- C34 at concrete inputs: `a-1` and `ns:name` are each one `Identifier` token, and in
`_x9.y` the identifier `_x9` ends before the `.`. -/
theorem C34_identifier_is_the_longest_run_witness :
    ((NextToken CType.ascii (Lexer.new (documentOf " a-1 b"))).1.type = TokenType.Identifier ∧
        (NextToken CType.ascii (Lexer.new (documentOf " a-1 b"))).1.lexeme = wstr "a-1") ∧
      ((NextToken CType.ascii (Lexer.new (documentOf "ns:name=1"))).1.type =
          TokenType.Identifier ∧
        (NextToken CType.ascii (Lexer.new (documentOf "ns:name=1"))).1.lexeme = wstr "ns:name") ∧
      (NextToken CType.ascii (Lexer.new (documentOf "_x9.y"))).1.lexeme = wstr "_x9" :=
  ⟨⟨(C34_identifier_is_the_longest_run CType.ascii CType.ascii_standard
      (Lexer.new (documentOf " a-1 b")) (WellFormed.ofNew _) (by decide)).1, by decide⟩,
    ⟨(C34_identifier_is_the_longest_run CType.ascii CType.ascii_standard
      (Lexer.new (documentOf "ns:name=1")) (WellFormed.ofNew _) (by decide)).1, by decide⟩,
    by decide⟩

end Lexer
namespace Lexer

/-! ## C35: a block comment that is not closed -/

theorem eq_of_fields {a b : Lexer} (h1 : a.m_document = b.m_document)
    (h2 : a.m_offset = b.m_offset) (h3 : a.m_length = b.m_length) : a = b := by
  cases a
  cases b
  simp only [mk.injEq]
  exact ⟨h1, h2, h3⟩

/-- The loop of a block comment, on a text that has no `*/`, ends at the end of the
input. -/
theorem skipBlockComment_unclosed (fuel : Nat) (lx : Lexer) (hw : WellFormed lx)
    (hfuel : lx.remaining ≤ fuel) (hno : ¬ [42, 47] <:+: lx.rest) :
    (skipBlockComment fuel lx).m_offset = lx.m_length := by
  induction fuel generalizing lx with
  | zero =>
    have := hw.2
    simp only [remaining] at hfuel
    simp only [skipBlockComment]
    omega
  | succ n ih =>
    unfold skipBlockComment
    cases hend : lx.IsAtEnd with
    | true =>
      have := (isAtEnd_true_iff lx).1 hend
      have := hw.2
      simp only [if_true]
      omega
    | false =>
      obtain ⟨_, call⟩ := Advance_consumed hw hend
      have hw1 := call.wellFormed hw
      have hrest := call.2.2.2
      simp only [Bool.false_eq_true, if_false]
      split
      · rename_i hc
        exfalso
        simp only [Bool.and_eq_true, decide_eq_true_eq] at hc
        have h1 := PeekAhead_eq hw 1
        have hpn : lx.PeekNext = lx.PeekAhead 1 := rfl
        rw [hpn, h1, hrest] at hc
        simp only [List.singleton_append, List.getD_cons_succ] at hc
        apply hno
        rw [hrest, hc.1]
        cases hr : lx.Advance.2.rest with
        | nil =>
          rw [hr] at hc
          simp at hc
        | cons c t =>
          rw [hr] at hc
          simp only [List.getD_cons_zero] at hc
          rw [hc.2]
          exact ⟨[], t, rfl⟩
      · have hlen := call.2.1
        have hoff := call.2.2.1
        rw [← hlen]
        apply ih _ hw1
        · have hlt := (isAtEnd_false_iff lx).1 hend
          simp only [List.length_singleton] at hoff
          simp only [remaining] at hfuel ⊢
          omega
        · intro h
          apply hno
          rw [hrest]
          exact h.trans (List.suffix_append _ _).isInfix

/-- The leading white space of a skipped text that a `/` follows: what is left begins
with that `/` or with a comment. -/
theorem Skipped.dropSpace {ct : CType} (hsp : ct.iswspace 47 = false) {skipped : WString}
    (h : Skipped ct skipped) (tail : WString) :
    ∃ left, (skipped ++ 47 :: tail).dropWhile ct.iswspace = left ++ 47 :: tail ∧
      left.length ≤ skipped.length ∧
      (left = [] ∨
        (∃ text rest, left = 47 :: 47 :: (text ++ 10 :: rest) ∧ (10 : Nat) ∉ text ∧
          Skipped ct (10 :: rest)) ∨
        ∃ text rest, left = 47 :: 42 :: (text ++ 42 :: 47 :: rest) ∧ ¬ [42, 47] <:+: text ∧
          Skipped ct rest) := by
  induction h with
  | none =>
    refine ⟨[], ?_, Nat.le_refl _, Or.inl rfl⟩
    simp [List.dropWhile_cons, hsp]
  | space c rest hc _ ih =>
    obtain ⟨left, h1, h2, h3⟩ := ih
    refine ⟨left, ?_, by simp only [List.length_cons]; omega, h3⟩
    rw [List.cons_append, List.dropWhile_cons, hc]
    exact h1
  | line text rest ht hr _ =>
    refine ⟨_, ?_, Nat.le_refl _, Or.inr (Or.inl ⟨text, rest, rfl, ht, hr⟩)⟩
    rw [List.cons_append, List.dropWhile_cons, hsp]
    rfl
  | block text rest ht hr _ =>
    refine ⟨_, ?_, Nat.le_refl _, Or.inr (Or.inr ⟨text, rest, rfl, ht, hr⟩)⟩
    rw [List.cons_append, List.dropWhile_cons, hsp]
    rfl

/-- The loop of a block comment consumes the text up to the first `*/` and this `*/`. -/
theorem skipBlockComment_closed (text after : WString) (hno : ¬ [42, 47] <:+: text) :
    ∀ (fuel : Nat) (lx : Lexer), WellFormed lx → lx.remaining ≤ fuel →
      lx.rest = text ++ 42 :: 47 :: after →
      Consumed lx (skipBlockComment fuel lx) (text ++ [42, 47]) := by
  induction text with
  | nil =>
    intro fuel lx hw hfuel hrest
    simp only [List.nil_append] at hrest ⊢
    have hend : lx.IsAtEnd = false := by
      cases h : lx.IsAtEnd with
      | false => rfl
      | true =>
        rw [(rest_eq_nil_iff hw).2 h] at hrest
        cases hrest
    have hpk : lx.Peek = 42 := by rw [Peek_eq hw, hrest]; rfl
    have hpn : lx.PeekNext = 47 := by
      show lx.PeekAhead 1 = 47
      rw [PeekAhead_eq hw, hrest]
      rfl
    obtain ⟨_, call1⟩ := Advance_consumed hw hend
    have hw1 := call1.wellFormed hw
    have hrest1 : lx.Advance.2.rest = 47 :: after := by
      have := call1.2.2.2
      rw [hrest, hpk] at this
      simpa using this.symm
    have hend1 : lx.Advance.2.IsAtEnd = false := by
      cases h : lx.Advance.2.IsAtEnd with
      | false => rfl
      | true =>
        rw [(rest_eq_nil_iff hw1).2 h] at hrest1
        cases hrest1
    obtain ⟨_, call2⟩ := Advance_consumed hw1 hend1
    have hpk1 : lx.Advance.2.Peek = 47 := by rw [Peek_eq hw1, hrest1]; rfl
    rw [hpk] at call1
    rw [hpk1] at call2
    have hlt := (isAtEnd_false_iff lx).1 hend
    cases fuel with
    | zero =>
      simp only [remaining] at hfuel
      omega
    | succ n =>
      simp only [skipBlockComment, hend, hpk, hpn, Bool.false_eq_true, if_false, decide_True,
        Bool.and_self, if_true]
      exact call1.append call2
  | cons c t ih =>
    intro fuel lx hw hfuel hrest
    have hend : lx.IsAtEnd = false := by
      cases h : lx.IsAtEnd with
      | false => rfl
      | true =>
        rw [(rest_eq_nil_iff hw).2 h] at hrest
        cases hrest
    have hpk : lx.Peek = c := by rw [Peek_eq hw, hrest]; rfl
    have hpn : lx.PeekNext = (t ++ 42 :: 47 :: after).headD 0 := by
      show lx.PeekAhead 1 = _
      rw [PeekAhead_eq hw, hrest]
      cases t <;> rfl
    obtain ⟨_, call1⟩ := Advance_consumed hw hend
    have hw1 := call1.wellFormed hw
    have hrest1 : lx.Advance.2.rest = t ++ 42 :: 47 :: after := by
      have := call1.2.2.2
      rw [hrest, hpk] at this
      simpa using this.symm
    have hnot : ¬ (lx.Peek = 42 ∧ lx.PeekNext = 47) := by
      rintro ⟨h1, h2⟩
      rw [hpk] at h1
      rw [hpn] at h2
      cases t with
      | nil => simp at h2
      | cons d t1 =>
        simp only [List.cons_append, List.headD_cons] at h2
        apply hno
        rw [h1, h2]
        exact ⟨[], t1, rfl⟩
    have hlt := (isAtEnd_false_iff lx).1 hend
    have hoff := call1.2.2.1
    have hlen := call1.2.1
    simp only [List.length_singleton] at hoff
    cases fuel with
    | zero =>
      simp only [remaining] at hfuel
      omega
    | succ n =>
      have hc : (decide (lx.Peek = 42) && decide (lx.PeekNext = 47)) = false := by
        cases h : (decide (lx.Peek = 42) && decide (lx.PeekNext = 47)) with
        | false => rfl
        | true =>
          simp only [Bool.and_eq_true, decide_eq_true_eq] at h
          exact absurd h hnot
      simp only [skipBlockComment, hend, Bool.false_eq_true, if_false, hc]
      have hno1 : ¬ [42, 47] <:+: t := fun h => hno (h.trans (List.suffix_cons c t).isInfix)
      have := ih hno1 n lx.Advance.2 hw1 (by simp only [remaining] at hfuel ⊢; omega) hrest1
      rw [hpk] at call1
      exact call1.append this

/-- The loop of a line comment consumes the text up to the `\n`. -/
theorem advanceWhile_line (lx : Lexer) (hw : WellFormed lx) (text after : WString)
    (hrest : lx.rest = text ++ 10 :: after) (hno : (10 : Nat) ∉ text) :
    Consumed lx (advanceWhile (fun c => c != 10) lx.remaining lx) text ∧
      (advanceWhile (fun c => c != 10) lx.remaining lx).rest = 10 :: after := by
  obtain ⟨call, hafter⟩ := advanceWhile_consumed (fun c => c != 10) lx.remaining lx hw
    (le_refl _)
  have h1 : (text ++ 10 :: after).takeWhile (fun c => c != 10) = text ∧
      (text ++ 10 :: after).dropWhile (fun c => c != 10) = 10 :: after := by
    clear hrest call hafter
    induction text with
    | nil => simp
    | cons c t ih =>
      have hc : c ≠ 10 := fun e => hno (e ▸ List.mem_cons_self c t)
      have := ih (fun h => hno (List.mem_cons_of_mem _ h))
      simp [List.takeWhile_cons, List.dropWhile_cons, hc, this.1, this.2]
  rw [hrest, h1.1] at call
  rw [hrest, h1.2] at hafter
  exact ⟨call, hafter⟩

theorem skipLoop_atEnd (ct : CType) (fuel : Nat) (lx : Lexer) (advanced : Bool)
    (h : lx.IsAtEnd = true) : skipLoop ct fuel lx advanced = lx := by
  cases fuel with
  | zero => rfl
  | succ n => simp [skipLoop, h]

theorem not_atEnd_of_rest {lx : Lexer} (hw : WellFormed lx) {c : Nat} {tail : WString}
    (h : lx.rest = c :: tail) : lx.IsAtEnd = false := by
  cases he : lx.IsAtEnd with
  | false => rfl
  | true =>
    rw [(rest_eq_nil_iff hw).2 he] at h
    cases h

/-- Two calls of `Advance` over two characters. -/
theorem Advance_twice {lx : Lexer} (hw : WellFormed lx) {a b : Nat} {tail : WString}
    (h : lx.rest = a :: b :: tail) :
    Consumed lx lx.Advance.2.Advance.2 [a, b] ∧ lx.Advance.2.Advance.2.rest = tail ∧
      lx.Peek = a ∧ lx.PeekNext = b := by
  have hend := not_atEnd_of_rest hw h
  have hpk : lx.Peek = a := by rw [Peek_eq hw, h]; rfl
  have hpn : lx.PeekNext = b := by
    show lx.PeekAhead 1 = b
    rw [PeekAhead_eq hw, h]
    rfl
  obtain ⟨_, call1⟩ := Advance_consumed hw hend
  have hw1 := call1.wellFormed hw
  have hrest1 : lx.Advance.2.rest = b :: tail := by
    have := call1.2.2.2
    rw [h, hpk] at this
    simpa using this.symm
  have hend1 := not_atEnd_of_rest hw1 hrest1
  obtain ⟨_, call2⟩ := Advance_consumed hw1 hend1
  have hpk1 : lx.Advance.2.Peek = b := by rw [Peek_eq hw1, hrest1]; rfl
  have hrest2 : lx.Advance.2.Advance.2.rest = tail := by
    have := call2.2.2.2
    rw [hrest1, hpk1] at this
    simpa using this.symm
  rw [hpk] at call1
  rw [hpk1] at call2
  exact ⟨call1.append call2, hrest2, hpk, hpn⟩

/-- The loop of `SkipWhitespaceAndComments`, at a skipped text and then a `/*` that no
`*/` follows, ends at the end of the input. -/
theorem skipLoop_unclosed (ct : CType) (hsp : ct.iswspace 47 = false) (body : WString)
    (hno : ¬ [42, 47] <:+: body) :
    ∀ (n : Nat) (skipped : WString) (lx : Lexer) (fuel : Nat), skipped.length = n →
      WellFormed lx → lx.rest = skipped ++ 47 :: 42 :: body → Skipped ct skipped →
      skipped.length + 1 ≤ fuel →
      skipLoop ct fuel lx true = { lx with m_offset := lx.m_length } := by
  intro n
  induction n using Nat.strong_induction_on with
  | _ n ih =>
    intro skipped lx fuel hn hw hrest hs hfuel
    have hend : lx.IsAtEnd = false := by
      cases skipped with
      | nil => exact not_atEnd_of_rest hw hrest
      | cons c t => exact not_atEnd_of_rest hw hrest
    obtain ⟨lx0, hlx0⟩ : ∃ lx0, lx0 = advanceWhile ct.iswspace lx.remaining lx := ⟨_, rfl⟩
    obtain ⟨call0, hrest0⟩ := advanceWhile_consumed ct.iswspace lx.remaining lx hw (le_refl _)
    rw [← hlx0] at call0 hrest0
    have hw0 := call0.wellFormed hw
    obtain ⟨left, hdrop, hleft, hcases⟩ := hs.dropSpace hsp (42 :: body)
    rw [hrest, hdrop] at hrest0
    have hend0 : lx0.IsAtEnd = false := by
      cases left with
      | nil => exact not_atEnd_of_rest hw0 hrest0
      | cons c t => exact not_atEnd_of_rest hw0 hrest0
    obtain ⟨f, rfl⟩ : ∃ f, fuel = f + 1 := ⟨fuel - 1, by omega⟩
    have hsame : ∀ lx3 : Lexer, lx3.m_document = lx0.m_document → lx3.m_length = lx0.m_length →
        ({ lx3 with m_offset := lx3.m_length } : Lexer) = { lx with m_offset := lx.m_length } := by
      intro lx3 h1 h2
      apply eq_of_fields
      · show lx3.m_document = lx.m_document
        rw [h1, call0.1]
      · show lx3.m_length = lx.m_length
        rw [h2, call0.2.1]
      · show lx3.m_length = lx.m_length
        rw [h2, call0.2.1]
    rcases hcases with hl | ⟨text, rest, hl, htext, hrestS⟩ | ⟨text, rest, hl, htext, hrestS⟩
    · -- the `/*` that is not closed
      rw [hl, List.nil_append] at hrest0
      obtain ⟨call2, hrest2, hpk, hpn⟩ := Advance_twice hw0 hrest0
      have hw2 := call2.wellFormed hw0
      have hoff := skipBlockComment_unclosed lx0.Advance.2.Advance.2.remaining _ hw2 (le_refl _)
        (by rw [hrest2]; exact hno)
      have hr3 := reach_skipBlockComment lx0.Advance.2.Advance.2.remaining
        lx0.Advance.2.Advance.2
      have hlx3 : skipBlockComment lx0.Advance.2.Advance.2.remaining lx0.Advance.2.Advance.2 =
          { lx with m_offset := lx.m_length } := by
        apply eq_of_fields
        · rw [hr3.1, call2.1, call0.1]
        · rw [hoff, call2.2.1, call0.2.1]
        · rw [hr3.2.1, call2.2.1, call0.2.1]
      have hatEnd : ({ lx with m_offset := lx.m_length } : Lexer).IsAtEnd = true := by
        simp [IsAtEnd]
      unfold skipLoop
      simp only [← hlx0, hend, hend0, hpk, hpn, hlx3]
      simp [skipLoop_atEnd ct f _ true hatEnd]
    · -- a line comment
      rw [hl] at hrest0 hleft
      obtain ⟨call2, hrest2, hpk, hpn⟩ := Advance_twice hw0
        (show lx0.rest = 47 :: 47 :: ((text ++ 10 :: rest) ++ 47 :: 42 :: body) from hrest0)
      have hw2 := call2.wellFormed hw0
      have hrest2a : lx0.Advance.2.Advance.2.rest = text ++ 10 :: (rest ++ 47 :: 42 :: body) := by
        rw [hrest2]
        simp
      obtain ⟨call3, hrest3⟩ := advanceWhile_line _ hw2 text _ hrest2a htext
      have hw3 := call3.wellFormed hw2
      simp only [List.length_cons, List.length_append] at hleft
      have hstep := ih (10 :: rest).length (by simp only [List.length_cons]; omega) (10 :: rest)
        _ f rfl hw3 (by rw [hrest3]; rfl) hrestS (by simp only [List.length_cons]; omega)
      unfold skipLoop
      simp only [← hlx0, hend, hend0, hpk, hpn]
      simp only [Bool.not_false, Bool.and_self, decide_True, if_true, Bool.false_eq_true, if_false]
      rw [hstep]
      exact hsame _ (call3.1.trans call2.1) (call3.2.1.trans call2.2.1)
    · -- a block comment
      rw [hl] at hrest0 hleft
      obtain ⟨call2, hrest2, hpk, hpn⟩ := Advance_twice hw0
        (show lx0.rest = 47 :: 42 :: ((text ++ 42 :: 47 :: rest) ++ 47 :: 42 :: body) from hrest0)
      have hw2 := call2.wellFormed hw0
      have hrest2a : lx0.Advance.2.Advance.2.rest =
          text ++ 42 :: 47 :: (rest ++ 47 :: 42 :: body) := by
        rw [hrest2]
        simp
      have call3 := skipBlockComment_closed text _ htext lx0.Advance.2.Advance.2.remaining _ hw2
        (le_refl _) hrest2a
      have hw3 := call3.wellFormed hw2
      have hrest3 : (skipBlockComment lx0.Advance.2.Advance.2.remaining
          lx0.Advance.2.Advance.2).rest = rest ++ 47 :: 42 :: body := by
        have := call3.2.2.2
        rw [hrest2a] at this
        have e : text ++ 42 :: 47 :: (rest ++ 47 :: 42 :: body) =
            (text ++ [42, 47]) ++ (rest ++ 47 :: 42 :: body) := by simp
        rw [e] at this
        exact (List.append_cancel_left this).symm
      simp only [List.length_cons, List.length_append] at hleft
      have hstep := ih rest.length (by omega) rest _ f rfl hw3 hrest3 hrestS (by omega)
      unfold skipLoop
      simp only [← hlx0, hend, hend0, hpk, hpn]
      simp only [Bool.not_false, Bool.and_self, decide_True, if_true, Bool.false_eq_true, if_false,
        Nat.reduceEqDiff, decide_False, Bool.and_false, Bool.and_true]
      rw [hstep]
      exact hsame _ (call3.1.trans call2.1) (call3.2.1.trans call2.2.1)

/-- At a skipped text and then a `/*` that no `*/` follows, `NextToken` skips to the end
of the input and returns the `EndOfFile` token. -/
theorem NextToken_unclosed_comment (ct : CType) (hsp : ct.iswspace 47 = false) (lx : Lexer)
    (hw : WellFormed lx) (skipped body : WString)
    (hrest : lx.rest = skipped ++ 47 :: 42 :: body)
    (hs : Skipped ct skipped) (hno : ¬ [42, 47] <:+: body) :
    NextToken ct lx =
      (({ lx with m_offset := lx.m_length } : Lexer).MakeToken TokenType.EndOfFile lx.m_length 0 [],
        { lx with m_offset := lx.m_length }) := by
  have hlen := rest_length hw
  rw [hrest] at hlen
  simp only [List.length_append, List.length_cons] at hlen
  have hskip : SkipWhitespaceAndComments ct lx = { lx with m_offset := lx.m_length } := by
    unfold SkipWhitespaceAndComments
    exact skipLoop_unclosed ct hsp body hno _ skipped lx _ rfl hw hrest hs (by omega)
  simp only [NextToken, hskip]
  simp [IsAtEnd]

end Lexer
namespace Lexer

/-- After a call that returns `EndOfFile`, every call returns `EndOfFile`. -/
theorem nthToken_EndOfFile_later (ct : CType) (lx : Lexer) {n k : Nat} (hk : n ≤ k)
    (h : (nthToken ct n lx).type = TokenType.EndOfFile) :
    (nthToken ct k lx).type = TokenType.EndOfFile := by
  rcases Nat.eq_or_lt_of_le hk with rfl | hlt
  · exact h
  · obtain ⟨hend, _⟩ := NextToken_EndOfFile ct (afterCalls ct n lx) h
    rw [← afterCalls_succ] at hend
    obtain ⟨j, rfl⟩ : ∃ j, k = n + 1 + j := ⟨k - (n + 1), by omega⟩
    show (NextToken ct (afterCalls ct (n + 1 + j) lx)).1.type = TokenType.EndOfFile
    rw [afterCalls_add, afterCalls_of_atEnd ct j _ hend, NextToken_of_atEnd ct _ hend]
    rfl

end Lexer

namespace Parser

/-- C35. Let the content of a document be `pre`, then a text `skipped` of white space and
complete comments (it may be empty), then `/*`, then a text `body` that has no `*/`,
and let the lexer be at the end of `pre` after `n` calls of `NextToken` (so the `/*`
is not within a string literal or a comment); `/` is not white space. Then call
number `n` returns the `EndOfFile` token, at the end of the content, and leaves the
lexer at the end of the content: everything from the `/*` on is skipped. No token
comes from the comment: every token of the stream that is not `EndOfFile` has a
number below `n` and ends within `pre`. And the parser adds no diagnostic for the
comment: the loop of `Parse`, in a valid state of this document whose cursor is at
token number `n`, returns at once with the diagnostics it was entered with. -/
theorem C35_unclosed_block_comment_runs_to_the_end (ct : CType) (hsp : ct.iswspace 47 = false)
    (document : SourceDocument) (n : Nat) (pre skipped body : WString)
    (hcontent : document.content = pre ++ (skipped ++ 47 :: 42 :: body))
    (hat : (Lexer.afterCalls ct n (Lexer.new document)).m_offset = pre.length)
    (hskipped : Lexer.Skipped ct skipped)
    (hno : ¬ [42, 47] <:+: body) :
    ((Lexer.nthToken ct n (Lexer.new document)).type = TokenType.EndOfFile ∧
        (Lexer.nthToken ct n (Lexer.new document)).startOffset = document.content.length ∧
        (Lexer.afterCalls ct (n + 1) (Lexer.new document)).m_offset = document.content.length) ∧
      (∀ i, (Lexer.nthToken ct i (Lexer.new document)).type ≠ TokenType.EndOfFile →
        i < n ∧
        (Lexer.nthToken ct i (Lexer.new document)).startOffset +
          (Lexer.nthToken ct i (Lexer.new document)).length ≤ pre.length) ∧
      ∀ p : Parser, Valid ct p → p.m_document = document → p.m_cursor = n →
        ∀ fuel, ∃ q, Parse ct (fuel + 1) p = some (ThemeDocument.empty, q) ∧
          q.m_diagnostics = p.m_diagnostics ∧ q.m_cursor = n := by
  have hr := Lexer.reach_afterCalls ct n (Lexer.new document)
  have hw : Lexer.WellFormed (Lexer.afterCalls ct n (Lexer.new document)) :=
    (Lexer.WellFormed.ofNew document).of_reach hr
  have hrest : (Lexer.afterCalls ct n (Lexer.new document)).rest =
      skipped ++ 47 :: 42 :: body := by
    simp only [Lexer.rest, hr.1, hat]
    show document.content.drop pre.length = _
    rw [hcontent, List.drop_left]
  have hnt := Lexer.NextToken_unclosed_comment ct hsp _ hw skipped body hrest hskipped hno
  have hlen : (Lexer.afterCalls ct n (Lexer.new document)).m_length = document.content.length := by
    rw [hr.2.1]
    rfl
  have htype : (Lexer.nthToken ct n (Lexer.new document)).type = TokenType.EndOfFile := by
    simp only [Lexer.nthToken, hnt, Lexer.MakeToken_type]
  refine ⟨⟨htype, ?_, ?_⟩, fun i hi => ?_, fun p hv hd hc fuel => ?_⟩
  · simp only [Lexer.nthToken, hnt, Lexer.MakeToken_startOffset, hlen]
  · rw [Lexer.afterCalls_succ, hnt]
    exact hlen
  · have hin : i < n := by
      by_contra hge
      exact hi (Lexer.nthToken_EndOfFile_later ct _ (Nat.le_of_not_lt hge) htype)
    refine ⟨hin, ?_⟩
    have hext := Lexer.nthToken_extent ct document i hi
    have h5 := Lexer.afterCalls_mono ct (Lexer.new document) (Nat.succ_le_of_lt hin)
    rw [Nat.succ_eq_add_one] at h5
    omega
  · have hsees : Sees ct p TokenType.EndOfFile := by
      simp only [Sees, tokenAt, hd, hc]
      exact htype
    have hend := (IsAtEnd_iff hv).2 hsees
    refine ⟨(IsAtEnd ct p).2, ?_, IsAtEnd_diagnostics ct p, ?_⟩
    · simp [Parse, runLoop, parseStep, hend]
    · rw [IsAtEnd_cursor, hc]

/-- C35 at a concrete input: in `a /* x */ // y`, a new line and ` /* b * /` the last
comment is not closed, call number `1` returns `EndOfFile` at the end of the content,
offset `24`, and the loop of `Parse` with the cursor at token number `1` returns with
no diagnostic. -/
theorem C35_unclosed_block_comment_runs_to_the_end_witness :
    (Lexer.nthToken CType.ascii 1
        (Lexer.new (documentOf "a /* x */ // y\n /* b * /"))).type = TokenType.EndOfFile ∧
      (Lexer.nthToken CType.ascii 1
        (Lexer.new (documentOf "a /* x */ // y\n /* b * /"))).startOffset = 24 ∧
      ∃ q, Parse CType.ascii 1 ⟨documentOf "a /* x */ // y\n /* b * /",
          Lexer.new (documentOf "a /* x */ // y\n /* b * /"), [], [], 1⟩ =
          some (ThemeDocument.empty, q) ∧ q.m_diagnostics = [] ∧ q.m_cursor = 1 :=
  have h := C35_unclosed_block_comment_runs_to_the_end CType.ascii (by decide)
    (documentOf "a /* x */ // y\n /* b * /") 1 (wstr "a") (wstr " /* x */ // y\n ")
    (wstr " b * /") (by decide) (by decide)
    (Lexer.Skipped.space 32 _ (by decide)
      (Lexer.Skipped.block (wstr " x ") _ (by decide)
        (Lexer.Skipped.space 32 _ (by decide)
          (Lexer.Skipped.line (wstr " y") _ (by decide)
            (Lexer.Skipped.space 10 _ (by decide)
              (Lexer.Skipped.space 32 [] (by decide) Lexer.Skipped.none))))))
    (by decide)
  ⟨h.1.1, h.1.2.1,
    h.2.2 ⟨documentOf "a /* x */ // y\n /* b * /",
        Lexer.new (documentOf "a /* x */ // y\n /* b * /"), [], [], 1⟩
      ⟨rfl, rfl, fun i hi => by
        have hi0 : i = 0 := Nat.lt_one_iff.1 hi
        subst hi0
        decide⟩ rfl rfl 0⟩

end Parser
namespace Lexer

/-! ## C33: string literals -/

theorem decodeLiteral_quote (rest : WString) : decodeLiteral (34 :: rest) = ([], 1, true) := by
  conv_lhs => unfold decodeLiteral
  rfl

theorem decodeLiteral_escape (escaped : Nat) (rest : WString) :
    decodeLiteral (92 :: escaped :: rest) =
      (unescape escaped :: (decodeLiteral rest).1, (decodeLiteral rest).2.1 + 2,
        (decodeLiteral rest).2.2) := by
  conv_lhs => unfold decodeLiteral
  rfl

theorem decodeLiteral_lone : decodeLiteral [92] = ([92], 1, false) := rfl

theorem decodeLiteral_other (c : Nat) (rest : WString) (h34 : c ≠ 34) (h92 : c ≠ 92) :
    decodeLiteral (c :: rest) =
      (c :: (decodeLiteral rest).1, (decodeLiteral rest).2.1 + 1, (decodeLiteral rest).2.2) := by
  conv_lhs => unfold decodeLiteral
  rw [if_neg h34, if_neg h92]

/-- The loop of `LexString` computes `decodeLiteral` of the text at the cursor. -/
theorem stringLoop_decode (fuel : Nat) (lx : Lexer) (value : WString) (hw : WellFormed lx)
    (hfuel : lx.remaining ≤ fuel) :
    (stringLoop fuel lx value).2 = value ++ (decodeLiteral lx.rest).1 ∧
      (stringLoop fuel lx value).1.m_offset = lx.m_offset + (decodeLiteral lx.rest).2.1 ∧
      ((decodeLiteral lx.rest).2.2 = false →
        (stringLoop fuel lx value).1.m_offset = lx.m_length) := by
  induction fuel generalizing lx value with
  | zero =>
    have hend : lx.IsAtEnd = true := by
      rw [isAtEnd_true_iff]
      simp only [remaining] at hfuel
      omega
    have hrest := (rest_eq_nil_iff hw).2 hend
    have h1 := (isAtEnd_true_iff lx).1 hend
    have h2 := hw.2
    rw [hrest]
    simp only [stringLoop, decodeLiteral, List.append_nil, Nat.add_zero, true_and]
    intro _
    omega
  | succ n ih =>
    unfold stringLoop
    cases hend : lx.IsAtEnd with
    | true =>
      have hrest := (rest_eq_nil_iff hw).2 hend
      have h1 := (isAtEnd_true_iff lx).1 hend
      have h2 := hw.2
      rw [hrest]
      simp only [if_true, decodeLiteral, List.append_nil, Nat.add_zero, true_and]
      intro _
      omega
    | false =>
      obtain ⟨hch, call⟩ := Advance_consumed hw hend
      have hw1 := call.wellFormed hw
      have hrest := call.2.2.2
      have hoff := call.2.2.1
      have hlen := call.2.1
      have hlt := (isAtEnd_false_iff lx).1 hend
      simp only [List.length_singleton] at hoff
      have hfuel1 : lx.Advance.2.remaining ≤ n := by
        simp only [remaining] at hfuel ⊢
        omega
      simp only [Bool.false_eq_true, if_false, hch]
      rw [hrest, List.singleton_append]
      by_cases h34 : lx.Peek = 34
      · rw [if_pos h34, h34, decodeLiteral_quote]
        exact ⟨by simp, hoff, fun h => by cases h⟩
      · rw [if_neg h34]
        by_cases h92 : lx.Peek = 92
        · cases hend1 : lx.Advance.2.IsAtEnd with
          | true =>
            have hrest1 := (rest_eq_nil_iff hw1).2 hend1
            have hc : (decide (lx.Peek = 92) && !true) = false := by simp
            obtain ⟨i1, i2, i3⟩ := ih lx.Advance.2 (value ++ [lx.Peek]) hw1 hfuel1
            rw [hrest1] at i1 i2 i3 ⊢
            have hnil : decodeLiteral [] = ([], 0, false) := rfl
            rw [hnil] at i1 i2 i3
            have i4 := i3 rfl
            rw [hc, if_neg (by simp), h92, decodeLiteral_lone]
            rw [h92] at i1 i2 i4
            refine ⟨by rw [i1]; simp, by rw [i2, hoff]; rfl, fun _ => ?_⟩
            rw [i4, hlen]
          | false =>
            obtain ⟨hch1, call1⟩ := Advance_consumed hw1 hend1
            have hw2 := call1.wellFormed hw1
            have hrest1 := call1.2.2.2
            have hoff1 := call1.2.2.1
            have hlen1 := call1.2.1
            have hlt1 := (isAtEnd_false_iff _).1 hend1
            simp only [List.length_singleton] at hoff1
            have hfuel2 : lx.Advance.2.Advance.2.remaining ≤ n := by
              simp only [remaining] at hfuel1 ⊢
              omega
            obtain ⟨i1, i2, i3⟩ := ih lx.Advance.2.Advance.2
              (value ++ [unescape lx.Advance.2.Peek]) hw2 hfuel2
            have hc : (decide (lx.Peek = 92) && !false) = true := by simp [h92]
            rw [hc, if_pos rfl, hch1, hrest1, List.singleton_append, h92, decodeLiteral_escape]
            refine ⟨by rw [i1]; simp, by dsimp only; omega, fun h => ?_⟩
            rw [i3 h, hlen1, hlen]
        · obtain ⟨i1, i2, i3⟩ := ih lx.Advance.2 (value ++ [lx.Peek]) hw1 hfuel1
          have hc : (decide (lx.Peek = 92) && !lx.Advance.2.IsAtEnd) = false := by
            simp [h92]
          rw [hc, if_neg (by simp), decodeLiteral_other _ _ h34 h92]
          refine ⟨by rw [i1]; simp, by dsimp only; omega, fun h => ?_⟩
          rw [i3 h, hlen]

/-- A text without `"` and without backslash, closed by a `"`, decodes to itself. -/
theorem decodeLiteral_plain (body after : WString) (h34 : (34 : Nat) ∉ body)
    (h92 : (92 : Nat) ∉ body) :
    decodeLiteral (body ++ 34 :: after) = (body, body.length + 1, true) := by
  induction body with
  | nil => exact decodeLiteral_quote after
  | cons c rest ih =>
    have hc34 : c ≠ 34 := fun e => h34 (e ▸ List.mem_cons_self c rest)
    have hc92 : c ≠ 92 := fun e => h92 (e ▸ List.mem_cons_self c rest)
    rw [List.cons_append, decodeLiteral_other _ _ hc34 hc92,
      ih (fun h => h34 (List.mem_cons_of_mem _ h)) (fun h => h92 (List.mem_cons_of_mem _ h))]
    rfl

end Lexer
namespace Lexer

/-- The characters that `decodeLiteral` takes are characters of the text, and when a
closing `"` was met it is the last of them. -/
theorem decodeLiteral_closed (text : WString) :
    (decodeLiteral text).2.1 ≤ text.length ∧
      ((decodeLiteral text).2.2 = true →
        1 ≤ (decodeLiteral text).2.1 ∧ text.getD ((decodeLiteral text).2.1 - 1) 0 = 34) ∧
      ((decodeLiteral text).2.2 = false → (decodeLiteral text).2.1 = text.length) := by
  obtain ⟨n, h⟩ : ∃ n, text.length = n := ⟨_, rfl⟩
  induction n using Nat.strong_induction_on generalizing text with
  | _ n ih =>
    cases text with
    | nil => exact ⟨Nat.le_refl _, fun h => Bool.noConfusion h, fun _ => rfl⟩
    | cons c rest =>
      by_cases h34 : c = 34
      · rw [h34, decodeLiteral_quote]
        exact ⟨by simp, fun _ => ⟨Nat.le_refl _, rfl⟩, fun h => Bool.noConfusion h⟩
      · by_cases h92 : c = 92
        · cases rest with
          | nil =>
            rw [h92, decodeLiteral_lone]
            exact ⟨Nat.le_refl _, fun h => Bool.noConfusion h, fun _ => rfl⟩
          | cons e rest1 =>
            rw [h92, decodeLiteral_escape]
            obtain ⟨i1, i2, i3⟩ := ih rest1.length (by rw [← h]; simp only [List.length_cons]; omega) rest1 rfl
            refine ⟨by simp only [List.length_cons]; omega, fun hc => ?_, fun hc => ?_⟩
            · obtain ⟨j1, j2⟩ := i2 hc
              refine ⟨by dsimp only; omega, ?_⟩
              dsimp only
              rw [show (decodeLiteral rest1).2.1 + 2 - 1 = ((decodeLiteral rest1).2.1 - 1) + 1 + 1
                by omega]
              simpa using j2
            · have := i3 hc
              simp only [List.length_cons]
              omega
        · rw [decodeLiteral_other _ _ h34 h92]
          obtain ⟨i1, i2, i3⟩ := ih rest.length (by rw [← h]; simp only [List.length_cons]; omega) rest rfl
          refine ⟨by simp only [List.length_cons]; omega, fun hc => ?_, fun hc => ?_⟩
          · obtain ⟨j1, j2⟩ := i2 hc
            refine ⟨by dsimp only; omega, ?_⟩
            dsimp only
            rw [show (decodeLiteral rest).2.1 + 1 - 1 = ((decodeLiteral rest).2.1 - 1) + 1
              by omega]
            simpa using j2
          · have := i3 hc
            simp only [List.length_cons]
            omega

theorem unescape_table :
    unescape 34 = 34 ∧ unescape 92 = 92 ∧ unescape 110 = 10 ∧ unescape 114 = 13 ∧
      unescape 116 = 9 ∧
      ∀ c, c ≠ 34 → c ≠ 92 → c ≠ 110 → c ≠ 114 → c ≠ 116 → unescape c = c := by
  refine ⟨rfl, rfl, rfl, rfl, rfl, fun c h1 h2 h3 h4 h5 => ?_⟩
  simp [unescape, h1, h2, h3, h4, h5]

/-- C33. Let the first character that `NextToken` does not skip be a `"`, and let
`raw` be the text after it. Then the token is a `String` token that starts at the
`"`; its lexeme is the body that `decodeLiteral` decodes from `raw`: a backslash and
the character after it give one character, which is `"` for `\"`, the backslash
for `\\`, LF for `\n`, CR for `\r`, TAB for `\t` and the character itself in
every other case, and only a `"` that no backslash escapes closes the literal. Its
length is one more than the number of characters of `raw` that `decodeLiteral`
takes: when a closing `"` is met, the token ends with it (the character at
`startOffset + length - 1` is a `"`), and when none is met the token ends at the
end of the content. The lexer is left at the end of the token. And when `raw` is
a body without `"` and without backslash followed by a `"`, the lexeme is this
body and the length is the length of the body plus two. -/
theorem C33_string_lexeme_is_the_decoded_body (ct : CType) (lx : Lexer) (hw : WellFormed lx)
    (hq : (SkipWhitespaceAndComments ct lx).Peek = 34) :
    (NextToken ct lx).1.type = TokenType.String ∧
      (NextToken ct lx).1.startOffset = (SkipWhitespaceAndComments ct lx).m_offset ∧
      (NextToken ct lx).1.lexeme =
        (decodeLiteral ((SkipWhitespaceAndComments ct lx).rest.drop 1)).1 ∧
      (NextToken ct lx).1.length =
        1 + (decodeLiteral ((SkipWhitespaceAndComments ct lx).rest.drop 1)).2.1 ∧
      (NextToken ct lx).2.m_offset =
        (NextToken ct lx).1.startOffset + (NextToken ct lx).1.length ∧
      ((decodeLiteral ((SkipWhitespaceAndComments ct lx).rest.drop 1)).2.2 = true →
        lx.m_document.content.getD
          ((NextToken ct lx).1.startOffset + (NextToken ct lx).1.length - 1) 0 = 34 ∧
        (NextToken ct lx).1.startOffset + (NextToken ct lx).1.length ≤
          lx.m_document.content.length) ∧
      ((decodeLiteral ((SkipWhitespaceAndComments ct lx).rest.drop 1)).2.2 = false →
        (NextToken ct lx).1.startOffset + (NextToken ct lx).1.length =
          lx.m_document.content.length) ∧
      (∀ body after, (SkipWhitespaceAndComments ct lx).rest = 34 :: (body ++ 34 :: after) →
        (34 : Nat) ∉ body → (92 : Nat) ∉ body →
        (NextToken ct lx).1.lexeme = body ∧ (NextToken ct lx).1.length = body.length + 2) ∧
      (unescape 34 = 34 ∧ unescape 92 = 92 ∧ unescape 110 = 10 ∧ unescape 114 = 13 ∧
        unescape 116 = 9 ∧
        ∀ c, c ≠ 34 → c ≠ 92 → c ≠ 110 → c ≠ 114 → c ≠ 116 → unescape c = c) := by
  have hr0 := reach_SkipWhitespaceAndComments ct lx
  have hw0 : WellFormed (SkipWhitespaceAndComments ct lx) := hw.of_reach hr0
  have hend : (SkipWhitespaceAndComments ct lx).IsAtEnd = false :=
    not_atEnd_of_peek (by rw [hq]; decide)
  rw [(NextToken_dispatch ct lx hend).1 hq, ← hr0.1]
  generalize SkipWhitespaceAndComments ct lx = lx0 at hr0 hw0 hend hq
  obtain ⟨_, call⟩ := Advance_consumed hw0 hend
  have hw1 := call.wellFormed hw0
  have hrest : lx0.rest = 34 :: lx0.Advance.2.rest := by
    rw [call.2.2.2, hq]
    rfl
  have hoff := call.2.2.1
  simp only [List.length_singleton] at hoff
  obtain ⟨s1, s2, s3⟩ := stringLoop_decode lx0.Advance.2.remaining lx0.Advance.2 [] hw1
    (le_refl _)
  obtain ⟨c1, c2, c3⟩ := decodeLiteral_closed lx0.Advance.2.rest
  have hlen0 : lx0.m_length = lx0.m_document.content.length := hw0.1
  have hrlen := rest_length hw1
  simp only [remaining] at hrlen
  have hlt := (isAtEnd_false_iff lx0).1 hend
  rw [hrest, List.drop_one, List.tail_cons]
  simp only [LexString, MakeToken_type, MakeToken_startOffset, MakeToken_lexeme,
    MakeToken_length]
  rw [s1, s2, hoff, List.nil_append]
  have hlen1 := call.2.1
  refine ⟨trivial, trivial, rfl, by omega, by omega, fun hc => ⟨?_, by omega⟩, fun hc => ?_,
    fun body after hb h34 h92 => ?_, unescape_table⟩
  · obtain ⟨j1, j2⟩ := c2 hc
    have hget : ∀ k, lx0.Advance.2.rest.getD k 0 =
        lx0.m_document.content.getD (lx0.m_offset + 1 + k) 0 := by
      intro k
      simp only [rest, call.1, hoff]
      rw [List.getD_eq_getElem?_getD, List.getElem?_drop, ← List.getD_eq_getElem?_getD]
    rw [hget] at j2
    rw [show lx0.m_offset + (lx0.m_offset + 1 + (decodeLiteral lx0.Advance.2.rest).2.1
        - lx0.m_offset) - 1 = lx0.m_offset + 1 + ((decodeLiteral lx0.Advance.2.rest).2.1 - 1)
      by omega]
    exact j2
  · have := c3 hc
    omega
  · have hb1 : lx0.Advance.2.rest = body ++ 34 :: after := by
      exact List.tail_eq_of_cons_eq hb
    rw [hb1, decodeLiteral_plain body after h34 h92]
    exact ⟨rfl, by dsimp only; omega⟩

/-- C33 at a concrete input: the token of `"a\"b\n\q" x` has the lexeme `a"b`, LF, `q`
and the length `10`, the whole literal. -/
theorem C33_string_lexeme_is_the_decoded_body_witness :
    (NextToken CType.ascii (Lexer.new (documentOf "\"a\\\"b\\n\\q\" x"))).1.type =
        TokenType.String ∧
      (NextToken CType.ascii (Lexer.new (documentOf "\"a\\\"b\\n\\q\" x"))).1.lexeme =
        [97, 34, 98, 10, 113] ∧
      (NextToken CType.ascii (Lexer.new (documentOf "\"a\\\"b\\n\\q\" x"))).1.length = 10 ∧
      (NextToken CType.ascii (Lexer.new (documentOf "\"a\\\"b\\n\\q\" x"))).2.m_offset =
        (NextToken CType.ascii (Lexer.new (documentOf "\"a\\\"b\\n\\q\" x"))).1.startOffset +
          (NextToken CType.ascii (Lexer.new (documentOf "\"a\\\"b\\n\\q\" x"))).1.length :=
  ⟨(C33_string_lexeme_is_the_decoded_body CType.ascii
      (Lexer.new (documentOf "\"a\\\"b\\n\\q\" x")) (WellFormed.ofNew _) (by decide)).1,
    by decide, by decide,
    (C33_string_lexeme_is_the_decoded_body CType.ascii
      (Lexer.new (documentOf "\"a\\\"b\\n\\q\" x")) (WellFormed.ofNew _) (by decide)).2.2.2.2.1⟩

end Lexer

namespace Parser

/-! ## C39: an object literal that stops at a key that is not one -/

/-- The loop of `Synchronize` stops at the first `#`, `}` or `EndOfFile` token from the
cursor on, and adds no diagnostic. -/
theorem Synchronize_stops {ct : CType} : ∀ (fuel : Nat) (p q : Parser), Valid ct p →
    Synchronize ct fuel p = some q →
    ∃ n, Ahead ct p n q ∧
      ((token ct p n).type = TokenType.Hash ∨ (token ct p n).type = TokenType.RBrace ∨
        (token ct p n).type = TokenType.EndOfFile) ∧
      ∀ j, j < n → (token ct p j).type ≠ TokenType.Hash ∧
        (token ct p j).type ≠ TokenType.RBrace ∧ (token ct p j).type ≠ TokenType.EndOfFile := by
  intro fuel
  induction fuel with
  | zero =>
    intro p q _ h
    simp [Synchronize, runLoop] at h
  | succ fuel ih =>
    intro p q hv h
    have a0 := IsAtEnd_ahead (Ahead.zero hv)
    have a1 := LookAhead_ahead a0.2 0
    simp only [Synchronize, runLoop, synchronizeStep] at h
    cases hend : (IsAtEnd ct p).1 with
    | true =>
      simp only [hend, if_true, Option.map_some', Option.some.injEq] at h
      rw [← h]
      exact ⟨0, a0.2, Or.inr (Or.inr (a0.1.1 hend)), fun j hj => absurd hj (Nat.not_lt_zero j)⟩
    | false =>
      have hne : (token ct p 0).type ≠ TokenType.EndOfFile := by
        intro e
        rw [a0.1.2 e] at hend
        cases hend
      simp only [hend, Bool.false_eq_true, if_false, a1.1, Nat.add_zero] at h
      by_cases hs : (token ct p 0).type = TokenType.Hash ∨
          (token ct p 0).type = TokenType.RBrace
      · simp only [if_pos hs, Option.map_some', Option.some.injEq] at h
        rw [← h]
        refine ⟨0, a1.2, ?_, fun j hj => absurd hj (Nat.not_lt_zero j)⟩
        rcases hs with hs | hs
        · exact Or.inl hs
        · exact Or.inr (Or.inl hs)
      · simp only [if_neg hs] at h
        have a2 := Advance_ahead a1.2 hne
        obtain ⟨n, hn, hstop, hbefore⟩ := ih _ q a2.1 (by simpa only [Synchronize] using h)
        have htok : ∀ j, token ct (Advance ct (LookAhead ct (IsAtEnd ct p).2 0).2) j =
            token ct p (1 + j) := by
          intro j
          rw [a2.token_eq j, Nat.zero_add]
        refine ⟨1 + n, ?_, ?_, fun j hj => ?_⟩
        · have := a2.plus hn
          rwa [Nat.zero_add] at this
        · rw [← htok]
          exact hstop
        · cases j with
          | zero =>
            exact ⟨fun e => hs (Or.inl e), fun e => hs (Or.inr e), hne⟩
          | succ j =>
            have := hbefore j (by omega)
            rw [htok, Nat.add_comm 1 j] at this
            exact this

/-- C39. Let a turn of the loop of `ParseObjectLiteral` begin, with the object `object`
gathered so far, in a valid state whose token at the cursor is neither `EndOfFile`
nor `\x7d`, and let this token not be an identifier, or be an identifier that no `=`
follows. Then the turn leaves the loop, so `ParseObjectLiteral` returns, with
`object` as it is. One diagnostic is appended: the `Error` `Expected identifier in
object literal.` at the token, or `Expected '=' in object literal.` at the token
after the identifier. The cursor is left at the first `#`, `\x7d` or `EndOfFile` token
from the token reported (when the token at the cursor is an identifier: from the
token after it) on. And when this token is `\x7d`, the loop of `ParseComponent`, in the
state left or in one that is at the same token with the same diagnostics, ends its
component at it: it leaves the loop after this `\x7d` and adds no diagnostic. -/
theorem C39_object_literal_gives_up_at_a_bad_key (ct : CType) (pv : Sub Value) (fuel : Nat)
    (object : Value) (p : Parser) (hv : Valid ct p) (hfuel : remaining p < fuel)
    (hne : (token ct p 0).type ≠ TokenType.EndOfFile)
    (hnb : (token ct p 0).type ≠ TokenType.RBrace)
    (hbad : (token ct p 0).type ≠ TokenType.Identifier ∨
      (token ct p 1).type ≠ TokenType.Equals) :
    ∃ q n, objectStep ct pv fuel object p = some (LoopStep.leave object q) ∧
      (∀ turns, runLoop (objectStep ct pv fuel) (turns + 1) object p = some (object, q)) ∧
      Valid ct q ∧ q.m_document = p.m_document ∧ q.m_cursor = p.m_cursor + n ∧
      q.m_diagnostics = p.m_diagnostics ++
        [if (token ct p 0).type = TokenType.Identifier then
          errorAt (token ct p 1) (wstr "Expected '=' in object literal.")
        else errorAt (token ct p 0) (wstr "Expected identifier in object literal.")] ∧
      ((token ct p n).type = TokenType.Hash ∨ (token ct p n).type = TokenType.RBrace ∨
        (token ct p n).type = TokenType.EndOfFile) ∧
      (if (token ct p 0).type = TokenType.Identifier then 1 else 0) ≤ n ∧
      (∀ j, (if (token ct p 0).type = TokenType.Identifier then 1 else 0) ≤ j → j < n →
        (token ct p j).type ≠ TokenType.Hash ∧ (token ct p j).type ≠ TokenType.RBrace ∧
          (token ct p j).type ≠ TokenType.EndOfFile) ∧
      ((token ct p n).type = TokenType.RBrace →
        ∀ (pc : Sub ComponentNode) (pv1 : Sub Value) (node : ComponentNode) (q1 : Parser),
          Ahead ct q 0 q1 →
          ∃ r, componentStep ct pc pv1 node q1 = some (LoopStep.leave node r) ∧
            Valid ct r ∧ r.m_cursor = q.m_cursor + 1 ∧ r.m_diagnostics = q.m_diagnostics) := by
  have a0 := IsAtEnd_ahead (Ahead.zero hv)
  have hend := IsAtEnd_ahead_false (Ahead.zero hv) hne
  have a1 := Check_ahead a0.2 TokenType.RBrace
  have hc : (Check ct (IsAtEnd ct p).2 TokenType.RBrace).1 = false := by
    cases hb : (Check ct (IsAtEnd ct p).2 TokenType.RBrace).1 with
    | false => rfl
    | true => exact absurd (a1.1.1 hb).2 hnb
  have a2 := LookAhead_ahead a1.2 0
  -- the state in which the diagnostic is appended, `k` tokens after the cursor
  obtain ⟨k, d, s, hk, hd, hs, hstep⟩ : ∃ (k : Nat) (d : Diagnostic) (s : Parser),
      k = (if (token ct p 0).type = TokenType.Identifier then 1 else 0) ∧
      d = (if (token ct p 0).type = TokenType.Identifier then
          errorAt (token ct p 1) (wstr "Expected '=' in object literal.")
        else errorAt (token ct p 0) (wstr "Expected identifier in object literal.")) ∧
      (Valid ct s ∧ s.m_document = p.m_document ∧ s.m_cursor = p.m_cursor + k ∧
        s.m_diagnostics = p.m_diagnostics ++ [d]) ∧
      objectStep ct pv fuel object p =
        (Synchronize ct fuel s).map fun p1 => LoopStep.leave object p1 := by
    by_cases hid : (token ct p 0).type = TokenType.Identifier
    · have hneq : (token ct p 1).type ≠ TokenType.Equals := by
        rcases hbad with h | h
        · exact absurd hid h
        · exact h
      have m := Match_ahead a2.2 hid (by decide)
      have m1 := Match_ahead_false m.2 hneq
      have la := LookAhead_ahead m1.2 0
      have htk : (LookAhead ct (Match ct (Match ct
          (LookAhead ct (Check ct (IsAtEnd ct p).2 TokenType.RBrace).2 0).2
          TokenType.Identifier).2 TokenType.Equals).2 0).1 = token ct p 1 := la.1
      refine ⟨1, _,
        ReportError (LookAhead ct (Match ct (Match ct
          (LookAhead ct (Check ct (IsAtEnd ct p).2 TokenType.RBrace).2 0).2
          TokenType.Identifier).2 TokenType.Equals).2 0).2 (token ct p 1)
          (wstr "Expected '=' in object literal."),
        by rw [if_pos hid], by rw [if_pos hid],
        ⟨ReportError_valid la.2.1 _ _, ?_, ?_, ?_⟩, ?_⟩
      · rw [ReportError_document]
        exact la.2.2.1
      · rw [ReportError_cursor]
        exact la.2.2.2.1
      · simp only [ReportError, la.2.2.2.2, errorAt]
      · simp only [objectStep, hend, hc, Bool.false_eq_true, if_false, m.1, Bool.true_eq_false,
          Expect, m1.1, Current, if_true, htk]
    · have m := Match_ahead_false a2.2 hid
      have htk : (LookAhead ct (Check ct (IsAtEnd ct p).2 TokenType.RBrace).2 0).1 =
          token ct p 0 := a2.1
      refine ⟨0, _,
        ReportError (Match ct (LookAhead ct (Check ct (IsAtEnd ct p).2 TokenType.RBrace).2 0).2
          TokenType.Identifier).2 (token ct p 0) (wstr "Expected identifier in object literal."),
        by rw [if_neg hid], by rw [if_neg hid],
        ⟨ReportError_valid m.2.1 _ _, ?_, ?_, ?_⟩, ?_⟩
      · rw [ReportError_document]
        exact m.2.2.1
      · rw [ReportError_cursor]
        exact m.2.2.2.1
      · simp only [ReportError, m.2.2.2.2, errorAt]
      · simp only [objectStep, hend, hc, Bool.false_eq_true, if_false, m.1, if_true, htk]
  have hrem : remaining s < fuel := by
    simp only [remaining, hs.2.1, hs.2.2.1] at hfuel ⊢
    omega
  obtain ⟨q, hq⟩ := Synchronize_total fuel hs.1 hrem
  obtain ⟨n, hn, hstop, hbefore⟩ := Synchronize_stops fuel s q hs.1 hq
  have htok : ∀ j, token ct s j = token ct p (k + j) := by
    intro j
    simp only [token, hs.2.1, hs.2.2.1, Nat.add_assoc]
  have hobj : objectStep ct pv fuel object p = some (LoopStep.leave object q) := by
    rw [hstep, hq]
    rfl
  refine ⟨q, k + n, hobj, fun turns => ?_, hn.1, hn.2.1.trans hs.2.1, ?_, ?_, ?_, ?_, ?_, ?_⟩
  · simp only [runLoop, hobj]
  · rw [hn.2.2.1, hs.2.2.1, Nat.add_assoc]
  · rw [hn.2.2.2, hs.2.2.2, hd]
  · rw [← htok]
    exact hstop
  · rw [← hk]
    exact Nat.le_add_right k n
  · intro j hj hjn
    rw [← hk] at hj
    obtain ⟨i, rfl⟩ := Nat.exists_eq_add_of_le hj
    rw [← htok]
    exact hbefore i (by omega)
  · intro hr pc pv1 node q1 hq1
    have hr1 : (token ct q 0).type = TokenType.RBrace := by
      rw [hn.token_eq 0, htok, Nat.add_zero]
      exact hr
    obtain ⟨r, h1, h2⟩ := componentStep_close pc pv1 hq1 hr1 node
    exact ⟨r, h1, h2.1, h2.2.2.1, h2.2.2.2⟩

end Parser
namespace Parser

set_option maxRecDepth 100000 in
/-- C39 at a concrete input, `#A \x7b x=\x7b 1 \x7d y=2 \x7d`: at the `1`, token number `6`, which
is not an identifier, the turn of the loop of `ParseObjectLiteral` leaves the loop
at a `#`, `\x7d` or `EndOfFile` token; and `Parse` returns the root node `A` with the
single attribute `x`, an Object without properties, one diagnostic for the bad key,
and one diagnostic for each of the four tokens `y`, `=`, `2` and `\x7d`, which are met
at top level. -/
theorem C39_object_literal_gives_up_at_a_bad_key_witness :
    (∃ q n, objectStep CType.ascii (ParseValue CType.ascii 20) 20
          (Value.CreateObject SourceLocation.default)
          ⟨documentOf "#A \x7b x=\x7b 1 \x7d y=2 \x7d",
            Lexer.new (documentOf "#A \x7b x=\x7b 1 \x7d y=2 \x7d"), [], [], 6⟩ =
          some (LoopStep.leave (Value.CreateObject SourceLocation.default) q) ∧
        q.m_cursor = 6 + n ∧
        ((token CType.ascii ⟨documentOf "#A \x7b x=\x7b 1 \x7d y=2 \x7d",
            Lexer.new (documentOf "#A \x7b x=\x7b 1 \x7d y=2 \x7d"), [], [], 6⟩ n).type =
            TokenType.Hash ∨
          (token CType.ascii ⟨documentOf "#A \x7b x=\x7b 1 \x7d y=2 \x7d",
            Lexer.new (documentOf "#A \x7b x=\x7b 1 \x7d y=2 \x7d"), [], [], 6⟩ n).type =
            TokenType.RBrace ∨
          (token CType.ascii ⟨documentOf "#A \x7b x=\x7b 1 \x7d y=2 \x7d",
            Lexer.new (documentOf "#A \x7b x=\x7b 1 \x7d y=2 \x7d"), [], [], 6⟩ n).type =
            TokenType.EndOfFile)) ∧
      ∃ r, Parse CType.ascii 20 (Parser.new (documentOf "#A \x7b x=\x7b 1 \x7d y=2 \x7d") []) =
          some r ∧
        r.1.rootNodes.map (fun node => (node.component, node.children.length)) =
          [(wstr "A", 0)] ∧
        r.1.rootNodes.map (fun node => node.attributes.map
            (fun attr => (attr.name, attr.value.kind, attr.value.objectProperties.length))) =
          [[(wstr "x", ValueKind.Object, 0)]] ∧
        r.2.m_diagnostics.map (fun d => (d.message, d.location.column)) =
          [(wstr "Expected identifier in object literal.", 10),
            (wstr "Unexpected token at top-level.", 14),
            (wstr "Unexpected token at top-level.", 15),
            (wstr "Unexpected token at top-level.", 16),
            (wstr "Unexpected token at top-level.", 18)] :=
  ⟨(C39_object_literal_gives_up_at_a_bad_key CType.ascii (ParseValue CType.ascii 20) 20
      (Value.CreateObject SourceLocation.default)
      ⟨documentOf "#A \x7b x=\x7b 1 \x7d y=2 \x7d",
        Lexer.new (documentOf "#A \x7b x=\x7b 1 \x7d y=2 \x7d"), [], [], 6⟩
      ⟨rfl, rfl, fun i hi => by
        have hi6 : i < 6 := hi
        interval_cases i <;> decide⟩
      (by decide) (by decide) (by decide) (Or.inl (by decide))).imp
      fun _ h => h.imp fun _ h => ⟨h.1, h.2.2.2.2.1, h.2.2.2.2.2.2.1⟩,
    (Parse CType.ascii 20 (Parser.new (documentOf "#A \x7b x=\x7b 1 \x7d y=2 \x7d") [])).get
      (by decide),
    (Option.some_get _).symm, by decide, by decide, by decide⟩

end Parser
/-! ## C37: the target of an include line -/

theorem substr_inner (value : WString) :
    Lexer.substr value 1 (value.length - 2) = value.tail.dropLast := by
  rw [Lexer.substr, List.dropLast_eq_take, List.drop_one, List.length_tail]
  rfl

theorem includePathOf_eq (ct : CType) (P : Platform) (includeToken : WString) :
    includePathOf ct P includeToken = ExpandEnvironment P (strippedInclude ct includeToken) := by
  unfold includePathOf strippedInclude stripQuotePair
  simp only
  congr 1
  have h1 : (if (!(Trim ct includeToken).isEmpty && (Trim ct includeToken).head? == some 61) = true
        then Trim ct ((Trim ct includeToken).drop 1) else Trim ct includeToken) =
      (if (Trim ct includeToken).head? = some 61 then Trim ct (Trim ct includeToken).tail
        else Trim ct includeToken) := by
    cases hT : Trim ct includeToken with
    | nil => simp
    | cons c rest => simp
  rw [h1]
  generalize (if (Trim ct includeToken).head? = some 61 then Trim ct (Trim ct includeToken).tail
    else Trim ct includeToken) = value
  rw [substr_inner]
  cases value with
  | nil => simp
  | cons c rest => simp

/-- C37. The path that `AppendInclude` computes from the text after `#include` is the
environment expansion of this text after these steps: it is trimmed; one leading `=`
is removed when there is one, and the rest is trimmed again; and the first and the
last character are removed when both are `"` or both are `'` (a text that is one
quote character becomes empty), while a text whose first and last characters are
not the same quote is left as it is. When the text is empty after these steps,
`AppendInclude` returns `false`, leaves the document as it is and appends one
`Error` diagnostic, `Invalid #include directive.`, whose location names the including
file; and `ProcessFileContent`, at such an include line, returns `false` with this
diagnostic. -/
theorem C37_include_target_is_trimmed_and_unquoted (ct : CType) (P : Platform) :
    (∀ includeToken, includePathOf ct P includeToken =
        ExpandEnvironment P (strippedInclude ct includeToken)) ∧
      (∀ includeToken, strippedInclude ct includeToken =
        stripQuotePair (if (Trim ct includeToken).head? = some 61 then
          Trim ct (Trim ct includeToken).tail else Trim ct includeToken)) ∧
      (∀ body : WString, stripQuotePair (34 :: (body ++ [34])) = body ∧
        stripQuotePair (39 :: (body ++ [39])) = body) ∧
      (stripQuotePair [34] = [] ∧ stripQuotePair [39] = []) ∧
      (∀ value : WString, ¬ (value.head? = some 34 ∧ value.getLast? = some 34) →
        ¬ (value.head? = some 39 ∧ value.getLast? = some 39) → stripQuotePair value = value) ∧
      (∀ (load : Loader) (requestingPath includeToken : WString) (outDocument : SourceDocument)
          (st : LoadState), strippedInclude ct includeToken = [] →
        AppendInclude load ct P requestingPath includeToken outDocument st =
          some (false, outDocument,
            { st with diagnostics := st.diagnostics ++
              [⟨DiagnosticSeverity.Error, wstr "Invalid #include directive.",
                ⟨requestingPath, 0, 0⟩⟩] })) ∧
      (∀ (load : Loader) (absolutePath : WString) (ln : ScannedLine) (rest : List ScannedLine)
          (currentLine : Nat) (pending : Pending) (outDocument : SourceDocument) (st : LoadState),
        isIncludeLine (TrimLeft ct ln.line) = true →
        strippedInclude ct ((TrimLeft ct ln.line).drop 8) = [] →
        processLines load ct P absolutePath (ln :: rest) currentLine pending outDocument st =
          some (false, (flushChunk absolutePath pending outDocument).2,
            { st with diagnostics := st.diagnostics ++
              [⟨DiagnosticSeverity.Error, wstr "Invalid #include directive.",
                ⟨absolutePath, 0, 0⟩⟩] })) := by
  have hfail : ∀ (load : Loader) (requestingPath includeToken : WString)
      (outDocument : SourceDocument) (st : LoadState), strippedInclude ct includeToken = [] →
      AppendInclude load ct P requestingPath includeToken outDocument st =
        some (false, outDocument,
          { st with diagnostics := st.diagnostics ++
            [⟨DiagnosticSeverity.Error, wstr "Invalid #include directive.",
              ⟨requestingPath, 0, 0⟩⟩] }) := by
    intro load requestingPath includeToken outDocument st h
    have he : includePathOf ct P includeToken = [] := by
      rw [includePathOf_eq, h]
      rfl
    simp only [AppendInclude, he, List.isEmpty_nil, if_true, LoadState.error, AppendDiagnostic]
  refine ⟨includePathOf_eq ct P, fun _ => rfl, fun body => ⟨?_, ?_⟩, ⟨rfl, rfl⟩,
    fun value h1 h2 => ?_, hfail, ?_⟩
  · have hl : (34 :: (body ++ [34])).getLast? = some 34 := by
      rw [← List.cons_append, List.getLast?_concat]
    simp [stripQuotePair, hl]
  · have hl : (39 :: (body ++ [39])).getLast? = some 39 := by
      rw [← List.cons_append, List.getLast?_concat]
    simp [stripQuotePair, hl]
  · simp only [stripQuotePair]
    rw [if_neg]
    rintro (h | h)
    · exact h1 h
    · exact h2 h
  · intro load absolutePath ln rest currentLine pending outDocument st hinc hempty
    rw [processLines]
    simp only [hinc, if_true, hfail load absolutePath _ _ st hempty]
    rfl

set_option maxRecDepth 100000 in
/-- C37 at concrete inputs: the text ` = '' ` is empty after the steps, and `AppendInclude`
fails on it with the diagnostic at the including file; the target of ` = "sub.lsx" ` is
`sub.lsx`; a text with a quote on one side only, or with two different quotes, is
left as it is; and the load of a file whose second line is `#include = ''` fails
with the one diagnostic `Invalid #include directive.` at this file. -/
theorem C37_include_target_is_trimmed_and_unquoted_witness :
    AppendInclude (fun _ _ _ => none) CType.ascii Platform.folding (wstr "theme.lsx")
        (wstr " = '' ") SourceDocument.empty ⟨SourceManager.new [], ⟨[]⟩, []⟩ =
        some (false, SourceDocument.empty,
          { (⟨SourceManager.new [], ⟨[]⟩, []⟩ : LoadState) with
            diagnostics := [] ++ [⟨DiagnosticSeverity.Error, wstr "Invalid #include directive.",
              ⟨wstr "theme.lsx", 0, 0⟩⟩] }) ∧
      strippedInclude CType.ascii (wstr " = \"sub.lsx\" ") = wstr "sub.lsx" ∧
      strippedInclude CType.ascii (wstr " 'sub.lsx' ") = wstr "sub.lsx" ∧
      strippedInclude CType.ascii (wstr "\"sub.lsx") = wstr "\"sub.lsx" ∧
      strippedInclude CType.ascii (wstr "\"sub.lsx'") = wstr "\"sub.lsx'" ∧
      (LoadStructuredDocument CType.ascii Platform.folding
          (World.ofFiles [("theme.lsx", "#A \x7b\x7d\n#include = ''\n")]) 3
          (SourceManager.new []) (wstr "theme.lsx") SourceDocument.empty []).map
        (fun r => (r.1, r.2.2.1)) =
        some (false, [⟨DiagnosticSeverity.Error, wstr "Invalid #include directive.",
          ⟨wstr "theme.lsx", 0, 0⟩⟩]) :=
  ⟨(C37_include_target_is_trimmed_and_unquoted CType.ascii Platform.folding).2.2.2.2.2.1
      (fun _ _ _ => none) (wstr "theme.lsx") (wstr " = '' ") SourceDocument.empty
      ⟨SourceManager.new [], ⟨[]⟩, []⟩ (by decide),
    by decide, by decide, by decide, by decide, by decide⟩

/-! ## C31: lines and columns are counted from one -/

namespace RefParser

/-! ## The parser with references and the parser on token values -/

theorem push_back_erased (v : TokenVector) (ct : CType) (t : RefParser) :
    (push_back v ct t).parser =
      { t.parser with
        m_tokens := t.parser.m_tokens ++ [(Lexer.NextToken ct t.parser.m_lexer).1]
        m_lexer := (Lexer.NextToken ct t.parser.m_lexer).2 } := by
  unfold push_back
  dsimp only
  split <;> rfl

theorem push_back_stale (v : TokenVector) (ct : CType) (t : RefParser) :
    (push_back v ct t).stale = t.stale := by
  unfold push_back
  dsimp only
  split <;> rfl

theorem fill_erased (v : TokenVector) (ct : CType) :
    ∀ (count : Nat) (t : RefParser), (fill v ct count t).parser = Parser.fill ct count t.parser
  | 0, _ => rfl
  | count + 1, t => by
    rw [fill, fill_erased v ct count, push_back_erased, Parser.fill]

theorem fill_stale (v : TokenVector) (ct : CType) :
    ∀ (count : Nat) (t : RefParser), (fill v ct count t).stale = t.stale
  | 0, _ => rfl
  | count + 1, t => by
    rw [fill, fill_stale v ct count, push_back_stale]

/-- The members of the parser after `LookAhead` are those of `Parser.LookAhead`. -/
theorem LookAhead_erased (v : TokenVector) (ct : CType) (t : RefParser) (distance : Nat) :
    (LookAhead v ct t distance).2.parser = (Parser.LookAhead ct t.parser distance).2 :=
  fill_erased v ct _ t

theorem LookAhead_stale (v : TokenVector) (ct : CType) (t : RefParser) (distance : Nat) :
    (LookAhead v ct t distance).2.stale = t.stale :=
  fill_stale v ct _ t

theorem read_erased (v : TokenVector) (line : Nat) (ref : TokenRef) (t : RefParser) :
    (read v line ref t).2.parser = t.parser := by
  unfold read
  dsimp only
  split <;> rfl

theorem read_buffer (v : TokenVector) (line : Nat) (ref : TokenRef) (t : RefParser) :
    (read v line ref t).2.buffer = t.buffer := by
  unfold read
  dsimp only
  split <;> rfl

/-- A read through a reference into the buffer in use yields the token of `m_tokens`
and records nothing. -/
theorem read_fresh (v : TokenVector) (line : Nat) (ref : TokenRef) (t : RefParser)
    (h : ref.buffer = t.buffer) :
    read v line ref t = (t.parser.m_tokens.getD ref.index Parser.noToken, t) := by
  unfold read
  dsimp only
  rw [if_pos h]

/-- A read through any reference yields the token of `m_tokens` and records nothing,
or yields what the freed buffer holds of it and records the read. -/
theorem read_cases (v : TokenVector) (line : Nat) (ref : TokenRef) (t : RefParser) :
    ((read v line ref t).1 = t.parser.m_tokens.getD ref.index Parser.noToken ∧
        (read v line ref t).2.stale = t.stale) ∨
      ((read v line ref t).1 = v.freed (t.parser.m_tokens.getD ref.index Parser.noToken) ∧
        (read v line ref t).2.stale = t.stale ++ [⟨line, ref.index⟩]) := by
  unfold read
  dsimp only
  split
  · exact Or.inl ⟨rfl, rfl⟩
  · exact Or.inr ⟨rfl, rfl⟩

/-- A read through the reference that `LookAhead` has just returned yields the token
that `Parser.LookAhead` returns. -/
theorem read_LookAhead (v : TokenVector) (ct : CType) (line : Nat) (t : RefParser)
    (distance : Nat) :
    read v line (LookAhead v ct t distance).1 (LookAhead v ct t distance).2 =
      ((Parser.LookAhead ct t.parser distance).1, (LookAhead v ct t distance).2) := by
  rw [read_fresh v line _ _ rfl]
  congr 1
  show (LookAhead v ct t distance).2.parser.m_tokens.getD _ _ = _
  rw [LookAhead_erased]
  rfl

theorem IsAtEnd_eq (v : TokenVector) (ct : CType) (t : RefParser) :
    IsAtEnd v ct t = ((Parser.IsAtEnd ct t.parser).1, (LookAhead v ct t 0).2) := by
  unfold IsAtEnd
  dsimp only
  rw [read_LookAhead]
  rfl

theorem IsAtEnd_erased (v : TokenVector) (ct : CType) (t : RefParser) :
    (IsAtEnd v ct t).2.parser = (Parser.IsAtEnd ct t.parser).2 := by
  rw [IsAtEnd_eq]
  exact LookAhead_erased v ct t 0

theorem IsAtEnd_stale (v : TokenVector) (ct : CType) (t : RefParser) :
    (IsAtEnd v ct t).2.stale = t.stale := by
  rw [IsAtEnd_eq]
  exact LookAhead_stale v ct t 0

theorem Advance_erased (v : TokenVector) (ct : CType) (t : RefParser) :
    (Advance v ct t).parser = Parser.Advance ct t.parser := by
  unfold Advance Parser.Advance
  dsimp only
  rw [IsAtEnd_eq]
  dsimp only
  split
  · exact LookAhead_erased v ct t 0
  · show { (LookAhead v ct t 0).2.parser with
        m_cursor := (LookAhead v ct t 0).2.parser.m_cursor + 1 } = _
    rw [LookAhead_erased]
    rfl

theorem Advance_stale (v : TokenVector) (ct : CType) (t : RefParser) :
    (Advance v ct t).stale = t.stale := by
  unfold Advance
  dsimp only
  rw [IsAtEnd_eq]
  dsimp only
  split
  · exact LookAhead_stale v ct t 0
  · exact LookAhead_stale v ct t 0

theorem ReportError_erased (v : TokenVector) (line : Nat) (t : RefParser) (token : TokenRef)
    (message : WString) :
    (ReportError v line t token message).parser =
      Parser.ReportError t.parser (read v line token t).1 message := by
  unfold ReportError
  dsimp only
  rw [read_erased]

theorem ReportError_stale (v : TokenVector) (line : Nat) (t : RefParser) (token : TokenRef)
    (message : WString) :
    (ReportError v line t token message).stale = (read v line token t).2.stale := rfl

end RefParser
namespace RefParser

/-- The test at `#` changes the members of the parser as `Parser.startsComponent`
does. -/
theorem startsComponent_erased (v : TokenVector) (ct : CType) (line : Nat) (t : RefParser) :
    (startsComponent v ct line t).2.parser = (Parser.startsComponent ct t.parser).2 := by
  unfold startsComponent Parser.startsComponent
  dsimp only
  split
  · rw [read_erased, read_erased, LookAhead_erased, LookAhead_erased]
  · rw [read_erased, LookAhead_erased, LookAhead_erased]

/-- The test at `#` fails when the second token after the `#` is not `{`, whatever the
read of `next.type` yields: `third` is read through a reference that is valid. -/
theorem startsComponent_false (v : TokenVector) (ct : CType) (line : Nat) (t : RefParser)
    {p : Parser} {k : Nat} (h : Parser.Ahead ct p k t.parser)
    (hthird : (Parser.token ct p (k + 2)).type ≠ TokenType.LBrace) :
    (startsComponent v ct line t).1 = false := by
  unfold startsComponent
  dsimp only
  split
  · have h1 := Parser.LookAhead_ahead h 1
    have h1' : Parser.Ahead ct p k (LookAhead v ct t 1).2.parser := by
      rw [LookAhead_erased]
      exact h1.2
    have h2 := Parser.LookAhead_ahead h1' 2
    have hfresh : (LookAhead v ct (LookAhead v ct t 1).2 2).1.buffer =
        (read v line (LookAhead v ct t 1).1 (LookAhead v ct (LookAhead v ct t 1).2 2).2).2.buffer := by
      rw [read_buffer]
      rfl
    rw [read_fresh v line _ _ hfresh]
    dsimp only
    rw [read_erased]
    have : (LookAhead v ct (LookAhead v ct t 1).2 2).2.parser.m_tokens.getD
        (LookAhead v ct (LookAhead v ct t 1).2 2).1.index Parser.noToken =
        (Parser.LookAhead ct (LookAhead v ct t 1).2.parser 2).1 := by
      rw [LookAhead_erased]
      rfl
    rw [this, h2.1]
    simpa using hthird
  · rfl

theorem startsComponent_stale (v : TokenVector) (ct : CType) (line : Nat) (t : RefParser) :
    ∃ more, (startsComponent v ct line t).2.stale = t.stale ++ more := by
  unfold startsComponent
  dsimp only
  have hbase : (LookAhead v ct (LookAhead v ct t 1).2 2).2.stale = t.stale := by
    rw [LookAhead_stale, LookAhead_stale]
  split
  · rcases read_cases v line (LookAhead v ct (LookAhead v ct t 1).2 2).1
      (read v line (LookAhead v ct t 1).1 (LookAhead v ct (LookAhead v ct t 1).2 2).2).2 with
      h | h <;>
    rcases read_cases v line (LookAhead v ct t 1).1 (LookAhead v ct (LookAhead v ct t 1).2 2).2 with
      h0 | h0
    · exact ⟨[], by rw [h.2, h0.2, hbase, List.append_nil]⟩
    · exact ⟨_, by rw [h.2, h0.2, hbase]⟩
    · exact ⟨_, by rw [h.2, h0.2, hbase]⟩
    · exact ⟨_, by rw [h.2, h0.2, hbase, List.append_assoc]⟩
  · rcases read_cases v line (LookAhead v ct t 1).1 (LookAhead v ct (LookAhead v ct t 1).2 2).2 with
      h0 | h0
    · exact ⟨[], by rw [h0.2, hbase, List.append_nil]⟩
    · exact ⟨_, by rw [h0.2, hbase]⟩

end RefParser
namespace RefParser

theorem LookAhead_length_ge (ct : CType) (p : Parser) (distance : Nat) :
    p.m_tokens.length ≤ (Parser.LookAhead ct p distance).2.m_tokens.length ∧
      p.m_cursor + distance < (Parser.LookAhead ct p distance).2.m_tokens.length := by
  have := Parser.fill_length ct (p.m_cursor + distance + 1 - p.m_tokens.length) p
  constructor
  · show _ ≤ (Parser.fill ct _ p).m_tokens.length
    omega
  · show _ < (Parser.fill ct _ p).m_tokens.length
    omega

/-- The token behind a reference to the token at the cursor of `p`, in a later state
that has the tokens up to the cursor: the read yields the token of the stream and
records nothing, or yields what the freed buffer holds of it and records the
read. -/
theorem read_at (v : TokenVector) {ct : CType} (line : Nat) (ref : TokenRef) (t : RefParser)
    {p : Parser} {k : Nat} (h : Parser.Ahead ct p k t.parser) (i : Nat)
    (hi : p.m_cursor + i < t.parser.m_tokens.length) (href : ref.index = p.m_cursor + i) :
    ((read v line ref t).1 = Parser.token ct p i ∧ (read v line ref t).2.stale = t.stale) ∨
      ((read v line ref t).1 = v.freed (Parser.token ct p i) ∧
        (read v line ref t).2.stale = t.stale ++ [⟨line, p.m_cursor + i⟩]) := by
  have hget : t.parser.m_tokens.getD ref.index Parser.noToken = Parser.token ct p i := by
    rw [href, Parser.getD_of_range_map _ (Parser.tokenAt ct t.parser.m_document) _ _ h.1.1 hi, h.2.1]
    rfl
  have := read_cases v line ref t
  rw [hget, href] at this
  exact this

/-- A turn of the loop of `ParseComponent` at a token that is unexpected in a component
body whatever the reads through invalidated references yield. -/
theorem componentStep_unexpected (v : TokenVector) {ct : CType} (t : RefParser)
    (hv : Parser.Valid ct t.parser)
    (hend : (Parser.token ct t.parser 0).type ≠ TokenType.EndOfFile)
    (hbrace : (Parser.token ct t.parser 0).type ≠ TokenType.RBrace)
    (hhash : (Parser.token ct t.parser 0).type = TokenType.Hash →
      (Parser.token ct t.parser 1).type ≠ TokenType.Equals ∧
        (Parser.token ct t.parser 2).type ≠ TokenType.LBrace)
    (hname : (Parser.token ct t.parser 0).type = TokenType.Identifier →
      (Parser.token ct t.parser 1).type ≠ TokenType.Equals) :
    ∃ u, (∀ pc pv node, componentStep v ct pc pv node t = some (RefStep.again node u)) ∧
      Parser.Valid ct u.parser ∧ u.parser.m_document = t.parser.m_document ∧
      u.parser.m_cursor = t.parser.m_cursor + 1 ∧
      ∃ location more, u.stale = t.stale ++ more ∧
        u.parser.m_diagnostics = t.parser.m_diagnostics ++
          [⟨DiagnosticSeverity.Error, wstr "Unexpected token inside component body.", location⟩] ∧
        (location = (Parser.token ct t.parser 0).location ∨
          (location = (v.freed (Parser.token ct t.parser 0)).location ∧
            (⟨283, t.parser.m_cursor⟩ : StaleRead) ∈ more)) ∧
        ((Parser.token ct t.parser 0).type ≠ TokenType.Hash →
          (Parser.token ct t.parser 0).type ≠ TokenType.Identifier →
          location = (Parser.token ct t.parser 0).location ∧ more = []) := by
  have a0 := Parser.Ahead.zero hv
  have e0 : (Parser.IsAtEnd ct t.parser).1 = false := Parser.IsAtEnd_ahead_false a0 hend
  -- the state after `IsAtEnd()`
  have a1 : Parser.Ahead ct t.parser 0 (LookAhead v ct t 0).2.parser := by
    rw [LookAhead_erased]
    exact (Parser.LookAhead_ahead a0 0).2
  have s1 : (LookAhead v ct t 0).2.stale = t.stale := LookAhead_stale v ct t 0
  generalize ht1 : (LookAhead v ct t 0).2 = t1 at a1 s1
  -- `token = LookAhead(0)`
  have a2 : Parser.Ahead ct t.parser 0 (LookAhead v ct t1 0).2.parser := by
    rw [LookAhead_erased]
    exact (Parser.LookAhead_ahead a1 0).2
  have s2 : (LookAhead v ct t1 0).2.stale = t.stale := by rw [LookAhead_stale, s1]
  have l2 : t.parser.m_cursor < (LookAhead v ct t1 0).2.parser.m_tokens.length := by
    rw [LookAhead_erased]
    have := (LookAhead_length_ge ct t1.parser 0).2
    rw [a1.2.2.1] at this
    omega
  have i2 : (LookAhead v ct t1 0).1.index = t.parser.m_cursor + 0 := by
    show t1.parser.m_cursor + 0 = _
    rw [a1.2.2.1]
  have r2 : ∀ line, read v line (LookAhead v ct t1 0).1 (LookAhead v ct t1 0).2 =
      (Parser.token ct t.parser 0, (LookAhead v ct t1 0).2) := by
    intro line
    rw [read_LookAhead, (Parser.LookAhead_ahead a1 0).1]
  generalize hla : LookAhead v ct t1 0 = la at a2 s2 l2 i2 r2
  -- the test at `#`
  have hchild : ∃ t3 : RefParser,
      (if (Parser.token ct t.parser 0).type = TokenType.Hash then startsComponent v ct 240 la.2
        else (false, la.2)) = (false, t3) ∧
      Parser.Ahead ct t.parser 0 t3.parser ∧ t.parser.m_cursor < t3.parser.m_tokens.length ∧
      (∃ more, t3.stale = t.stale ++ more) ∧
      ((Parser.token ct t.parser 0).type ≠ TokenType.Hash → t3 = la.2) := by
    by_cases hh : (Parser.token ct t.parser 0).type = TokenType.Hash
    · rw [if_pos hh]
      refine ⟨(startsComponent v ct 240 la.2).2, ?_, ?_, ?_, ?_, fun h => absurd hh h⟩
      · exact Prod.ext (startsComponent_false v ct 240 la.2 a2 (hhash hh).2) rfl
      · rw [startsComponent_erased]
        exact (Parser.startsComponent_ahead a2).2
      · rw [startsComponent_erased]
        have h1 := (LookAhead_length_ge ct la.2.parser 1).1
        have h2 := (LookAhead_length_ge ct (Parser.LookAhead ct la.2.parser 1).2 2).1
        show _ < (Parser.LookAhead ct (Parser.LookAhead ct la.2.parser 1).2 2).2.m_tokens.length
        omega
      · obtain ⟨more, hm⟩ := startsComponent_stale v ct 240 la.2
        exact ⟨more, by rw [hm, s2]⟩
    · rw [if_neg hh]
      exact ⟨la.2, rfl, a2, l2, ⟨[], by rw [s2, List.append_nil]⟩, fun _ => rfl⟩
  obtain ⟨t3, hc, a3, l3, ⟨more3, s3⟩, same3⟩ := hchild
  -- the test at an identifier
  have hread := read_at v 247 la.1 t3 a3 0 (by omega) i2
  have hnamed : ∃ t4 : RefParser,
      (if (read v 247 la.1 t3).1.type = TokenType.Identifier then
          (decide ((read v 247 (LookAhead v ct (read v 247 la.1 t3).2 1).1
              (LookAhead v ct (read v 247 la.1 t3).2 1).2).1.type = TokenType.Equals),
            (read v 247 (LookAhead v ct (read v 247 la.1 t3).2 1).1
              (LookAhead v ct (read v 247 la.1 t3).2 1).2).2)
        else (false, (read v 247 la.1 t3).2)) = (false, t4) ∧
      Parser.Ahead ct t.parser 0 t4.parser ∧ t.parser.m_cursor < t4.parser.m_tokens.length ∧
      (∃ more, t4.stale = t.stale ++ more) ∧
      ((Parser.token ct t.parser 0).type ≠ TokenType.Hash →
        (Parser.token ct t.parser 0).type ≠ TokenType.Identifier → t4 = la.2) := by
    have a3' : Parser.Ahead ct t.parser 0 (read v 247 la.1 t3).2.parser := by
      rw [read_erased]
      exact a3
    have s3' : ∃ more, (read v 247 la.1 t3).2.stale = t.stale ++ more := by
      rcases hread with h | h
      · exact ⟨more3, by rw [h.2, s3]⟩
      · exact ⟨_, by rw [h.2, s3, List.append_assoc]⟩
    by_cases hi : (read v 247 la.1 t3).1.type = TokenType.Identifier
    · rw [if_pos hi, read_LookAhead]
      have hne : (Parser.token ct t.parser 1).type ≠ TokenType.Equals := by
        by_cases hh : (Parser.token ct t.parser 0).type = TokenType.Hash
        · exact (hhash hh).1
        · -- the read is through a valid reference
          have e3 := same3 hh
          subst e3
          rw [r2 247] at hi
          exact hname hi
      refine ⟨(LookAhead v ct (read v 247 la.1 t3).2 1).2, ?_, ?_, ?_, ?_, ?_⟩
      · refine Prod.ext ?_ rfl
        show decide (_ = _) = false
        rw [(Parser.LookAhead_ahead a3' 1).1]
        simpa using hne
      · rw [LookAhead_erased]
        exact (Parser.LookAhead_ahead a3' 1).2
      · rw [LookAhead_erased]
        have := (LookAhead_length_ge ct (read v 247 la.1 t3).2.parser 1).1
        rw [read_erased] at this ⊢
        omega
      · obtain ⟨more, hm⟩ := s3'
        exact ⟨more, by rw [LookAhead_stale, hm]⟩
      · intro hh hn
        have e3 := same3 hh
        subst e3
        rw [r2 247] at hi
        exact absurd hi hn
    · rw [if_neg hi]
      refine ⟨(read v 247 la.1 t3).2, rfl, a3', ?_, s3', ?_⟩
      · rw [read_erased]
        exact l3
      · intro hh _
        have e3 := same3 hh
        subst e3
        rw [r2 247]
  obtain ⟨t4, hn, a4, l4, ⟨more4, s4⟩, same4⟩ := hnamed
  -- `ReportError(token, ...)` and `Advance()`
  have hlast := read_at v 283 la.1 t4 a4 0 (by omega) i2
  have hvalid : Parser.Valid ct
      (Parser.ReportError t4.parser (read v 283 la.1 t4).1
        (wstr "Unexpected token inside component body.")) :=
    Parser.ReportError_valid a4.1 _ _
  have hsees : ¬ Parser.Sees ct
      (Parser.ReportError t4.parser (read v 283 la.1 t4).1
        (wstr "Unexpected token inside component body.")) TokenType.EndOfFile :=
    (a4.sees TokenType.EndOfFile).not.2 hend
  have hdiag : (Advance v ct (ReportError v 283 t4 la.1
      (wstr "Unexpected token inside component body."))).parser.m_diagnostics =
      t.parser.m_diagnostics ++
        [⟨DiagnosticSeverity.Error, wstr "Unexpected token inside component body.",
          (read v 283 la.1 t4).1.location⟩] := by
    rw [Advance_erased, ReportError_erased, Parser.Advance_diagnostics]
    show t4.parser.m_diagnostics ++ _ = _
    rw [a4.2.2.2]
  have hstale : (Advance v ct (ReportError v 283 t4 la.1
      (wstr "Unexpected token inside component body."))).stale = (read v 283 la.1 t4).2.stale := by
    rw [Advance_stale, ReportError_stale]
  refine ⟨Advance v ct (ReportError v 283 t4 la.1 (wstr "Unexpected token inside component body.")),
    ?_, ?_, ?_, ?_, (read v 283 la.1 t4).1.location, ?_⟩
  · intro pc pv node
    unfold componentStep
    dsimp only
    rw [IsAtEnd_eq]
    dsimp only
    rw [e0, ht1]
    simp only [Bool.false_eq_true, if_false]
    rw [hla, r2 230]
    dsimp only
    rw [if_neg hbrace, r2 236]
    dsimp only
    rw [hc]
    simp only [Bool.false_eq_true, if_false]
    rw [hn]
    simp only [Bool.false_eq_true, if_false]
  · rw [Advance_erased, ReportError_erased]
    exact Parser.Advance_valid hvalid
  · rw [Advance_erased, ReportError_erased, Parser.Advance_document]
    exact a4.2.1
  · rw [Advance_erased, ReportError_erased, Parser.Advance_cursor hvalid hsees]
    show t4.parser.m_cursor + 1 = _
    rw [a4.2.2.1, Nat.add_zero]
  · rcases hlast with h | h
    · refine ⟨more4, by rw [hstale, h.2, s4], hdiag, Or.inl (by rw [h.1]), ?_⟩
      intro hh hi
      have e4 := same4 hh hi
      refine ⟨by rw [h.1], ?_⟩
      have := s4
      rw [e4, s2] at this
      exact (List.self_eq_append_right.1 this)
    · refine ⟨more4 ++ [⟨283, t.parser.m_cursor⟩],
        by rw [hstale, h.2, s4, List.append_assoc, Nat.add_zero], hdiag,
        Or.inr ⟨by rw [h.1], by simp⟩, ?_⟩
      intro hh hi
      exfalso
      have e4 := same4 hh hi
      subst e4
      have h2 := h.2
      rw [r2 283] at h2
      exact absurd h2 (by simp)

end RefParser

namespace RefParser

/-- A turn of the loop of `Parse` at a token that is neither `#` nor `EndOfFile`: every
read of the turn is through a valid reference. -/
theorem parseStep_unexpected (v : TokenVector) {ct : CType} (t : RefParser)
    (hv : Parser.Valid ct t.parser) (hs : Parser.strayAtTopLevel ct t.parser 0) :
    ∃ u, (∀ fuel document, parseStep v ct fuel document t = some (RefStep.again document u)) ∧
      Parser.Reported ct (wstr "Unexpected token at top-level.") t.parser 1 u.parser ∧
      u.stale = t.stale := by
  have a0 := Parser.Ahead.zero hv
  have e0 : (Parser.IsAtEnd ct t.parser).1 = false := Parser.IsAtEnd_ahead_false a0 hs.2
  have a1 : Parser.Ahead ct t.parser 0 (LookAhead v ct t 0).2.parser := by
    rw [LookAhead_erased]
    exact (Parser.LookAhead_ahead a0 0).2
  have s1 : (LookAhead v ct t 0).2.stale = t.stale := LookAhead_stale v ct t 0
  generalize ht1 : (LookAhead v ct t 0).2 = t1 at a1 s1
  have a2 : Parser.Ahead ct t.parser 0 (LookAhead v ct t1 0).2.parser := by
    rw [LookAhead_erased]
    exact (Parser.LookAhead_ahead a1 0).2
  have s2 : (LookAhead v ct t1 0).2.stale = t.stale := by rw [LookAhead_stale, s1]
  have r2 : ∀ line, read v line (LookAhead v ct t1 0).1 (LookAhead v ct t1 0).2 =
      (Parser.token ct t.parser 0, (LookAhead v ct t1 0).2) := by
    intro line
    rw [read_LookAhead, (Parser.LookAhead_ahead a1 0).1]
  generalize hla : LookAhead v ct t1 0 = la at a2 s2 r2
  have hrep : (ReportError v 103 la.2 la.1 (wstr "Unexpected token at top-level.")).parser =
      Parser.ReportError la.2.parser (Parser.token ct t.parser 0)
        (wstr "Unexpected token at top-level.") := by
    rw [ReportError_erased, r2 103]
  refine ⟨Advance v ct (ReportError v 103 la.2 la.1 (wstr "Unexpected token at top-level.")),
    ?_, ?_, ?_⟩
  · intro fuel document
    unfold parseStep
    dsimp only
    rw [IsAtEnd_eq]
    dsimp only
    rw [e0, ht1]
    simp only [Bool.false_eq_true, if_false]
    rw [hla, r2 83]
    dsimp only
    rw [if_neg hs.1, r2 97]
    dsimp only
    rw [if_neg hs.2]
  · rw [Advance_erased, hrep]
    exact Parser.report_and_advance a2 hs.2 _
  · rw [Advance_stale, ReportError_stale, r2 103]
    exact s2

/-- Over `n` consecutive tokens at each of which a turn of a loop reports the token and
goes on one token further, the loop makes `n` turns. The relation `R` holds
between the state before and the state after some number of such turns. -/
theorem runLoop_over {α ι : Type} {ct : CType}
    (body : ι → α → RefParser → Option (RefStep α)) (R : RefParser → Nat → RefParser → Prop)
    (stray : Parser → Nat → Prop)
    (hnone : ∀ t, Parser.Valid ct t.parser → R t 0 t)
    (hmore : ∀ t u w n, R t 1 u → R u n w → R t (n + 1) w)
    (hvalid : ∀ t u, R t 1 u → Parser.Valid ct u.parser)
    (hshift : ∀ t u, R t 1 u → ∀ k, stray t.parser (k + 1) → stray u.parser k)
    (hbody : ∀ t, Parser.Valid ct t.parser → stray t.parser 0 →
      ∃ u, R t 1 u ∧ ∀ i acc, body i acc t = some (RefStep.again acc u)) :
    ∀ (n : Nat) (t : RefParser), Parser.Valid ct t.parser → (∀ k, k < n → stray t.parser k) →
      ∃ u, R t n u ∧
        ∀ i more acc, runLoop (body i) (n + more) acc t = runLoop (body i) more acc u := by
  intro n
  induction n with
  | zero =>
    intro t hv _
    exact ⟨t, hnone t hv, fun i more acc => by rw [Nat.zero_add]⟩
  | succ n ih =>
    intro t hv hs
    obtain ⟨u1, hr1, hstep⟩ := hbody t hv (hs 0 (Nat.succ_pos n))
    obtain ⟨u, hr, hrun⟩ := ih u1 (hvalid t u1 hr1)
      (fun k hk => hshift t u1 hr1 k (hs (k + 1) (Nat.succ_lt_succ hk)))
    refine ⟨u, hmore t u1 u n hr1 hr, fun i more acc => ?_⟩
    rw [Nat.succ_add, runLoop, hstep i acc]
    exact hrun i more acc

end RefParser

namespace RefParser

theorem ReportedInBody.atStart (v : TokenVector) {ct : CType} (t : RefParser)
    (h : Parser.Valid ct t.parser) : ReportedInBody v ct t 0 t :=
  ⟨h, rfl, rfl, [], [], by simp, by simp, rfl, fun k d hd => by simp at hd⟩

theorem ReportedInBody.oneMore (v : TokenVector) {ct : CType} (t u w : RefParser) (n : Nat)
    (h1 : ReportedInBody v ct t 1 u) (h2 : ReportedInBody v ct u n w) :
    ReportedInBody v ct t (n + 1) w := by
  obtain ⟨_, d1, c1, added1, more1, s1, g1, l1, p1⟩ := h1
  obtain ⟨v2, d2, c2, added2, more2, s2, g2, l2, p2⟩ := h2
  have htok : ∀ k, Parser.token ct u.parser k = Parser.token ct t.parser (k + 1) := by
    intro k
    simp only [Parser.token, d1, c1]
    congr 1
    omega
  refine ⟨v2, d2.trans d1, by rw [c2, c1]; omega, added1 ++ added2, more1 ++ more2,
    by rw [s2, s1, List.append_assoc], by rw [g2, g1, List.append_assoc],
    by rw [List.length_append, l1, l2]; omega, ?_⟩
  intro k d hd
  obtain ⟨first, hfirst⟩ : ∃ first, added1 = [first] := by
    match added1, l1 with
    | [first], _ => exact ⟨first, rfl⟩
  subst hfirst
  cases k with
  | zero =>
    have hd0 : ([first] : List Diagnostic)[0]? = some d := by simpa using hd
    obtain ⟨q1, q2, q3, q4⟩ := p1 0 d hd0
    refine ⟨q1, q2, ?_, q4⟩
    rcases q3 with q3 | q3
    · exact Or.inl q3
    · exact Or.inr ⟨q3.1, List.mem_append_left _ q3.2⟩
  | succ k =>
    have hdk : added2[k]? = some d := by simpa using hd
    obtain ⟨q1, q2, q3, q4⟩ := p2 k d hdk
    rw [htok] at q3 q4
    refine ⟨q1, q2, ?_, q4⟩
    rcases q3 with q3 | q3
    · exact Or.inl q3
    · refine Or.inr ⟨q3.1, List.mem_append_right _ ?_⟩
      have := q3.2
      rw [c1] at this
      rw [Nat.add_assoc, Nat.add_comm 1 k] at this
      exact this

theorem surelyStrayInBody_shift (v : TokenVector) {ct : CType} (t u : RefParser)
    (h : ReportedInBody v ct t 1 u) (k : Nat) (hs : Parser.surelyStrayInBody ct t.parser (k + 1)) :
    Parser.surelyStrayInBody ct u.parser k := by
  have htok : ∀ i, Parser.token ct u.parser i = Parser.token ct t.parser (i + 1) := by
    intro i
    simp only [Parser.token, h.2.1, h.2.2.1]
    congr 1
    omega
  unfold Parser.surelyStrayInBody at hs ⊢
  rw [htok, htok, htok]
  exact hs

theorem strayAtTopLevel_after {ct : CType} {message : WString} (t u : RefParser)
    (h : Parser.Reported ct message t.parser 1 u.parser ∧ u.stale = t.stale) (k : Nat)
    (hs : Parser.strayAtTopLevel ct t.parser (k + 1)) : Parser.strayAtTopLevel ct u.parser k :=
  Parser.strayAtTopLevel_shift t.parser u.parser h.1 k hs

/-- A turn of the loop of `ParseComponent` at a token that is surely unexpected. -/
theorem componentStep_reported (v : TokenVector) {ct : CType} (t : RefParser)
    (hv : Parser.Valid ct t.parser) (hs : Parser.surelyStrayInBody ct t.parser 0) :
    ∃ u, ReportedInBody v ct t 1 u ∧
      ∀ pc pv node, componentStep v ct pc pv node t = some (RefStep.again node u) := by
  obtain ⟨u, hstep, h1, h2, h3, location, more, h4, h5, h6, h7⟩ :=
    componentStep_unexpected v t hv hs.1 hs.2.1 hs.2.2.1 hs.2.2.2
  refine ⟨u, ⟨h1, h2, h3, _, more, h4, h5, rfl, ?_⟩, hstep⟩
  intro k d hd
  cases k with
  | zero =>
    have : d = ⟨DiagnosticSeverity.Error, wstr "Unexpected token inside component body.",
        location⟩ := by simpa using hd.symm
    subst this
    refine ⟨rfl, rfl, ?_, fun hh hi => (h7 hh hi).1⟩
    rcases h6 with h6 | h6
    · exact Or.inl h6
    · exact Or.inr ⟨h6.1, by simpa using h6.2⟩
  | succ k => simp at hd

/-- C26, amended. On an unexpected token at top level or in a component body the
parser appends one `Error` diagnostic and advances past that one token; it does
not skip to the next `#` or `}`. So over a run of `n` consecutive unexpected
tokens the loop of `Parse`, and the loop of `ParseComponent` in a body, makes `n`
turns and ends in a state whose cursor is `n` tokens further and whose
diagnostics have gained `n` diagnostics, one for each token of the run in order,
with the document or the node unchanged: the loop goes on from there as if
started there. This holds for every vector behind `m_tokens` and whatever a read
through an invalidated reference yields. At top level a token is unexpected
when it is neither `#` nor `EndOfFile`; every read is then through a valid
reference, and the diagnostic is located at the token (`Parser.Reported`). In a
body the tokens of `Parser.surelyStrayInBody` are covered; the diagnostic is
located at the token when the token is neither `#` nor an identifier, and
otherwise its location is read at line 283 after `LookAhead(1)` or
`LookAhead(2)` and is that of the token or what the freed buffer holds
(`ReportedInBody`). -/
theorem C26_each_unexpected_token_is_reported (v : TokenVector) (ct : CType) (t : RefParser)
    (hv : Parser.Valid ct t.parser) (n : Nat) :
    ((∀ k, k < n → Parser.strayAtTopLevel ct t.parser k) →
      ∃ u, Parser.Reported ct (wstr "Unexpected token at top-level.") t.parser n u.parser ∧
        u.stale = t.stale ∧
        ∀ fuel more document,
          runLoop (parseStep v ct fuel) (n + more) document t =
            runLoop (parseStep v ct fuel) more document u) ∧
    ((∀ k, k < n → Parser.surelyStrayInBody ct t.parser k) →
      ∃ u, ReportedInBody v ct t n u ∧
        ∀ pc pv more node,
          runLoop (componentStep v ct pc pv) (n + more) node t =
            runLoop (componentStep v ct pc pv) more node u) := by
  constructor
  · intro hs
    obtain ⟨u, hr, hrun⟩ := runLoop_over (fun fuel => parseStep v ct fuel)
      (fun t n u => Parser.Reported ct (wstr "Unexpected token at top-level.") t.parser n u.parser ∧
        u.stale = t.stale)
      (Parser.strayAtTopLevel ct)
      (fun t hv => ⟨Parser.Reported.none _ hv, rfl⟩)
      (fun t u w n h1 h2 => ⟨by
        have := h1.1.more h2.1
        rw [Nat.add_comm] at this
        exact this, h2.2.trans h1.2⟩)
      (fun t u h => h.1.1)
      (fun t u h => strayAtTopLevel_after t u h)
      (fun t hv hs => (parseStep_unexpected v t hv hs).imp
        (fun u h => ⟨⟨h.2.1, h.2.2⟩, fun i acc => h.1 i acc⟩)) n t hv hs
    exact ⟨u, hr.1, hr.2, hrun⟩
  · intro hs
    obtain ⟨u, hr, hrun⟩ := runLoop_over
      (fun (i : Sub ComponentNode × Sub Value) => componentStep v ct i.1 i.2)
      (ReportedInBody v ct) (Parser.surelyStrayInBody ct)
      (fun t hv => ReportedInBody.atStart v t hv)
      (fun t u w n h1 h2 => ReportedInBody.oneMore v t u w n h1 h2)
      (fun t u h => h.1)
      (fun t u h => surelyStrayInBody_shift v t u h)
      (fun t hv hs => (componentStep_reported v t hv hs).imp
        (fun u h => ⟨h.1, fun i acc => h.2 i.1 i.2 acc⟩)) n t hv hs
    exact ⟨u, hr, fun pc pv more node => hrun (pc, pv) more node⟩

end RefParser

namespace RefParser

set_option maxRecDepth 100000 in
/-- C26 at concrete inputs, with the vector of libstdc++: in `a b c #A { }` the three
tokens before `#` are unexpected at top level, and the loop of `Parse` reports
each of them without a read through an invalidated reference; in `#A { b c }`
the two identifiers are unexpected in the body, and the loop of
`ParseComponent`, entered after `{`, reports each of them. -/
theorem C26_each_unexpected_token_is_reported_witness :
    (∃ u : RefParser, Parser.Reported CType.ascii (wstr "Unexpected token at top-level.")
        (new (documentOf "a b c #A \x7b \x7d") []).parser 3 u.parser ∧ u.stale = [] ∧
      u.parser.m_diagnostics.length = 3) ∧
    ∃ u : RefParser, ReportedInBody TokenVector.libstdcxx CType.ascii
        ⟨⟨documentOf "#A \x7b b c \x7d", Lexer.new (documentOf "#A \x7b b c \x7d"), [], [], 3⟩,
          0, 0, []⟩ 2 u ∧
      u.parser.m_cursor = 5 :=
  ⟨((C26_each_unexpected_token_is_reported TokenVector.libstdcxx CType.ascii
      (new (documentOf "a b c #A \x7b \x7d") []) (Parser.valid_new _ _ _) 3).1
      (fun k hk => by
        unfold Parser.strayAtTopLevel
        interval_cases k <;> decide)).imp
      (fun u h => ⟨h.1, h.2.1, by rw [h.1.2.2.2]; rfl⟩),
    ((C26_each_unexpected_token_is_reported TokenVector.libstdcxx CType.ascii
      ⟨⟨documentOf "#A \x7b b c \x7d", Lexer.new (documentOf "#A \x7b b c \x7d"), [], [], 3⟩,
        0, 0, []⟩
      ⟨rfl, rfl, fun i hi => by
        have hi : i < 3 := hi
        interval_cases i <;> decide⟩ 2).2
      (fun k hk => by
        unfold Parser.surelyStrayInBody
        interval_cases k <;> decide)).imp
      (fun u h => ⟨h.1, h.1.2.2.1⟩)⟩

set_option maxRecDepth 100000 in
/-- The claim C26 as stated fails: in `a b c #A { }` three unexpected tokens come before
the next `#`, and `Parse` appends three diagnostics, one at each of them (columns
`1`, `3` and `5` of line `1` of `theme.lsx`), not a single one; the component `A`
is parsed. The run makes no read through an invalidated reference, with the
vector of libstdc++ and with the vector of the Microsoft STL. -/
theorem C26_counterexample :
    (Parse TokenVector.libstdcxx CType.ascii 9 (new (documentOf "a b c #A \x7b \x7d") [])).map
      (fun r => (r.2.stale, r.1.rootNodes.map (fun node => node.component))) =
      some ([], [wstr "A"]) ∧
    (Parse TokenVector.libstdcxx CType.ascii 9 (new (documentOf "a b c #A \x7b \x7d") [])).map
      (fun r => r.2.parser.m_diagnostics.map (fun d => (d.message, d.location))) =
    some [(wstr "Unexpected token at top-level.", ⟨wstr "theme.lsx", 1, 1⟩),
        (wstr "Unexpected token at top-level.", ⟨wstr "theme.lsx", 1, 3⟩),
        (wstr "Unexpected token at top-level.", ⟨wstr "theme.lsx", 1, 5⟩)] ∧
    (Parse TokenVector.msvc CType.ascii 9 (new (documentOf "a b c #A \x7b \x7d") [])).map
      (fun r => (r.2.stale, r.1.rootNodes.map (fun node => node.component))) =
      some ([], [wstr "A"]) ∧
    (Parse TokenVector.msvc CType.ascii 9 (new (documentOf "a b c #A \x7b \x7d") [])).map
      (fun r => r.2.parser.m_diagnostics.map (fun d => (d.message, d.location))) =
    some [(wstr "Unexpected token at top-level.", ⟨wstr "theme.lsx", 1, 1⟩),
        (wstr "Unexpected token at top-level.", ⟨wstr "theme.lsx", 1, 3⟩),
        (wstr "Unexpected token at top-level.", ⟨wstr "theme.lsx", 1, 5⟩)] := by
  refine ⟨by decide, by decide, by decide, by decide⟩

/-! ## C28: a `#` in a component body that starts no component -/

/-- C28, amended. In a component body, a `#` that starts no component is not parsed as
a directive. When the token after the `#` is not `=` and the second token after
it is not `{`, the turn of the loop of `ParseComponent` at the `#` appends one
`Error` diagnostic `Unexpected token inside component body.`, advances past the
`#` alone, and leaves the node as it is: the tokens after the `#` on its line
are not consumed with it, they are the next tokens of the body. This holds for
every vector behind `m_tokens` and whatever the reads of `next.type` (line 240)
and of `token.type` (line 247) through invalidated references yield. The
location of the diagnostic is read at line 283 through `token`: it is the
location of the `#`, or what the freed buffer holds of it when `LookAhead(1)`
or `LookAhead(2)` has moved the tokens, and the read is then recorded. -/
theorem C28_hash_in_body_is_an_unexpected_token (v : TokenVector) (ct : CType) (t : RefParser)
    (hv : Parser.Valid ct t.parser)
    (hh : (Parser.token ct t.parser 0).type = TokenType.Hash)
    (hnext : (Parser.token ct t.parser 1).type ≠ TokenType.Equals)
    (hthird : (Parser.token ct t.parser 2).type ≠ TokenType.LBrace) :
    ∃ u, (∀ pc pv node, componentStep v ct pc pv node t = some (RefStep.again node u)) ∧
      Parser.Valid ct u.parser ∧ u.parser.m_document = t.parser.m_document ∧
      u.parser.m_cursor = t.parser.m_cursor + 1 ∧
      ∃ location more, u.stale = t.stale ++ more ∧
        u.parser.m_diagnostics = t.parser.m_diagnostics ++
          [⟨DiagnosticSeverity.Error, wstr "Unexpected token inside component body.", location⟩] ∧
        (location = (Parser.token ct t.parser 0).location ∨
          (location = (v.freed (Parser.token ct t.parser 0)).location ∧
            (⟨283, t.parser.m_cursor⟩ : StaleRead) ∈ more)) := by
  obtain ⟨u, hstep, h1, h2, h3, location, more, h4, h5, h6, _⟩ :=
    componentStep_unexpected v t hv (by rw [hh]; decide) (by rw [hh]; decide)
      (fun _ => ⟨hnext, hthird⟩) (fun h => absurd (hh.symm.trans h) (by decide))
  exact ⟨u, hstep, h1, h2, h3, location, more, h4, h5, h6⟩

set_option maxRecDepth 100000 in
/-- C28 at a concrete input, with the vector of libstdc++: in `#A { #define x y` with the
attribute `a = 1` on the next line, the body is entered after `{` at the `#` of
`#define`; the turn reports the `#` and ends at the next token, `define`. -/
theorem C28_hash_in_body_is_an_unexpected_token_witness :
    ∃ u : RefParser, (∀ pc pv node, componentStep TokenVector.libstdcxx CType.ascii pc pv node
        ⟨⟨documentOf "#A \x7b #define x y\n a = 1 \x7d",
          Lexer.new (documentOf "#A \x7b #define x y\n a = 1 \x7d"), [], [], 3⟩, 0, 0, []⟩
          = some (RefStep.again node u)) ∧
      u.parser.m_cursor = 4 ∧
      u.parser.m_diagnostics.map (fun d => (d.severity, d.message)) =
        [(DiagnosticSeverity.Error, wstr "Unexpected token inside component body.")] :=
  (C28_hash_in_body_is_an_unexpected_token TokenVector.libstdcxx CType.ascii
    ⟨⟨documentOf "#A \x7b #define x y\n a = 1 \x7d",
      Lexer.new (documentOf "#A \x7b #define x y\n a = 1 \x7d"), [], [], 3⟩, 0, 0, []⟩
    ⟨rfl, rfl, fun i hi => by
      have hi : i < 3 := hi
      interval_cases i <;> decide⟩
    (by decide) (by decide) (by decide)).imp
    (fun u h => ⟨h.1, h.2.2.2.1, by
      obtain ⟨location, more, -, hd, -⟩ := h.2.2.2.2
      rw [hd]
      rfl⟩)

set_option maxRecDepth 100000 in
/-- The claim C28 as stated fails: in `#A { #define x y` followed by the line `a = 1 }`
the parser records no directive and reports four unexpected tokens, the `#` and
the three tokens after it on its line; the attribute `a` of the next line is
parsed. This is so with the vector of libstdc++ and with the vector of the
Microsoft STL, on a heap that leaves the types of the tokens in a freed buffer;
the diagnostic for the `#` is read from a freed buffer in both runs. -/
theorem C28_counterexample :
    (Parse TokenVector.libstdcxx CType.ascii 20
        (new (documentOf "#A \x7b #define x y\n a = 1 \x7d") [])).map
      (fun r => (r.1.directives.length,
        r.1.rootNodes.map (fun node => (node.component, node.attributes.map (fun a => a.name)))))
      = some (0, [(wstr "A", [wstr "a"])]) ∧
    (Parse TokenVector.libstdcxx CType.ascii 20
        (new (documentOf "#A \x7b #define x y\n a = 1 \x7d") [])).map
      (fun r => (r.2.parser.m_diagnostics.map (fun d => d.message), r.2.stale))
      = some ([wstr "Unexpected token inside component body.",
          wstr "Unexpected token inside component body.",
          wstr "Unexpected token inside component body.",
          wstr "Unexpected token inside component body."],
        [⟨88, 1⟩, ⟨247, 3⟩, ⟨283, 3⟩]) ∧
    (Parse TokenVector.msvc CType.ascii 20
        (new (documentOf "#A \x7b #define x y\n a = 1 \x7d") [])).map
      (fun r => (r.1.directives.length,
        r.1.rootNodes.map (fun node => (node.component, node.attributes.map (fun a => a.name)))))
      = some (0, [(wstr "A", [wstr "a"])]) ∧
    (Parse TokenVector.msvc CType.ascii 20
        (new (documentOf "#A \x7b #define x y\n a = 1 \x7d") [])).map
      (fun r => (r.2.parser.m_diagnostics.map (fun d => d.message), r.2.stale))
      = some ([wstr "Unexpected token inside component body.",
          wstr "Unexpected token inside component body.",
          wstr "Unexpected token inside component body.",
          wstr "Unexpected token inside component body."],
        [⟨88, 1⟩, ⟨247, 3⟩, ⟨283, 3⟩, ⟨283, 5⟩]) := by
  refine ⟨by decide, by decide, by decide, by decide⟩

end RefParser

namespace RefParser

/-! ## Runs that read freed tokens -/

set_option maxRecDepth 100000 in
/-- C4, the code at the failing input. In the run of `Parse` on
`#A { y=1 x={ a={ b={ c=1 } } } }` the loop of `ParseObjectLiteral` reads
`keyToken.lexeme` and `keyToken.location` at line 390 through references that a
reallocation of `m_tokens` has invalidated. With the vector of libstdc++ the push
of token `16`, in `Expect` after the key `c`, moves the tokens, and the keys `c`,
`b` and `a`, the tokens `15`, `12` and `9`, are read from the freed buffer; with
the vector of the Microsoft STL the push of token `13` does it for the keys `b`
and `a`. Both runs have before read `next.type` at line 88 from a freed buffer. -/
theorem C4_Parse_reads_freed_tokens :
    (Parse TokenVector.libstdcxx CType.ascii 40
        (new (documentOf "#A \x7b y=1 x=\x7b a=\x7b b=\x7b c=1 \x7d \x7d \x7d \x7d") [])).map
      (fun r => r.2.stale) = some [⟨88, 1⟩, ⟨390, 15⟩, ⟨390, 12⟩, ⟨390, 9⟩] ∧
    (Parse TokenVector.msvc CType.ascii 40
        (new (documentOf "#A \x7b y=1 x=\x7b a=\x7b b=\x7b c=1 \x7d \x7d \x7d \x7d") [])).map
      (fun r => r.2.stale) = some [⟨88, 1⟩, ⟨390, 12⟩, ⟨390, 9⟩] := by
  constructor <;> decide

set_option maxRecDepth 100000 in
/-- C11, the code at the failing input. In the run of `Parse` on
`#Panel { id="main" class="a a b" x=10 }` the test of line 88 reads `next.type`,
the type of token `1`, through a reference that the call `LookAhead(2)` has
invalidated: the push of token `2` finds the vector full, with the vector of
libstdc++ and with the vector of the Microsoft STL. Whether `Panel` becomes a
root node is decided by this read: on a heap that leaves the freed buffer as it
was the root node is `Panel`, and on a heap that clears it the document has no
root node and the directive `Panel`. -/
theorem C11_scenario_A_reads_a_freed_token :
    (Parse TokenVector.libstdcxx CType.ascii 20
        (new (documentOf "#Panel \x7b id=\"main\" class=\"a a b\" x=10 \x7d") [])).map
      (fun r => (r.2.stale, r.1.rootNodes.map (fun node => node.component),
        r.1.directives.map (fun directive => directive.name))) =
      some ([⟨88, 1⟩], [wstr "Panel"], []) ∧
    (Parse TokenVector.msvc CType.ascii 20
        (new (documentOf "#Panel \x7b id=\"main\" class=\"a a b\" x=10 \x7d") [])).map
      (fun r => (r.2.stale, r.1.rootNodes.map (fun node => node.component),
        r.1.directives.map (fun directive => directive.name))) =
      some ([⟨88, 1⟩], [wstr "Panel"], []) ∧
    (Parse TokenVector.cleared CType.ascii 20
        (new (documentOf "#Panel \x7b id=\"main\" class=\"a a b\" x=10 \x7d") [])).map
      (fun r => (r.2.stale, r.1.rootNodes.map (fun node => node.component),
        r.1.directives.map (fun directive => directive.name))) =
      some ([⟨88, 1⟩], [], [wstr "Panel"]) := by
  refine ⟨by decide, by decide, by decide⟩

set_option maxRecDepth 100000 in
/-- C12, the code at the failing input. In the run of `Parse` on `#A { #B { } #C { } }`
the test `next.type == TokenType::Identifier && third.type == TokenType::LBrace`
reads `next.type` through a reference that the call `LookAhead(2)` has
invalidated: at the `#` of `A` (line 88, token `1`) with the vector of libstdc++
and with the vector of the Microsoft STL, and at the `#` of `C` (line 240, token
`8`) with the vector of the Microsoft STL. On a heap that leaves the freed
buffer as it was the node `A` has the children `B` and `C`; on a heap that
clears it the document has no root node. -/
theorem C12_nested_components_read_freed_tokens :
    (Parse TokenVector.libstdcxx CType.ascii 20
        (new (documentOf "#A \x7b #B \x7b \x7d #C \x7b \x7d \x7d") [])).map
      (fun r => (r.2.stale, r.1.rootNodes.map
        (fun node => (node.component, node.children.map (fun child => child.component))))) =
      some ([⟨88, 1⟩], [(wstr "A", [wstr "B", wstr "C"])]) ∧
    (Parse TokenVector.msvc CType.ascii 20
        (new (documentOf "#A \x7b #B \x7b \x7d #C \x7b \x7d \x7d") [])).map
      (fun r => (r.2.stale, r.1.rootNodes.map
        (fun node => (node.component, node.children.map (fun child => child.component))))) =
      some ([⟨88, 1⟩, ⟨240, 8⟩], [(wstr "A", [wstr "B", wstr "C"])]) ∧
    (Parse TokenVector.cleared CType.ascii 20
        (new (documentOf "#A \x7b #B \x7b \x7d #C \x7b \x7d \x7d") [])).map
      (fun r => (r.2.stale, r.1.rootNodes.map
        (fun node => (node.component, node.children.map (fun child => child.component))))) =
      some ([⟨88, 1⟩], []) := by
  refine ⟨by decide, by decide, by decide⟩

set_option maxRecDepth 100000 in
/-- C13, the code at the failing input. The entry file `C:\theme\theme.lsx` is the line
`#include "sub.lsx"` and `C:\theme\sub.lsx` is `#Child {}`. The load succeeds
without a diagnostic. In the run of `Parse` on the flattened document the test
of line 88 reads `next.type`, the type of token `1`, through a reference that
the call `LookAhead(2)` has invalidated. On a heap that leaves the freed buffer
as it was the document has the root node `Child`, located in `C:\theme\sub.lsx`;
on a heap that clears it the document has no root node. -/
theorem C13_included_node_rests_on_a_freed_token :
    ((LoadStructuredDocument CType.ascii Platform.rooted includeWorld 3
        (SourceManager.new (wstr "C:\\theme")) (wstr "theme.lsx") SourceDocument.empty []).bind
      (fun loaded => (Parse TokenVector.libstdcxx CType.ascii 20
        (new loaded.2.1 loaded.2.2.1)).map
        (fun r => (loaded.1, r.2.stale,
          r.1.rootNodes.map (fun node => (node.component, node.location.file))))) =
      some (true, [⟨88, 1⟩], [(wstr "Child", wstr "C:\\theme\\sub.lsx")])) ∧
    ((LoadStructuredDocument CType.ascii Platform.rooted includeWorld 3
        (SourceManager.new (wstr "C:\\theme")) (wstr "theme.lsx") SourceDocument.empty []).bind
      (fun loaded => (Parse TokenVector.msvc CType.ascii 20
        (new loaded.2.1 loaded.2.2.1)).map
        (fun r => (loaded.1, r.2.stale,
          r.1.rootNodes.map (fun node => (node.component, node.location.file))))) =
      some (true, [⟨88, 1⟩], [(wstr "Child", wstr "C:\\theme\\sub.lsx")])) ∧
    ((LoadStructuredDocument CType.ascii Platform.rooted includeWorld 3
        (SourceManager.new (wstr "C:\\theme")) (wstr "theme.lsx") SourceDocument.empty []).bind
      (fun loaded => (Parse TokenVector.cleared CType.ascii 20
        (new loaded.2.1 loaded.2.2.1)).map
        (fun r => (loaded.1, r.2.stale,
          r.1.rootNodes.map (fun node => (node.component, node.location.file))))) =
      some (true, [⟨88, 1⟩], [])) := by
  refine ⟨by decide, by decide, by decide⟩

set_option maxRecDepth 100000 in
/-- C19, the code at the failing input. In the run of `Parse` on `#A { x={ a=1, a=2 } }`
with the vector of libstdc++ the first key, token `6`, is read at line 390
through a reference that the push of token `8`, in `ParseValue`, has
invalidated. The object has two properties with the values `1` and `2` in this
order; on a heap that leaves the freed buffer as the move of the tokens left
it the key of the first is empty and the file of its location is empty, and the
key of the second is `a`. With the vector of the Microsoft STL both keys are
read through valid references and are `a`. -/
theorem C19_object_key_is_read_from_a_freed_token :
    (Parse TokenVector.libstdcxx CType.ascii 20
        (new (documentOf "#A \x7b x=\x7b a=1, a=2 \x7d \x7d") [])).map
      (fun r => r.2.stale) = some [⟨88, 1⟩, ⟨390, 6⟩] ∧
    (Parse TokenVector.libstdcxx CType.ascii 20
        (new (documentOf "#A \x7b x=\x7b a=1, a=2 \x7d \x7d") [])).map
      (fun r => r.1.rootNodes.flatMap (fun node => node.attributes.flatMap
        (fun attr => attr.value.objectProperties.map
          (fun property => (property.key, property.value.text, property.location.file))))) =
      some [([], wstr "1", []), (wstr "a", wstr "2", wstr "theme.lsx")] ∧
    (Parse TokenVector.msvc CType.ascii 20
        (new (documentOf "#A \x7b x=\x7b a=1, a=2 \x7d \x7d") [])).map
      (fun r => r.2.stale) = some [⟨88, 1⟩] ∧
    (Parse TokenVector.msvc CType.ascii 20
        (new (documentOf "#A \x7b x=\x7b a=1, a=2 \x7d \x7d") [])).map
      (fun r => r.1.rootNodes.flatMap (fun node => node.attributes.flatMap
        (fun attr => attr.value.objectProperties.map
          (fun property => (property.key, property.value.text, property.location.file))))) =
      some [(wstr "a", wstr "1", wstr "theme.lsx"), (wstr "a", wstr "2", wstr "theme.lsx")] := by
  refine ⟨by decide, by decide, by decide, by decide⟩

set_option maxRecDepth 100000 in
/-- C36, the code at the failing input. In the run of `Parse` on `#A { x=[1 @y] }` with
the vector of libstdc++, `ParseReference` reads `atToken.location` at line 440
through a reference that the call of `LookAhead` for `identifierToken`, the push
of token `8`, has invalidated: the Reference has the text `y` and, on a heap that
leaves the freed buffer as the move of the tokens left it, a location with an
empty file, while the `@` is at line `1`, column `11` of `theme.lsx`. With the
vector of the Microsoft STL the same happens at line 437 on `#A { x=@ }`, the
example of the claim: the Reference with the empty text has a location with an
empty file. -/
theorem C36_reference_location_is_read_from_a_freed_token :
    (Parse TokenVector.libstdcxx CType.ascii 20
        (new (documentOf "#A \x7b x=[1 @y] \x7d") [])).map
      (fun r => r.2.stale) = some [⟨88, 1⟩, ⟨440, 7⟩] ∧
    (Parse TokenVector.libstdcxx CType.ascii 20
        (new (documentOf "#A \x7b x=[1 @y] \x7d") [])).map
      (fun r => r.1.rootNodes.flatMap (fun node => node.attributes.flatMap
        (fun attr => attr.value.arrayValues.map
          (fun element => (element.kind, element.text, element.location))))) =
      some [(ValueKind.Number, wstr "1", ⟨wstr "theme.lsx", 1, 9⟩),
          (ValueKind.Reference, wstr "y", ⟨[], 1, 11⟩)] ∧
    (Parser.tokenAt CType.ascii (documentOf "#A \x7b x=[1 @y] \x7d") 7).type = TokenType.At ∧
    (Parser.tokenAt CType.ascii (documentOf "#A \x7b x=[1 @y] \x7d") 7).location =
      ⟨wstr "theme.lsx", 1, 11⟩ ∧
    (Parse TokenVector.msvc CType.ascii 20 (new (documentOf "#A \x7b x=@ \x7d") [])).map
      (fun r => r.2.stale) = some [⟨88, 1⟩, ⟨437, 5⟩] ∧
    (Parse TokenVector.msvc CType.ascii 20 (new (documentOf "#A \x7b x=@ \x7d") [])).map
      (fun r => r.1.rootNodes.flatMap (fun node => node.attributes.map
        (fun attr => (attr.name, attr.value.kind, attr.value.text, attr.value.location)))) =
      some [(wstr "x", ValueKind.Reference, [], ⟨[], 1, 8⟩)] := by
  refine ⟨by decide, by decide, by decide, by decide, by decide, by decide⟩

end RefParser

namespace RefParser

/-! ## C17: the end of the input is not an error -/

/-- The state after `IsAtEnd()` at the `EndOfFile` token: the test holds, and nothing
but `m_tokens` and the lexer has changed. -/
theorem IsAtEnd_at_end (v : TokenVector) {ct : CType} (t : RefParser)
    (hv : Parser.Valid ct t.parser)
    (hend : (Parser.token ct t.parser 0).type = TokenType.EndOfFile) :
    IsAtEnd v ct t = (true, (LookAhead v ct t 0).2) ∧
      (LookAhead v ct t 0).2.parser.m_diagnostics = t.parser.m_diagnostics ∧
      (LookAhead v ct t 0).2.parser.m_cursor = t.parser.m_cursor ∧
      (LookAhead v ct t 0).2.stale = t.stale := by
  refine ⟨?_, ?_, ?_, LookAhead_stale v ct t 0⟩
  · rw [IsAtEnd_eq, (Parser.IsAtEnd_ahead (Parser.Ahead.zero hv)).1.2 hend]
  · rw [LookAhead_erased, Parser.LookAhead_diagnostics]
  · rw [LookAhead_erased, Parser.LookAhead_cursor]

/-- C17, amended. The end of the input is not an error for the lexer or for the parser.
A `"` starts a `String` token in every case, whether a closing `"` follows or
not: `NextToken` has no other result for it, and the lexer has no access to the
diagnostics. And at the `EndOfFile` token the loops of `Parse`, of
`ParseComponent`, of `ParseObjectLiteral` and of `ParseArrayLiteral` are left
with the document, the node, the object or the array as it is, without a
diagnostic and without a move of the cursor: no closing `}` or `]` is expected.
This holds for every vector behind `m_tokens`; the turn reads no token through
an invalidated reference. -/
theorem C17_end_of_input_is_no_error (v : TokenVector) (ct : CType) :
    (∀ lx : Lexer, (Lexer.SkipWhitespaceAndComments ct lx).Peek = 34 →
      (Lexer.NextToken ct lx).1.type = TokenType.String) ∧
    ∀ t : RefParser, Parser.Valid ct t.parser →
      (Parser.token ct t.parser 0).type = TokenType.EndOfFile →
      ∃ u : RefParser, u.parser.m_diagnostics = t.parser.m_diagnostics ∧
        u.parser.m_cursor = t.parser.m_cursor ∧ u.stale = t.stale ∧
        (∀ fuel document, parseStep v ct fuel document t = some (RefStep.leave document u)) ∧
        (∀ pc pv node, componentStep v ct pc pv node t = some (RefStep.leave node u)) ∧
        (∀ pv fuel object, objectStep v ct pv fuel object t = some (RefStep.leave object u)) ∧
        ∀ pv array, arrayStep v ct pv array t = some (RefStep.leave array u) := by
  constructor
  · intro lx hq
    have hend : (Lexer.SkipWhitespaceAndComments ct lx).IsAtEnd = false :=
      Lexer.not_atEnd_of_peek (by rw [hq]; decide)
    rw [(Lexer.NextToken_dispatch ct lx hend).1 hq]
    simp only [Lexer.LexString, Lexer.MakeToken_type]
  · intro t hv hend
    obtain ⟨h1, h2, h3, h4⟩ := IsAtEnd_at_end v t hv hend
    refine ⟨(LookAhead v ct t 0).2, h2, h3, h4, ?_, ?_, ?_, ?_⟩
    · intro fuel document
      unfold parseStep
      dsimp only
      rw [h1]
      rfl
    · intro pc pv node
      unfold componentStep
      dsimp only
      rw [h1]
      rfl
    · intro pv fuel object
      unfold objectStep
      dsimp only
      rw [h1]
      rfl
    · intro pv array
      unfold arrayStep
      dsimp only
      rw [h1]
      rfl

set_option maxRecDepth 100000 in
/-- C17 at concrete inputs: the first token of `"abc`, a literal without a closing `"`, is
a `String` token; and in `#A { x=1` the token `6` is the `EndOfFile` token, at
which the loop of `ParseComponent` is left without a diagnostic. -/
theorem C17_end_of_input_is_no_error_witness :
    (Lexer.NextToken CType.ascii (Lexer.new (documentOf "\"abc"))).1.type = TokenType.String ∧
    ∃ u : RefParser, u.parser.m_diagnostics = [] ∧ u.parser.m_cursor = 6 ∧ u.stale = [] ∧
      ∀ pc pv node, componentStep TokenVector.libstdcxx CType.ascii pc pv node
        ⟨⟨documentOf "#A \x7b x=1", Lexer.new (documentOf "#A \x7b x=1"), [], [], 6⟩, 0, 0, []⟩ =
        some (RefStep.leave node u) :=
  ⟨(C17_end_of_input_is_no_error TokenVector.libstdcxx CType.ascii).1
      (Lexer.new (documentOf "\"abc")) (by decide),
    ((C17_end_of_input_is_no_error TokenVector.libstdcxx CType.ascii).2
      ⟨⟨documentOf "#A \x7b x=1", Lexer.new (documentOf "#A \x7b x=1"), [], [], 6⟩, 0, 0, []⟩
      ⟨rfl, rfl, fun i hi => by
        have hi : i < 6 := hi
        interval_cases i <;> decide⟩
      (by decide)).imp
      (fun u h => ⟨h.1, h.2.1, h.2.2.1, h.2.2.2.2.1⟩)⟩

set_option maxRecDepth 100000 in
/-- The claim C17 as stated fails: the document `#A { x="abc`, whose string literal has no
closing quote and whose component body has no closing brace, and the document
`#A { x=1`, whose body has no closing brace, are parsed without any diagnostic.
This is so with the vector of libstdc++ and with the vector of the Microsoft
STL, where the node `A` has the attribute `x`, and also on a heap that clears
the freed buffer, where the read of line 88 makes the line a directive. -/
theorem C17_counterexample :
    (Parse TokenVector.libstdcxx CType.ascii 20 (new (documentOf "#A \x7b x=\"abc") [])).map
      (fun r => r.2.parser.m_diagnostics) = some [] ∧
    (Parse TokenVector.libstdcxx CType.ascii 20 (new (documentOf "#A \x7b x=\"abc") [])).map
      (fun r => r.1.rootNodes.flatMap
        (fun node => node.attributes.map
          (fun attr => (node.component, attr.name, attr.value.kind, attr.value.text)))) =
      some [(wstr "A", wstr "x", ValueKind.String, wstr "abc")] ∧
    (Parse TokenVector.libstdcxx CType.ascii 20 (new (documentOf "#A \x7b x=1") [])).map
      (fun r => r.2.parser.m_diagnostics) = some [] ∧
    (Parse TokenVector.libstdcxx CType.ascii 20 (new (documentOf "#A \x7b x=1") [])).map
      (fun r => r.1.rootNodes.flatMap
        (fun node => node.attributes.map
          (fun attr => (node.component, attr.name, attr.value.kind, attr.value.text)))) =
      some [(wstr "A", wstr "x", ValueKind.Number, wstr "1")] ∧
    (Parse TokenVector.msvc CType.ascii 20 (new (documentOf "#A \x7b x=\"abc") [])).map
      (fun r => r.2.parser.m_diagnostics) = some [] ∧
    (Parse TokenVector.msvc CType.ascii 20 (new (documentOf "#A \x7b x=1") [])).map
      (fun r => r.2.parser.m_diagnostics) = some [] ∧
    (Parse TokenVector.cleared CType.ascii 20 (new (documentOf "#A \x7b x=\"abc") [])).map
      (fun r => r.2.parser.m_diagnostics) = some [] ∧
    (Parse TokenVector.cleared CType.ascii 20 (new (documentOf "#A \x7b x=1") [])).map
      (fun r => r.2.parser.m_diagnostics) = some [] := by
  refine ⟨by decide, by decide, by decide, by decide, by decide, by decide, by decide, by decide⟩

end RefParser

/-! ## C7: a failed load names a path -/

end themev2
